import Mathlib

/-!
# Border auto-tiler of the Solarus Quest Editor

A shallow embedding of `src/auto_tiler.cpp` (class `AutoTiler`) and theorems
about it.

Conventions of the embedding:

* C++ `int` values are modelled by `Int`; coordinates are assumed small enough
  that no signed overflow occurs.
* C++ `/` and `%` on `int` truncate toward zero: `Int.tdiv` and `Int.tmod`.
* A failed `Q_ASSERT`, an out-of-range access to a container and a division
  by zero are all modelled by the result `none`.
* `std::map<int, BorderKind>` is an association list kept in ascending key
  order.
* The Qt value classes `QPoint`, `QSize` and `QRect` are modelled after
  their Qt 5 definitions.
-/

namespace SolarusEditor

/-! ## Qt value classes -/

/-- Qt point. -/
structure QPoint where
  xp : Int
  yp : Int
deriving DecidableEq, Repr

/-- Qt size: a width and a height. -/
structure QSize where
  wd : Int
  ht : Int
deriving DecidableEq, Repr

/-- Qt rectangle, stored as Qt does: the left, top, right and bottom pixel
coordinates, all inclusive. -/
structure QRect where
  x1 : Int
  y1 : Int
  x2 : Int
  y2 : Int
deriving DecidableEq, Repr

/-- Rounding of the quotient `n / c` to the nearest integer as done by
`qRound(double(n) / c)` for a positive divisor `c`: halves round upward. -/
def qRoundDiv (n c : Int) : Int := (2 * n + c) / (2 * c)

namespace QSize

/-- Default constructor `QSize()`: an invalid size, both fields are -1. -/
def invalid : QSize := ⟨-1, -1⟩

/-- Member `QSize::isEmpty()`: either field is less than 1. -/
def isEmpty (s : QSize) : Bool := decide (s.wd < 1) || decide (s.ht < 1)

/-- Member `QSize::expandedTo`: component-wise maximum. -/
def expandedTo (s o : QSize) : QSize := ⟨max s.wd o.wd, max s.ht o.ht⟩

/-- Sum `operator+` of two sizes. -/
def add (s o : QSize) : QSize := ⟨s.wd + o.wd, s.ht + o.ht⟩

/-- Product `operator*(QSize, qreal)` at an integer factor. -/
def mul (s : QSize) (c : Int) : QSize := ⟨s.wd * c, s.ht * c⟩

/-- Quotient `operator/(QSize, qreal)` at a positive integer divisor: each
field is divided and rounded to the nearest integer. -/
def div (s : QSize) (c : Int) : QSize := ⟨qRoundDiv s.wd c, qRoundDiv s.ht c⟩

end QSize

namespace QRect

/-- Default constructor `QRect()`: the null rectangle at the origin. -/
def null : QRect := ⟨0, 0, -1, -1⟩

/-- Constructor `QRect(x, y, width, height)`. -/
def ofXYWH (x y w h : Int) : QRect := ⟨x, y, x + w - 1, y + h - 1⟩

/-- Member `QRect::x()`. -/
def x (r : QRect) : Int := r.x1

/-- Member `QRect::y()`. -/
def y (r : QRect) : Int := r.y1

/-- Member `QRect::width()`. -/
def width (r : QRect) : Int := r.x2 - r.x1 + 1

/-- Member `QRect::height()`. -/
def height (r : QRect) : Int := r.y2 - r.y1 + 1

/-- Member `QRect::size()`. -/
def size (r : QRect) : QSize := ⟨r.width, r.height⟩

/-- Member `QRect::topLeft()`. -/
def topLeft (r : QRect) : QPoint := ⟨r.x1, r.y1⟩

/-- Member `QRect::isNull()`: width and height are both 0. -/
def isNull (r : QRect) : Bool := decide (r.x2 = r.x1 - 1) && decide (r.y2 = r.y1 - 1)

/-- Member `QRect::operator|`: the bounding rectangle of both rectangles; a
null rectangle is ignored and a rectangle of negative extent is normalised
first. -/
def united (a b : QRect) : QRect :=
  if a.isNull then b
  else if b.isNull then a
  else
    let l1 := if a.x2 - a.x1 + 1 < 0 then a.x2 else a.x1
    let r1 := if a.x2 - a.x1 + 1 < 0 then a.x1 else a.x2
    let t1 := if a.y2 - a.y1 + 1 < 0 then a.y2 else a.y1
    let b1 := if a.y2 - a.y1 + 1 < 0 then a.y1 else a.y2
    let l2 := if b.x2 - b.x1 + 1 < 0 then b.x2 else b.x1
    let r2 := if b.x2 - b.x1 + 1 < 0 then b.x1 else b.x2
    let t2 := if b.y2 - b.y1 + 1 < 0 then b.y2 else b.y1
    let b2 := if b.y2 - b.y1 + 1 < 0 then b.y1 else b.y2
    ⟨min l1 l2, min t1 t2, max r1 r2, max b1 b2⟩

/-- Member `QRect::translate(dx, dy)`. -/
def translate (r : QRect) (dx dy : Int) : QRect :=
  ⟨r.x1 + dx, r.y1 + dy, r.x2 + dx, r.y2 + dy⟩

/-- Member `QRect::setSize`: the top-left corner stays. -/
def setSize (r : QRect) (s : QSize) : QRect :=
  ⟨r.x1, r.y1, s.wd + r.x1 - 1, s.ht + r.y1 - 1⟩

end QRect

/-! ## Border kinds -/

/-- The 13 kinds of border a grid cell can hold. -/
inductive BorderKind where
  | NONE
  | RIGHT
  | TOP
  | LEFT
  | BOTTOM
  | TOP_RIGHT_CONVEX
  | TOP_LEFT_CONVEX
  | BOTTOM_LEFT_CONVEX
  | BOTTOM_RIGHT_CONVEX
  | TOP_RIGHT_CONCAVE
  | TOP_LEFT_CONCAVE
  | BOTTOM_LEFT_CONCAVE
  | BOTTOM_RIGHT_CONCAVE
deriving DecidableEq, Repr

namespace BorderKind

/-- Modelled from the spec: the declaration of the enumeration is not among
the sources. `NONE` is -1 and the 12 other kinds are numbered 0 to 11, here in
the order in which `is_side_border` and `is_convex_corner_border` list
them. -/
def toInt : BorderKind → Int
  | NONE => -1
  | RIGHT => 0
  | TOP => 1
  | LEFT => 2
  | BOTTOM => 3
  | TOP_RIGHT_CONVEX => 4
  | TOP_LEFT_CONVEX => 5
  | BOTTOM_LEFT_CONVEX => 6
  | BOTTOM_RIGHT_CONVEX => 7
  | TOP_RIGHT_CONCAVE => 8
  | TOP_LEFT_CONCAVE => 9
  | BOTTOM_LEFT_CONCAVE => 10
  | BOTTOM_RIGHT_CONCAVE => 11

/-- The 12 kinds other than `NONE`, by increasing number: the values of
`static_cast<BorderKind>(i)` for `i` from 0 to 11. -/
def all12 : List BorderKind :=
  [RIGHT, TOP, LEFT, BOTTOM,
   TOP_RIGHT_CONVEX, TOP_LEFT_CONVEX, BOTTOM_LEFT_CONVEX, BOTTOM_RIGHT_CONVEX,
   TOP_RIGHT_CONCAVE, TOP_LEFT_CONCAVE, BOTTOM_LEFT_CONCAVE, BOTTOM_RIGHT_CONCAVE]

end BorderKind

/-! ## The collaborators: tileset and map -/

/-- The part of `TilesetModel` that the auto-tiler calls. The class is not
among the sources, so its member functions are parameters. -/
structure TilesetModel where
  /-- Pattern id of a border kind in a border set (empty when unmapped). -/
  get_border_set_pattern : String → BorderKind → String
  /-- Whether a border set maps a pattern to a border kind. -/
  has_border_set_pattern : String → BorderKind → Bool
  /-- Whether a pattern id exists in the tileset. -/
  pattern_exists : String → Bool
  /-- Frame size of a pattern:
  `get_pattern_frame(id_to_index(pattern_id)).size()`. -/
  pattern_frame_size : String → QSize
  /-- Whether a border set is an inner one. -/
  is_border_set_inner : String → Bool

/-- Index of an entity on the map: its layer and its order in the layer. -/
structure EntityIndex where
  layer : Int
  order : Int
deriving DecidableEq, Repr

/-- The part of `MapModel` that the auto-tiler calls. -/
structure MapModel where
  tileset : TilesetModel
  /-- Bounding box of an entity. -/
  get_entity_bounding_box : EntityIndex → QRect
  /-- Number of tiles already on a layer. -/
  get_num_tiles : Int → Int

/-- A tile entity as created by `make_tile`: the fields that are set. -/
structure Tile where
  pattern : String
  xy : QPoint
  size : QSize
  layer : Int
deriving DecidableEq, Repr

/-! ## The border map -/

/-- Lookup `std::map::find`. -/
def map_find : List (Int × BorderKind) → Int → Option BorderKind
  | [], _ => none
  | (k, v) :: rest, key => if key = k then some v else map_find rest key

/-- Assignment `m[key] = v` of `std::map`: the entry is replaced, or inserted
at its place in ascending key order. -/
def map_assign : List (Int × BorderKind) → Int → BorderKind → List (Int × BorderKind)
  | [], key, v => [(key, v)]
  | (k, w) :: rest, key, v =>
    if key < k then (key, v) :: (k, w) :: rest
    else if key = k then (k, v) :: rest
    else (k, w) :: map_assign rest key v

/-! ## The auto-tiler -/

/-- Data members of `AutoTiler`. A moved-from entry of `tiles` (a null
pointer) is `none`. -/
structure AutoTiler where
  map : MapModel
  entity_indexes : List EntityIndex
  border_set_id : String
  entity_rectangles : List QRect
  pattern_sizes : List QSize
  bounding_box : QRect
  grid_size : QSize
  occupied_squares : List Bool
  which_borders : List (Int × BorderKind)
  tiles : List (Option Tile)

namespace AutoTiler

/-- Constructor: the rectangles are the bounding boxes of the entities. -/
def create (map : MapModel) (entity_indexes : List EntityIndex)
    (border_set_id : String) : AutoTiler :=
  { map := map
    entity_indexes := entity_indexes
    border_set_id := border_set_id
    entity_rectangles := entity_indexes.map map.get_entity_bounding_box
    pattern_sizes := []
    bounding_box := QRect.null
    grid_size := QSize.invalid
    occupied_squares := []
    which_borders := []
    tiles := [] }

/-- Number of cells in the 8x8 grid. -/
def get_num_cells (t : AutoTiler) : Int :=
  t.grid_size.wd * t.grid_size.ht

/-- Converts map coordinates to an index in the bounding box 8x8 grid. -/
def to_grid_index (t : AutoTiler) (xy : QPoint) : Int :=
  let x := xy.xp - t.bounding_box.x
  let y := xy.yp - t.bounding_box.y
  (Int.tdiv y 8) * t.grid_size.wd + (Int.tdiv x 8)

/-- Converts an index in the 8x8 grid to map coordinates. Dividing by a grid
width of zero fails. -/
def to_map_xy (t : AutoTiler) (grid_index : Int) : Option QPoint :=
  if t.grid_size.wd = 0 then none
  else
    let grid_x := Int.tmod grid_index t.grid_size.wd
    let grid_y := Int.tdiv grid_index t.grid_size.wd
    some ⟨grid_x * 8 + t.bounding_box.x, grid_y * 8 + t.bounding_box.y⟩

/-- Whether a cell of the 8x8 grid is occupied by an entity. -/
def is_cell_occupied (t : AutoTiler) (grid_index : Int) : Option Bool :=
  if 0 ≤ grid_index ∧ grid_index < t.get_num_cells then
    t.occupied_squares[grid_index.toNat]?
  else none

/-- Bit field of the occupied state of the 4 cells whose top-left one is
`cell_0`. -/
def get_four_cells_mask (t : AutoTiler) (cell_0 : Int) : Option Nat := do
  let cell_1 := cell_0 + 1
  let cell_2 := cell_0 + t.grid_size.wd
  let cell_3 := cell_2 + 1
  let bit_0 := if (← t.is_cell_occupied cell_0) then 1 else 0
  let bit_1 := if (← t.is_cell_occupied cell_1) then 1 else 0
  let bit_2 := if (← t.is_cell_occupied cell_2) then 1 else 0
  let bit_3 := if (← t.is_cell_occupied cell_3) then 1 else 0
  pure (bit_3 ||| (bit_2 <<< 1) ||| (bit_1 <<< 2) ||| (bit_0 <<< 3))

end AutoTiler

/-- Whether a border type is a side. -/
def is_side_border (which_border : BorderKind) : Bool :=
  which_border = BorderKind.RIGHT ||
  which_border = BorderKind.TOP ||
  which_border = BorderKind.LEFT ||
  which_border = BorderKind.BOTTOM

/-- Whether a border type is a corner (convex or concave). -/
def is_corner_border (which_border : BorderKind) : Bool :=
  which_border != BorderKind.NONE && !is_side_border which_border

/-- Whether a border type is a convex corner. -/
def is_convex_corner_border (which_border : BorderKind) : Bool :=
  which_border = BorderKind.TOP_RIGHT_CONVEX ||
  which_border = BorderKind.TOP_LEFT_CONVEX ||
  which_border = BorderKind.BOTTOM_LEFT_CONVEX ||
  which_border = BorderKind.BOTTOM_RIGHT_CONVEX

/-- Whether a border type is a concave corner. -/
def is_concave_corner_border (which_border : BorderKind) : Bool :=
  which_border = BorderKind.TOP_RIGHT_CONCAVE ||
  which_border = BorderKind.TOP_LEFT_CONCAVE ||
  which_border = BorderKind.BOTTOM_LEFT_CONCAVE ||
  which_border = BorderKind.BOTTOM_RIGHT_CONCAVE

namespace AutoTiler

/-- Kind of border in a cell of the 8x8 grid (`NONE` when the map has no
entry for the cell). -/
def get_which_border (t : AutoTiler) (grid_index : Int) : Option BorderKind :=
  if 0 ≤ grid_index ∧ grid_index < t.get_num_cells then
    match map_find t.which_borders grid_index with
    | none => some BorderKind.NONE
    | some v => some v
  else none

/-- Whether a square of the 8x8 grid is marked with a border value. -/
def has_border (t : AutoTiler) (grid_index : Int) : Option Bool :=
  match t.get_which_border grid_index with
  | none => none
  | some v => some (v != BorderKind.NONE)

/-- Sets the kind of border in a cell of the 8x8 grid. -/
def set_which_border (t : AutoTiler) (grid_index : Int) (which_border : BorderKind) :
    Option AutoTiler :=
  if 0 ≤ grid_index ∧ grid_index < t.get_num_cells then
    some { t with which_borders := map_assign t.which_borders grid_index which_border }
  else none

/-- The statement `if (!has_border(cell)) { set_which_border(cell, side); }`
of the side cases of `detect_border_info_inner` and
`detect_border_info_outer`. -/
def set_side_if_no_border (t : AutoTiler) (cell : Int) (side : BorderKind) :
    Option AutoTiler :=
  match t.has_border cell with
  | none => none
  | some true => some t
  | some false => t.set_which_border cell side

/-- Marks squares of the 8x8 grid with their border info (inner border
case). -/
def detect_border_info_inner (t : AutoTiler) (cell_0 : Int) : Option AutoTiler :=
  let cell_1 := cell_0 + 1
  let cell_2 := cell_0 + t.grid_size.wd
  let cell_3 := cell_2 + 1
  match t.get_four_cells_mask cell_0 with
  | none => none
  | some mask =>
    match mask with
    | 0 => some t
    | 1 => t.set_which_border cell_3 BorderKind.TOP_LEFT_CONVEX
    | 2 => t.set_which_border cell_2 BorderKind.TOP_RIGHT_CONVEX
    | 3 =>
      (t.set_side_if_no_border cell_2 BorderKind.TOP).bind fun t1 =>
      t1.set_side_if_no_border cell_3 BorderKind.TOP
    | 4 => t.set_which_border cell_1 BorderKind.BOTTOM_LEFT_CONVEX
    | 5 =>
      (t.set_side_if_no_border cell_1 BorderKind.LEFT).bind fun t1 =>
      t1.set_side_if_no_border cell_3 BorderKind.LEFT
    | 6 =>
      (t.set_which_border cell_1 BorderKind.BOTTOM_LEFT_CONVEX).bind fun t1 =>
      t1.set_which_border cell_2 BorderKind.TOP_RIGHT_CONVEX
    | 7 => t.set_which_border cell_3 BorderKind.TOP_LEFT_CONCAVE
    | 8 => t.set_which_border cell_0 BorderKind.BOTTOM_RIGHT_CONVEX
    | 9 =>
      (t.set_which_border cell_0 BorderKind.BOTTOM_RIGHT_CONVEX).bind fun t1 =>
      t1.set_which_border cell_3 BorderKind.TOP_LEFT_CONVEX
    | 10 =>
      (t.set_side_if_no_border cell_0 BorderKind.RIGHT).bind fun t1 =>
      t1.set_side_if_no_border cell_2 BorderKind.RIGHT
    | 11 => t.set_which_border cell_2 BorderKind.TOP_RIGHT_CONCAVE
    | 12 =>
      (t.set_side_if_no_border cell_0 BorderKind.BOTTOM).bind fun t1 =>
      t1.set_side_if_no_border cell_1 BorderKind.BOTTOM
    | 13 => t.set_which_border cell_1 BorderKind.BOTTOM_LEFT_CONCAVE
    | 14 => t.set_which_border cell_0 BorderKind.BOTTOM_RIGHT_CONCAVE
    | _ => some t

/-- Marks squares of the 8x8 grid with their border info (outer border
case). -/
def detect_border_info_outer (t : AutoTiler) (cell_0 : Int) : Option AutoTiler :=
  let cell_1 := cell_0 + 1
  let cell_2 := cell_0 + t.grid_size.wd
  let cell_3 := cell_2 + 1
  match t.get_four_cells_mask cell_0 with
  | none => none
  | some mask =>
    match mask with
    | 0 => some t
    | 1 => t.set_which_border cell_0 BorderKind.TOP_LEFT_CONVEX
    | 2 => t.set_which_border cell_1 BorderKind.TOP_RIGHT_CONVEX
    | 3 =>
      (t.set_side_if_no_border cell_0 BorderKind.TOP).bind fun t1 =>
      t1.set_side_if_no_border cell_1 BorderKind.TOP
    | 4 => t.set_which_border cell_2 BorderKind.BOTTOM_LEFT_CONVEX
    | 5 =>
      (t.set_side_if_no_border cell_0 BorderKind.LEFT).bind fun t1 =>
      t1.set_side_if_no_border cell_2 BorderKind.LEFT
    | 6 =>
      (t.set_which_border cell_0 BorderKind.TOP_LEFT_CONCAVE).bind fun t1 =>
      t1.set_which_border cell_3 BorderKind.BOTTOM_RIGHT_CONCAVE
    | 7 => t.set_which_border cell_0 BorderKind.TOP_LEFT_CONCAVE
    | 8 => t.set_which_border cell_3 BorderKind.BOTTOM_RIGHT_CONVEX
    | 9 =>
      (t.set_which_border cell_1 BorderKind.TOP_RIGHT_CONCAVE).bind fun t1 =>
      t1.set_which_border cell_2 BorderKind.BOTTOM_LEFT_CONCAVE
    | 10 =>
      (t.set_side_if_no_border cell_1 BorderKind.RIGHT).bind fun t1 =>
      t1.set_side_if_no_border cell_3 BorderKind.RIGHT
    | 11 => t.set_which_border cell_1 BorderKind.TOP_RIGHT_CONCAVE
    | 12 =>
      (t.set_side_if_no_border cell_2 BorderKind.BOTTOM).bind fun t1 =>
      t1.set_side_if_no_border cell_3 BorderKind.BOTTOM
    | 13 => t.set_which_border cell_2 BorderKind.BOTTOM_LEFT_CONCAVE
    | 14 => t.set_which_border cell_3 BorderKind.BOTTOM_RIGHT_CONCAVE
    | _ => some t

/-- The tileset of the map, `*map.get_tileset_model()`. -/
def get_tileset (t : AutoTiler) : TilesetModel := t.map.tileset

/-- Marks squares of the 8x8 grid with their border info, by the table of
the border set's orientation. -/
def detect_border_info (t : AutoTiler) (cell_0 : Int) : Option AutoTiler :=
  if t.get_tileset.is_border_set_inner t.border_set_id then
    t.detect_border_info_inner cell_0
  else
    t.detect_border_info_outer cell_0

/-! ### Grid construction and occupancy -/

/-- Determines the base size of border patterns: 12 sizes, the invalid size
`QSize()` where the pattern does not exist. -/
def compute_pattern_sizes (t : AutoTiler) : AutoTiler :=
  let tileset := t.get_tileset
  { t with pattern_sizes := BorderKind.all12.map fun kind =>
      let pattern_id := tileset.get_border_set_pattern t.border_set_id kind
      if tileset.pattern_exists pattern_id then tileset.pattern_frame_size pattern_id
      else QSize.invalid }

/-- Determines the bounding box of the entities, extends it by the largest
pattern size and derives the size of the 8x8 grid. -/
def compute_bounding_box (t : AutoTiler) : AutoTiler :=
  let bounding_box := t.entity_rectangles.foldl QRect.united QRect.null
  let max_pattern_size := t.pattern_sizes.foldl QSize.expandedTo QSize.invalid
  let bounding_box := bounding_box.translate (-max_pattern_size.wd) (-max_pattern_size.ht)
  let bounding_box := bounding_box.setSize (bounding_box.size.add (max_pattern_size.mul 2))
  { t with bounding_box := bounding_box, grid_size := bounding_box.size.div 8 }

/-- The values taken by `v` in `for (int v = first; v < stop; v += 8)`. -/
def pixel_steps (first stop : Int) : List Int :=
  (List.range ((stop - first + 7) / 8).toNat).map fun (i : Nat) => first + 8 * (i : Int)

/-- The statement `occupied_squares[grid_index] = true`. -/
def mark_occupied (squares : List Bool) (grid_index : Int) : Option (List Bool) :=
  if 0 ≤ grid_index ∧ grid_index.toNat < squares.length then
    some (squares.set grid_index.toNat true)
  else none

/-- Determines the 8x8 squares that are overlapped by entities. A negative
number of cells fails: `assign` cannot allocate the vector. -/
def compute_occupied_squares (t : AutoTiler) : Option AutoTiler :=
  if t.get_num_cells < 0 then none
  else
    let cleared := List.replicate t.get_num_cells.toNat false
    let marked := t.entity_rectangles.foldlM (fun squares rectangle =>
      (pixel_steps rectangle.y (rectangle.y + rectangle.height)).foldlM (fun squares y =>
        (pixel_steps rectangle.x (rectangle.x + rectangle.width)).foldlM (fun squares x =>
          mark_occupied squares (t.to_grid_index ⟨x, y⟩)) squares) squares) cleared
    marked.map fun squares => { t with occupied_squares := squares }

/-! ### Classification -/

/-- A loop `for (i = 0; i < n; ++i) { detect_border_info(cell_0); cell_0 += step; }`
of `compute_borders`; returns the tiler and the final `cell_0`. -/
def detect_side : Nat → Int → AutoTiler → Int → Option (AutoTiler × Int)
  | 0, _, t, cell_0 => some (t, cell_0)
  | n + 1, step, t, cell_0 =>
    (t.detect_border_info cell_0).bind fun t1 => detect_side n step t1 (cell_0 + step)

/-- Body of the loop of `compute_borders` for one rectangle: the top, right,
bottom and left sides in turn. -/
def detect_rectangle (t : AutoTiler) (rectangle : QRect) : Option AutoTiler :=
  let num_cells_x := Int.tdiv rectangle.width 8
  let num_cells_y := Int.tdiv rectangle.height 8
  let rectangle_top_left_cell := t.to_grid_index rectangle.topLeft
  let initial_position := rectangle_top_left_cell - 1 - t.grid_size.wd
  (detect_side num_cells_x.toNat 1 t initial_position).bind fun r1 =>
  (detect_side num_cells_y.toNat r1.1.grid_size.wd r1.1 r1.2).bind fun r2 =>
  (detect_side num_cells_x.toNat (-1) r2.1 r2.2).bind fun r3 =>
  (detect_side num_cells_y.toNat (-r3.1.grid_size.wd) r3.1 r3.2).bind fun r4 =>
  some r4.1

/-- Detect the borders. -/
def compute_borders (t : AutoTiler) : Option AutoTiler :=
  t.entity_rectangles.foldlM detect_rectangle { t with which_borders := [] }

/-! ### Tile synthesis -/

/-- Base size of a border pattern: `pattern_sizes[static_cast<int>(which_border)]`. -/
def get_pattern_size (t : AutoTiler) (which_border : BorderKind) : Option QSize :=
  if 0 ≤ which_border.toInt then t.pattern_sizes[which_border.toInt.toNat]? else none

/-- Creates a tile with the given position in the 8x8 grid. -/
def make_tile (t : AutoTiler) (which_border : BorderKind) (grid_index : Int)
    (num_cells_repeat : Int) : Option AutoTiler :=
  if which_border = BorderKind.NONE then some t
  else if ¬ (num_cells_repeat > 0) then none
  else
    match t.to_map_xy grid_index with
    | none => none
    | some xy =>
      let tileset := t.get_tileset
      let pattern_id := tileset.get_border_set_pattern t.border_set_id which_border
      if ¬ tileset.pattern_exists pattern_id then some t
      else
        let pattern_size := tileset.pattern_frame_size pattern_id
        if pattern_size.isEmpty then none
        else
          let size_repeated := num_cells_repeat * 8
          let size : QSize :=
            match which_border with
            | BorderKind.RIGHT | BorderKind.LEFT => ⟨pattern_size.wd, size_repeated⟩
            | BorderKind.TOP | BorderKind.BOTTOM => ⟨size_repeated, pattern_size.ht⟩
            | _ => pattern_size
          if size.isEmpty then none
          else
            match t.entity_indexes.head? with
            | none => none
            | some first_entity_index =>
              let layer := first_entity_index.layer
              some { t with tiles := t.tiles ++ [some ⟨pattern_id, xy, size, layer⟩] }

/-- The counting loop of a side run: `steps` iterations at most, each moving
`current_index` by `step`; stops at the first cell that does not hold
`which_border`, and marks the others visited. Returns the tiler, the final
`current_index` and `num_cells_repeat`. -/
def count_run (which_border : BorderKind) (step : Int) :
    Nat → AutoTiler → Int → Int → Option (AutoTiler × Int × Int)
  | 0, t, current_index, num_cells_repeat => some (t, current_index, num_cells_repeat)
  | steps + 1, t, current_index, num_cells_repeat =>
    let current_index := current_index + step
    match t.get_which_border current_index with
    | none => none
    | some found =>
      if found ≠ which_border then some (t, current_index, num_cells_repeat)
      else
        (t.set_which_border current_index BorderKind.NONE).bind fun t1 =>
        count_run which_border step steps t1 current_index (num_cells_repeat + 1)

/-- The end of a side run, shared by the vertical and the horizontal branch:
removes the thickness of the corners selected by `thick` (`corner_span` is
the corner pattern's size along the run), rounds the length up to a multiple
of the pattern's base size and creates the tile. `step` is the distance in
the grid between two cells of the run. -/
def finish_run (t : AutoTiler) (thick : BorderKind → Bool) (along : QSize → Int)
    (step : Int) (which_border corner_1 corner_2 : BorderKind)
    (start_index num_cells_repeat : Int) : Option AutoTiler :=
  if ¬ (is_corner_border corner_1 ∧ is_corner_border corner_2) then none
  else
    let first : Option (Int × Int) :=
      if thick corner_1 then
        (t.get_pattern_size corner_1).map fun corner_size =>
          let corner_additional_num_cells := Int.tdiv (along corner_size) 8 - 1
          (num_cells_repeat - corner_additional_num_cells,
           start_index + corner_additional_num_cells * step)
      else some (num_cells_repeat, start_index)
    first.bind fun r1 =>
    let second : Option Int :=
      if thick corner_2 then
        (t.get_pattern_size corner_2).map fun corner_size =>
          let corner_additional_num_cells := Int.tdiv (along corner_size) 8 - 1
          r1.1 - corner_additional_num_cells
      else some r1.1
    second.bind fun num_cells_repeat =>
    let start_index := r1.2
    if num_cells_repeat > 0 then
      (t.get_pattern_size which_border).bind fun pattern_size =>
      let base := Int.tdiv (along pattern_size) 8
      if base = 0 then none
      else
        let rest := Int.tmod num_cells_repeat base
        if rest ≠ 0 then
          let num_cells_fixed := base - rest
          let num_cells_repeat := num_cells_repeat + (base - rest)
          let start_index :=
            if is_concave_corner_border corner_1 then start_index - num_cells_fixed * step
            else start_index
          t.make_tile which_border start_index num_cells_repeat
        else
          t.make_tile which_border start_index num_cells_repeat
    else some t

/-- Body of the first loop of `compute_tiles_inner` and `compute_tiles_outer`
for the map entry of key `start_index`. The two functions differ by the sides
that are translated because of their thickness (`shifted_vertical`,
`shifted_horizontal`: RIGHT and BOTTOM for inner borders, LEFT and TOP for
outer ones) and by the corners whose thickness is removed from the run
(`thick`: convex for inner borders, concave for outer ones). -/
def side_tile (shifted_vertical shifted_horizontal : BorderKind) (thick : BorderKind → Bool)
    (t : AutoTiler) (start_index : Int) : Option AutoTiler :=
  match map_find t.which_borders start_index with
  | none => none
  | some which_border =>
    if t.grid_size.wd = 0 then none
    else
      let grid_x := Int.tmod start_index t.grid_size.wd
      let grid_y := Int.tdiv start_index t.grid_size.wd
      if which_border = BorderKind.NONE then some t
      else if ¬ is_side_border which_border then some t
      else
        (t.set_which_border start_index BorderKind.NONE).bind fun t =>
        if ¬ t.get_tileset.has_border_set_pattern t.border_set_id which_border then some t
        else if which_border = BorderKind.RIGHT ∨ which_border = BorderKind.LEFT then
          (t.get_which_border (start_index - t.grid_size.wd)).bind fun corner_1 =>
          let shifted : Option Int :=
            if which_border = shifted_vertical then
              (t.get_pattern_size which_border).map fun pattern_size =>
                start_index - (Int.tdiv pattern_size.wd 8 - 1)
            else some start_index
          shifted.bind fun shifted_index =>
          (count_run which_border t.grid_size.wd (t.grid_size.ht - (grid_y + 1)).toNat
            t start_index 1).bind fun r =>
          (r.1.get_which_border r.2.1).bind fun corner_2 =>
          finish_run r.1 thick QSize.ht r.1.grid_size.wd which_border corner_1 corner_2
            shifted_index r.2.2
        else
          (t.get_which_border (start_index - 1)).bind fun corner_1 =>
          let shifted : Option Int :=
            if which_border = shifted_horizontal then
              (t.get_pattern_size which_border).map fun pattern_size =>
                start_index - (Int.tdiv pattern_size.ht 8 - 1) * t.grid_size.wd
            else some start_index
          shifted.bind fun shifted_index =>
          (count_run which_border 1 (t.grid_size.wd - (grid_x + 1)).toNat
            t start_index 1).bind fun r =>
          (r.1.get_which_border r.2.1).bind fun corner_2 =>
          finish_run r.1 thick QSize.wd 1 which_border corner_1 corner_2
            shifted_index r.2.2

/-- Body of the second loop of `compute_tiles_inner` and `compute_tiles_outer`
for the map entry of key `start_index`: `shift_x` selects the corners
translated to the left by their width, `shift_y` those translated to the top
by their height. -/
def corner_tile (shift_x shift_y : BorderKind → Bool) (t : AutoTiler) (start_index : Int) :
    Option AutoTiler :=
  match map_find t.which_borders start_index with
  | none => none
  | some which_border =>
    if ¬ t.get_tileset.has_border_set_pattern t.border_set_id which_border then some t
    else
      let after_x : Option Int :=
        if shift_x which_border then
          (t.get_pattern_size which_border).map fun pattern_size =>
            start_index - (Int.tdiv pattern_size.wd 8 - 1)
        else some start_index
      after_x.bind fun start_index =>
      let after_y : Option Int :=
        if shift_y which_border then
          (t.get_pattern_size which_border).map fun pattern_size =>
            start_index - (Int.tdiv pattern_size.ht 8 - 1) * t.grid_size.wd
        else some start_index
      after_y.bind fun start_index =>
      t.make_tile which_border start_index 1

/-- The keys of the border map in iteration order. Neither loop of
`compute_tiles_inner` and `compute_tiles_outer` inserts a key, so the keys
visited by `for (const auto& it : which_borders)` are those present when the
loop starts; the value `it.second` is read when the entry is reached. -/
def border_keys (t : AutoTiler) : List Int := t.which_borders.map Prod.fst

/-- Creates the border tiles from the border info previously detected (inner
border case). -/
def compute_tiles_inner (t : AutoTiler) : Option AutoTiler :=
  (t.border_keys.foldlM
    (side_tile BorderKind.RIGHT BorderKind.BOTTOM is_convex_corner_border) t).bind fun t1 =>
  (t1.border_keys.foldlM
    (corner_tile
      (fun b => b = BorderKind.TOP_RIGHT_CONVEX ∨ b = BorderKind.TOP_RIGHT_CONCAVE ∨
        b = BorderKind.BOTTOM_RIGHT_CONVEX ∨ b = BorderKind.BOTTOM_RIGHT_CONCAVE)
      (fun b => b = BorderKind.BOTTOM_RIGHT_CONVEX ∨ b = BorderKind.BOTTOM_RIGHT_CONCAVE ∨
        b = BorderKind.BOTTOM_LEFT_CONVEX ∨ b = BorderKind.BOTTOM_LEFT_CONCAVE)) t1).bind fun t2 =>
  some { t2 with which_borders := [] }

/-- Creates the border tiles from the border info previously detected (outer
border case). -/
def compute_tiles_outer (t : AutoTiler) : Option AutoTiler :=
  (t.border_keys.foldlM
    (side_tile BorderKind.LEFT BorderKind.TOP is_concave_corner_border) t).bind fun t1 =>
  (t1.border_keys.foldlM
    (corner_tile
      (fun b => b = BorderKind.TOP_LEFT_CONVEX ∨ b = BorderKind.TOP_LEFT_CONCAVE ∨
        b = BorderKind.BOTTOM_LEFT_CONVEX ∨ b = BorderKind.BOTTOM_LEFT_CONCAVE)
      (fun b => b = BorderKind.TOP_RIGHT_CONVEX ∨ b = BorderKind.TOP_RIGHT_CONCAVE ∨
        b = BorderKind.TOP_LEFT_CONVEX ∨ b = BorderKind.TOP_LEFT_CONCAVE)) t1).bind fun t2 =>
  some { t2 with which_borders := [] }

/-- Creates the border tiles from the border info previously detected. -/
def compute_tiles (t : AutoTiler) : Option AutoTiler :=
  if t.get_tileset.is_border_set_inner t.border_set_id then t.compute_tiles_inner
  else t.compute_tiles_outer

/-- The loop of `generate_border_tiles` that moves the tiles out of `tiles`
and pairs each with its index: orders count up from `order`. -/
def addable_from : List (Option Tile) → Int → Int → List (Option Tile × EntityIndex)
  | [], _, _ => []
  | tile :: rest, layer, order => (tile, ⟨layer, order⟩) :: addable_from rest layer (order + 1)

/-- Creates border tiles around the given entities: returns the tiler after
the call and the border tiles ready to be added to the map. -/
def generate_border_tiles (t : AutoTiler) :
    Option (AutoTiler × List (Option Tile × EntityIndex)) :=
  if t.entity_rectangles.isEmpty then some (t, [])
  else
    let t := t.compute_pattern_sizes
    let t := t.compute_bounding_box
    t.compute_occupied_squares.bind fun t =>
    t.compute_borders.bind fun t =>
    t.compute_tiles.bind fun t =>
    match t.tiles with
    | [] => some (t, [])
    | first_tile :: _ =>
      match first_tile with
      | none => none
      | some first =>
        let layer := first.layer
        let order := t.map.get_num_tiles layer
        some ({ t with tiles := t.tiles.map fun _ => none }, addable_from t.tiles layer order)

/-! ### Views used to state properties -/

/-- A grid index lies in the grid. -/
def in_grid (t : AutoTiler) (grid_index : Int) : Prop :=
  0 ≤ grid_index ∧ grid_index < t.get_num_cells

instance (t : AutoTiler) (grid_index : Int) : Decidable (t.in_grid grid_index) :=
  inferInstanceAs (Decidable (0 ≤ grid_index ∧ grid_index < t.get_num_cells))

/-- The occupancy mask has one entry per cell of the grid. -/
def mask_sized (t : AutoTiler) : Prop :=
  (t.occupied_squares.length : Int) = t.get_num_cells

instance (t : AutoTiler) : Decidable t.mask_sized :=
  inferInstanceAs (Decidable ((t.occupied_squares.length : Int) = t.get_num_cells))

/-- The border map as a total function: a cell without entry holds `NONE`. -/
def border_at (t : AutoTiler) (grid_index : Int) : BorderKind :=
  (map_find t.which_borders grid_index).getD BorderKind.NONE

end AutoTiler

/-! ### The rule tables of the specification -/

/-- Position of a cell in a 2x2 window. -/
inductive WindowCell where
  | TL
  | TR
  | BL
  | BR
deriving DecidableEq, Repr

/-- Grid index of a cell of the window whose top-left cell is `cell_0`, in a
grid of the given width. -/
def WindowCell.index (grid_width cell_0 : Int) : WindowCell → Int
  | WindowCell.TL => cell_0
  | WindowCell.TR => cell_0 + 1
  | WindowCell.BL => cell_0 + grid_width
  | WindowCell.BR => cell_0 + grid_width + 1

/-- The mask of a window from the occupancy of its cells: top-left is 8,
top-right 4, bottom-left 2 and bottom-right 1. -/
def window_mask (tl tr bl br : Bool) : Nat :=
  8 * tl.toNat + 4 * tr.toNat + 2 * bl.toNat + br.toNat

/-- The inner-mode column of the rule table of the specification, row by
row. -/
def inner_rules : Nat → List (WindowCell × BorderKind)
  | 1 => [(WindowCell.BR, BorderKind.TOP_LEFT_CONVEX)]
  | 2 => [(WindowCell.BL, BorderKind.TOP_RIGHT_CONVEX)]
  | 3 => [(WindowCell.BL, BorderKind.TOP), (WindowCell.BR, BorderKind.TOP)]
  | 4 => [(WindowCell.TR, BorderKind.BOTTOM_LEFT_CONVEX)]
  | 5 => [(WindowCell.TR, BorderKind.LEFT), (WindowCell.BR, BorderKind.LEFT)]
  | 6 => [(WindowCell.TR, BorderKind.BOTTOM_LEFT_CONVEX),
          (WindowCell.BL, BorderKind.TOP_RIGHT_CONVEX)]
  | 7 => [(WindowCell.BR, BorderKind.TOP_LEFT_CONCAVE)]
  | 8 => [(WindowCell.TL, BorderKind.BOTTOM_RIGHT_CONVEX)]
  | 9 => [(WindowCell.TL, BorderKind.BOTTOM_RIGHT_CONVEX),
          (WindowCell.BR, BorderKind.TOP_LEFT_CONVEX)]
  | 10 => [(WindowCell.TL, BorderKind.RIGHT), (WindowCell.BL, BorderKind.RIGHT)]
  | 11 => [(WindowCell.BL, BorderKind.TOP_RIGHT_CONCAVE)]
  | 12 => [(WindowCell.TL, BorderKind.BOTTOM), (WindowCell.TR, BorderKind.BOTTOM)]
  | 13 => [(WindowCell.TR, BorderKind.BOTTOM_LEFT_CONCAVE)]
  | 14 => [(WindowCell.TL, BorderKind.BOTTOM_RIGHT_CONCAVE)]
  | _ => []

/-- The outer-mode column of the rule table of the specification, row by
row. -/
def outer_rules : Nat → List (WindowCell × BorderKind)
  | 1 => [(WindowCell.TL, BorderKind.TOP_LEFT_CONVEX)]
  | 2 => [(WindowCell.TR, BorderKind.TOP_RIGHT_CONVEX)]
  | 3 => [(WindowCell.TL, BorderKind.TOP), (WindowCell.TR, BorderKind.TOP)]
  | 4 => [(WindowCell.BL, BorderKind.BOTTOM_LEFT_CONVEX)]
  | 5 => [(WindowCell.TL, BorderKind.LEFT), (WindowCell.BL, BorderKind.LEFT)]
  | 6 => [(WindowCell.TL, BorderKind.TOP_LEFT_CONCAVE),
          (WindowCell.BR, BorderKind.BOTTOM_RIGHT_CONCAVE)]
  | 7 => [(WindowCell.TL, BorderKind.TOP_LEFT_CONCAVE)]
  | 8 => [(WindowCell.BR, BorderKind.BOTTOM_RIGHT_CONVEX)]
  | 9 => [(WindowCell.TR, BorderKind.TOP_RIGHT_CONCAVE),
          (WindowCell.BL, BorderKind.BOTTOM_LEFT_CONCAVE)]
  | 10 => [(WindowCell.TR, BorderKind.RIGHT), (WindowCell.BR, BorderKind.RIGHT)]
  | 11 => [(WindowCell.TR, BorderKind.TOP_RIGHT_CONCAVE)]
  | 12 => [(WindowCell.BL, BorderKind.BOTTOM), (WindowCell.BR, BorderKind.BOTTOM)]
  | 13 => [(WindowCell.BL, BorderKind.BOTTOM_LEFT_CONCAVE)]
  | 14 => [(WindowCell.BR, BorderKind.BOTTOM_RIGHT_CONCAVE)]
  | _ => []

/-- One assignment of the rule table applied to a border map given as a
function: a corner kind is written whatever the cell holds, a side kind only
where the cell is unset. -/
def apply_rule (f : Int → BorderKind) (cell : Int) (kind : BorderKind) : Int → BorderKind :=
  fun c =>
    if c = cell then
      if is_side_border kind ∧ f cell ≠ BorderKind.NONE then f cell else kind
    else f c

/-- The assignments of a row of the rule table applied in turn to the window
whose top-left cell is `cell_0`. -/
def apply_rules (grid_width cell_0 : Int) :
    List (WindowCell × BorderKind) → (Int → BorderKind) → Int → BorderKind
  | [], f => f
  | (w, kind) :: rest, f =>
    apply_rules grid_width cell_0 rest (apply_rule f (w.index grid_width cell_0) kind)

namespace AutoTiler

/-- The tiler with the border map entry of `cell` set to `kind`: the effect
of a successful `set_which_border`. -/
def with_border (t : AutoTiler) (cell : Int) (kind : BorderKind) : AutoTiler :=
  { t with which_borders := map_assign t.which_borders cell kind }

/-- The effect of a successful `set_side_if_no_border`. -/
def with_side (t : AutoTiler) (cell : Int) (side : BorderKind) : AutoTiler :=
  if t.border_at cell != BorderKind.NONE then t else t.with_border cell side

/-- Two tilers differ by their border map only. -/
def borders_only (t u : AutoTiler) : Prop :=
  u = { t with which_borders := u.which_borders }

end AutoTiler

/-! ### Fixtures -/

/-- A tileset in which every border set maps a pattern to each of the 12
kinds and every pattern is 8x8; `inner` is the orientation of the border
sets. -/
def tileset_8x8 (inner : Bool) : TilesetModel :=
  { get_border_set_pattern := fun _ _ => "p"
    has_border_set_pattern := fun _ kind => kind != BorderKind.NONE
    pattern_exists := fun _ => true
    pattern_frame_size := fun _ => ⟨8, 8⟩
    is_border_set_inner := fun _ => inner }

/-- A tileset whose border sets map no pattern to any kind. -/
def tileset_unmapped (inner : Bool) : TilesetModel :=
  { get_border_set_pattern := fun _ _ => ""
    has_border_set_pattern := fun _ _ => false
    pattern_exists := fun _ => false
    pattern_frame_size := fun _ => QSize.invalid
    is_border_set_inner := fun _ => inner }

/-- The tiler as constructed for entities of layer 0 whose bounding boxes are
`rectangles`, on a map without tiles. -/
def tiler_of (tileset : TilesetModel) (rectangles : List QRect) : AutoTiler :=
  AutoTiler.create
    { tileset := tileset
      get_entity_bounding_box := fun index => rectangles.getD index.order.toNat QRect.null
      get_num_tiles := fun _ => 0 }
    ((List.range rectangles.length).map fun (i : Nat) => ⟨0, (i : Int)⟩)
    "border"

/-- A 3x3 grid whose centre cell only is occupied, with an empty border
map. -/
def grid_3x3 (inner : Bool) : AutoTiler :=
  { tiler_of (tileset_8x8 inner) [QRect.ofXYWH 0 0 8 8] with
    bounding_box := QRect.ofXYWH (-8) (-8) 24 24
    grid_size := ⟨3, 3⟩
    occupied_squares := [false, false, false, false, true, false, false, false, false] }

namespace AutoTiler

/-- The four cells of the window whose top-left cell is `cell_0` lie in the
grid. -/
def window_in_grid (t : AutoTiler) (cell_0 : Int) : Prop :=
  t.in_grid cell_0 ∧ t.in_grid (cell_0 + 1) ∧ t.in_grid (cell_0 + t.grid_size.wd) ∧
  t.in_grid (cell_0 + t.grid_size.wd + 1)

instance (t : AutoTiler) (cell_0 : Int) : Decidable (t.window_in_grid cell_0) :=
  inferInstanceAs (Decidable (t.in_grid cell_0 ∧ t.in_grid (cell_0 + 1) ∧
    t.in_grid (cell_0 + t.grid_size.wd) ∧ t.in_grid (cell_0 + t.grid_size.wd + 1)))

/-- The mask of the window at `cell_0` (0 when the window is not in the
grid). -/
def mask_at (t : AutoTiler) (cell_0 : Int) : Nat :=
  (t.get_four_cells_mask cell_0).getD 0

/-- The row of the rule table that applies to the window at `cell_0`: of the
inner column for an inner border set, of the outer column otherwise. -/
def rules_at (t : AutoTiler) (cell_0 : Int) : List (WindowCell × BorderKind) :=
  if t.get_tileset.is_border_set_inner t.border_set_id then inner_rules (t.mask_at cell_0)
  else outer_rules (t.mask_at cell_0)

/-- The assignments (cell, kind) that the rule table makes for the window at
`cell_0`, in the order of the table. -/
def window_assignments (t : AutoTiler) (cell_0 : Int) : List (Int × BorderKind) :=
  (t.rules_at cell_0).map fun r => (r.1.index t.grid_size.wd cell_0, r.2)

/-- The values of `cell_0` at which a loop of `compute_borders` with `n`
iterations calls `detect_border_info`. -/
def side_windows : Nat → Int → Int → List Int
  | 0, _, _ => []
  | n + 1, step, cell_0 => cell_0 :: side_windows n step (cell_0 + step)

/-- The windows that `compute_borders` processes for one rectangle, in
order: top side, right side, bottom side, left side. -/
def rectangle_windows (t : AutoTiler) (rectangle : QRect) : List Int :=
  let nx := (Int.tdiv rectangle.width 8).toNat
  let ny := (Int.tdiv rectangle.height 8).toNat
  let p0 := t.to_grid_index rectangle.topLeft - 1 - t.grid_size.wd
  let p1 := p0 + nx * 1
  let p2 := p1 + ny * t.grid_size.wd
  let p3 := p2 + nx * (-1)
  side_windows nx 1 p0 ++ side_windows ny t.grid_size.wd p1 ++
    side_windows nx (-1) p2 ++ side_windows ny (-t.grid_size.wd) p3

/-- The windows that `compute_borders` processes, in order. -/
def processed_windows (t : AutoTiler) : List Int :=
  t.entity_rectangles.flatMap t.rectangle_windows

end AutoTiler

/-- A list of assignments (cell, kind) applied in turn to a border map given
as a function. -/
def apply_assignments (f : Int → BorderKind) : List (Int × BorderKind) → Int → BorderKind
  | [] => f
  | (cell, kind) :: rest => apply_assignments (apply_rule f cell kind) rest

/-- The empty border map: every cell holds `NONE`. -/
def no_border : Int → BorderKind := fun _ => BorderKind.NONE

/-- The class of a border kind: 0 for `NONE`, 1 for a side, 2 for a corner. -/
def kind_class (kind : BorderKind) : Nat :=
  if kind = BorderKind.NONE then 0 else if is_side_border kind then 1 else 2

namespace AutoTiler

/-- The steps of `generate_border_tiles` up to the classification: pattern
sizes, grid, occupancy mask and border map. -/
def classify (t : AutoTiler) : Option AutoTiler :=
  t.compute_pattern_sizes.compute_bounding_box.compute_occupied_squares.bind compute_borders

end AutoTiler

/-- Three 8x8 regions: one to the right of, one below and one diagonally
above the cell at the pixel origin. -/
def regions_diagonal_last : List QRect :=
  [QRect.ofXYWH 8 0 8 8, QRect.ofXYWH 0 8 8 8, QRect.ofXYWH (-8) (-8) 8 8]

/-- Two 8x8 regions that touch by a corner. -/
def regions_touching : List QRect :=
  [QRect.ofXYWH 0 0 8 8, QRect.ofXYWH 8 8 8 8]

/-- Two 8x8 regions separated by a gap of one cell. -/
def regions_gap : List QRect :=
  [QRect.ofXYWH 0 0 8 8, QRect.ofXYWH 16 0 8 8]

/-- A 4x4 grid in which cells 6 and 9 are occupied: the regions
(8, 0, 8, 8) and (0, 8, 8, 8) with a margin of one cell. The window at cell 5
has mask 0110. -/
def grid_4x4 (inner : Bool) : AutoTiler :=
  { tiler_of (tileset_8x8 inner) [QRect.ofXYWH 8 0 8 8, QRect.ofXYWH 0 8 8 8] with
    bounding_box := QRect.ofXYWH (-8) (-8) 32 32
    grid_size := ⟨4, 4⟩
    occupied_squares :=
      [false, false, false, false, false, false, true, false,
       false, true, false, false, false, false, false, false] }

/-- Modelled on the specification of the grid builder: the component-wise
maximum of the 12 resolved pattern sizes, a pattern that does not exist
contributing zero. -/
def max_pattern_size_spec (tileset : TilesetModel) (border_set_id : String) : QSize :=
  (BorderKind.all12.map fun kind =>
    let pattern_id := tileset.get_border_set_pattern border_set_id kind
    if tileset.pattern_exists pattern_id then tileset.pattern_frame_size pattern_id
    else (⟨0, 0⟩ : QSize)).foldl QSize.expandedTo ⟨0, 0⟩

/-- Whether the 8x8 pixel square whose top-left pixel is `p` lies within the
rectangle. -/
def QRect.contains_square (r : QRect) (p : QPoint) : Bool :=
  decide (r.x1 ≤ p.xp) && decide (p.xp + 7 ≤ r.x2) &&
  decide (r.y1 ≤ p.yp) && decide (p.yp + 7 ≤ r.y2)

/-- Whether the 8x8 pixel square of a grid cell lies within at least one of
the rectangles of the tiler. -/
def AutoTiler.cell_covered (t : AutoTiler) (grid_index : Int) : Bool :=
  match t.to_map_xy grid_index with
  | none => false
  | some p => t.entity_rectangles.any fun r => r.contains_square p

/-- A cell-aligned region: `x`, `y`, `width` and `height` are multiples of 8
and the size is positive. -/
def QRect.cell_aligned (r : QRect) : Prop :=
  8 ∣ r.x ∧ 8 ∣ r.y ∧ 8 ∣ r.width ∧ 8 ∣ r.height ∧ 0 < r.width ∧ 0 < r.height

instance (r : QRect) : Decidable r.cell_aligned :=
  inferInstanceAs (Decidable (8 ∣ r.x ∧ 8 ∣ r.y ∧ 8 ∣ r.width ∧ 8 ∣ r.height ∧
    0 < r.width ∧ 0 < r.height))

/-- The rectangle `u` is the bounding box of the union of the rectangles: it
contains each of them and each of its four edges is the edge of one of
them. -/
def is_union_box (u : QRect) (rectangles : List QRect) : Prop :=
  (∀ r ∈ rectangles, u.x1 ≤ r.x1 ∧ u.y1 ≤ r.y1 ∧ r.x2 ≤ u.x2 ∧ r.y2 ≤ u.y2) ∧
  (∃ r ∈ rectangles, u.x1 = r.x1) ∧ (∃ r ∈ rectangles, u.y1 = r.y1) ∧
  (∃ r ∈ rectangles, u.x2 = r.x2) ∧ (∃ r ∈ rectangles, u.y2 = r.y2)

namespace AutoTiler

/-- The value of `max_pattern_size` in `compute_bounding_box`. -/
def max_pattern_size (t : AutoTiler) : QSize :=
  t.pattern_sizes.foldl QSize.expandedTo QSize.invalid

/-- The value of `bounding_box` in `compute_bounding_box` before the margin
is added. -/
def union_box (t : AutoTiler) : QRect :=
  t.entity_rectangles.foldl QRect.united QRect.null

/-- The grid indexes that `compute_occupied_squares` marks, in order. -/
def sample_cells (t : AutoTiler) : List Int :=
  t.entity_rectangles.flatMap fun rectangle =>
    (pixel_steps rectangle.y (rectangle.y + rectangle.height)).flatMap fun y =>
      (pixel_steps rectangle.x (rectangle.x + rectangle.width)).map fun x =>
        t.to_grid_index ⟨x, y⟩

end AutoTiler

namespace AutoTiler

/-- The grid is cell-aligned with the regions and leaves a margin of `m`
cells around each of them: every region spans the columns `col` to
`col + nx - 1` and the rows `row` to `row + ny - 1` of the grid, at least `m`
cells away from each edge of the grid. -/
def grid_fits (m : Int) (t : AutoTiler) : Prop :=
  0 < t.grid_size.wd ∧ 0 < t.grid_size.ht ∧
  ∀ r ∈ t.entity_rectangles, ∃ col row nx ny : Int,
    r.x1 = t.bounding_box.x1 + 8 * col ∧ r.y1 = t.bounding_box.y1 + 8 * row ∧
    r.width = 8 * nx ∧ r.height = 8 * ny ∧ 0 < nx ∧ 0 < ny ∧
    m ≤ col ∧ m ≤ row ∧ col + nx + m ≤ t.grid_size.wd ∧ row + ny + m ≤ t.grid_size.ht

end AutoTiler

namespace AutoTiler

/-- The tiler with other regions: the entity indexes and their bounding
boxes are replaced, the other members are kept. -/
def with_regions (t : AutoTiler) (entity_indexes : List EntityIndex)
    (rectangles : List QRect) : AutoTiler :=
  { t with entity_indexes := entity_indexes, entity_rectangles := rectangles }

end AutoTiler

/-! ### Fixtures for the tile synthesis -/

/-- A tileset whose border sets map TOP to a pattern id that does not exist
in the tileset; the other 11 kinds are mapped to an existing 8x8 pattern. -/
def tileset_ghost_top (inner : Bool) : TilesetModel :=
  { get_border_set_pattern := fun _ kind => if kind = BorderKind.TOP then "ghost" else "p"
    has_border_set_pattern := fun _ kind => kind != BorderKind.NONE
    pattern_exists := fun id => id == "p"
    pattern_frame_size := fun _ => ⟨8, 8⟩
    is_border_set_inner := fun _ => inner }

/-- A tileset with one 8x8 pattern and two border sets: the border set
"top_only" maps TOP to the pattern and leaves the other 11 kinds unmapped,
every other border set maps no kind at all. -/
def tileset_top_only (inner : Bool) : TilesetModel :=
  { get_border_set_pattern := fun id kind =>
      if id = "top_only" ∧ kind = BorderKind.TOP then "p" else ""
    has_border_set_pattern := fun id kind => id == "top_only" && kind == BorderKind.TOP
    pattern_exists := fun id => id == "p"
    pattern_frame_size := fun _ => ⟨8, 8⟩
    is_border_set_inner := fun _ => inner }

/-- A tileset in which the pattern of TOP is 16x8 and the patterns of the
other 11 kinds are 8x8; all exist. -/
def tileset_wide_top (inner : Bool) : TilesetModel :=
  { get_border_set_pattern := fun _ kind => if kind = BorderKind.TOP then "top" else "p"
    has_border_set_pattern := fun _ kind => kind != BorderKind.NONE
    pattern_exists := fun _ => true
    pattern_frame_size := fun id => if id == "top" then ⟨16, 8⟩ else ⟨8, 8⟩
    is_border_set_inner := fun _ => inner }

/-- The tiler as constructed with the border set `border_set_id` for entities
of layer 0 whose bounding boxes are `rectangles`, on a map without tiles. -/
def tiler_with (tileset : TilesetModel) (rectangles : List QRect) (border_set_id : String) :
    AutoTiler :=
  AutoTiler.create
    { tileset := tileset
      get_entity_bounding_box := fun index => rectangles.getD index.order.toNat QRect.null
      get_num_tiles := fun _ => 0 }
    ((List.range rectangles.length).map fun (i : Nat) => ⟨0, (i : Int)⟩)
    border_set_id

/-- The pixel rectangle that a tile covers. -/
def Tile.rect (tile : Tile) : QRect :=
  QRect.ofXYWH tile.xy.xp tile.xy.yp tile.size.wd tile.size.ht

/-- Two rectangles have a pixel in common. -/
def QRect.overlaps (a b : QRect) : Prop :=
  a.x1 ≤ b.x2 ∧ b.x1 ≤ a.x2 ∧ a.y1 ≤ b.y2 ∧ b.y1 ≤ a.y2

instance (a b : QRect) : Decidable (a.overlaps b) :=
  inferInstanceAs (Decidable (a.x1 ≤ b.x2 ∧ b.x1 ≤ a.x2 ∧ a.y1 ≤ b.y2 ∧ b.y1 ≤ a.y2))

/-- The size that `make_tile` gives to a tile of kind `which_border` from the
frame size of its pattern and the number of cells of the run: the `switch`
statement of `make_tile`. -/
def tile_size (which_border : BorderKind) (pattern_size : QSize) (num_cells_repeat : Int) :
    QSize :=
  match which_border with
  | BorderKind.RIGHT | BorderKind.LEFT => ⟨pattern_size.wd, num_cells_repeat * 8⟩
  | BorderKind.TOP | BorderKind.BOTTOM => ⟨num_cells_repeat * 8, pattern_size.ht⟩
  | _ => pattern_size

namespace AutoTiler

/-- The tiles that `generate_border_tiles` returns, in order, without their
indexes. -/
def emitted (t : AutoTiler) : Option (List (Option Tile)) :=
  t.generate_border_tiles.map fun r => r.2.map Prod.fst

/-- The pattern id that the border set of the tiler maps to a kind. -/
def pattern_of (t : AutoTiler) (which_border : BorderKind) : String :=
  t.get_tileset.get_border_set_pattern t.border_set_id which_border

end AutoTiler

/-! ### Views of the tile synthesis -/

namespace AutoTiler

/-- Two tilers differ by their border map and their tiles only: the members
that `compute_tiles` does not write are equal. -/
def same_frame (t u : AutoTiler) : Prop :=
  u.map = t.map ∧ u.entity_indexes = t.entity_indexes ∧ u.border_set_id = t.border_set_id ∧
  u.entity_rectangles = t.entity_rectangles ∧ u.pattern_sizes = t.pattern_sizes ∧
  u.bounding_box = t.bounding_box ∧ u.grid_size = t.grid_size ∧
  u.occupied_squares = t.occupied_squares

/-- The keys of the border map are in strictly ascending order, as the
iteration of a `std::map` visits them. -/
def keys_sorted (t : AutoTiler) : Prop :=
  t.border_keys.Pairwise (· < ·)

/-- The border map of `u` is the border map of `t` in which some cells have
been reset to `NONE`. -/
def fades (t u : AutoTiler) : Prop :=
  ∀ c, u.border_at c = t.border_at c ∨ u.border_at c = BorderKind.NONE

/-- The tiler in which the `m` cells that follow `cur` in a run of step
`step` have been marked visited: the effect of `m` iterations of the counting
loop of a side run. -/
def clear_run (t : AutoTiler) (cur step : Int) : Nat → AutoTiler
  | 0 => t
  | m + 1 => clear_run (t.with_border (cur + step) BorderKind.NONE) (cur + step) step m

/-- The first loop of `compute_tiles_inner` or `compute_tiles_outer`,
according to the orientation of the border set: the sides. -/
def side_pass (t : AutoTiler) : Option AutoTiler :=
  if t.get_tileset.is_border_set_inner t.border_set_id then
    t.border_keys.foldlM
      (side_tile BorderKind.RIGHT BorderKind.BOTTOM is_convex_corner_border) t
  else
    t.border_keys.foldlM
      (side_tile BorderKind.LEFT BorderKind.TOP is_concave_corner_border) t

/-- The second loop of `compute_tiles_inner` or `compute_tiles_outer`,
according to the orientation of the border set: the corners. -/
def corner_pass (t : AutoTiler) : Option AutoTiler :=
  if t.get_tileset.is_border_set_inner t.border_set_id then
    t.border_keys.foldlM
      (corner_tile
        (fun b => b = BorderKind.TOP_RIGHT_CONVEX ∨ b = BorderKind.TOP_RIGHT_CONCAVE ∨
          b = BorderKind.BOTTOM_RIGHT_CONVEX ∨ b = BorderKind.BOTTOM_RIGHT_CONCAVE)
        (fun b => b = BorderKind.BOTTOM_RIGHT_CONVEX ∨ b = BorderKind.BOTTOM_RIGHT_CONCAVE ∨
          b = BorderKind.BOTTOM_LEFT_CONVEX ∨ b = BorderKind.BOTTOM_LEFT_CONCAVE)) t
  else
    t.border_keys.foldlM
      (corner_tile
        (fun b => b = BorderKind.TOP_LEFT_CONVEX ∨ b = BorderKind.TOP_LEFT_CONCAVE ∨
          b = BorderKind.BOTTOM_LEFT_CONVEX ∨ b = BorderKind.BOTTOM_LEFT_CONCAVE)
        (fun b => b = BorderKind.TOP_RIGHT_CONVEX ∨ b = BorderKind.TOP_RIGHT_CONCAVE ∨
          b = BorderKind.TOP_LEFT_CONVEX ∨ b = BorderKind.TOP_LEFT_CONCAVE)) t

end AutoTiler

/-- The size of a pattern along a run of the side kind `which_border`: its
height for the vertical sides, its width for the horizontal ones. -/
def along_run (which_border : BorderKind) (pattern_size : QSize) : Int :=
  if which_border = BorderKind.RIGHT ∨ which_border = BorderKind.LEFT then pattern_size.ht
  else pattern_size.wd

namespace AutoTiler

/-- The distance in the grid between two cells of a run of the side kind
`which_border`: the grid width for the vertical sides, 1 for the horizontal
ones. -/
def run_step (t : AutoTiler) (which_border : BorderKind) : Int :=
  if which_border = BorderKind.RIGHT ∨ which_border = BorderKind.LEFT then t.grid_size.wd
  else 1

/-- The largest number of iterations of the counting loop of a run of the
side kind `which_border` that starts at `start_index`: the rows below the
cell for the vertical sides, the columns to its right for the horizontal
ones. -/
def run_steps (t : AutoTiler) (which_border : BorderKind) (start_index : Int) : Nat :=
  if which_border = BorderKind.RIGHT ∨ which_border = BorderKind.LEFT then
    (t.grid_size.ht - (Int.tdiv start_index t.grid_size.wd + 1)).toNat
  else (t.grid_size.wd - (Int.tmod start_index t.grid_size.wd + 1)).toNat

/-- The tile `x` is one that the side loop can create for the map entry of
key `start_index`: the entry holds a side kind, the tile has the pattern
mapped to this kind and the layer of the first entity, and its size is that of
a run of `n` cells, `n` a positive multiple of the base size of the pattern
along the run. -/
def side_emitted (t : AutoTiler) (start_index : Int) (x : Tile) : Prop :=
  is_side_border (t.border_at start_index) = true ∧
  x.pattern = t.pattern_of (t.border_at start_index) ∧
  t.get_tileset.pattern_exists x.pattern = true ∧
  (∃ first, t.entity_indexes.head? = some first ∧ x.layer = first.layer) ∧
  ∃ (n : Int) (pattern_size : QSize), 0 < n ∧
    t.get_pattern_size (t.border_at start_index) = some pattern_size ∧
    Int.tdiv (along_run (t.border_at start_index) pattern_size) 8 ∣ n ∧
    x.size = tile_size (t.border_at start_index) (t.get_tileset.pattern_frame_size x.pattern) n

/-- The tile `x` is one that the corner loop can create for the map entry of
key `start_index`: the entry holds a kind, the tile has the pattern mapped to
this kind, the layer of the first entity and the size of a tile of one
cell. -/
def corner_emitted (t : AutoTiler) (start_index : Int) (x : Tile) : Prop :=
  t.border_at start_index ≠ BorderKind.NONE ∧
  x.pattern = t.pattern_of (t.border_at start_index) ∧
  t.get_tileset.pattern_exists x.pattern = true ∧
  (∃ first, t.entity_indexes.head? = some first ∧ x.layer = first.layer) ∧
  x.size = tile_size (t.border_at start_index) (t.get_tileset.pattern_frame_size x.pattern) 1

end AutoTiler

namespace AutoTiler

/-- The tiler after `generate_border_tiles` (the tiler itself when the call
fails). -/
def generated_state (t : AutoTiler) : AutoTiler :=
  (t.generate_border_tiles.map Prod.fst).getD t

/-- The sequence that `generate_border_tiles` returns (empty when the call
fails). -/
def generated (t : AutoTiler) : List (Option Tile × EntityIndex) :=
  (t.generate_border_tiles.map Prod.snd).getD []

end AutoTiler

namespace AutoTiler

/-- Every one of the 12 patterns of the border set exists and is 8x8. -/
def patterns_8x8 (t : AutoTiler) : Prop :=
  ∀ kind, kind ≠ BorderKind.NONE →
    t.get_tileset.pattern_exists (t.pattern_of kind) = true ∧
    t.get_tileset.pattern_frame_size (t.pattern_of kind) = ⟨8, 8⟩

/-- The border set maps a pattern to each of the 12 kinds. -/
def all_mapped (t : AutoTiler) : Prop :=
  ∀ kind, kind ≠ BorderKind.NONE →
    t.get_tileset.has_border_set_pattern t.border_set_id kind = true

/-- The size recorded by `compute_pattern_sizes` for each of the 12 kinds is
8x8. -/
def sizes_8x8 (t : AutoTiler) : Prop :=
  ∀ kind, kind ≠ BorderKind.NONE → t.get_pattern_size kind = some ⟨8, 8⟩

/-- The start index of a run after the translation that `side_tile` applies
to the sides listed in `shifted_vertical` and `shifted_horizontal` because of
their thickness. -/
def shifted_start (t : AutoTiler) (shifted_vertical shifted_horizontal : BorderKind)
    (which_border : BorderKind) (start_index : Int) : Option Int :=
  if which_border = BorderKind.RIGHT ∨ which_border = BorderKind.LEFT then
    if which_border = shifted_vertical then
      (t.get_pattern_size which_border).map fun pattern_size =>
        start_index - (Int.tdiv pattern_size.wd 8 - 1)
    else some start_index
  else
    if which_border = shifted_horizontal then
      (t.get_pattern_size which_border).map fun pattern_size =>
        start_index - (Int.tdiv pattern_size.ht 8 - 1) * t.grid_size.wd
    else some start_index

end AutoTiler

namespace AutoTiler

/-- The tile `x` covers a block of cells of the grid of `t`, `nr` rows from
the row `R` and `nc` columns from the column `C`, and every cell of the block
satisfies `cells`. -/
def is_block (t : AutoTiler) (x : Tile) (cells : Int → Prop) : Prop :=
  ∃ R C nr nc : Int, 0 < nr ∧ 0 < nc ∧
    x.rect.x1 = C * 8 + t.bounding_box.x1 ∧ x.rect.x2 = (C + nc) * 8 + t.bounding_box.x1 - 1 ∧
    x.rect.y1 = R * 8 + t.bounding_box.y1 ∧ x.rect.y2 = (R + nr) * 8 + t.bounding_box.y1 - 1 ∧
    ∀ r c, R ≤ r → r < R + nr → C ≤ c → c < C + nc → cells (r * t.grid_size.wd + c)

/-- No two tiles of the list have a pixel in common. -/
def tiles_disjoint (tiles : List (Option Tile)) : Prop :=
  tiles.Pairwise fun a b => ∀ x y, a = some x → b = some y → ¬ x.rect.overlaps y.rect

end AutoTiler

namespace AutoTiler

/-- The grid of a single region of `nx` by `ny` cells with a margin of one
cell: `nx + 2` columns, `ny + 2` rows, and the occupied cells are those of the
rows 1 to `ny` and of the columns 1 to `nx`. -/
def region_grid (g : AutoTiler) (nx ny : Nat) : Prop :=
  g.grid_size = ⟨nx + 2, ny + 2⟩ ∧
  ∀ R C : Int, 0 ≤ R → R < ny + 2 → 0 ≤ C → C < nx + 2 →
    g.is_cell_occupied (R * (nx + 2) + C) =
      some (decide (1 ≤ R ∧ R ≤ ny ∧ 1 ≤ C ∧ C ≤ nx))

/-- The row and the column of the border cells nearest to the origin of the
grid of a single region: 1 for an inner border set (the border is drawn on
the cells of the region), 0 for an outer one (on the cells of the margin). -/
def mode_offset (g : AutoTiler) : Int :=
  if g.get_tileset.is_border_set_inner g.border_set_id then 1 else 0

end AutoTiler

/-- The kind that the rule table assigns to the cell of row `R` and column
`C` from the windows of the perimeter of a single region of `nx` by `ny`
cells; `a` is the offset of the mode. -/
def region_rule (a : Int) (nx ny : Nat) (R C : Int) (k : BorderKind) : Prop :=
  (k = BorderKind.TOP_LEFT_CONVEX ∧ R = a ∧ C = a) ∨
  (k = BorderKind.TOP ∧ R = a ∧ 1 ≤ C ∧ C ≤ nx) ∨
  (k = BorderKind.TOP_RIGHT_CONVEX ∧ R = a ∧ C = nx + 1 - a) ∨
  (k = BorderKind.RIGHT ∧ 1 ≤ R ∧ R ≤ ny ∧ C = nx + 1 - a) ∨
  (k = BorderKind.BOTTOM_RIGHT_CONVEX ∧ R = ny + 1 - a ∧ C = nx + 1 - a) ∨
  (k = BorderKind.BOTTOM ∧ R = ny + 1 - a ∧ 1 ≤ C ∧ C ≤ nx) ∨
  (k = BorderKind.BOTTOM_LEFT_CONVEX ∧ R = ny + 1 - a ∧ C = a) ∨
  (k = BorderKind.LEFT ∧ 1 ≤ R ∧ R ≤ ny ∧ C = a)

/-- The border map of a frame of cells: convex corners at the four crossings
of the rows `r0`, `r1` and of the columns `c0`, `c1`, and sides between
them. The flags tell which sides are present. -/
def frame_kind (r0 r1 c0 c1 : Int) (top left right bottom : Bool) (R C : Int) : BorderKind :=
  if R = r0 then
    if C = c0 then BorderKind.TOP_LEFT_CONVEX
    else if C = c1 then BorderKind.TOP_RIGHT_CONVEX
    else if c0 < C ∧ C < c1 ∧ top = true then BorderKind.TOP
    else BorderKind.NONE
  else if R = r1 then
    if C = c0 then BorderKind.BOTTOM_LEFT_CONVEX
    else if C = c1 then BorderKind.BOTTOM_RIGHT_CONVEX
    else if c0 < C ∧ C < c1 ∧ bottom = true then BorderKind.BOTTOM
    else BorderKind.NONE
  else if r0 < R ∧ R < r1 then
    if C = c0 ∧ left = true then BorderKind.LEFT
    else if C = c1 ∧ right = true then BorderKind.RIGHT
    else BorderKind.NONE
  else BorderKind.NONE

namespace AutoTiler

/-- The border map of the tiler is the function `F` of the row and the column
on the cells of the grid, and `NONE` outside the grid. -/
def border_map_is (v : AutoTiler) (F : Int → Int → BorderKind) : Prop :=
  (∀ R C : Int, 0 ≤ R → R < v.grid_size.ht → 0 ≤ C → C < v.grid_size.wd →
    v.border_at (R * v.grid_size.wd + C) = F R C) ∧
  (∀ i : Int, ¬ v.in_grid i → v.border_at i = BorderKind.NONE)

end AutoTiler

/-- A tileset in which every border set maps a pattern to each of the 12
kinds, named after the side ("right", "top", "left", "bottom") or "corner" for
the 8 corners, and every pattern is 16x16: two cells thick. -/
def tileset_16x16 (inner : Bool) : TilesetModel :=
  { get_border_set_pattern := fun _ kind =>
      match kind with
      | BorderKind.NONE => ""
      | BorderKind.RIGHT => "right"
      | BorderKind.TOP => "top"
      | BorderKind.LEFT => "left"
      | BorderKind.BOTTOM => "bottom"
      | _ => "corner"
    has_border_set_pattern := fun _ kind => kind != BorderKind.NONE
    pattern_exists := fun id => id != ""
    pattern_frame_size := fun _ => ⟨16, 16⟩
    is_border_set_inner := fun _ => inner }

namespace AutoTiler

/-- The tiler after the classification (the tiler itself when the
classification fails). -/
def classified (t : AutoTiler) : AutoTiler := t.classify.getD t

end AutoTiler

/-- The four corner kinds on the right of a region. -/
def is_right_corner (kind : BorderKind) : Bool :=
  kind = BorderKind.TOP_RIGHT_CONVEX || kind = BorderKind.TOP_RIGHT_CONCAVE ||
  kind = BorderKind.BOTTOM_RIGHT_CONVEX || kind = BorderKind.BOTTOM_RIGHT_CONCAVE

/-- The four corner kinds on the left of a region. -/
def is_left_corner (kind : BorderKind) : Bool :=
  kind = BorderKind.TOP_LEFT_CONVEX || kind = BorderKind.TOP_LEFT_CONCAVE ||
  kind = BorderKind.BOTTOM_LEFT_CONVEX || kind = BorderKind.BOTTOM_LEFT_CONCAVE

/-- The four corner kinds at the top of a region. -/
def is_top_corner (kind : BorderKind) : Bool :=
  kind = BorderKind.TOP_RIGHT_CONVEX || kind = BorderKind.TOP_RIGHT_CONCAVE ||
  kind = BorderKind.TOP_LEFT_CONVEX || kind = BorderKind.TOP_LEFT_CONCAVE

/-- The four corner kinds at the bottom of a region. -/
def is_bottom_corner (kind : BorderKind) : Bool :=
  kind = BorderKind.BOTTOM_RIGHT_CONVEX || kind = BorderKind.BOTTOM_RIGHT_CONCAVE ||
  kind = BorderKind.BOTTOM_LEFT_CONVEX || kind = BorderKind.BOTTOM_LEFT_CONCAVE

namespace AutoTiler

/-- The corner tile of the cell `start_index` in the words of the
specification, to be compared with the corner loops of `compute_tiles_inner`
and `compute_tiles_outer`: a cell that holds a corner kind whose pattern is
mapped and exists gives one tile of the size of the pattern, placed at the
cell translated to the left by `width / 8 - 1` cells (right-side corners in
inner mode, left-side corners in outer mode) and to the top by
`height / 8 - 1` rows (bottom-side corners in inner mode, top-side corners in
outer mode); any other cell gives no tile. -/
def spec_corner_tile (t : AutoTiler) (layer : Int) (start_index : Int) : Option Tile :=
  let kind := t.border_at start_index
  let pattern := t.get_tileset.get_border_set_pattern t.border_set_id kind
  if is_corner_border kind ∧ t.get_tileset.has_border_set_pattern t.border_set_id kind ∧
      t.get_tileset.pattern_exists pattern then
    let size := t.get_tileset.pattern_frame_size pattern
    let inner := t.get_tileset.is_border_set_inner t.border_set_id
    let shift_left := if inner then is_right_corner kind else is_left_corner kind
    let shift_up := if inner then is_bottom_corner kind else is_top_corner kind
    let cell := start_index - (if shift_left then Int.tdiv size.wd 8 - 1 else 0) -
      (if shift_up then (Int.tdiv size.ht 8 - 1) * t.grid_size.wd else 0)
    (t.to_map_xy cell).map fun xy => ⟨pattern, xy, size, layer⟩
  else none

end AutoTiler

/-- Three regions around a free column one cell wide: two regions of one
column and two rows stacked to its left, given first and last, and a region
of one column and four rows to its right, given second. -/
def regions_split_column : List QRect :=
  [QRect.ofXYWH 0 0 8 16, QRect.ofXYWH 16 0 8 32, QRect.ofXYWH 0 16 8 16]

/-- The pixel `(px, py)` lies in the rectangle of the tile. -/
def Tile.covers (x : Tile) (px py : Int) : Prop :=
  x.rect.x1 ≤ px ∧ px ≤ x.rect.x2 ∧ x.rect.y1 ≤ py ∧ py ≤ x.rect.y2

instance (x : Tile) (px py : Int) : Decidable (x.covers px py) :=
  inferInstanceAs (Decidable (x.rect.x1 ≤ px ∧ px ≤ x.rect.x2 ∧ x.rect.y1 ≤ py ∧ py ≤ x.rect.y2))

namespace AutoTiler

/-- The size that `compute_pattern_sizes` records for a kind: the frame size
of the pattern mapped to the kind when this pattern exists, the invalid size
`QSize()` otherwise. -/
def recorded_size (t : AutoTiler) (kind : BorderKind) : QSize :=
  if t.get_tileset.pattern_exists (t.pattern_of kind) then
    t.get_tileset.pattern_frame_size (t.pattern_of kind)
  else QSize.invalid

/-- The raw length of a side run in the words of the specification: the
number of consecutive cells that hold `kind`, counted from `cell` on in steps
of `step`, among `fuel` cells at most. -/
def spec_raw_run (t : AutoTiler) (kind : BorderKind) (step : Int) : Nat → Int → Int
  | 0, _ => 0
  | fuel + 1, cell =>
    if t.border_at cell = kind then spec_raw_run t kind step fuel (cell + step) + 1 else 0

/-- The translation of the start of a side run because of the thickness of
its pattern, in the words of the specification as amended (C24), as a number
of grid indexes: in inner mode a RIGHT run is moved to the left by `width / 8 - 1`
cells and a BOTTOM run to the top by `height / 8 - 1` rows; in outer mode a
LEFT run is moved to the left and a TOP run to the top; the other runs are not
moved. -/
def spec_pre_shift (t : AutoTiler) (kind : BorderKind) : Int :=
  if t.get_tileset.is_border_set_inner t.border_set_id then
    if kind = BorderKind.RIGHT then Int.tdiv (t.recorded_size kind).wd 8 - 1
    else if kind = BorderKind.BOTTOM then
      (Int.tdiv (t.recorded_size kind).ht 8 - 1) * t.grid_size.wd
    else 0
  else
    if kind = BorderKind.LEFT then Int.tdiv (t.recorded_size kind).wd 8 - 1
    else if kind = BorderKind.TOP then
      (Int.tdiv (t.recorded_size kind).ht 8 - 1) * t.grid_size.wd
    else 0

/-- The cells removed from a run of the side kind `kind` because of the
corner `corner` at one of its ends, in the words of the specification:
`span - 1`, where `span` is the size of the corner pattern along the run
divided by 8, for a convex corner in inner mode and for a concave corner in
outer mode; nothing for the other corners. -/
def spec_corner_excess (t : AutoTiler) (kind corner : BorderKind) : Int :=
  if t.get_tileset.is_border_set_inner t.border_set_id then
    if is_convex_corner_border corner then
      Int.tdiv (along_run kind (t.recorded_size corner)) 8 - 1
    else 0
  else
    if is_concave_corner_border corner then
      Int.tdiv (along_run kind (t.recorded_size corner)) 8 - 1
    else 0

/-- The rounding of a run of the side kind `kind`, of compensated length `n`
from the cell `start`, in the words of the specification: the first cell and
the length of the tile. `b` is the size of the side pattern along the run
divided by 8. When `b` divides `n` nothing changes; otherwise the length
becomes `n + (b - n mod b)`, and the first cell is moved backward by the added
cells when the corner before the run is concave. -/
def spec_rounded_run (t : AutoTiler) (kind corner_1 : BorderKind) (start n : Int) :
    Int × Int :=
  let b := Int.tdiv (along_run kind (t.recorded_size kind)) 8
  if Int.tmod n b = 0 then (start, n)
  else
    (if is_concave_corner_border corner_1 then start - (b - Int.tmod n b) * t.run_step kind
      else start,
     n + (b - Int.tmod n b))

/-- The side tile of the cell `start_index` in the words of the
specification, to be compared with the side loops of `compute_tiles_inner`
and `compute_tiles_outer`. A run is discovered at a cell that holds a side
kind mapped to a pattern and whose previous cell along the run holds a
corner `corner_1`; its raw length `n` is the number of consecutive cells that
hold the kind, up to the edge of the grid, and `corner_2` is the kind of the
cell after the run. The compensated length is `n` minus the cells removed for
the two corners; when it is positive and the pattern exists, the run gives one
tile, whose first cell is the cell of the run translated for the thickness of
the pattern, advanced by the cells removed for `corner_1` and rounded, and
whose length is the rounded compensated length. Any other cell gives no
tile. -/
def spec_side_tile (t : AutoTiler) (layer : Int) (start_index : Int) : Option Tile :=
  let kind := t.border_at start_index
  let step := t.run_step kind
  let corner_1 := t.border_at (start_index - step)
  if is_side_border kind ∧ t.get_tileset.has_border_set_pattern t.border_set_id kind ∧
      is_corner_border corner_1 then
    let n := t.spec_raw_run kind step (t.run_steps kind start_index + 1) start_index
    let corner_2 := t.border_at (start_index + n * step)
    let e1 := t.spec_corner_excess kind corner_1
    let e2 := t.spec_corner_excess kind corner_2
    if 0 < n - e1 - e2 ∧ t.get_tileset.pattern_exists (t.pattern_of kind) then
      let r := t.spec_rounded_run kind corner_1
        (start_index - t.spec_pre_shift kind + e1 * step) (n - e1 - e2)
      (t.to_map_xy r.1).map fun xy =>
        ⟨t.pattern_of kind, xy,
          tile_size kind (t.get_tileset.pattern_frame_size (t.pattern_of kind)) r.2, layer⟩
    else none
  else none

end AutoTiler

/-! ## Theorems -/

/-! ### The border map -/

theorem map_find_assign (m : List (Int × BorderKind)) (key : Int) (v : BorderKind) (c : Int) :
    map_find (map_assign m key v) c = if c = key then some v else map_find m c := by
  induction m with
  | nil => simp [map_assign, map_find]
  | cons e rest ih =>
    obtain ⟨k, w⟩ := e
    simp only [map_assign]
    by_cases h1 : key < k
    · simp [h1, map_find]
    · by_cases h2 : key = k
      · subst h2
        by_cases h3 : c = key <;> simp [map_find, h3]
      · simp only [h1, h2, if_false, map_find, ih]
        by_cases h3 : c = k
        · have h4 : ¬ c = key := fun h => h2 (h ▸ h3)
          simp only [if_pos h3, if_neg h4]
        · simp [h3]

namespace AutoTiler

theorem get_which_border_eq (t : AutoTiler) (c : Int) (h : t.in_grid c) :
    t.get_which_border c = some (t.border_at c) := by
  obtain ⟨h0, h1⟩ := h
  unfold get_which_border border_at
  rw [if_pos ⟨h0, h1⟩]
  cases map_find t.which_borders c <;> rfl

theorem has_border_eq (t : AutoTiler) (c : Int) (h : t.in_grid c) :
    t.has_border c = some (t.border_at c != BorderKind.NONE) := by
  unfold has_border
  rw [get_which_border_eq t c h]

theorem set_which_border_eq (t : AutoTiler) (c : Int) (k : BorderKind) (h : t.in_grid c) :
    t.set_which_border c k =
      some { t with which_borders := map_assign t.which_borders c k } := by
  obtain ⟨h0, h1⟩ := h
  unfold set_which_border
  rw [if_pos ⟨h0, h1⟩]

theorem border_at_assign (t : AutoTiler) (key : Int) (k : BorderKind) (c : Int) :
    border_at { t with which_borders := map_assign t.which_borders key k } c =
      if c = key then k else t.border_at c := by
  unfold border_at
  simp only [map_find_assign]
  by_cases h : c = key <;> simp [h]

theorem is_cell_occupied_some (t : AutoTiler) (c : Int) (hs : t.mask_sized)
    (h : t.in_grid c) : ∃ b, t.is_cell_occupied c = some b := by
  obtain ⟨h0, h1⟩ := h
  unfold mask_sized at hs
  unfold is_cell_occupied
  rw [if_pos ⟨h0, h1⟩]
  have hlt : c.toNat < t.occupied_squares.length := by omega
  exact ⟨t.occupied_squares[c.toNat], List.getElem?_eq_getElem hlt⟩

theorem four_cells_mask_of_bits (t : AutoTiler) (cell_0 : Int) (tl tr bl br : Bool)
    (h0 : t.is_cell_occupied cell_0 = some tl)
    (h1 : t.is_cell_occupied (cell_0 + 1) = some tr)
    (h2 : t.is_cell_occupied (cell_0 + t.grid_size.wd) = some bl)
    (h3 : t.is_cell_occupied (cell_0 + t.grid_size.wd + 1) = some br) :
    t.get_four_cells_mask cell_0 = some (window_mask tl tr bl br) := by
  unfold get_four_cells_mask
  simp only [h0, h1, h2, h3, Option.bind_eq_bind, Option.some_bind, Option.pure_def]
  cases tl <;> cases tr <;> cases bl <;> cases br <;> rfl

end AutoTiler

namespace AutoTiler

@[simp] theorem with_border_grid (t : AutoTiler) (c : Int) (k : BorderKind) :
    (t.with_border c k).grid_size = t.grid_size := rfl

@[simp] theorem with_side_grid (t : AutoTiler) (c : Int) (k : BorderKind) :
    (t.with_side c k).grid_size = t.grid_size := by
  unfold with_side; split <;> rfl

theorem with_border_frame (t : AutoTiler) (c : Int) (k : BorderKind) :
    t.with_border c k = { t with which_borders := (t.with_border c k).which_borders } := rfl

theorem in_grid_congr (t u : AutoTiler) (h : u.grid_size = t.grid_size) (c : Int) :
    u.in_grid c ↔ t.in_grid c := by
  unfold in_grid get_num_cells; rw [h]

@[simp] theorem in_grid_with_border (t : AutoTiler) (c : Int) (k : BorderKind) (d : Int) :
    (t.with_border c k).in_grid d ↔ t.in_grid d := in_grid_congr t _ rfl d

@[simp] theorem in_grid_with_side (t : AutoTiler) (c : Int) (k : BorderKind) (d : Int) :
    (t.with_side c k).in_grid d ↔ t.in_grid d := in_grid_congr t _ (with_side_grid t c k) d

theorem borders_only_refl (t : AutoTiler) : borders_only t t := rfl

theorem borders_only_with_border (t u : AutoTiler) (c : Int) (k : BorderKind)
    (h : borders_only t u) : borders_only t (u.with_border c k) := by
  unfold borders_only at *
  rw [with_border_frame u c k]
  rw [h]

theorem borders_only_with_side (t u : AutoTiler) (c : Int) (k : BorderKind)
    (h : borders_only t u) : borders_only t (u.with_side c k) := by
  unfold with_side
  split
  · exact h
  · exact borders_only_with_border t u c k h

theorem borders_only_trans (t u v : AutoTiler) (h1 : borders_only t u)
    (h2 : borders_only u v) : borders_only t v := by
  unfold borders_only at *
  rw [h2, h1]

theorem set_which_border_some (t : AutoTiler) (c : Int) (k : BorderKind) (h : t.in_grid c) :
    t.set_which_border c k = some (t.with_border c k) :=
  set_which_border_eq t c k h

theorem set_side_if_no_border_some (t : AutoTiler) (c : Int) (k : BorderKind)
    (h : t.in_grid c) : t.set_side_if_no_border c k = some (t.with_side c k) := by
  unfold set_side_if_no_border with_side
  rw [has_border_eq t c h]
  cases hb : (t.border_at c != BorderKind.NONE)
  · simp [set_which_border_some t c k h]
  · simp

theorem border_at_with_border (t : AutoTiler) (cell : Int) (k : BorderKind)
    (hk : is_side_border k = false) :
    (t.with_border cell k).border_at = apply_rule t.border_at cell k := by
  funext c
  unfold with_border apply_rule
  rw [border_at_assign]
  simp [hk]

theorem border_at_with_side (t : AutoTiler) (cell : Int) (k : BorderKind)
    (hk : is_side_border k = true) :
    (t.with_side cell k).border_at = apply_rule t.border_at cell k := by
  funext c
  unfold with_side apply_rule
  by_cases hb : t.border_at cell = BorderKind.NONE
  · simp only [hb, bne_self_eq_false, Bool.false_eq_true, if_false, hk]
    unfold with_border
    rw [border_at_assign]
    simp
  · have : (t.border_at cell != BorderKind.NONE) = true := by simpa using hb
    simp only [this, if_true, hk]
    by_cases hc : c = cell
    · simp [hc, hb]
    · simp [hc]

end AutoTiler

theorem apply_rule_other (f : Int → BorderKind) (cell : Int) (kind : BorderKind) (c : Int)
    (h : c ≠ cell) : apply_rule f cell kind c = f c := by
  unfold apply_rule
  rw [if_neg h]

theorem window_index_cases (grid_width cell_0 : Int) (w : WindowCell) :
    w.index grid_width cell_0 = cell_0 ∨ w.index grid_width cell_0 = cell_0 + 1 ∨
    w.index grid_width cell_0 = cell_0 + grid_width ∨
    w.index grid_width cell_0 = cell_0 + grid_width + 1 := by
  cases w <;> simp [WindowCell.index]

theorem apply_rules_other (grid_width cell_0 : Int) (rules : List (WindowCell × BorderKind))
    (f : Int → BorderKind) (c : Int) (h0 : c ≠ cell_0) (h1 : c ≠ cell_0 + 1)
    (h2 : c ≠ cell_0 + grid_width) (h3 : c ≠ cell_0 + grid_width + 1) :
    apply_rules grid_width cell_0 rules f c = f c := by
  induction rules generalizing f with
  | nil => rfl
  | cons r rest ih =>
    obtain ⟨w, kind⟩ := r
    simp only [apply_rules]
    rw [ih]
    apply apply_rule_other
    rcases window_index_cases grid_width cell_0 w with e | e | e | e <;> rw [e] <;> assumption

theorem window_mask_le (tl tr bl br : Bool) : window_mask tl tr bl br ≤ 15 := by
  cases tl <;> cases tr <;> cases bl <;> cases br <;> decide

namespace AutoTiler

theorem is_cell_occupied_in_grid (t : AutoTiler) (c : Int) (b : Bool)
    (h : t.is_cell_occupied c = some b) : t.in_grid c := by
  unfold is_cell_occupied at h
  by_cases hc : 0 ≤ c ∧ c < t.get_num_cells
  · exact hc
  · rw [if_neg hc] at h
    exact absurd h (by simp)

theorem four_cells_mask_some (t : AutoTiler) (cell_0 : Int) (m : Nat)
    (h : t.get_four_cells_mask cell_0 = some m) :
    ∃ tl tr bl br,
      t.is_cell_occupied cell_0 = some tl ∧
      t.is_cell_occupied (cell_0 + 1) = some tr ∧
      t.is_cell_occupied (cell_0 + t.grid_size.wd) = some bl ∧
      t.is_cell_occupied (cell_0 + t.grid_size.wd + 1) = some br ∧
      m = window_mask tl tr bl br := by
  unfold get_four_cells_mask at h
  cases e0 : t.is_cell_occupied cell_0 with
  | none => simp [e0] at h
  | some tl =>
    cases e1 : t.is_cell_occupied (cell_0 + 1) with
    | none => simp [e0, e1] at h
    | some tr =>
      cases e2 : t.is_cell_occupied (cell_0 + t.grid_size.wd) with
      | none => simp [e0, e1, e2] at h
      | some bl =>
        cases e3 : t.is_cell_occupied (cell_0 + t.grid_size.wd + 1) with
        | none => simp [e0, e1, e2, e3] at h
        | some br =>
          refine ⟨tl, tr, bl, br, rfl, rfl, rfl, rfl, ?_⟩
          have h2 := four_cells_mask_of_bits t cell_0 tl tr bl br e0 e1 e2 e3
          unfold get_four_cells_mask at h2
          rw [h] at h2
          exact Option.some.inj h2

theorem window_in_grid_of_bits (t : AutoTiler) (cell_0 : Int) (tl tr bl br : Bool)
    (e0 : t.is_cell_occupied cell_0 = some tl)
    (e1 : t.is_cell_occupied (cell_0 + 1) = some tr)
    (e2 : t.is_cell_occupied (cell_0 + t.grid_size.wd) = some bl)
    (e3 : t.is_cell_occupied (cell_0 + t.grid_size.wd + 1) = some br) :
    t.window_in_grid cell_0 :=
  ⟨is_cell_occupied_in_grid t _ _ e0, is_cell_occupied_in_grid t _ _ e1,
   is_cell_occupied_in_grid t _ _ e2, is_cell_occupied_in_grid t _ _ e3⟩

theorem window_bits (t : AutoTiler) (cell_0 : Int) (hs : t.mask_sized)
    (hw : t.window_in_grid cell_0) :
    ∃ tl tr bl br,
      t.is_cell_occupied cell_0 = some tl ∧
      t.is_cell_occupied (cell_0 + 1) = some tr ∧
      t.is_cell_occupied (cell_0 + t.grid_size.wd) = some bl ∧
      t.is_cell_occupied (cell_0 + t.grid_size.wd + 1) = some br := by
  obtain ⟨h0, h1, h2, h3⟩ := hw
  obtain ⟨tl, e0⟩ := is_cell_occupied_some t _ hs h0
  obtain ⟨tr, e1⟩ := is_cell_occupied_some t _ hs h1
  obtain ⟨bl, e2⟩ := is_cell_occupied_some t _ hs h2
  obtain ⟨br, e3⟩ := is_cell_occupied_some t _ hs h3
  exact ⟨tl, tr, bl, br, e0, e1, e2, e3⟩

set_option maxHeartbeats 1600000 in
theorem detect_inner_apply (t : AutoTiler) (cell_0 : Int) (tl tr bl br : Bool)
    (e0 : t.is_cell_occupied cell_0 = some tl)
    (e1 : t.is_cell_occupied (cell_0 + 1) = some tr)
    (e2 : t.is_cell_occupied (cell_0 + t.grid_size.wd) = some bl)
    (e3 : t.is_cell_occupied (cell_0 + t.grid_size.wd + 1) = some br) :
    ∃ u, t.detect_border_info_inner cell_0 = some u ∧ borders_only t u ∧
      u.border_at = apply_rules t.grid_size.wd cell_0
          (inner_rules (window_mask tl tr bl br)) t.border_at := by
  have hm := four_cells_mask_of_bits t cell_0 tl tr bl br e0 e1 e2 e3
  obtain ⟨h0, h1, h2, h3⟩ := window_in_grid_of_bits t cell_0 tl tr bl br e0 e1 e2 e3
  cases tl <;> cases tr <;> cases bl <;> cases br
  all_goals
    simp only [window_mask, Bool.toNat_false, Bool.toNat_true, Nat.mul_zero, Nat.mul_one,
      Nat.add_zero, Nat.zero_add, Nat.reduceAdd] at hm ⊢
  all_goals
    simp only [detect_border_info_inner, hm, inner_rules, apply_rules, WindowCell.index]
  all_goals
    try simp only [set_which_border_some, set_side_if_no_border_some, Option.some_bind,
      in_grid_with_border, in_grid_with_side, h0, h1, h2, h3, with_side_grid, with_border_grid]
  all_goals
    refine ⟨_, rfl, ?_, ?_⟩
  all_goals
    first
      | exact borders_only_refl _
      | exact borders_only_with_border _ _ _ _ (borders_only_refl _)
      | exact borders_only_with_border _ _ _ _ (borders_only_with_border _ _ _ _ (borders_only_refl _))
      | exact borders_only_with_side _ _ _ _ (borders_only_with_side _ _ _ _ (borders_only_refl _))
      | simp [border_at_with_border, border_at_with_side, is_side_border]

set_option maxHeartbeats 1600000 in
theorem detect_outer_apply (t : AutoTiler) (cell_0 : Int) (tl tr bl br : Bool)
    (e0 : t.is_cell_occupied cell_0 = some tl)
    (e1 : t.is_cell_occupied (cell_0 + 1) = some tr)
    (e2 : t.is_cell_occupied (cell_0 + t.grid_size.wd) = some bl)
    (e3 : t.is_cell_occupied (cell_0 + t.grid_size.wd + 1) = some br) :
    ∃ u, t.detect_border_info_outer cell_0 = some u ∧ borders_only t u ∧
      u.border_at = apply_rules t.grid_size.wd cell_0
          (outer_rules (window_mask tl tr bl br)) t.border_at := by
  have hm := four_cells_mask_of_bits t cell_0 tl tr bl br e0 e1 e2 e3
  obtain ⟨h0, h1, h2, h3⟩ := window_in_grid_of_bits t cell_0 tl tr bl br e0 e1 e2 e3
  cases tl <;> cases tr <;> cases bl <;> cases br
  all_goals
    simp only [window_mask, Bool.toNat_false, Bool.toNat_true, Nat.mul_zero, Nat.mul_one,
      Nat.add_zero, Nat.zero_add, Nat.reduceAdd] at hm ⊢
  all_goals
    simp only [detect_border_info_outer, hm, outer_rules, apply_rules, WindowCell.index]
  all_goals
    try simp only [set_which_border_some, set_side_if_no_border_some, Option.some_bind,
      in_grid_with_border, in_grid_with_side, h0, h1, h2, h3, with_side_grid, with_border_grid]
  all_goals
    refine ⟨_, rfl, ?_, ?_⟩
  all_goals
    first
      | exact borders_only_refl _
      | exact borders_only_with_border _ _ _ _ (borders_only_refl _)
      | exact borders_only_with_border _ _ _ _ (borders_only_with_border _ _ _ _ (borders_only_refl _))
      | exact borders_only_with_side _ _ _ _ (borders_only_with_side _ _ _ _ (borders_only_refl _))
      | simp [border_at_with_border, border_at_with_side, is_side_border]

end AutoTiler

theorem apply_rules_eq_assignments (grid_width cell_0 : Int)
    (rules : List (WindowCell × BorderKind)) (f : Int → BorderKind) :
    apply_rules grid_width cell_0 rules f =
      apply_assignments f (rules.map fun r => (r.1.index grid_width cell_0, r.2)) := by
  induction rules generalizing f with
  | nil => rfl
  | cons r rest ih =>
    obtain ⟨w, kind⟩ := r
    simp only [apply_rules, List.map_cons, apply_assignments]
    exact ih _

theorem apply_assignments_append (f : Int → BorderKind) (l1 l2 : List (Int × BorderKind)) :
    apply_assignments f (l1 ++ l2) = apply_assignments (apply_assignments f l1) l2 := by
  induction l1 generalizing f with
  | nil => rfl
  | cons a rest ih =>
    obtain ⟨c, k⟩ := a
    simp only [List.cons_append, apply_assignments]
    exact ih _

namespace AutoTiler

theorem detect_border_info_apply (t : AutoTiler) (cell_0 : Int) (tl tr bl br : Bool)
    (e0 : t.is_cell_occupied cell_0 = some tl)
    (e1 : t.is_cell_occupied (cell_0 + 1) = some tr)
    (e2 : t.is_cell_occupied (cell_0 + t.grid_size.wd) = some bl)
    (e3 : t.is_cell_occupied (cell_0 + t.grid_size.wd + 1) = some br) :
    ∃ u, t.detect_border_info cell_0 = some u ∧ borders_only t u ∧
      u.border_at = apply_assignments t.border_at (t.window_assignments cell_0) := by
  have hm := four_cells_mask_of_bits t cell_0 tl tr bl br e0 e1 e2 e3
  have hma : t.mask_at cell_0 = window_mask tl tr bl br := by
    unfold mask_at; rw [hm]; rfl
  unfold detect_border_info window_assignments rules_at
  by_cases hi : t.get_tileset.is_border_set_inner t.border_set_id = true
  · rw [if_pos hi, if_pos hi, hma, ← apply_rules_eq_assignments]
    exact detect_inner_apply t cell_0 tl tr bl br e0 e1 e2 e3
  · rw [if_neg hi, if_neg hi, hma, ← apply_rules_eq_assignments]
    exact detect_outer_apply t cell_0 tl tr bl br e0 e1 e2 e3

theorem detect_border_info_some (t u : AutoTiler) (cell_0 : Int)
    (h : t.detect_border_info cell_0 = some u) :
    t.window_in_grid cell_0 ∧ borders_only t u ∧
      u.border_at = apply_assignments t.border_at (t.window_assignments cell_0) := by
  have hm : ∃ m, t.get_four_cells_mask cell_0 = some m := by
    cases e : t.get_four_cells_mask cell_0 with
    | some m => exact ⟨m, rfl⟩
    | none =>
      unfold detect_border_info detect_border_info_inner detect_border_info_outer at h
      simp [e] at h
  obtain ⟨m, hm⟩ := hm
  obtain ⟨tl, tr, bl, br, e0, e1, e2, e3, -⟩ := four_cells_mask_some t cell_0 m hm
  obtain ⟨v, hv, hf, hb⟩ := detect_border_info_apply t cell_0 tl tr bl br e0 e1 e2 e3
  rw [h] at hv
  cases hv
  exact ⟨window_in_grid_of_bits t cell_0 tl tr bl br e0 e1 e2 e3, hf, hb⟩

end AutoTiler

namespace AutoTiler

theorem borders_only_grid (t u : AutoTiler) (h : borders_only t u) :
    u.grid_size = t.grid_size := by
  unfold borders_only at h; rw [h]

theorem borders_only_box (t u : AutoTiler) (h : borders_only t u) :
    u.bounding_box = t.bounding_box := by
  unfold borders_only at h; rw [h]

theorem borders_only_squares (t u : AutoTiler) (h : borders_only t u) :
    u.occupied_squares = t.occupied_squares := by
  unfold borders_only at h; rw [h]

theorem borders_only_inner (t u : AutoTiler) (h : borders_only t u) :
    u.get_tileset.is_border_set_inner u.border_set_id =
      t.get_tileset.is_border_set_inner t.border_set_id := by
  unfold borders_only at h; rw [h]; rfl

theorem borders_only_occupied (t u : AutoTiler) (h : borders_only t u) (c : Int) :
    u.is_cell_occupied c = t.is_cell_occupied c := by
  unfold is_cell_occupied get_num_cells
  rw [borders_only_grid t u h, borders_only_squares t u h]

theorem borders_only_mask (t u : AutoTiler) (h : borders_only t u) (c : Int) :
    u.get_four_cells_mask c = t.get_four_cells_mask c := by
  unfold get_four_cells_mask
  simp only [borders_only_occupied t u h, borders_only_grid t u h]

theorem borders_only_assignments (t u : AutoTiler) (h : borders_only t u) (c : Int) :
    u.window_assignments c = t.window_assignments c := by
  unfold window_assignments rules_at mask_at
  rw [borders_only_mask t u h, borders_only_inner t u h, borders_only_grid t u h]

theorem borders_only_to_grid_index (t u : AutoTiler) (h : borders_only t u) (p : QPoint) :
    u.to_grid_index p = t.to_grid_index p := by
  unfold to_grid_index
  rw [borders_only_grid t u h, borders_only_box t u h]

theorem borders_only_rectangle_windows (t u : AutoTiler) (h : borders_only t u)
    (r : QRect) : u.rectangle_windows r = t.rectangle_windows r := by
  unfold rectangle_windows
  simp only [borders_only_to_grid_index t u h, borders_only_grid t u h]

theorem borders_only_window_in_grid (t u : AutoTiler) (h : borders_only t u) (c : Int) :
    u.window_in_grid c ↔ t.window_in_grid c := by
  unfold window_in_grid
  rw [borders_only_grid t u h, in_grid_congr t u (borders_only_grid t u h),
    in_grid_congr t u (borders_only_grid t u h), in_grid_congr t u (borders_only_grid t u h),
    in_grid_congr t u (borders_only_grid t u h)]

theorem borders_only_mask_sized (t u : AutoTiler) (h : borders_only t u) :
    u.mask_sized ↔ t.mask_sized := by
  unfold mask_sized get_num_cells
  rw [borders_only_grid t u h, borders_only_squares t u h]

/-- Running `detect_border_info` over a list of windows: when it succeeds,
only the border map changes, every window was in the grid, and the border map
is the one obtained by applying the assignments of the windows in turn. -/
theorem detect_fold_some (ws : List Int) (t u : AutoTiler)
    (h : ws.foldlM detect_border_info t = some u) :
    borders_only t u ∧ (∀ w ∈ ws, t.window_in_grid w) ∧
      u.border_at = apply_assignments t.border_at (ws.flatMap t.window_assignments) := by
  induction ws generalizing t with
  | nil =>
    simp only [List.foldlM_nil, Option.pure_def, Option.some.injEq] at h
    subst h
    exact ⟨borders_only_refl _, by simp, rfl⟩
  | cons w rest ih =>
    simp only [List.foldlM_cons, Option.bind_eq_bind] at h
    cases hd : t.detect_border_info w with
    | none => simp [hd] at h
    | some v =>
      rw [hd, Option.some_bind] at h
      obtain ⟨hw, hf, hb⟩ := detect_border_info_some t v w hd
      obtain ⟨hf2, hw2, hb2⟩ := ih v h
      refine ⟨borders_only_trans t v u hf hf2, ?_, ?_⟩
      · intro x hx
        rcases List.mem_cons.1 hx with rfl | hx
        · exact hw
        · exact (borders_only_window_in_grid t v hf x).1 (hw2 x hx)
      · have hfun : v.window_assignments = t.window_assignments :=
          funext fun x => borders_only_assignments t v hf x
        rw [hb2, hb, List.flatMap_cons, apply_assignments_append, hfun]

/-- Running `detect_border_info` over a list of windows that are all in the
grid succeeds. -/
theorem detect_fold_succeeds (ws : List Int) (t : AutoTiler) (hs : t.mask_sized)
    (hw : ∀ w ∈ ws, t.window_in_grid w) :
    ∃ u, ws.foldlM detect_border_info t = some u := by
  induction ws generalizing t with
  | nil => exact ⟨t, rfl⟩
  | cons w rest ih =>
    obtain ⟨tl, tr, bl, br, e0, e1, e2, e3⟩ :=
      window_bits t w hs (hw w (List.mem_cons_self _ _))
    obtain ⟨v, hv, hf, -⟩ := detect_border_info_apply t w tl tr bl br e0 e1 e2 e3
    simp only [List.foldlM_cons, Option.bind_eq_bind, hv, Option.some_bind]
    apply ih v ((borders_only_mask_sized t v hf).2 hs)
    intro x hx
    exact (borders_only_window_in_grid t v hf x).2 (hw x (List.mem_cons_of_mem _ hx))

theorem detect_side_eq (n : Nat) (step : Int) (t : AutoTiler) (cell_0 : Int) :
    detect_side n step t cell_0 =
      ((side_windows n step cell_0).foldlM detect_border_info t).map
        fun u => (u, cell_0 + n * step) := by
  induction n generalizing t cell_0 with
  | zero => simp [detect_side, side_windows]
  | succ n ih =>
    simp only [detect_side, side_windows, List.foldlM_cons, Option.bind_eq_bind]
    cases hd : t.detect_border_info cell_0 with
    | none => simp
    | some v =>
      simp only [Option.some_bind]
      rw [ih]
      congr 1
      funext u
      congr 1
      push_cast
      ring

theorem detect_rectangle_eq (t : AutoTiler) (rectangle : QRect) :
    t.detect_rectangle rectangle =
      (t.rectangle_windows rectangle).foldlM detect_border_info t := by
  unfold detect_rectangle rectangle_windows
  simp only [detect_side_eq, List.foldlM_append, Option.bind_eq_bind]
  cases h1 : (side_windows (Int.tdiv rectangle.width 8).toNat 1
      (t.to_grid_index rectangle.topLeft - 1 - t.grid_size.wd)).foldlM detect_border_info t with
  | none => simp
  | some u1 =>
    have g1 := borders_only_grid t u1 (detect_fold_some _ t u1 h1).1
    simp only [Option.map_some', Option.some_bind, g1]
    cases h2 : (side_windows (Int.tdiv rectangle.height 8).toNat t.grid_size.wd
        (t.to_grid_index rectangle.topLeft - 1 - t.grid_size.wd +
          ((Int.tdiv rectangle.width 8).toNat : Int) * 1)).foldlM detect_border_info u1 with
    | none => simp
    | some u2 =>
      have g2 := borders_only_grid u1 u2 (detect_fold_some _ u1 u2 h2).1
      simp only [Option.map_some', Option.some_bind, g2, g1]
      cases h3 : (side_windows (Int.tdiv rectangle.width 8).toNat (-1)
          (t.to_grid_index rectangle.topLeft - 1 - t.grid_size.wd +
            ((Int.tdiv rectangle.width 8).toNat : Int) * 1 +
            ((Int.tdiv rectangle.height 8).toNat : Int) * t.grid_size.wd)).foldlM
          detect_border_info u2 with
      | none => simp
      | some u3 =>
        have g3 := borders_only_grid u2 u3 (detect_fold_some _ u2 u3 h3).1
        simp only [Option.map_some', Option.some_bind, g3, g2, g1]
        cases h4 : (side_windows (Int.tdiv rectangle.height 8).toNat (-t.grid_size.wd)
            (t.to_grid_index rectangle.topLeft - 1 - t.grid_size.wd +
              ((Int.tdiv rectangle.width 8).toNat : Int) * 1 +
              ((Int.tdiv rectangle.height 8).toNat : Int) * t.grid_size.wd +
              ((Int.tdiv rectangle.width 8).toNat : Int) * (-1))).foldlM
            detect_border_info u3 with
        | none => simp
        | some u4 => simp

end AutoTiler

namespace AutoTiler

theorem detect_rectangles_eq (t : AutoTiler) (rects : List QRect) (u : AutoTiler)
    (h : borders_only t u) :
    rects.foldlM detect_rectangle u =
      (rects.flatMap t.rectangle_windows).foldlM detect_border_info u := by
  induction rects generalizing u with
  | nil => rfl
  | cons r rest ih =>
    simp only [List.foldlM_cons, List.flatMap_cons, List.foldlM_append, Option.bind_eq_bind]
    rw [detect_rectangle_eq, borders_only_rectangle_windows t u h]
    cases hv : (t.rectangle_windows r).foldlM detect_border_info u with
    | none => rfl
    | some v =>
      simp only [Option.some_bind]
      exact ih v (borders_only_trans t u v h (detect_fold_some _ u v hv).1)

/-- The procedure `compute_borders` runs `detect_border_info` over the
processed windows, from the empty border map. -/
theorem compute_borders_eq (t : AutoTiler) :
    t.compute_borders =
      t.processed_windows.foldlM detect_border_info { t with which_borders := [] } := by
  unfold compute_borders processed_windows
  exact detect_rectangles_eq t t.entity_rectangles _ rfl

theorem border_at_cleared (t : AutoTiler) :
    border_at { t with which_borders := [] } = no_border := by
  funext c
  rfl

end AutoTiler

theorem inner_rules_ne_none (m : Nat) (r : WindowCell × BorderKind) (h : r ∈ inner_rules m) :
    r.2 ≠ BorderKind.NONE := by
  unfold inner_rules at h
  split at h <;> simp at h <;>
    first
      | (subst h; simp)
      | (rcases h with h | h <;> subst h <;> simp)

theorem outer_rules_ne_none (m : Nat) (r : WindowCell × BorderKind) (h : r ∈ outer_rules m) :
    r.2 ≠ BorderKind.NONE := by
  unfold outer_rules at h
  split at h <;> simp at h <;>
    first
      | (subst h; simp)
      | (rcases h with h | h <;> subst h <;> simp)

theorem is_corner_iff (k : BorderKind) :
    is_corner_border k = true ↔ k ≠ BorderKind.NONE ∧ is_side_border k = false := by
  cases k <;> simp [is_corner_border, is_side_border]

theorem side_of_not_corner (k : BorderKind) (h1 : k ≠ BorderKind.NONE)
    (h2 : is_corner_border k = false) : is_side_border k = true := by
  revert h1 h2
  cases k <;> decide

theorem apply_rule_same (f : Int → BorderKind) (cell : Int) (kind : BorderKind) :
    apply_rule f cell kind cell =
      if is_side_border kind ∧ f cell ≠ BorderKind.NONE then f cell else kind := by
  unfold apply_rule
  rw [if_pos rfl]

/-- A cell that holds a corner kind holds a corner kind after any list of
assignments of kinds other than `NONE`. -/
theorem apply_assignments_corner_mono (l : List (Int × BorderKind)) (f : Int → BorderKind)
    (c : Int) (hn : ∀ a ∈ l, a.2 ≠ BorderKind.NONE) (hc : is_corner_border (f c) = true) :
    is_corner_border (apply_assignments f l c) = true := by
  induction l generalizing f with
  | nil => exact hc
  | cons a rest ih =>
    obtain ⟨cell, kind⟩ := a
    simp only [apply_assignments]
    apply ih _ (fun b hb => hn b (List.mem_cons_of_mem _ hb))
    by_cases hcc : c = cell
    · subst hcc
      rw [apply_rule_same]
      have hk : kind ≠ BorderKind.NONE := hn (c, kind) (List.mem_cons_self _ _)
      have hfc := (is_corner_iff (f c)).1 hc
      by_cases hs : is_side_border kind = true
      · rw [if_pos ⟨hs, hfc.1⟩]; exact hc
      · rw [if_neg (fun h => hs h.1)]
        exact (is_corner_iff kind).2 ⟨hk, by simpa using hs⟩
    · rw [apply_rule_other f cell kind c hcc]; exact hc

/-- A cell to which a list of assignments assigns a corner kind holds a
corner kind afterwards. -/
theorem apply_assignments_corner (l : List (Int × BorderKind)) (f : Int → BorderKind)
    (c : Int) (k : BorderKind) (hn : ∀ a ∈ l, a.2 ≠ BorderKind.NONE) (hm : (c, k) ∈ l)
    (hk : is_corner_border k = true) :
    is_corner_border (apply_assignments f l c) = true := by
  induction l generalizing f with
  | nil => simp at hm
  | cons a rest ih =>
    obtain ⟨cell, kind⟩ := a
    simp only [apply_assignments]
    have hn2 : ∀ b ∈ rest, b.2 ≠ BorderKind.NONE := fun b hb => hn b (List.mem_cons_of_mem _ hb)
    rcases List.mem_cons.1 hm with e | hm2
    · cases e
      apply apply_assignments_corner_mono rest _ c hn2
      rw [apply_rule_same, if_neg (fun h => by
        have := (is_corner_iff k).1 hk
        rw [this.2] at h
        exact absurd h.1 (by simp))]
      exact hk
    · exact ih _ hn2 hm2

/-- A cell holds a corner kind after a list of assignments only if it held
one before or the list assigns it one. -/
theorem apply_assignments_corner_inv (l : List (Int × BorderKind)) (f : Int → BorderKind)
    (c : Int) (h : is_corner_border (apply_assignments f l c) = true) :
    is_corner_border (f c) = true ∨ ∃ k, (c, k) ∈ l ∧ is_corner_border k = true := by
  induction l generalizing f with
  | nil => exact Or.inl h
  | cons a rest ih =>
    obtain ⟨cell, kind⟩ := a
    simp only [apply_assignments] at h
    rcases ih _ h with h1 | ⟨k, hk, hkc⟩
    · by_cases hcc : c = cell
      · subst hcc
        rw [apply_rule_same] at h1
        by_cases hs : is_side_border kind = true ∧ f c ≠ BorderKind.NONE
        · rw [if_pos hs] at h1; exact Or.inl h1
        · rw [if_neg hs] at h1
          exact Or.inr ⟨kind, List.mem_cons_self _ _, h1⟩
      · rw [apply_rule_other f cell kind c hcc] at h1; exact Or.inl h1
    · exact Or.inr ⟨k, List.mem_cons_of_mem _ hk, hkc⟩

/-- A cell holds `NONE` after a list of assignments of kinds other than
`NONE` exactly when it held `NONE` before and the list assigns nothing to
it. -/
theorem apply_assignments_none_iff (l : List (Int × BorderKind)) (f : Int → BorderKind)
    (c : Int) (hn : ∀ a ∈ l, a.2 ≠ BorderKind.NONE) :
    apply_assignments f l c = BorderKind.NONE ↔
      f c = BorderKind.NONE ∧ ∀ k, (c, k) ∉ l := by
  induction l generalizing f with
  | nil => simp [apply_assignments]
  | cons a rest ih =>
    obtain ⟨cell, kind⟩ := a
    simp only [apply_assignments]
    have hn2 : ∀ b ∈ rest, b.2 ≠ BorderKind.NONE := fun b hb => hn b (List.mem_cons_of_mem _ hb)
    have hk : kind ≠ BorderKind.NONE := hn (cell, kind) (List.mem_cons_self _ _)
    rw [ih _ hn2]
    by_cases hcc : c = cell
    · subst hcc
      rw [apply_rule_same]
      constructor
      · rintro ⟨h1, _⟩
        exfalso
        by_cases hs : is_side_border kind = true ∧ f c ≠ BorderKind.NONE
        · rw [if_pos hs] at h1; exact hs.2 h1
        · rw [if_neg hs] at h1; exact hk h1
      · rintro ⟨_, h2⟩
        exact absurd (List.mem_cons_self _ _) (h2 kind)
    · rw [apply_rule_other f cell kind c hcc]
      constructor
      · rintro ⟨h1, h2⟩
        refine ⟨h1, fun k hk2 => ?_⟩
        rcases List.mem_cons.1 hk2 with e | e
        · cases e; exact hcc rfl
        · exact h2 k e
      · rintro ⟨h1, h2⟩
        exact ⟨h1, fun k hk2 => h2 k (List.mem_cons_of_mem _ hk2)⟩

/-- A cell that holds a kind other than `NONE` keeps it through a list of
assignments that assigns it no corner kind. -/
theorem apply_assignments_keep (l : List (Int × BorderKind)) (f : Int → BorderKind)
    (c : Int) (hn : ∀ a ∈ l, a.2 ≠ BorderKind.NONE) (hf : f c ≠ BorderKind.NONE)
    (hno : ∀ k, (c, k) ∈ l → is_corner_border k = false) :
    apply_assignments f l c = f c := by
  induction l generalizing f with
  | nil => rfl
  | cons a rest ih =>
    obtain ⟨cell, kind⟩ := a
    simp only [apply_assignments]
    have hn2 : ∀ b ∈ rest, b.2 ≠ BorderKind.NONE := fun b hb => hn b (List.mem_cons_of_mem _ hb)
    have hk : kind ≠ BorderKind.NONE := hn (cell, kind) (List.mem_cons_self _ _)
    have step : apply_rule f cell kind c = f c := by
      by_cases hcc : c = cell
      · subst hcc
        rw [apply_rule_same]
        have hnc := hno kind (List.mem_cons_self _ _)
        have hs : is_side_border kind = true := side_of_not_corner kind hk hnc
        rw [if_pos ⟨hs, hf⟩]
      · exact apply_rule_other f cell kind c hcc
    rw [ih _ hn2 (by rw [step]; exact hf)
      (fun k hk2 => hno k (List.mem_cons_of_mem _ hk2)), step]

/-- The last corner kind assigned to a cell is the kind that the cell holds
in the end. -/
theorem apply_assignments_last_corner (pre post : List (Int × BorderKind))
    (f : Int → BorderKind) (c : Int) (k : BorderKind)
    (hn : ∀ a ∈ post, a.2 ≠ BorderKind.NONE) (hk : is_corner_border k = true)
    (hno : ∀ j, (c, j) ∈ post → is_corner_border j = false) :
    apply_assignments f (pre ++ (c, k) :: post) c = k := by
  rw [apply_assignments_append]
  simp only [apply_assignments]
  have hside : is_side_border k = false := ((is_corner_iff k).1 hk).2
  have hval : apply_rule (apply_assignments f pre) c k c = k := by
    rw [apply_rule_same, if_neg (fun h => by rw [hside] at h; exact absurd h.1 (by simp))]
  rw [apply_assignments_keep post _ c hn (by rw [hval]; exact ((is_corner_iff k).1 hk).1) hno,
    hval]

set_option maxHeartbeats 1600000 in
theorem kind_class_eq_iff (a b : BorderKind) :
    kind_class a = kind_class b ↔
      ((a = BorderKind.NONE ↔ b = BorderKind.NONE) ∧
       (is_corner_border a = true ↔ is_corner_border b = true)) := by
  cases a <;> cases b <;> decide

/-- The class of the kind a cell holds after a list of assignments depends
only on the assignments that the list contains, not on their order. -/
theorem apply_assignments_class_perm (l1 l2 : List (Int × BorderKind)) (f : Int → BorderKind)
    (c : Int) (hp : l1.Perm l2) (hn : ∀ a ∈ l1, a.2 ≠ BorderKind.NONE) :
    kind_class (apply_assignments f l1 c) = kind_class (apply_assignments f l2 c) := by
  have hn2 : ∀ a ∈ l2, a.2 ≠ BorderKind.NONE := fun a ha => hn a (hp.mem_iff.2 ha)
  rw [kind_class_eq_iff]
  constructor
  · rw [apply_assignments_none_iff l1 f c hn, apply_assignments_none_iff l2 f c hn2]
    constructor
    · rintro ⟨h1, h2⟩; exact ⟨h1, fun k hk => h2 k (hp.mem_iff.2 hk)⟩
    · rintro ⟨h1, h2⟩; exact ⟨h1, fun k hk => h2 k (hp.mem_iff.1 hk)⟩
  · constructor
    · intro h
      rcases apply_assignments_corner_inv l1 f c h with h1 | ⟨k, hk, hkc⟩
      · exact apply_assignments_corner_mono l2 f c hn2 h1
      · exact apply_assignments_corner l2 f c k hn2 (hp.mem_iff.1 hk) hkc
    · intro h
      rcases apply_assignments_corner_inv l2 f c h with h1 | ⟨k, hk, hkc⟩
      · exact apply_assignments_corner_mono l1 f c hn h1
      · exact apply_assignments_corner l1 f c k hn (hp.mem_iff.2 hk) hkc

namespace AutoTiler

theorem window_assignments_ne_none (t : AutoTiler) (w : Int) (a : Int × BorderKind)
    (h : a ∈ t.window_assignments w) : a.2 ≠ BorderKind.NONE := by
  unfold window_assignments rules_at at h
  obtain ⟨r, hr, rfl⟩ := List.mem_map.1 h
  split at hr
  · exact inner_rules_ne_none _ r hr
  · exact outer_rules_ne_none _ r hr

theorem flat_assignments_ne_none (t : AutoTiler) (ws : List Int) (a : Int × BorderKind)
    (h : a ∈ ws.flatMap t.window_assignments) : a.2 ≠ BorderKind.NONE := by
  obtain ⟨w, _, hw⟩ := List.mem_flatMap.1 h
  exact window_assignments_ne_none t w a hw

end AutoTiler

theorem corner_not_side (k : BorderKind) (h : is_corner_border k = true) :
    is_side_border k = false := ((is_corner_iff k).1 h).2

/-- A cell that holds a kind and does not hold a corner kind after a list of
assignments still holds the kind it held. -/
theorem apply_assignments_side_keeps (l : List (Int × BorderKind)) (f : Int → BorderKind)
    (c : Int) (hn : ∀ a ∈ l, a.2 ≠ BorderKind.NONE) (hf : f c ≠ BorderKind.NONE)
    (hr : is_corner_border (apply_assignments f l c) = false) :
    apply_assignments f l c = f c := by
  apply apply_assignments_keep l f c hn hf
  intro k hk
  cases hkc : is_corner_border k with
  | false => rfl
  | true =>
    rw [apply_assignments_corner l f c k hn hk hkc] at hr
    exact absurd hr (by simp)

namespace AutoTiler

set_option maxHeartbeats 1600000 in
/-- In a grid more than one cell wide, the cells of the assignments of a
window are distinct. -/
theorem window_assignments_nodup (t : AutoTiler) (w : Int) (hg : 1 < t.grid_size.wd) :
    ((t.window_assignments w).map Prod.fst).Nodup := by
  unfold window_assignments rules_at
  split
  · unfold inner_rules
    split <;> simp [WindowCell.index] <;> omega
  · unfold outer_rules
    split <;> simp [WindowCell.index] <;> omega

/-- After the assignments of one window in a grid more than one cell wide,
a cell to which the window assigns a corner kind holds that kind. -/
theorem window_assignments_corner_value (t : AutoTiler) (w : Int) (f : Int → BorderKind)
    (c : Int) (k : BorderKind) (hg : 1 < t.grid_size.wd)
    (hm : (c, k) ∈ t.window_assignments w) (hk : is_corner_border k = true) :
    apply_assignments f (t.window_assignments w) c = k := by
  obtain ⟨pre, post, hsplit⟩ := List.append_of_mem hm
  have hnd := window_assignments_nodup t w hg
  rw [hsplit] at hnd ⊢
  apply apply_assignments_last_corner pre post f c k
  · intro a ha
    apply window_assignments_ne_none t w a
    rw [hsplit]
    exact List.mem_append_right _ (List.mem_cons_of_mem _ ha)
  · exact hk
  · intro j hj
    exfalso
    rw [List.map_append, List.map_cons] at hnd
    have h2 := (List.nodup_append.1 hnd).2.1
    have h3 := (List.nodup_cons.1 h2).1
    exact h3 (List.mem_map.2 ⟨(c, j), hj, rfl⟩)

theorem cleared_borders_only (t : AutoTiler) :
    borders_only t { t with which_borders := [] } := rfl

/-- When the mask has one entry per cell and the windows that
`compute_borders` processes are in the grid, `compute_borders` succeeds and
its border map is the empty one to which the assignments of the processed
windows have been applied in turn. -/
theorem compute_borders_apply (t : AutoTiler) (hs : t.mask_sized)
    (hw : ∀ w ∈ t.processed_windows, t.window_in_grid w) :
    ∃ u, t.compute_borders = some u ∧ borders_only t u ∧
      u.border_at =
        apply_assignments no_border (t.processed_windows.flatMap t.window_assignments) := by
  have hc := cleared_borders_only t
  obtain ⟨u, hu⟩ := detect_fold_succeeds t.processed_windows { t with which_borders := [] }
    ((borders_only_mask_sized t _ hc).2 hs)
    (fun w hwm => (borders_only_window_in_grid t _ hc w).2 (hw w hwm))
  obtain ⟨hf, -, hb⟩ := detect_fold_some _ _ u hu
  refine ⟨u, by rw [compute_borders_eq]; exact hu, borders_only_trans t _ u hc hf, ?_⟩
  rw [hb, border_at_cleared]
  have hfun : window_assignments { t with which_borders := [] } = t.window_assignments :=
    funext fun x => borders_only_assignments t _ hc x
  rw [hfun]

/-- C8: in both modes, a step of the classification changes a cell that
already holds a border kind only into a corner kind (a side rule never changes
it), and a corner rule leaves a corner kind in its target cell whatever the
cell held (the rule's own kind in a grid more than one cell wide); hence,
when the processed windows are in the grid, `compute_borders` succeeds and
every cell to which a processed window assigns a corner kind holds a corner
kind, not a side kind, at the end. -/
theorem corner_priority (t : AutoTiler) (hs : t.mask_sized)
    (hw : ∀ w ∈ t.processed_windows, t.window_in_grid w) :
    (∀ (v u : AutoTiler) (cell_0 c : Int), v.detect_border_info cell_0 = some u →
      v.border_at c ≠ BorderKind.NONE → is_corner_border (u.border_at c) = false →
      u.border_at c = v.border_at c) ∧
    (∀ (v u : AutoTiler) (cell_0 c : Int) (k : BorderKind),
      v.detect_border_info cell_0 = some u → (c, k) ∈ v.window_assignments cell_0 →
      is_corner_border k = true →
      is_corner_border (u.border_at c) = true ∧ (1 < v.grid_size.wd → u.border_at c = k)) ∧
    ∃ u, t.compute_borders = some u ∧
      ∀ w ∈ t.processed_windows, ∀ (c : Int) (k : BorderKind),
        (c, k) ∈ t.window_assignments w → is_corner_border k = true →
        is_corner_border (u.border_at c) = true ∧ is_side_border (u.border_at c) = false := by
  refine ⟨?_, ?_, ?_⟩
  · intro v u cell_0 c hd hv hr
    obtain ⟨-, -, hb⟩ := detect_border_info_some v u cell_0 hd
    rw [hb] at hr ⊢
    exact apply_assignments_side_keeps _ _ c (window_assignments_ne_none v cell_0) hv hr
  · intro v u cell_0 c k hd hm hk
    obtain ⟨-, -, hb⟩ := detect_border_info_some v u cell_0 hd
    rw [hb]
    exact ⟨apply_assignments_corner _ _ c k (window_assignments_ne_none v cell_0) hm hk,
      fun hg => window_assignments_corner_value v cell_0 _ c k hg hm hk⟩
  · obtain ⟨u, hu, -, hb⟩ := compute_borders_apply t hs hw
    refine ⟨u, hu, ?_⟩
    intro w hwm c k hm hk
    have hcor : is_corner_border (u.border_at c) = true := by
      rw [hb]
      exact apply_assignments_corner _ _ c k (flat_assignments_ne_none t _)
        (List.mem_flatMap.2 ⟨w, hwm, hm⟩) hk
    exact ⟨hcor, corner_not_side _ hcor⟩

/-- Witness of C8: the 3x3 grid whose centre is occupied. -/
theorem corner_priority_witness :
    (grid_3x3 true).mask_sized ∧
    (∀ w ∈ (grid_3x3 true).processed_windows, (grid_3x3 true).window_in_grid w) ∧
    ∃ u, (grid_3x3 true).compute_borders = some u ∧
      ∀ w ∈ (grid_3x3 true).processed_windows, ∀ (c : Int) (k : BorderKind),
        (c, k) ∈ (grid_3x3 true).window_assignments w → is_corner_border k = true →
        is_corner_border (u.border_at c) = true ∧ is_side_border (u.border_at c) = false :=
  ⟨by decide, by decide,
    (corner_priority (grid_3x3 true) (by decide) (by decide)).2.2⟩

end AutoTiler

namespace AutoTiler

theorem window_assignments_outer_6 (t : AutoTiler) (w : Int)
    (ho : t.get_tileset.is_border_set_inner t.border_set_id = false)
    (hm : t.mask_at w = 6) :
    t.window_assignments w =
      [(w, BorderKind.TOP_LEFT_CONCAVE),
       (w + t.grid_size.wd + 1, BorderKind.BOTTOM_RIGHT_CONCAVE)] := by
  unfold window_assignments rules_at
  rw [ho, hm]
  simp [outer_rules, WindowCell.index]

/-- C10, amended: in outer mode, when the processed windows are in a grid
of positive width, `compute_borders` succeeds and, for every processed window
of mask 0110, the window's top-left and bottom-right cells hold corner kinds in
the end; the top-left cell holds TOP_LEFT_CONCAVE, and the bottom-right cell
BOTTOM_RIGHT_CONCAVE, when no window processed later assigns a corner kind
to that cell. -/
theorem outer_mask_6_corners (t : AutoTiler) (hs : t.mask_sized)
    (hw : ∀ w ∈ t.processed_windows, t.window_in_grid w)
    (ho : t.get_tileset.is_border_set_inner t.border_set_id = false)
    (hg : 0 < t.grid_size.wd) :
    ∃ u, t.compute_borders = some u ∧
      ∀ (pre post : List Int) (w : Int), t.processed_windows = pre ++ w :: post →
        t.mask_at w = 6 →
        is_corner_border (u.border_at w) = true ∧
        is_side_border (u.border_at w) = false ∧
        is_corner_border (u.border_at (w + t.grid_size.wd + 1)) = true ∧
        is_side_border (u.border_at (w + t.grid_size.wd + 1)) = false ∧
        ((∀ x ∈ post, ∀ k, (w, k) ∈ t.window_assignments x → is_corner_border k = false) →
          u.border_at w = BorderKind.TOP_LEFT_CONCAVE) ∧
        ((∀ x ∈ post, ∀ k, (w + t.grid_size.wd + 1, k) ∈ t.window_assignments x →
            is_corner_border k = false) →
          u.border_at (w + t.grid_size.wd + 1) = BorderKind.BOTTOM_RIGHT_CONCAVE) := by
  obtain ⟨u, hu, -, hb⟩ := compute_borders_apply t hs hw
  refine ⟨u, hu, ?_⟩
  intro pre post w hsplit hm
  have ha := window_assignments_outer_6 t w ho hm
  have hmem : w ∈ t.processed_windows := by rw [hsplit]; simp
  have hn := flat_assignments_ne_none t t.processed_windows
  have c1 : is_corner_border (u.border_at w) = true := by
    rw [hb]
    exact apply_assignments_corner _ _ w BorderKind.TOP_LEFT_CONCAVE hn
      (List.mem_flatMap.2 ⟨w, hmem, by rw [ha]; simp⟩) rfl
  have c2 : is_corner_border (u.border_at (w + t.grid_size.wd + 1)) = true := by
    rw [hb]
    exact apply_assignments_corner _ _ _ BorderKind.BOTTOM_RIGHT_CONCAVE hn
      (List.mem_flatMap.2 ⟨w, hmem, by rw [ha]; simp⟩) rfl
  refine ⟨c1, corner_not_side _ c1, c2, corner_not_side _ c2, ?_, ?_⟩
  · intro hlater
    rw [hb, hsplit, List.flatMap_append, List.flatMap_cons, ha]
    have e : pre.flatMap t.window_assignments ++
        ([(w, BorderKind.TOP_LEFT_CONCAVE),
          (w + t.grid_size.wd + 1, BorderKind.BOTTOM_RIGHT_CONCAVE)] ++
          post.flatMap t.window_assignments) =
        pre.flatMap t.window_assignments ++ (w, BorderKind.TOP_LEFT_CONCAVE) ::
          ((w + t.grid_size.wd + 1, BorderKind.BOTTOM_RIGHT_CONCAVE) ::
            post.flatMap t.window_assignments) := by simp
    rw [e]
    apply apply_assignments_last_corner
    · intro a ha2
      rcases List.mem_cons.1 ha2 with e1 | ha2
      · subst e1; simp
      · exact flat_assignments_ne_none t post a ha2
    · rfl
    · intro j hj
      rcases List.mem_cons.1 hj with e1 | hj
      · exfalso
        have := congrArg Prod.fst e1
        simp at this
        omega
      · obtain ⟨x, hx, hxm⟩ := List.mem_flatMap.1 hj
        exact hlater x hx j hxm
  · intro hlater
    rw [hb, hsplit, List.flatMap_append, List.flatMap_cons, ha]
    have e : pre.flatMap t.window_assignments ++
        ([(w, BorderKind.TOP_LEFT_CONCAVE),
          (w + t.grid_size.wd + 1, BorderKind.BOTTOM_RIGHT_CONCAVE)] ++
          post.flatMap t.window_assignments) =
        (pre.flatMap t.window_assignments ++ [(w, BorderKind.TOP_LEFT_CONCAVE)]) ++
          (w + t.grid_size.wd + 1, BorderKind.BOTTOM_RIGHT_CONCAVE) ::
            post.flatMap t.window_assignments := by simp
    rw [e]
    apply apply_assignments_last_corner
    · exact flat_assignments_ne_none t post
    · rfl
    · intro j hj
      obtain ⟨x, hx, hxm⟩ := List.mem_flatMap.1 hj
      exact hlater x hx j hxm

/-- Witness of C10 (amended): in the 4x4 grid whose cells 6 and 9 are
occupied, in outer mode, the window at cell 5 has mask 0110 and is processed
for the last time before the windows at cells 9 and 8, which assign nothing to
its top-left and bottom-right cells; these cells hold TOP_LEFT_CONCAVE and
BOTTOM_RIGHT_CONCAVE in the end. -/
theorem outer_mask_6_corners_witness :
    ∃ u, (grid_4x4 false).compute_borders = some u ∧
      (grid_4x4 false).processed_windows = [1, 2, 6, 5, 4] ++ 5 :: [9, 8] ∧
      (grid_4x4 false).mask_at 5 = 6 ∧
      u.border_at 5 = BorderKind.TOP_LEFT_CONCAVE ∧
      u.border_at (5 + (grid_4x4 false).grid_size.wd + 1) = BorderKind.BOTTOM_RIGHT_CONCAVE :=
  match outer_mask_6_corners (grid_4x4 false) (by decide) (by decide) (by decide)
      (by decide) with
  | ⟨u, hu, h⟩ =>
    ⟨u, hu, by decide, by decide,
      (h [1, 2, 6, 5, 4] [9, 8] 5 (by decide) (by decide)).2.2.2.2.1 (by
        intro x hx k hk
        simp at hx
        rcases hx with rfl | rfl <;> revert hk <;> cases k <;> decide),
      (h [1, 2, 6, 5, 4] [9, 8] 5 (by decide) (by decide)).2.2.2.2.2 (by
        intro x hx k hk
        simp at hx
        rcases hx with rfl | rfl <;> revert hk <;> cases k <;> decide)⟩

/-- Counterexample to C10: in outer mode, for the three regions of
`regions_diagonal_last`, the window at cell 12 of the 5x5 grid is processed and
has mask 0110, and its top-left cell (cell 12) holds BOTTOM_RIGHT_CONVEX at the
end of the classification, not TOP_LEFT_CONCAVE. -/
theorem outer_mask_6_counterexample :
    ((tiler_of (tileset_8x8 false) regions_diagonal_last).classify.map fun u =>
      (u.get_tileset.is_border_set_inner u.border_set_id,
       decide ((12 : Int) ∈ u.processed_windows), u.mask_at 12, u.border_at 12)) =
      some (false, true, 6, BorderKind.BOTTOM_RIGHT_CONVEX) := by
  decide!

end AutoTiler

namespace AutoTiler

/-- Counterexample to C9: the classification of two regions that touch by a
corner leaves, in inner mode, BOTTOM_RIGHT_CONVEX in cell 5 of the 4x4 grid,
and BOTTOM_LEFT_CONVEX when the two regions are given in the other order; in
outer mode, two regions separated by a one-cell gap leave TOP_LEFT_CONVEX or
TOP_RIGHT_CONVEX in cell 2 of the 5x3 grid according to their order. -/
theorem classification_order_counterexample :
    regions_touching.reverse.Perm regions_touching ∧
    ((tiler_of (tileset_8x8 true) regions_touching).classify.map fun u => u.border_at 5) =
      some BorderKind.BOTTOM_RIGHT_CONVEX ∧
    ((tiler_of (tileset_8x8 true) regions_touching.reverse).classify.map fun u =>
      u.border_at 5) = some BorderKind.BOTTOM_LEFT_CONVEX ∧
    regions_gap.reverse.Perm regions_gap ∧
    ((tiler_of (tileset_8x8 false) regions_gap).classify.map fun u => u.border_at 2) =
      some BorderKind.TOP_LEFT_CONVEX ∧
    ((tiler_of (tileset_8x8 false) regions_gap.reverse).classify.map fun u =>
      u.border_at 2) = some BorderKind.TOP_RIGHT_CONVEX :=
  ⟨List.reverse_perm _, by decide!, by decide!, List.reverse_perm _, by decide!, by decide!⟩

/-- C7: on a tiler without regions, `generate_border_tiles` returns the empty
sequence and leaves every member of the tiler as it was: no pattern size,
grid, occupancy mask, border map or tile is computed. -/
theorem generate_border_tiles_empty (t : AutoTiler) (h : t.entity_rectangles = []) :
    t.generate_border_tiles = some (t, []) := by
  unfold generate_border_tiles
  rw [h]
  rfl

/-- Witness of C7: the tiler constructed for no entity. -/
theorem generate_border_tiles_empty_witness :
    (tiler_of (tileset_8x8 true) []).entity_rectangles = [] ∧
    (tiler_of (tileset_8x8 true) []).generate_border_tiles =
      some (tiler_of (tileset_8x8 true) [], []) :=
  ⟨rfl, generate_border_tiles_empty (tiler_of (tileset_8x8 true) []) rfl⟩

end AutoTiler

namespace AutoTiler

/-- C4, evaluation at the failing input: for the region (0, 0, 16, 16) and a
border set without any pattern, the 12 resolved sizes are the invalid size
(-1, -1), so `compute_bounding_box` moves the origin of the grid to (1, 1), one
pixel inside the region, and shrinks the box to 14x14 pixels (2x2 cells),
whereas the maximum in which a missing pattern counts for zero is (0, 0) and
leaves the origin at (0, 0), the top-left corner of the region. -/
theorem compute_bounding_box_unmapped :
    (tiler_of (tileset_unmapped true)
        [QRect.ofXYWH 0 0 16 16]).compute_pattern_sizes.pattern_sizes =
      List.replicate 12 QSize.invalid ∧
    (tiler_of (tileset_unmapped true)
        [QRect.ofXYWH 0 0 16 16]).compute_pattern_sizes.compute_bounding_box.bounding_box =
      QRect.ofXYWH 1 1 14 14 ∧
    (tiler_of (tileset_unmapped true)
        [QRect.ofXYWH 0 0 16 16]).compute_pattern_sizes.compute_bounding_box.grid_size =
      ⟨2, 2⟩ ∧
    max_pattern_size_spec (tileset_unmapped true) "border" = ⟨0, 0⟩ ∧
    ((QRect.ofXYWH 0 0 16 16).translate
        (-(max_pattern_size_spec (tileset_unmapped true) "border").wd)
        (-(max_pattern_size_spec (tileset_unmapped true) "border").ht)).topLeft = ⟨0, 0⟩ := by
  decide!

/-- C5, evaluation at the failing input: for the region (0, 0, 8, 8) and a
border set without any pattern, the grid has a single cell and no margin; the
first window that `compute_borders` processes has its top-left cell at index
-2, outside the grid, so the classification and `generate_border_tiles`
fail on the assertion of `is_cell_occupied`. -/
theorem compute_borders_unmapped :
    ((tiler_of (tileset_unmapped true)
        [QRect.ofXYWH 0 0 8 8]).compute_pattern_sizes.compute_bounding_box.compute_occupied_squares.map
      fun u => (u.grid_size, u.get_num_cells, u.occupied_squares)) =
      some (⟨1, 1⟩, 1, [true]) ∧
    ((tiler_of (tileset_unmapped true)
        [QRect.ofXYWH 0 0 8 8]).compute_pattern_sizes.compute_bounding_box.compute_occupied_squares.map
      fun u => (u.processed_windows.head?, u.is_cell_occupied (-2))) =
      some (some (-2), none) ∧
    ((tiler_of (tileset_unmapped true)
        [QRect.ofXYWH 0 0 8 8]).compute_pattern_sizes.compute_bounding_box.compute_occupied_squares.map
      fun u => u.compute_borders.isNone) = some true ∧
    (tiler_of (tileset_unmapped true) [QRect.ofXYWH 0 0 8 8]).generate_border_tiles.isNone =
      true := by
  refine ⟨by decide!, by decide!, by decide!, by decide!⟩

/-- C6, evaluation at the failing input: for the region (0, 0, 16, 8) and a
border set without any pattern, the grid has 2x1 cells with its origin at
(1, 1); `compute_occupied_squares` marks cell 0, whose 8x8 square at (1, 1) is
not contained in the region, and the mask is true for exactly one of the two
cells although the region is two cells wide. -/
theorem compute_occupied_squares_unmapped :
    ((tiler_of (tileset_unmapped true)
        [QRect.ofXYWH 0 0 16 8]).compute_pattern_sizes.compute_bounding_box.compute_occupied_squares.map
      fun u => (u.grid_size, u.occupied_squares)) = some (⟨2, 1⟩, [true, false]) ∧
    ((tiler_of (tileset_unmapped true)
        [QRect.ofXYWH 0 0 16 8]).compute_pattern_sizes.compute_bounding_box.compute_occupied_squares.map
      fun u => (u.to_map_xy 0, u.cell_covered 0)) = some (some ⟨1, 1⟩, false) ∧
    ((tiler_of (tileset_unmapped true)
        [QRect.ofXYWH 0 0 16 8]).compute_pattern_sizes.compute_bounding_box.compute_occupied_squares.map
      fun u => (u.to_map_xy 1, u.cell_covered 1)) = some (some ⟨9, 1⟩, false) := by
  refine ⟨by decide!, by decide!, by decide!⟩

end AutoTiler

namespace AutoTiler

/-- C3: when the four cells of the window at `cell_0` lie in the grid,
`get_four_cells_mask` returns 8 * (top-left occupied) + 4 * (top-right
occupied) + 2 * (bottom-left occupied) + 1 * (bottom-right occupied), the cells
being `cell_0`, `cell_0 + 1`, `cell_0 + grid_width` and
`cell_0 + grid_width + 1`; the result is at most 15. -/
theorem get_four_cells_mask_bits (t : AutoTiler) (cell_0 : Int) (hs : t.mask_sized)
    (h0 : t.in_grid cell_0) (h1 : t.in_grid (cell_0 + 1))
    (h2 : t.in_grid (cell_0 + t.grid_size.wd))
    (h3 : t.in_grid (cell_0 + t.grid_size.wd + 1)) :
    ∃ tl tr bl br,
      t.is_cell_occupied cell_0 = some tl ∧
      t.is_cell_occupied (cell_0 + 1) = some tr ∧
      t.is_cell_occupied (cell_0 + t.grid_size.wd) = some bl ∧
      t.is_cell_occupied (cell_0 + t.grid_size.wd + 1) = some br ∧
      t.get_four_cells_mask cell_0 =
        some (8 * tl.toNat + 4 * tr.toNat + 2 * bl.toNat + 1 * br.toNat) ∧
      8 * tl.toNat + 4 * tr.toNat + 2 * bl.toNat + 1 * br.toNat ≤ 15 := by
  obtain ⟨tl, e0⟩ := is_cell_occupied_some t _ hs h0
  obtain ⟨tr, e1⟩ := is_cell_occupied_some t _ hs h1
  obtain ⟨bl, e2⟩ := is_cell_occupied_some t _ hs h2
  obtain ⟨br, e3⟩ := is_cell_occupied_some t _ hs h3
  refine ⟨tl, tr, bl, br, e0, e1, e2, e3, ?_, ?_⟩
  · rw [four_cells_mask_of_bits t cell_0 tl tr bl br e0 e1 e2 e3]
    simp [window_mask]
  · have := window_mask_le tl tr bl br
    simpa [window_mask] using this

/-- Witness of C3: the window at cell 4 of the 3x3 grid whose centre is
occupied (mask 1000). -/
theorem get_four_cells_mask_bits_witness :
    ∃ tl tr bl br,
      (grid_3x3 true).is_cell_occupied 4 = some tl ∧
      (grid_3x3 true).is_cell_occupied (4 + 1) = some tr ∧
      (grid_3x3 true).is_cell_occupied (4 + (grid_3x3 true).grid_size.wd) = some bl ∧
      (grid_3x3 true).is_cell_occupied (4 + (grid_3x3 true).grid_size.wd + 1) = some br ∧
      (grid_3x3 true).get_four_cells_mask 4 =
        some (8 * tl.toNat + 4 * tr.toNat + 2 * bl.toNat + 1 * br.toNat) ∧
      8 * tl.toNat + 4 * tr.toNat + 2 * bl.toNat + 1 * br.toNat ≤ 15 :=
  get_four_cells_mask_bits (grid_3x3 true) 4 (by decide) (by decide) (by decide) (by decide)
    (by decide)

/-- C1: for every tiler and every window whose four cells lie in the grid,
`detect_border_info_inner` succeeds, changes nothing but the border map, and
the border map after it is the one obtained by applying to the border map
before it the assignments of the inner-mode column of the rule table for the
window's mask; cells outside the window keep their kind. It is the function
`detect_border_info` runs for an inner border set. -/
theorem detect_border_info_inner_table (t : AutoTiler) (cell_0 : Int) (hs : t.mask_sized)
    (h0 : t.in_grid cell_0) (h1 : t.in_grid (cell_0 + 1))
    (h2 : t.in_grid (cell_0 + t.grid_size.wd))
    (h3 : t.in_grid (cell_0 + t.grid_size.wd + 1)) :
    ∃ tl tr bl br u,
      t.is_cell_occupied cell_0 = some tl ∧
      t.is_cell_occupied (cell_0 + 1) = some tr ∧
      t.is_cell_occupied (cell_0 + t.grid_size.wd) = some bl ∧
      t.is_cell_occupied (cell_0 + t.grid_size.wd + 1) = some br ∧
      t.detect_border_info_inner cell_0 = some u ∧
      (t.get_tileset.is_border_set_inner t.border_set_id = true →
        t.detect_border_info cell_0 = some u) ∧
      borders_only t u ∧
      u.border_at = apply_rules t.grid_size.wd cell_0
          (inner_rules (window_mask tl tr bl br)) t.border_at ∧
      ∀ c, c ≠ cell_0 → c ≠ cell_0 + 1 → c ≠ cell_0 + t.grid_size.wd →
        c ≠ cell_0 + t.grid_size.wd + 1 → u.border_at c = t.border_at c := by
  obtain ⟨tl, tr, bl, br, e0, e1, e2, e3⟩ := window_bits t cell_0 hs ⟨h0, h1, h2, h3⟩
  obtain ⟨u, hu, hf, hb⟩ := detect_inner_apply t cell_0 tl tr bl br e0 e1 e2 e3
  refine ⟨tl, tr, bl, br, u, e0, e1, e2, e3, hu, ?_, hf, hb, ?_⟩
  · intro hi
    unfold detect_border_info
    rw [if_pos hi, hu]
  · intro c c0 c1 c2 c3
    rw [hb]
    exact apply_rules_other _ _ _ _ c c0 c1 c2 c3

/-- Witness of C1: the window at cell 4 of the 3x3 grid whose centre is occupied
(mask 1000). -/
theorem detect_border_info_inner_table_witness :
    ∃ tl tr bl br u,
      (grid_3x3 true).is_cell_occupied 4 = some tl ∧
      (grid_3x3 true).is_cell_occupied (4 + 1) = some tr ∧
      (grid_3x3 true).is_cell_occupied (4 + (grid_3x3 true).grid_size.wd) = some bl ∧
      (grid_3x3 true).is_cell_occupied (4 + (grid_3x3 true).grid_size.wd + 1) = some br ∧
      (grid_3x3 true).detect_border_info_inner 4 = some u ∧
      ((grid_3x3 true).get_tileset.is_border_set_inner (grid_3x3 true).border_set_id = true →
        (grid_3x3 true).detect_border_info 4 = some u) ∧
      borders_only (grid_3x3 true) u ∧
      u.border_at = apply_rules (grid_3x3 true).grid_size.wd 4
          (inner_rules (window_mask tl tr bl br)) (grid_3x3 true).border_at ∧
      ∀ c, c ≠ 4 → c ≠ 4 + 1 → c ≠ 4 + (grid_3x3 true).grid_size.wd →
        c ≠ 4 + (grid_3x3 true).grid_size.wd + 1 → u.border_at c = (grid_3x3 true).border_at c :=
  detect_border_info_inner_table (grid_3x3 true) 4 (by decide) (by decide) (by decide)
    (by decide) (by decide)

/-- C2: for every tiler and every window whose four cells lie in the grid,
`detect_border_info_outer` succeeds, changes nothing but the border map, and
the border map after it is the one obtained by applying to the border map
before it the assignments of the outer-mode column of the rule table for the
window's mask; cells outside the window keep their kind. It is the function
`detect_border_info` runs for an outer border set. -/
theorem detect_border_info_outer_table (t : AutoTiler) (cell_0 : Int) (hs : t.mask_sized)
    (h0 : t.in_grid cell_0) (h1 : t.in_grid (cell_0 + 1))
    (h2 : t.in_grid (cell_0 + t.grid_size.wd))
    (h3 : t.in_grid (cell_0 + t.grid_size.wd + 1)) :
    ∃ tl tr bl br u,
      t.is_cell_occupied cell_0 = some tl ∧
      t.is_cell_occupied (cell_0 + 1) = some tr ∧
      t.is_cell_occupied (cell_0 + t.grid_size.wd) = some bl ∧
      t.is_cell_occupied (cell_0 + t.grid_size.wd + 1) = some br ∧
      t.detect_border_info_outer cell_0 = some u ∧
      (t.get_tileset.is_border_set_inner t.border_set_id = false →
        t.detect_border_info cell_0 = some u) ∧
      borders_only t u ∧
      u.border_at = apply_rules t.grid_size.wd cell_0
          (outer_rules (window_mask tl tr bl br)) t.border_at ∧
      ∀ c, c ≠ cell_0 → c ≠ cell_0 + 1 → c ≠ cell_0 + t.grid_size.wd →
        c ≠ cell_0 + t.grid_size.wd + 1 → u.border_at c = t.border_at c := by
  obtain ⟨tl, tr, bl, br, e0, e1, e2, e3⟩ := window_bits t cell_0 hs ⟨h0, h1, h2, h3⟩
  obtain ⟨u, hu, hf, hb⟩ := detect_outer_apply t cell_0 tl tr bl br e0 e1 e2 e3
  refine ⟨tl, tr, bl, br, u, e0, e1, e2, e3, hu, ?_, hf, hb, ?_⟩
  · intro hi
    unfold detect_border_info
    rw [hi, hu]
    rfl
  · intro c c0 c1 c2 c3
    rw [hb]
    exact apply_rules_other _ _ _ _ c c0 c1 c2 c3

/-- Witness of C2: the window at cell 4 of the 3x3 grid whose centre is occupied
(mask 1000). -/
theorem detect_border_info_outer_table_witness :
    ∃ tl tr bl br u,
      (grid_3x3 false).is_cell_occupied 4 = some tl ∧
      (grid_3x3 false).is_cell_occupied (4 + 1) = some tr ∧
      (grid_3x3 false).is_cell_occupied (4 + (grid_3x3 false).grid_size.wd) = some bl ∧
      (grid_3x3 false).is_cell_occupied (4 + (grid_3x3 false).grid_size.wd + 1) = some br ∧
      (grid_3x3 false).detect_border_info_outer 4 = some u ∧
      ((grid_3x3 false).get_tileset.is_border_set_inner (grid_3x3 false).border_set_id = false →
        (grid_3x3 false).detect_border_info 4 = some u) ∧
      borders_only (grid_3x3 false) u ∧
      u.border_at = apply_rules (grid_3x3 false).grid_size.wd 4
          (outer_rules (window_mask tl tr bl br)) (grid_3x3 false).border_at ∧
      ∀ c, c ≠ 4 → c ≠ 4 + 1 → c ≠ 4 + (grid_3x3 false).grid_size.wd →
        c ≠ 4 + (grid_3x3 false).grid_size.wd + 1 → u.border_at c = (grid_3x3 false).border_at c :=
  detect_border_info_outer_table (grid_3x3 false) 4 (by decide) (by decide) (by decide)
    (by decide) (by decide)

end AutoTiler

theorem united_of_valid (a b : QRect) (ha : a.x1 ≤ a.x2 ∧ a.y1 ≤ a.y2)
    (hb : b.x1 ≤ b.x2 ∧ b.y1 ≤ b.y2) :
    a.united b = ⟨min a.x1 b.x1, min a.y1 b.y1, max a.x2 b.x2, max a.y2 b.y2⟩ := by
  obtain ⟨ha1, ha2⟩ := ha
  obtain ⟨hb1, hb2⟩ := hb
  have na : a.isNull = false := by
    unfold QRect.isNull
    have : ¬ a.x2 = a.x1 - 1 := by omega
    simp [this]
  have nb : b.isNull = false := by
    unfold QRect.isNull
    have : ¬ b.x2 = b.x1 - 1 := by omega
    simp [this]
  unfold QRect.united
  have e1 : ¬ a.x2 - a.x1 + 1 < 0 := by omega
  have e2 : ¬ a.y2 - a.y1 + 1 < 0 := by omega
  have e3 : ¬ b.x2 - b.x1 + 1 < 0 := by omega
  have e4 : ¬ b.y2 - b.y1 + 1 < 0 := by omega
  simp [na, nb, e1, e2, e3, e4]

theorem united_null_left (b : QRect) : QRect.null.united b = b := by
  unfold QRect.united
  rw [if_pos (by decide)]

/-- Folding `operator|` over rectangles of positive size, from a rectangle of
positive size, gives the bounding box of the union of all of them. -/
theorem foldl_united_valid (rects : List QRect) (acc : QRect)
    (hacc : acc.x1 ≤ acc.x2 ∧ acc.y1 ≤ acc.y2)
    (hv : ∀ r ∈ rects, r.x1 ≤ r.x2 ∧ r.y1 ≤ r.y2) :
    is_union_box (rects.foldl QRect.united acc) (acc :: rects) := by
  induction rects generalizing acc with
  | nil =>
    simp only [List.foldl_nil]
    refine ⟨?_, ⟨acc, by simp, rfl⟩, ⟨acc, by simp, rfl⟩, ⟨acc, by simp, rfl⟩,
      ⟨acc, by simp, rfl⟩⟩
    intro r hr
    simp at hr
    subst hr
    omega
  | cons b rest ih =>
    have hb := hv b (List.mem_cons_self _ _)
    have hu := united_of_valid acc b hacc hb
    have hacc2 : (acc.united b).x1 ≤ (acc.united b).x2 ∧ (acc.united b).y1 ≤ (acc.united b).y2 := by
      rw [hu]
      simp only
      constructor
      · exact le_trans (min_le_left _ _) (le_trans hacc.1 (le_max_left _ _))
      · exact le_trans (min_le_left _ _) (le_trans hacc.2 (le_max_left _ _))
    obtain ⟨h1, h2, h3, h4, h5⟩ := ih (acc.united b)
      hacc2 (fun r hr => hv r (List.mem_cons_of_mem _ hr))
    simp only [List.foldl_cons]
    have hx1 : (acc.united b).x1 = min acc.x1 b.x1 := by rw [hu]
    have hy1 : (acc.united b).y1 = min acc.y1 b.y1 := by rw [hu]
    have hx2 : (acc.united b).x2 = max acc.x2 b.x2 := by rw [hu]
    have hy2 : (acc.united b).y2 = max acc.y2 b.y2 := by rw [hu]
    have hu0 := h1 (acc.united b) (List.mem_cons_self _ _)
    rw [hx1, hy1, hx2, hy2] at hu0
    refine ⟨?_, ?_, ?_, ?_, ?_⟩
    · intro r hr
      rcases List.mem_cons.1 hr with rfl | hr
      · refine ⟨le_trans hu0.1 (min_le_left _ _), le_trans hu0.2.1 (min_le_left _ _),
          le_trans (le_max_left _ _) hu0.2.2.1, le_trans (le_max_left _ _) hu0.2.2.2⟩
      · rcases List.mem_cons.1 hr with rfl | hr
        · refine ⟨le_trans hu0.1 (min_le_right _ _), le_trans hu0.2.1 (min_le_right _ _),
            le_trans (le_max_right _ _) hu0.2.2.1, le_trans (le_max_right _ _) hu0.2.2.2⟩
        · exact h1 r (List.mem_cons_of_mem _ hr)
    · obtain ⟨r, hr, e⟩ := h2
      rcases List.mem_cons.1 hr with rfl | hr
      · rw [e, hx1]
        rcases min_choice acc.x1 b.x1 with m | m
        · exact ⟨acc, by simp, m⟩
        · exact ⟨b, by simp, m⟩
      · exact ⟨r, by simp [hr], e⟩
    · obtain ⟨r, hr, e⟩ := h3
      rcases List.mem_cons.1 hr with rfl | hr
      · rw [e, hy1]
        rcases min_choice acc.y1 b.y1 with m | m
        · exact ⟨acc, by simp, m⟩
        · exact ⟨b, by simp, m⟩
      · exact ⟨r, by simp [hr], e⟩
    · obtain ⟨r, hr, e⟩ := h4
      rcases List.mem_cons.1 hr with rfl | hr
      · rw [e, hx2]
        rcases max_choice acc.x2 b.x2 with m | m
        · exact ⟨acc, by simp, m⟩
        · exact ⟨b, by simp, m⟩
      · exact ⟨r, by simp [hr], e⟩
    · obtain ⟨r, hr, e⟩ := h5
      rcases List.mem_cons.1 hr with rfl | hr
      · rw [e, hy2]
        rcases max_choice acc.y2 b.y2 with m | m
        · exact ⟨acc, by simp, m⟩
        · exact ⟨b, by simp, m⟩
      · exact ⟨r, by simp [hr], e⟩

namespace AutoTiler

/-- For a non-empty list of rectangles of positive size, the box that
`compute_bounding_box` computes before it adds the margin is the bounding box
of the union of the rectangles. -/
theorem union_box_is_union (t : AutoTiler) (hne : t.entity_rectangles ≠ [])
    (hv : ∀ r ∈ t.entity_rectangles, r.x1 ≤ r.x2 ∧ r.y1 ≤ r.y2) :
    is_union_box t.union_box t.entity_rectangles := by
  unfold union_box
  cases hr : t.entity_rectangles with
  | nil => exact absurd hr hne
  | cons a rest =>
    rw [hr] at hv
    simp only [List.foldl_cons, united_null_left]
    exact foldl_united_valid rest a (hv a (List.mem_cons_self _ _))
      (fun r hr2 => hv r (List.mem_cons_of_mem _ hr2))

end AutoTiler

namespace AutoTiler

theorem side_windows_mem (n : Nat) (step cell_0 w : Int) (h : w ∈ side_windows n step cell_0) :
    ∃ i : Nat, i < n ∧ w = cell_0 + i * step := by
  induction n generalizing cell_0 with
  | zero => simp [side_windows] at h
  | succ n ih =>
    simp only [side_windows, List.mem_cons] at h
    rcases h with rfl | h
    · exact ⟨0, Nat.succ_pos _, by simp⟩
    · obtain ⟨i, hi, e⟩ := ih _ h
      refine ⟨i + 1, Nat.succ_lt_succ hi, ?_⟩
      rw [e]
      push_cast
      ring

theorem in_grid_of_row_col (t : AutoTiler) (R C : Int) (hR : 0 ≤ R) (hR2 : R < t.grid_size.ht)
    (hC : 0 ≤ C) (hC2 : C < t.grid_size.wd) : t.in_grid (R * t.grid_size.wd + C) := by
  unfold in_grid get_num_cells
  have hw : 0 ≤ t.grid_size.wd := by omega
  constructor
  · have := mul_nonneg hR hw
    omega
  · have h1 : R + 1 ≤ t.grid_size.ht := by omega
    have h2 := mul_le_mul_of_nonneg_right h1 hw
    have h3 : (R + 1) * t.grid_size.wd = R * t.grid_size.wd + t.grid_size.wd := by ring
    have h4 : t.grid_size.ht * t.grid_size.wd = t.grid_size.wd * t.grid_size.ht := by ring
    omega

theorem window_in_grid_of_row_col (t : AutoTiler) (R C : Int) (hR : 0 ≤ R)
    (hR2 : R + 1 < t.grid_size.ht) (hC : 0 ≤ C) (hC2 : C + 1 < t.grid_size.wd) :
    t.window_in_grid (R * t.grid_size.wd + C) := by
  have e1 : R * t.grid_size.wd + C + 1 = R * t.grid_size.wd + (C + 1) := by ring
  have e2 : R * t.grid_size.wd + C + t.grid_size.wd = (R + 1) * t.grid_size.wd + C := by ring
  have e3 : R * t.grid_size.wd + C + t.grid_size.wd + 1 =
      (R + 1) * t.grid_size.wd + (C + 1) := by ring
  unfold window_in_grid
  rw [e3, e2, e1]
  exact ⟨in_grid_of_row_col t R C hR (by omega) hC (by omega),
    in_grid_of_row_col t R (C + 1) hR (by omega) (by omega) hC2,
    in_grid_of_row_col t (R + 1) C (by omega) hR2 hC (by omega),
    in_grid_of_row_col t (R + 1) (C + 1) (by omega) hR2 (by omega) hC2⟩

theorem tdiv_eight_mul (n : Int) : Int.tdiv (8 * n) 8 = n := by
  rw [Int.mul_tdiv_cancel_left n (by decide : (8 : Int) ≠ 0)]

/-- The grid index of the top-left pixel of the cell at column `col` and
row `row` of the grid. -/
theorem to_grid_index_of_row_col (t : AutoTiler) (col row : Int) :
    t.to_grid_index ⟨t.bounding_box.x1 + 8 * col, t.bounding_box.y1 + 8 * row⟩ =
      row * t.grid_size.wd + col := by
  unfold to_grid_index QRect.x QRect.y
  have e1 : t.bounding_box.x1 + 8 * col - t.bounding_box.x1 = 8 * col := by ring
  have e2 : t.bounding_box.y1 + 8 * row - t.bounding_box.y1 = 8 * row := by ring
  simp only [e1, e2, tdiv_eight_mul]

/-- In a grid that fits the regions with a margin of one cell, every window
that `compute_borders` processes lies in the grid. -/
theorem processed_windows_in_grid (t : AutoTiler) (hf : grid_fits 1 t) :
    ∀ w ∈ t.processed_windows, t.window_in_grid w := by
  obtain ⟨hgw, hgh, hr⟩ := hf
  intro w hw
  unfold processed_windows at hw
  obtain ⟨r, hrm, hwr⟩ := List.mem_flatMap.1 hw
  obtain ⟨col, row, nx, ny, ex, ey, ew, eh, hnx, hny, hcol, hrow, hcx, hry⟩ := hr r hrm
  have hidx : t.to_grid_index r.topLeft = row * t.grid_size.wd + col := by
    unfold QRect.topLeft
    rw [ex, ey]
    exact to_grid_index_of_row_col t col row
  have hnx2 : ((Int.tdiv r.width 8).toNat : Int) = nx := by
    rw [ew, tdiv_eight_mul, Int.toNat_of_nonneg (by omega)]
  have hny2 : ((Int.tdiv r.height 8).toNat : Int) = ny := by
    rw [eh, tdiv_eight_mul, Int.toNat_of_nonneg (by omega)]
  unfold rectangle_windows at hwr
  simp only [List.mem_append, hidx, hnx2, hny2] at hwr
  rcases hwr with ((hwr | hwr) | hwr) | hwr
  · obtain ⟨i, hi, e⟩ := side_windows_mem _ _ _ _ hwr
    have hi2 : (i : Int) < nx := by rw [← hnx2]; exact_mod_cast hi
    have e2 : w = (row - 1) * t.grid_size.wd + (col - 1 + i) := by rw [e]; ring
    rw [e2]
    exact window_in_grid_of_row_col t _ _ (by omega) (by omega) (by omega) (by omega)
  · obtain ⟨j, hj, e⟩ := side_windows_mem _ _ _ _ hwr
    have hj2 : (j : Int) < ny := by rw [← hny2]; exact_mod_cast hj
    have e2 : w = (row - 1 + j) * t.grid_size.wd + (col - 1 + nx) := by rw [e]; ring
    rw [e2]
    exact window_in_grid_of_row_col t _ _ (by omega) (by omega) (by omega) (by omega)
  · obtain ⟨i, hi, e⟩ := side_windows_mem _ _ _ _ hwr
    have hi2 : (i : Int) < nx := by rw [← hnx2]; exact_mod_cast hi
    have e2 : w = (row - 1 + ny) * t.grid_size.wd + (col - 1 + nx - i) := by rw [e]; ring
    rw [e2]
    exact window_in_grid_of_row_col t _ _ (by omega) (by omega) (by omega) (by omega)
  · obtain ⟨j, hj, e⟩ := side_windows_mem _ _ _ _ hwr
    have hj2 : (j : Int) < ny := by rw [← hny2]; exact_mod_cast hj
    have e2 : w = (row - 1 + ny - j) * t.grid_size.wd + (col - 1) := by rw [e]; ring
    rw [e2]
    exact window_in_grid_of_row_col t _ _ (by omega) (by omega) (by omega) (by omega)

end AutoTiler

theorem foldlM_flatMap_option {α β γ : Type} (f : β → γ → Option β) (g : α → List γ)
    (l : List α) (b : β) :
    (l.flatMap g).foldlM f b = l.foldlM (fun s a => (g a).foldlM f s) b := by
  induction l generalizing b with
  | nil => rfl
  | cons a rest ih =>
    simp only [List.flatMap_cons, List.foldlM_append, List.foldlM_cons, Option.bind_eq_bind]
    cases (g a).foldlM f b with
    | none => rfl
    | some c => exact ih c

theorem foldlM_map_option {α β γ : Type} (f : β → γ → Option β) (h : α → γ)
    (l : List α) (b : β) :
    (l.map h).foldlM f b = l.foldlM (fun s a => f s (h a)) b := by
  induction l generalizing b with
  | nil => rfl
  | cons a rest ih =>
    simp only [List.map_cons, List.foldlM_cons, Option.bind_eq_bind]
    cases f b (h a) with
    | none => rfl
    | some c => exact ih c

namespace AutoTiler

theorem marks_eq_sample_cells (t : AutoTiler) (squares : List Bool) :
    t.entity_rectangles.foldlM (fun squares rectangle =>
      (pixel_steps rectangle.y (rectangle.y + rectangle.height)).foldlM (fun squares y =>
        (pixel_steps rectangle.x (rectangle.x + rectangle.width)).foldlM (fun squares x =>
          mark_occupied squares (t.to_grid_index ⟨x, y⟩)) squares) squares) squares =
      t.sample_cells.foldlM mark_occupied squares := by
  unfold sample_cells
  rw [foldlM_flatMap_option]
  congr 1
  funext sq r
  rw [foldlM_flatMap_option]
  congr 1
  funext sq2 y
  rw [foldlM_map_option]

theorem compute_occupied_squares_eq (t : AutoTiler) :
    t.compute_occupied_squares =
      if t.get_num_cells < 0 then none
      else (t.sample_cells.foldlM mark_occupied
          (List.replicate t.get_num_cells.toNat false)).map
        fun squares => { t with occupied_squares := squares } := by
  unfold compute_occupied_squares
  split
  · rfl
  · simp only [marks_eq_sample_cells]

theorem mark_occupied_some (squares : List Bool) (i : Int) (h0 : 0 ≤ i)
    (h1 : i < squares.length) :
    mark_occupied squares i = some (squares.set i.toNat true) := by
  unfold mark_occupied
  rw [if_pos ⟨h0, by omega⟩]

theorem mark_occupied_range (squares result : List Bool) (i : Int)
    (h : mark_occupied squares i = some result) : 0 ≤ i ∧ i < squares.length := by
  unfold mark_occupied at h
  by_cases hc : 0 ≤ i ∧ i.toNat < squares.length
  · exact ⟨hc.1, by omega⟩
  · rw [if_neg hc] at h
    exact absurd h (by simp)

/-- Marking a list of cells that are all in range succeeds; the mask keeps its
length, and an entry is true afterwards exactly when it was true before or
its index is in the list. -/
theorem mark_fold (l : List Int) (squares : List Bool)
    (h : ∀ i ∈ l, 0 ≤ i ∧ i < squares.length) :
    ∃ result, l.foldlM mark_occupied squares = some result ∧
      result.length = squares.length ∧
      ∀ j : Int, 0 ≤ j → j < squares.length →
        (result[j.toNat]? = some true ↔ (squares[j.toNat]? = some true ∨ j ∈ l)) := by
  induction l generalizing squares with
  | nil => exact ⟨squares, rfl, rfl, fun j _ _ => by simp⟩
  | cons a rest ih =>
    obtain ⟨ha0, ha1⟩ := h a (List.mem_cons_self _ _)
    have hlen : (squares.set a.toNat true).length = squares.length := List.length_set _ _ _
    obtain ⟨result, hr, hl, hget⟩ := ih (squares.set a.toNat true) (fun i hi => by
      rw [hlen]; exact h i (List.mem_cons_of_mem _ hi))
    refine ⟨result, ?_, by rw [hl, hlen], ?_⟩
    · simp only [List.foldlM_cons, Option.bind_eq_bind, mark_occupied_some squares a ha0 ha1,
        Option.some_bind]
      exact hr
    · intro j hj0 hj1
      rw [hget j hj0 (by rw [hlen]; exact hj1), List.getElem?_set, List.mem_cons]
      by_cases e : a = j
      · subst e
        have : a.toNat < squares.length := by omega
        simp [this]
      · have : ¬ a.toNat = j.toNat := by omega
        simp only [this, if_false]
        constructor
        · rintro (h1 | h1)
          · exact Or.inl h1
          · exact Or.inr (Or.inr h1)
        · rintro (h1 | h1 | h1)
          · exact Or.inl h1
          · exact absurd h1.symm e
          · exact Or.inr h1

/-- When marking a list of cells succeeds, all of them were in range. -/
theorem mark_fold_range (l : List Int) (squares result : List Bool)
    (h : l.foldlM mark_occupied squares = some result) :
    ∀ i ∈ l, 0 ≤ i ∧ i < squares.length := by
  induction l generalizing squares with
  | nil => simp
  | cons a rest ih =>
    simp only [List.foldlM_cons, Option.bind_eq_bind] at h
    cases hm : mark_occupied squares a with
    | none => simp [hm] at h
    | some sq2 =>
      rw [hm, Option.some_bind] at h
      have hr := mark_occupied_range squares sq2 a hm
      have e : sq2 = squares.set a.toNat true := by
        rw [mark_occupied_some squares a hr.1 hr.2] at hm
        exact (Option.some.inj hm).symm
      intro i hi
      rcases List.mem_cons.1 hi with rfl | hi
      · exact hr
      · have := ih sq2 h i hi
        rw [e, List.length_set] at this
        exact this

end AutoTiler

theorem row_col_unique (gw R C R2 C2 : Int) (hC : 0 ≤ C) (hC2 : C < gw) (hD : 0 ≤ C2)
    (hD2 : C2 < gw) (h : R * gw + C = R2 * gw + C2) : R = R2 ∧ C = C2 := by
  have hgw : 0 < gw := by omega
  have h1 := (Int.ediv_emod_unique (a := R * gw + C) (r := C) (q := R) hgw).2
    ⟨by ring, hC, hC2⟩
  have h2 := (Int.ediv_emod_unique (a := R * gw + C) (r := C2) (q := R2) hgw).2
    ⟨by rw [h]; ring, hD, hD2⟩
  exact ⟨h1.1.symm.trans h2.1, h1.2.symm.trans h2.2⟩

namespace AutoTiler

theorem pixel_steps_mem (first n x : Int) (hn : 0 ≤ n) :
    x ∈ pixel_steps first (first + 8 * n) ↔ ∃ a : Int, 0 ≤ a ∧ a < n ∧ x = first + 8 * a := by
  unfold pixel_steps
  have hc : (first + 8 * n - first + 7) / 8 = n := by
    have : first + 8 * n - first + 7 = 7 + 8 * n := by ring
    rw [this, Int.add_mul_ediv_left _ _ (by decide : (8 : Int) ≠ 0)]
    simp
  rw [hc]
  constructor
  · intro h
    obtain ⟨i, hi, e⟩ := (List.mem_map (f := fun i : Nat => first + 8 * (i : Int))).1 h
    have hi2 := List.mem_range.1 hi
    exact ⟨(i : Int), by omega, by omega, e.symm⟩
  · rintro ⟨a, ha0, ha1, rfl⟩
    apply (List.mem_map (f := fun i : Nat => first + 8 * (i : Int))).2
    refine ⟨a.toNat, ?_, ?_⟩
    · rw [List.mem_range]; omega
    · show first + 8 * ((a.toNat : Nat) : Int) = first + 8 * a
      rw [Int.toNat_of_nonneg ha0]

theorem in_grid_row_col (t : AutoTiler) (i : Int) (hgw : 0 < t.grid_size.wd)
    (h : t.in_grid i) :
    ∃ R C : Int, i = R * t.grid_size.wd + C ∧ 0 ≤ R ∧ R < t.grid_size.ht ∧ 0 ≤ C ∧
      C < t.grid_size.wd := by
  obtain ⟨h0, h1⟩ := h
  unfold get_num_cells at h1
  refine ⟨i / t.grid_size.wd, i % t.grid_size.wd, ?_, ?_, ?_, ?_, ?_⟩
  · have := Int.emod_add_ediv i t.grid_size.wd
    rw [mul_comm]
    omega
  · exact Int.ediv_nonneg h0 (by omega)
  · exact Int.ediv_lt_of_lt_mul hgw (by rw [mul_comm]; exact h1)
  · exact Int.emod_nonneg _ (by omega)
  · exact Int.emod_lt_of_pos _ hgw

theorem to_map_xy_of_row_col (t : AutoTiler) (R C : Int) (hR : 0 ≤ R) (hC : 0 ≤ C)
    (hC2 : C < t.grid_size.wd) :
    t.to_map_xy (R * t.grid_size.wd + C) =
      some ⟨C * 8 + t.bounding_box.x1, R * 8 + t.bounding_box.y1⟩ := by
  have hgw : 0 < t.grid_size.wd := by omega
  have hi : 0 ≤ R * t.grid_size.wd + C := by
    have := mul_nonneg hR (le_of_lt hgw)
    omega
  have hu := (Int.ediv_emod_unique (a := R * t.grid_size.wd + C) (r := C) (q := R) hgw).2
    ⟨by ring, hC, hC2⟩
  unfold to_map_xy QRect.x QRect.y
  rw [if_neg (by omega), Int.tmod_eq_emod hi (le_of_lt hgw),
    Int.tdiv_eq_ediv hi (le_of_lt hgw), hu.1, hu.2]

/-- In a grid aligned with the regions, the grid indexes that
`compute_occupied_squares` marks are those of the cells whose 8x8 square
lies within a region. -/
theorem sample_cells_iff_covered (t : AutoTiler) (hf : grid_fits 0 t) (i : Int)
    (hi : t.in_grid i) : i ∈ t.sample_cells ↔ t.cell_covered i = true := by
  obtain ⟨hgw, hgh, hr⟩ := hf
  obtain ⟨R, C, rfl, hR0, hR1, hC0, hC1⟩ := in_grid_row_col t i hgw hi
  unfold cell_covered
  rw [to_map_xy_of_row_col t R C hR0 hC0 hC1]
  simp only [List.any_eq_true]
  unfold sample_cells
  rw [List.mem_flatMap]
  constructor
  · rintro ⟨r, hrm, hmem⟩
    obtain ⟨col, row, nx, ny, ex, ey, ew, eh, hnx, hny, hcol, hrow, hcx, hry⟩ := hr r hrm
    refine ⟨r, hrm, ?_⟩
    rw [List.mem_flatMap] at hmem
    obtain ⟨y, hy, hmem⟩ := hmem
    rw [List.mem_map] at hmem
    obtain ⟨x, hx, e⟩ := hmem
    unfold QRect.y at hy
    unfold QRect.x at hx
    rw [eh, pixel_steps_mem _ _ _ (by omega)] at hy
    rw [ew, pixel_steps_mem _ _ _ (by omega)] at hx
    obtain ⟨a, ha0, ha1, rfl⟩ := hy
    obtain ⟨b, hb0, hb1, rfl⟩ := hx
    have e1 : r.x1 + 8 * b = t.bounding_box.x1 + 8 * (col + b) := by rw [ex]; ring
    have e2 : r.y1 + 8 * a = t.bounding_box.y1 + 8 * (row + a) := by rw [ey]; ring
    rw [e1, e2, to_grid_index_of_row_col] at e
    obtain ⟨eR, eC⟩ := row_col_unique t.grid_size.wd _ _ _ _ (by omega) (by omega) hC0 hC1 e
    unfold QRect.width at ew
    unfold QRect.height at eh
    unfold QRect.contains_square
    simp only [Bool.and_eq_true, decide_eq_true_eq]
    refine ⟨⟨⟨?_, ?_⟩, ?_⟩, ?_⟩ <;> omega
  · rintro ⟨r, hrm, hc⟩
    obtain ⟨col, row, nx, ny, ex, ey, ew, eh, hnx, hny, hcol, hrow, hcx, hry⟩ := hr r hrm
    refine ⟨r, hrm, ?_⟩
    unfold QRect.contains_square at hc
    simp only [Bool.and_eq_true, decide_eq_true_eq] at hc
    obtain ⟨⟨⟨c1, c2⟩, c3⟩, c4⟩ := hc
    rw [List.mem_flatMap]
    refine ⟨r.y1 + 8 * (R - row), ?_, ?_⟩
    · unfold QRect.y
      rw [eh, pixel_steps_mem _ _ _ (by omega)]
      unfold QRect.height at eh
      exact ⟨R - row, by omega, by omega, rfl⟩
    · rw [List.mem_map]
      refine ⟨r.x1 + 8 * (C - col), ?_, ?_⟩
      · unfold QRect.x
        rw [ew, pixel_steps_mem _ _ _ (by omega)]
        unfold QRect.width at ew
        exact ⟨C - col, by omega, by omega, rfl⟩
      · have e1 : r.x1 + 8 * (C - col) = t.bounding_box.x1 + 8 * C := by rw [ex]; ring
        have e2 : r.y1 + 8 * (R - row) = t.bounding_box.y1 + 8 * R := by rw [ey]; ring
        rw [e1, e2, to_grid_index_of_row_col]

/-- In a grid aligned with the regions, every grid index that
`compute_occupied_squares` marks is in the grid. -/
theorem sample_cells_in_grid (t : AutoTiler) (hf : grid_fits 0 t) :
    ∀ i ∈ t.sample_cells, t.in_grid i := by
  obtain ⟨hgw, hgh, hr⟩ := hf
  intro i hmem
  unfold sample_cells at hmem
  rw [List.mem_flatMap] at hmem
  obtain ⟨r, hrm, hmem⟩ := hmem
  obtain ⟨col, row, nx, ny, ex, ey, ew, eh, hnx, hny, hcol, hrow, hcx, hry⟩ := hr r hrm
  rw [List.mem_flatMap] at hmem
  obtain ⟨y, hy, hmem⟩ := hmem
  rw [List.mem_map] at hmem
  obtain ⟨x, hx, e⟩ := hmem
  unfold QRect.y at hy
  unfold QRect.x at hx
  rw [eh, pixel_steps_mem _ _ _ (by omega)] at hy
  rw [ew, pixel_steps_mem _ _ _ (by omega)] at hx
  obtain ⟨a, ha0, ha1, rfl⟩ := hy
  obtain ⟨b, hb0, hb1, rfl⟩ := hx
  have e1 : r.x1 + 8 * b = t.bounding_box.x1 + 8 * (col + b) := by rw [ex]; ring
  have e2 : r.y1 + 8 * a = t.bounding_box.y1 + 8 * (row + a) := by rw [ey]; ring
  rw [e1, e2, to_grid_index_of_row_col] at e
  rw [← e]
  exact in_grid_of_row_col t _ _ (by omega) (by omega) (by omega) (by omega)

/-- In a grid aligned with the regions, `compute_occupied_squares`
succeeds, changes the occupancy mask only, the mask has one entry per cell of
the grid, and the entry of a cell is true exactly when the 8x8 square of the
cell lies within at least one region. -/
theorem compute_occupied_squares_covered (t : AutoTiler) (hf : grid_fits 0 t) :
    ∃ u, t.compute_occupied_squares = some u ∧
      u = { t with occupied_squares := u.occupied_squares } ∧ u.mask_sized ∧
      ∀ i, t.in_grid i → u.is_cell_occupied i = some (t.cell_covered i) := by
  have hN : 0 ≤ t.get_num_cells := by
    unfold get_num_cells
    exact mul_nonneg (le_of_lt hf.1) (le_of_lt hf.2.1)
  have hlen : ((List.replicate t.get_num_cells.toNat false).length : Int) = t.get_num_cells := by
    rw [List.length_replicate, Int.toNat_of_nonneg hN]
  obtain ⟨result, hres, hl, hget⟩ := mark_fold t.sample_cells
    (List.replicate t.get_num_cells.toNat false) (fun i hi => by
      rw [hlen]; exact sample_cells_in_grid t hf i hi)
  refine ⟨{ t with occupied_squares := result }, ?_, rfl, ?_, ?_⟩
  · rw [compute_occupied_squares_eq, if_neg (by omega), hres]
    rfl
  · unfold mask_sized
    show (result.length : Int) = t.get_num_cells
    rw [hl, hlen]
  · intro i hi
    have hi2 := hi
    obtain ⟨h0, h1⟩ := hi2
    unfold is_cell_occupied
    rw [if_pos (show 0 ≤ i ∧ i < get_num_cells { t with occupied_squares := result } from
      ⟨h0, h1⟩)]
    show result[i.toNat]? = some (t.cell_covered i)
    have hlt : i.toNat < result.length := by
      rw [hl, List.length_replicate]; omega
    have hg := hget i h0 (by rw [hlen]; exact h1)
    rw [List.getElem?_eq_getElem hlt] at hg ⊢
    have hrep : ¬ (List.replicate t.get_num_cells.toNat false)[i.toNat]? = some true := by
      rw [List.getElem?_replicate]
      split <;> simp
    rw [sample_cells_iff_covered t hf i hi] at hg
    congr 1
    cases hb : result[i.toNat] with
    | true =>
      rw [hb] at hg
      exact ((hg.1 rfl).resolve_left hrep).symm
    | false =>
      cases hc : t.cell_covered i with
      | false => rfl
      | true =>
        rw [hb] at hg
        have := hg.2 (Or.inr hc)
        exact absurd this (by simp)

end AutoTiler

theorem qRoundDiv_eight_mul (n : Int) : qRoundDiv (8 * n) 8 = n := by
  unfold qRoundDiv
  omega

namespace AutoTiler

theorem compute_bounding_box_rectangles (t : AutoTiler) :
    t.compute_bounding_box.entity_rectangles = t.entity_rectangles := rfl

theorem compute_bounding_box_x1 (t : AutoTiler) :
    t.compute_bounding_box.bounding_box.x1 = t.union_box.x1 - t.max_pattern_size.wd := by
  show t.union_box.x1 + -t.max_pattern_size.wd = _
  ring

theorem compute_bounding_box_y1 (t : AutoTiler) :
    t.compute_bounding_box.bounding_box.y1 = t.union_box.y1 - t.max_pattern_size.ht := by
  show t.union_box.y1 + -t.max_pattern_size.ht = _
  ring

theorem compute_bounding_box_x2 (t : AutoTiler) :
    t.compute_bounding_box.bounding_box.x2 = t.union_box.x2 + t.max_pattern_size.wd := by
  show (t.union_box.x2 + -t.max_pattern_size.wd - (t.union_box.x1 + -t.max_pattern_size.wd)
    + 1 + t.max_pattern_size.wd * 2) + (t.union_box.x1 + -t.max_pattern_size.wd) - 1 = _
  ring

theorem compute_bounding_box_y2 (t : AutoTiler) :
    t.compute_bounding_box.bounding_box.y2 = t.union_box.y2 + t.max_pattern_size.ht := by
  show (t.union_box.y2 + -t.max_pattern_size.ht - (t.union_box.y1 + -t.max_pattern_size.ht)
    + 1 + t.max_pattern_size.ht * 2) + (t.union_box.y1 + -t.max_pattern_size.ht) - 1 = _
  ring

theorem compute_bounding_box_grid (t : AutoTiler) :
    t.compute_bounding_box.grid_size =
      ⟨qRoundDiv (t.union_box.width + 2 * t.max_pattern_size.wd) 8,
       qRoundDiv (t.union_box.height + 2 * t.max_pattern_size.ht) 8⟩ := by
  show QSize.div t.compute_bounding_box.bounding_box.size 8 = _
  unfold QSize.div QRect.size QRect.width QRect.height
  rw [compute_bounding_box_x1, compute_bounding_box_x2, compute_bounding_box_y1,
    compute_bounding_box_y2]
  congr 2 <;> ring

end AutoTiler

namespace AutoTiler

/-- For a non-empty list of cell-aligned regions and a largest pattern size
whose width and height are multiples of 8 and at least `8 * m`, the grid
that `compute_bounding_box` builds is aligned with the regions and leaves a
margin of `m` cells around each of them. -/
theorem compute_bounding_box_fits (t : AutoTiler) (m : Int) (hm : 0 ≤ m)
    (hne : t.entity_rectangles ≠ [])
    (hal : ∀ r ∈ t.entity_rectangles, r.cell_aligned)
    (hw : 8 ∣ t.max_pattern_size.wd) (hh : 8 ∣ t.max_pattern_size.ht)
    (hmw : 8 * m ≤ t.max_pattern_size.wd) (hmh : 8 * m ≤ t.max_pattern_size.ht) :
    grid_fits m t.compute_bounding_box := by
  have hv : ∀ r ∈ t.entity_rectangles, r.x1 ≤ r.x2 ∧ r.y1 ≤ r.y2 := by
    intro r hr
    obtain ⟨-, -, -, -, h5, h6⟩ := hal r hr
    unfold QRect.width at h5
    unfold QRect.height at h6
    constructor <;> omega
  obtain ⟨hU, ⟨r1, hr1, e1⟩, ⟨r2, hr2, e2⟩, ⟨r3, hr3, e3⟩, ⟨r4, hr4, e4⟩⟩ :=
    union_box_is_union t hne hv
  obtain ⟨⟨a1, ha1⟩, -, -, -, -, -⟩ := hal r1 hr1
  obtain ⟨-, ⟨a2, ha2⟩, -, -, -, -⟩ := hal r2 hr2
  obtain ⟨⟨a3, ha3⟩, -, ⟨b3, hb3⟩, -, hp3, -⟩ := hal r3 hr3
  obtain ⟨-, ⟨a4, ha4⟩, -, ⟨b4, hb4⟩, -, hp4⟩ := hal r4 hr4
  obtain ⟨cw, hcw⟩ := hw
  obtain ⟨ch, hch⟩ := hh
  unfold QRect.x at ha1 ha3
  unfold QRect.y at ha2 ha4
  unfold QRect.width at hb3 hp3
  unfold QRect.height at hb4 hp4
  have hb1 := hU r3 hr3
  have hb2 := hU r4 hr4
  have gwe : t.union_box.width + 2 * t.max_pattern_size.wd = 8 * (a3 + b3 - a1 + 2 * cw) := by
    unfold QRect.width; omega
  have ghe : t.union_box.height + 2 * t.max_pattern_size.ht = 8 * (a4 + b4 - a2 + 2 * ch) := by
    unfold QRect.height; omega
  have hgrid : t.compute_bounding_box.grid_size =
      ⟨a3 + b3 - a1 + 2 * cw, a4 + b4 - a2 + 2 * ch⟩ := by
    rw [compute_bounding_box_grid, gwe, ghe, qRoundDiv_eight_mul, qRoundDiv_eight_mul]
  unfold grid_fits
  rw [hgrid, compute_bounding_box_rectangles, compute_bounding_box_x1, compute_bounding_box_y1]
  simp only
  refine ⟨by omega, by omega, ?_⟩
  intro r hr
  obtain ⟨⟨d, hd⟩, ⟨e, he⟩, ⟨f, hf⟩, ⟨g, hg⟩, hp, hq⟩ := hal r hr
  unfold QRect.x at hd
  unfold QRect.y at he
  have hwd : r.width = r.x2 - r.x1 + 1 := rfl
  have hht : r.height = r.y2 - r.y1 + 1 := rfl
  have hb := hU r hr
  refine ⟨d - a1 + cw, e - a2 + ch, f, g, ?_, ?_, hf, hg, ?_, ?_, ?_, ?_, ?_, ?_⟩ <;> omega

end AutoTiler

theorem is_union_box_unique (u v : QRect) (l1 l2 : List QRect) (hp : l1.Perm l2)
    (hu : is_union_box u l1) (hv : is_union_box v l2) : u = v := by
  obtain ⟨hu0, ⟨a1, ha1, ea1⟩, ⟨a2, ha2, ea2⟩, ⟨a3, ha3, ea3⟩, ⟨a4, ha4, ea4⟩⟩ := hu
  obtain ⟨hv0, ⟨b1, hb1, eb1⟩, ⟨b2, hb2, eb2⟩, ⟨b3, hb3, eb3⟩, ⟨b4, hb4, eb4⟩⟩ := hv
  have p1 := hv0 a1 (hp.mem_iff.1 ha1)
  have p2 := hv0 a2 (hp.mem_iff.1 ha2)
  have p3 := hv0 a3 (hp.mem_iff.1 ha3)
  have p4 := hv0 a4 (hp.mem_iff.1 ha4)
  have q1 := hu0 b1 (hp.mem_iff.2 hb1)
  have q2 := hu0 b2 (hp.mem_iff.2 hb2)
  have q3 := hu0 b3 (hp.mem_iff.2 hb3)
  have q4 := hu0 b4 (hp.mem_iff.2 hb4)
  cases u
  cases v
  simp only [QRect.mk.injEq] at *
  refine ⟨?_, ?_, ?_, ?_⟩ <;> omega

/-- The bounding box of the union of rectangles of positive size does not
depend on their order. -/
theorem foldl_united_perm (l1 l2 : List QRect) (hp : l1.Perm l2)
    (hv : ∀ r ∈ l1, r.x1 ≤ r.x2 ∧ r.y1 ≤ r.y2) :
    l1.foldl QRect.united QRect.null = l2.foldl QRect.united QRect.null := by
  cases h1 : l1 with
  | nil =>
    rw [h1] at hp
    rw [List.nil_perm.1 hp]
  | cons a rest =>
    cases h2 : l2 with
    | nil =>
      rw [h2] at hp
      rw [List.perm_nil.1 hp] at h1
      exact absurd h1 (by simp)
    | cons b rest2 =>
      rw [h1] at hv
      have hv2 : ∀ r ∈ b :: rest2, r.x1 ≤ r.x2 ∧ r.y1 ≤ r.y2 := by
        intro r hr
        rw [← h2] at hr
        have := hp.mem_iff.2 hr
        rw [h1] at this
        exact hv r this
      simp only [List.foldl_cons, united_null_left]
      apply is_union_box_unique _ _ (a :: rest) (b :: rest2) (by rw [← h1, ← h2]; exact hp)
      · exact foldl_united_valid rest a (hv a (List.mem_cons_self _ _))
          (fun r hr => hv r (List.mem_cons_of_mem _ hr))
      · exact foldl_united_valid rest2 b (hv2 b (List.mem_cons_self _ _))
          (fun r hr => hv2 r (List.mem_cons_of_mem _ hr))

namespace AutoTiler

/-- When `compute_occupied_squares` succeeds it changes the occupancy mask
only, the mask has one entry per cell, every marked index was in range, and
an entry is true exactly when its index was marked. -/
theorem compute_occupied_squares_some (t g : AutoTiler)
    (h : t.compute_occupied_squares = some g) :
    g = { t with occupied_squares := g.occupied_squares } ∧ g.mask_sized ∧
    (∀ i ∈ t.sample_cells, t.in_grid i) ∧
    ∀ j : Int, t.in_grid j → (g.occupied_squares[j.toNat]? = some true ↔ j ∈ t.sample_cells) := by
  rw [compute_occupied_squares_eq] at h
  by_cases hN : t.get_num_cells < 0
  · rw [if_pos hN] at h
    exact absurd h (by simp)
  · rw [if_neg hN] at h
    have hlen : ((List.replicate t.get_num_cells.toNat false).length : Int) =
        t.get_num_cells := by
      rw [List.length_replicate, Int.toNat_of_nonneg (by omega)]
    cases hr : t.sample_cells.foldlM mark_occupied
        (List.replicate t.get_num_cells.toNat false) with
    | none => rw [hr] at h; exact absurd h (by simp)
    | some result =>
      rw [hr] at h
      simp only [Option.map_some', Option.some.injEq] at h
      subst h
      have hrange := mark_fold_range _ _ _ hr
      obtain ⟨result2, hr2, hl, hget⟩ := mark_fold t.sample_cells _ hrange
      rw [hr] at hr2
      cases hr2
      refine ⟨rfl, ?_, ?_, ?_⟩
      · show (result.length : Int) = t.get_num_cells
        rw [hl, hlen]
      · intro i hi
        have := hrange i hi
        rw [hlen] at this
        exact this
      · intro j hj
        show result[j.toNat]? = some true ↔ _
        rw [hget j hj.1 (by rw [hlen]; exact hj.2), List.getElem?_replicate]
        constructor
        · rintro (h1 | h1)
          · split at h1 <;> simp at h1
          · exact h1
        · exact fun h1 => Or.inr h1

end AutoTiler

theorem bool_list_ext (l1 l2 : List Bool) (hl : l1.length = l2.length)
    (h : ∀ n : Nat, n < l1.length → (l1[n]? = some true ↔ l2[n]? = some true)) : l1 = l2 := by
  apply List.ext_getElem hl
  intro n h1 h2
  have := h n h1
  rw [List.getElem?_eq_getElem h1, List.getElem?_eq_getElem h2] at this
  simp only [Option.some.injEq] at this
  cases ha : l1[n] <;> cases hb : l2[n] <;> simp_all

namespace AutoTiler

theorem sample_cells_perm (t : AutoTiler) (idx : List EntityIndex) (rects : List QRect)
    (hp : rects.Perm t.entity_rectangles) :
    (t.with_regions idx rects).sample_cells.Perm t.sample_cells := by
  unfold sample_cells
  exact hp.flatMap_right _

/-- The occupancy mask does not depend on the order of the regions. -/
theorem compute_occupied_squares_perm (t g : AutoTiler) (idx : List EntityIndex)
    (rects : List QRect) (hp : rects.Perm t.entity_rectangles)
    (h : t.compute_occupied_squares = some g) :
    (t.with_regions idx rects).compute_occupied_squares = some (g.with_regions idx rects) := by
  obtain ⟨hg, hs, hrange, hget⟩ := compute_occupied_squares_some t g h
  have hperm := sample_cells_perm t idx rects hp
  have hN : ¬ t.get_num_cells < 0 := by
    intro hN
    rw [compute_occupied_squares_eq, if_pos hN] at h
    exact absurd h (by simp)
  have hlen : ((List.replicate t.get_num_cells.toNat false).length : Int) =
      t.get_num_cells := by
    rw [List.length_replicate, Int.toNat_of_nonneg (by omega)]
  obtain ⟨result, hr, hl, hget2⟩ := mark_fold (t.with_regions idx rects).sample_cells
    (List.replicate t.get_num_cells.toNat false) (fun i hi => by
      rw [hlen]; exact hrange i (hperm.mem_iff.1 hi))
  have hgl : (g.occupied_squares.length : Int) = t.get_num_cells := by
    have := hs
    unfold mask_sized get_num_cells at this
    rw [hg] at this
    exact this
  have heq : result = g.occupied_squares := by
    apply bool_list_ext
    · have : (result.length : Int) = g.occupied_squares.length := by rw [hl, hlen, hgl]
      exact_mod_cast this
    · intro n hn
      have hn2 : (n : Int) < t.get_num_cells := by
        rw [← hlen, ← hl]; exact_mod_cast hn
      have e1 := hget2 n (by omega) (by rw [hlen]; exact hn2)
      have e2 := hget n ⟨by omega, hn2⟩
      simp only [Int.toNat_ofNat] at e1 e2
      rw [e1, e2, List.getElem?_replicate]
      constructor
      · rintro (h1 | h1)
        · split at h1 <;> simp at h1
        · exact hperm.mem_iff.1 h1
      · exact fun h1 => Or.inr (hperm.mem_iff.2 h1)
  rw [compute_occupied_squares_eq]
  have hN2 : ¬ (t.with_regions idx rects).get_num_cells < 0 := hN
  rw [if_neg hN2]
  have hr2 : (t.with_regions idx rects).sample_cells.foldlM mark_occupied
      (List.replicate (t.with_regions idx rects).get_num_cells.toNat false) = some result := hr
  rw [hr2, heq]
  simp only [Option.map_some', Option.some.injEq]
  rw [hg]
  rfl

end AutoTiler

namespace AutoTiler

/-- The grid does not depend on the order of the regions, when they have a
positive size. -/
theorem compute_bounding_box_perm (t : AutoTiler) (idx : List EntityIndex)
    (rects : List QRect) (hp : rects.Perm t.entity_rectangles)
    (hv : ∀ r ∈ t.entity_rectangles, 0 < r.width ∧ 0 < r.height) :
    (t.with_regions idx rects).compute_pattern_sizes.compute_bounding_box =
      t.compute_pattern_sizes.compute_bounding_box.with_regions idx rects := by
  have hv2 : ∀ r ∈ rects, r.x1 ≤ r.x2 ∧ r.y1 ≤ r.y2 := by
    intro r hr
    obtain ⟨h1, h2⟩ := hv r (hp.mem_iff.1 hr)
    unfold QRect.width at h1
    unfold QRect.height at h2
    constructor <;> omega
  have hu := foldl_united_perm rects t.entity_rectangles hp hv2
  unfold compute_bounding_box compute_pattern_sizes with_regions
  simp only [hu]
  rfl

/-- Processing a permutation of the windows gives a border map with the same
classes. -/
theorem detect_fold_class_perm (t u : AutoTiler) (ws1 ws2 : List Int) (hp : ws2.Perm ws1)
    (hs : t.mask_sized) (h1 : ws1.foldlM detect_border_info t = some u) :
    ∃ v, ws2.foldlM detect_border_info t = some v ∧ borders_only t v ∧
      ∀ c, kind_class (v.border_at c) = kind_class (u.border_at c) := by
  obtain ⟨-, hw, hb⟩ := detect_fold_some ws1 t u h1
  obtain ⟨v, hv⟩ := detect_fold_succeeds ws2 t hs (fun w hwm => hw w (hp.mem_iff.1 hwm))
  obtain ⟨hf, -, hvb⟩ := detect_fold_some ws2 t v hv
  refine ⟨v, hv, hf, fun c => ?_⟩
  rw [hvb, hb]
  exact apply_assignments_class_perm _ _ _ c (hp.flatMap_right _)
    (flat_assignments_ne_none t ws2)

/-- Classifying the regions in another order, on the same grid and occupancy
mask, gives a border map with the same classes. -/
theorem compute_borders_class_perm (g u : AutoTiler) (idx : List EntityIndex)
    (rects : List QRect) (hp : rects.Perm g.entity_rectangles) (hs : g.mask_sized)
    (h : g.compute_borders = some u) :
    ∃ v, (g.with_regions idx rects).compute_borders = some v ∧
      borders_only (g.with_regions idx rects) v ∧
      ∀ c, kind_class (v.border_at c) = kind_class (u.border_at c) := by
  rw [compute_borders_eq] at h
  obtain ⟨-, hw, hb⟩ := detect_fold_some _ _ u h
  have hpw : (g.with_regions idx rects).processed_windows.Perm g.processed_windows :=
    hp.flatMap_right _
  have hs2 : mask_sized { g.with_regions idx rects with which_borders := [] } := hs
  obtain ⟨v, hv⟩ := detect_fold_succeeds (g.with_regions idx rects).processed_windows
    { g.with_regions idx rects with which_borders := [] } hs2
    (fun w hwm => hw w (hpw.mem_iff.1 hwm))
  obtain ⟨hf, -, hvb⟩ := detect_fold_some _ _ v hv
  refine ⟨v, by rw [compute_borders_eq]; exact hv,
    borders_only_trans _ _ v (cleared_borders_only _) hf, fun c => ?_⟩
  rw [hvb, hb]
  have hfun : window_assignments { g.with_regions idx rects with which_borders := [] } =
      window_assignments { g with which_borders := [] } := rfl
  have hba : border_at { g.with_regions idx rects with which_borders := [] } =
      border_at { g with which_borders := [] } := rfl
  rw [hfun, hba]
  exact apply_assignments_class_perm _ _ _ c (hpw.flatMap_right _)
    (flat_assignments_ne_none _ _)

theorem classify_some (t u : AutoTiler) (h : t.classify = some u) :
    ∃ g, t.compute_pattern_sizes.compute_bounding_box.compute_occupied_squares = some g ∧
      g.compute_borders = some u := by
  unfold classify at h
  exact Option.bind_eq_some.1 h

/-- C9, amended: when the regions have a positive size and their
classification succeeds, the classification of the same regions in any other
order also succeeds, on the same grid and occupancy mask, and so does the
processing of the same 2x2 windows in any other order; the border map obtained
agrees with the original one, cell by cell, on whether the cell holds no
border, a side kind or a corner kind. -/
theorem classification_class_order_independent (t : AutoTiler)
    (hv : ∀ r ∈ t.entity_rectangles, 0 < r.width ∧ 0 < r.height)
    (h : t.classify.isSome = true) :
    ∃ u, t.classify = some u ∧
      (∀ (idx : List EntityIndex) (rects : List QRect), rects.Perm t.entity_rectangles →
        ∃ v, (t.with_regions idx rects).classify = some v ∧
          v.bounding_box = u.bounding_box ∧ v.grid_size = u.grid_size ∧
          v.occupied_squares = u.occupied_squares ∧
          ∀ c, kind_class (v.border_at c) = kind_class (u.border_at c)) ∧
      (∀ ws : List Int, ws.Perm u.processed_windows →
        ∃ v, ws.foldlM detect_border_info { u with which_borders := [] } = some v ∧
          ∀ c, kind_class (v.border_at c) = kind_class (u.border_at c)) := by
  obtain ⟨u, hu⟩ := Option.isSome_iff_exists.1 h
  obtain ⟨g, hg, hgu⟩ := classify_some t u hu
  obtain ⟨hgf, hgs, -, -⟩ := compute_occupied_squares_some _ g hg
  have hgu2 := hgu
  rw [compute_borders_eq] at hgu2
  obtain ⟨hfu, -, -⟩ := detect_fold_some _ _ u hgu2
  have hgub : borders_only g u := borders_only_trans g _ u (cleared_borders_only g) hfu
  refine ⟨u, hu, ?_, ?_⟩
  · intro idx rects hp
    have hb := compute_bounding_box_perm t idx rects hp hv
    have hocc := compute_occupied_squares_perm
      t.compute_pattern_sizes.compute_bounding_box g idx rects hp hg
    have hgr : g.entity_rectangles = t.entity_rectangles := by rw [hgf]; rfl
    obtain ⟨v, hv1, hv2, hv3⟩ := compute_borders_class_perm g u idx rects
      (by rw [hgr]; exact hp) hgs hgu
    refine ⟨v, ?_, ?_, ?_, ?_, hv3⟩
    · unfold classify
      rw [hb, hocc]
      exact hv1
    · rw [borders_only_box _ v hv2, borders_only_box g u hgub]; rfl
    · rw [borders_only_grid _ v hv2, borders_only_grid g u hgub]; rfl
    · rw [borders_only_squares _ v hv2, borders_only_squares g u hgub]; rfl
  · intro ws hp
    have hcl : ({ u with which_borders := [] } : AutoTiler) = { g with which_borders := [] } := by
      have := hgub
      unfold borders_only at this
      rw [this]
    have hpw : u.processed_windows = g.processed_windows := by
      have hfun : u.rectangle_windows = g.rectangle_windows :=
        funext (borders_only_rectangle_windows g u hgub)
      have hrs : u.entity_rectangles = g.entity_rectangles := by
        have := hgub
        unfold borders_only at this
        rw [this]
      unfold processed_windows
      rw [hfun, hrs]
    rw [hcl]
    rw [hpw] at hp
    obtain ⟨v, hv1, -, hv3⟩ := detect_fold_class_perm { g with which_borders := [] } u
      g.processed_windows ws hp ((borders_only_mask_sized g _ (cleared_borders_only g)).2 hgs)
      hgu2
    exact ⟨v, hv1, hv3⟩

/-- Witness of C9 (amended): two regions that touch by a corner, in inner
mode, and the same regions in the reverse order. -/
theorem classification_class_order_independent_witness :
    ∃ u, (tiler_of (tileset_8x8 true) regions_touching).classify = some u ∧
      ∃ v, ((tiler_of (tileset_8x8 true) regions_touching).with_regions
          [⟨0, 1⟩, ⟨0, 0⟩] regions_touching.reverse).classify = some v ∧
        v.bounding_box = u.bounding_box ∧ v.grid_size = u.grid_size ∧
        v.occupied_squares = u.occupied_squares ∧
        ∀ c, kind_class (v.border_at c) = kind_class (u.border_at c) :=
  match classification_class_order_independent (tiler_of (tileset_8x8 true) regions_touching)
      (by decide) (by decide!) with
  | ⟨u, hu, h, _⟩ => ⟨u, hu, h [⟨0, 1⟩, ⟨0, 0⟩] regions_touching.reverse (List.reverse_perm _)⟩

end AutoTiler

theorem expandedTo_fold_agree (tileset : TilesetModel) (border_set_id : String)
    (kinds : List BorderKind) (a a0 : QSize)
    (hpos : ∀ k ∈ kinds,
      tileset.pattern_exists (tileset.get_border_set_pattern border_set_id k) = true →
      0 ≤ (tileset.pattern_frame_size (tileset.get_border_set_pattern border_set_id k)).wd ∧
      0 ≤ (tileset.pattern_frame_size (tileset.get_border_set_pattern border_set_id k)).ht)
    (hinv : (a = a0 ∧ 0 ≤ a.wd ∧ 0 ≤ a.ht) ∨
      (a = QSize.invalid ∧ a0 = ⟨0, 0⟩ ∧ ∀ k ∈ kinds,
        tileset.pattern_exists (tileset.get_border_set_pattern border_set_id k) = true →
        False) ∨
      (a = QSize.invalid ∧ a0 = ⟨0, 0⟩ ∧ ∃ k ∈ kinds,
        tileset.pattern_exists (tileset.get_border_set_pattern border_set_id k) = true)) :
    ((kinds.map fun kind =>
        if tileset.pattern_exists (tileset.get_border_set_pattern border_set_id kind) then
          tileset.pattern_frame_size (tileset.get_border_set_pattern border_set_id kind)
        else QSize.invalid).foldl QSize.expandedTo a =
      (kinds.map fun kind =>
        if tileset.pattern_exists (tileset.get_border_set_pattern border_set_id kind) then
          tileset.pattern_frame_size (tileset.get_border_set_pattern border_set_id kind)
        else (⟨0, 0⟩ : QSize)).foldl QSize.expandedTo a0) ∨
    (a = QSize.invalid ∧ ∀ k ∈ kinds,
        tileset.pattern_exists (tileset.get_border_set_pattern border_set_id k) = true →
        False) := by
  induction kinds generalizing a a0 with
  | nil =>
    rcases hinv with ⟨e, -, -⟩ | ⟨e, -, h⟩ | ⟨-, -, k, hk, -⟩
    · exact Or.inl e
    · exact Or.inr ⟨e, h⟩
    · simp at hk
  | cons k rest ih =>
    simp only [List.map_cons, List.foldl_cons]
    have hpos2 := fun j hj => hpos j (List.mem_cons_of_mem _ hj)
    by_cases hex : tileset.pattern_exists (tileset.get_border_set_pattern border_set_id k) = true
    · obtain ⟨p1, p2⟩ := hpos k (List.mem_cons_self _ _) hex
      simp only [hex, if_true]
      have step : (a.expandedTo (tileset.pattern_frame_size
            (tileset.get_border_set_pattern border_set_id k)) =
          a0.expandedTo (tileset.pattern_frame_size
            (tileset.get_border_set_pattern border_set_id k))) ∧
          0 ≤ (a.expandedTo (tileset.pattern_frame_size
            (tileset.get_border_set_pattern border_set_id k))).wd ∧
          0 ≤ (a.expandedTo (tileset.pattern_frame_size
            (tileset.get_border_set_pattern border_set_id k))).ht := by
        rcases hinv with ⟨e, q1, q2⟩ | ⟨e, e0, -⟩ | ⟨e, e0, -⟩
        · subst e
          exact ⟨rfl, le_trans q1 (le_max_left _ _), le_trans q2 (le_max_left _ _)⟩
        · subst e; subst e0
          unfold QSize.expandedTo QSize.invalid
          simp only [QSize.mk.injEq]
          refine ⟨⟨?_, ?_⟩, ?_, ?_⟩ <;> omega
        · subst e; subst e0
          unfold QSize.expandedTo QSize.invalid
          simp only [QSize.mk.injEq]
          refine ⟨⟨?_, ?_⟩, ?_, ?_⟩ <;> omega
      rcases ih _ _ hpos2 (Or.inl step) with h | ⟨h, -⟩
      · exact Or.inl h
      · exfalso
        rw [h] at step
        have := step.2.1
        unfold QSize.invalid at this
        simp at this
    · have hex2 : tileset.pattern_exists (tileset.get_border_set_pattern border_set_id k) =
          false := by simpa using hex
      simp only [hex2, Bool.false_eq_true, if_false]
      rcases hinv with ⟨e, q1, q2⟩ | ⟨e, e0, hno⟩ | ⟨e, e0, j, hj, hje⟩
      · subst e
        have s1 : a.expandedTo QSize.invalid = a := by
          unfold QSize.expandedTo QSize.invalid
          cases a
          simp only [QSize.mk.injEq] at *
          constructor <;> omega
        have s2 : a.expandedTo ⟨0, 0⟩ = a := by
          unfold QSize.expandedTo
          cases a
          simp only [QSize.mk.injEq] at *
          constructor <;> omega
        rw [s1, s2]
        rcases ih a a hpos2 (Or.inl ⟨rfl, q1, q2⟩) with h | ⟨h, -⟩
        · exact Or.inl h
        · exfalso
          rw [h] at q1
          unfold QSize.invalid at q1
          simp at q1
      · subst e; subst e0
        have s1 : QSize.invalid.expandedTo QSize.invalid = QSize.invalid := by decide
        have s2 : QSize.expandedTo ⟨0, 0⟩ ⟨0, 0⟩ = ⟨0, 0⟩ := by decide
        rw [s1, s2]
        rcases ih QSize.invalid ⟨0, 0⟩ hpos2
          (Or.inr (Or.inl ⟨rfl, rfl, fun j hj => hno j (List.mem_cons_of_mem _ hj)⟩)) with h | ⟨-, h⟩
        · exact Or.inl h
        · refine Or.inr ⟨rfl, ?_⟩
          intro j hj hje
          rcases List.mem_cons.1 hj with rfl | hj
          · exact hex hje
          · exact h j hj hje
      · subst e; subst e0
        have s1 : QSize.invalid.expandedTo QSize.invalid = QSize.invalid := by decide
        have s2 : QSize.expandedTo ⟨0, 0⟩ ⟨0, 0⟩ = ⟨0, 0⟩ := by decide
        rw [s1, s2]
        have hj2 : j ∈ rest := by
          rcases List.mem_cons.1 hj with rfl | hj
          · exact absurd hje hex
          · exact hj
        rcases ih QSize.invalid ⟨0, 0⟩ hpos2 (Or.inr (Or.inr ⟨rfl, rfl, j, hj2, hje⟩)) with h | ⟨-, h⟩
        · exact Or.inl h
        · exact absurd hje (fun e => h j hj2 e)

namespace AutoTiler

/-- As soon as one of the 12 patterns of the border set exists, the existing
patterns having non-negative sizes, the maximum that `compute_bounding_box`
computes is the component-wise maximum of the resolved sizes in which a
missing pattern counts for zero. -/
theorem max_pattern_size_eq_spec (t : AutoTiler)
    (hex : ∃ k ∈ BorderKind.all12,
      t.get_tileset.pattern_exists (t.get_tileset.get_border_set_pattern t.border_set_id k) = true)
    (hpos : ∀ k ∈ BorderKind.all12,
      t.get_tileset.pattern_exists (t.get_tileset.get_border_set_pattern t.border_set_id k) = true →
      0 ≤ (t.get_tileset.pattern_frame_size
        (t.get_tileset.get_border_set_pattern t.border_set_id k)).wd ∧
      0 ≤ (t.get_tileset.pattern_frame_size
        (t.get_tileset.get_border_set_pattern t.border_set_id k)).ht) :
    t.compute_pattern_sizes.max_pattern_size =
      max_pattern_size_spec t.get_tileset t.border_set_id := by
  obtain ⟨k, hk, hke⟩ := hex
  rcases expandedTo_fold_agree t.get_tileset t.border_set_id BorderKind.all12
    QSize.invalid ⟨0, 0⟩ hpos (Or.inr (Or.inr ⟨rfl, rfl, k, hk, hke⟩)) with h | ⟨-, h⟩
  · exact h
  · exact absurd hke (fun e => h k hk e)

end AutoTiler

namespace AutoTiler

theorem grid_fits_mono (m n : Int) (t : AutoTiler) (hmn : n ≤ m) (h : grid_fits m t) :
    grid_fits n t := by
  obtain ⟨h1, h2, h3⟩ := h
  refine ⟨h1, h2, fun r hr => ?_⟩
  obtain ⟨col, row, nx, ny, e1, e2, e3, e4, p1, p2, p3, p4, p5, p6⟩ := h3 r hr
  exact ⟨col, row, nx, ny, e1, e2, e3, e4, p1, p2, by omega, by omega, by omega, by omega⟩

theorem grid_fits_squares (m : Int) (t : AutoTiler) (squares : List Bool)
    (h : grid_fits m t) : grid_fits m { t with occupied_squares := squares } := h

/-- For a non-empty list of cell-aligned regions and a border set whose
largest pattern size is a multiple of 8 and at least 8 in both dimensions, the
steps of `generate_border_tiles` up to the classification succeed: the grid
has a margin of one cell around every region, the occupancy mask has one entry
per cell, which is true exactly when the 8x8 square of the cell lies within a
region, and every window that `compute_borders` processes lies in the
grid. -/
theorem classify_of_margin (t : AutoTiler) (hne : t.entity_rectangles ≠ [])
    (hal : ∀ r ∈ t.entity_rectangles, r.cell_aligned)
    (hw : 8 ∣ t.compute_pattern_sizes.max_pattern_size.wd)
    (hh : 8 ∣ t.compute_pattern_sizes.max_pattern_size.ht)
    (h8w : 8 ≤ t.compute_pattern_sizes.max_pattern_size.wd)
    (h8h : 8 ≤ t.compute_pattern_sizes.max_pattern_size.ht) :
    ∃ g u, t.compute_pattern_sizes.compute_bounding_box.compute_occupied_squares = some g ∧
      grid_fits 1 g ∧ g.mask_sized ∧
      (∀ i, g.in_grid i → g.is_cell_occupied i = some (g.cell_covered i)) ∧
      (∀ w ∈ g.processed_windows, g.window_in_grid w) ∧
      g.compute_borders = some u ∧ t.classify = some u := by
  have hb : grid_fits 1 t.compute_pattern_sizes.compute_bounding_box :=
    compute_bounding_box_fits t.compute_pattern_sizes 1 (by decide) hne hal hw hh
      (by omega) (by omega)
  obtain ⟨g, hg, hgf, hgs, hcov⟩ := compute_occupied_squares_covered _
    (grid_fits_mono 1 0 _ (by decide) hb)
  have hfit : grid_fits 1 g := by
    rw [hgf]
    exact grid_fits_squares 1 _ _ hb
  have hwin := processed_windows_in_grid g hfit
  obtain ⟨u, hu, -, -⟩ := compute_borders_apply g hgs hwin
  refine ⟨g, u, hg, hfit, hgs, ?_, hwin, hu, ?_⟩
  · intro i hi
    have h1 : t.compute_pattern_sizes.compute_bounding_box.in_grid i := by
      rw [hgf] at hi
      exact hi
    have h2 : g.cell_covered i = t.compute_pattern_sizes.compute_bounding_box.cell_covered i := by
      rw [hgf]
      rfl
    rw [h2]
    exact hcov i h1
  · unfold classify
    rw [hg]
    exact hu

/-- The 3x3 grid of the fixtures is the grid and the occupancy mask built for
the single region (0, 0, 8, 8) and 8x8 patterns, and the 4x4 grid those built
for the regions (8, 0, 8, 8) and (0, 8, 8, 8). -/
theorem fixtures_are_built :
    ((tiler_of (tileset_8x8 true)
        [QRect.ofXYWH 0 0 8 8]).compute_pattern_sizes.compute_bounding_box.compute_occupied_squares.map
      fun g => (g.bounding_box, g.grid_size, g.occupied_squares)) =
      some ((grid_3x3 true).bounding_box, (grid_3x3 true).grid_size,
        (grid_3x3 true).occupied_squares) ∧
    ((tiler_of (tileset_8x8 false)
        [QRect.ofXYWH 8 0 8 8, QRect.ofXYWH 0 8 8 8]).compute_pattern_sizes.compute_bounding_box.compute_occupied_squares.map
      fun g => (g.bounding_box, g.grid_size, g.occupied_squares)) =
      some ((grid_4x4 false).bounding_box, (grid_4x4 false).grid_size,
        (grid_4x4 false).occupied_squares) := by
  constructor <;> decide!

end AutoTiler

/-! ### Tile synthesis: `make_tile` -/

namespace AutoTiler

/-- The body of `make_tile` with its `switch` statement written as
`tile_size`. -/
theorem make_tile_def (t : AutoTiler) (which_border : BorderKind) (grid_index n : Int) :
    t.make_tile which_border grid_index n =
      if which_border = BorderKind.NONE then some t
      else if ¬ (n > 0) then none
      else
        match t.to_map_xy grid_index with
        | none => none
        | some xy =>
          if ¬ t.get_tileset.pattern_exists (t.pattern_of which_border) then some t
          else if (t.get_tileset.pattern_frame_size (t.pattern_of which_border)).isEmpty then none
          else if (tile_size which_border
              (t.get_tileset.pattern_frame_size (t.pattern_of which_border)) n).isEmpty then none
          else
            match t.entity_indexes.head? with
            | none => none
            | some first =>
              some { t with tiles := t.tiles ++
                [some ⟨t.pattern_of which_border, xy,
                  tile_size which_border
                    (t.get_tileset.pattern_frame_size (t.pattern_of which_border)) n,
                  first.layer⟩] } := by
  cases which_border <;> rfl

theorem tile_size_not_empty (which_border : BorderKind) (pattern_size : QSize) (n : Int)
    (hn : 0 < n) (hp : pattern_size.isEmpty = false) :
    (tile_size which_border pattern_size n).isEmpty = false := by
  have h1 : ¬ pattern_size.wd < 1 ∧ ¬ pattern_size.ht < 1 := by
    simpa [QSize.isEmpty] using hp
  cases which_border <;> simp [tile_size, QSize.isEmpty] <;> omega

/-- The tile that `make_tile` appends, when it appends one. -/
theorem make_tile_eq (t : AutoTiler) (which_border : BorderKind) (grid_index n : Int)
    (xy : QPoint) (first : EntityIndex)
    (hk : which_border ≠ BorderKind.NONE) (hn : 0 < n)
    (hxy : t.to_map_xy grid_index = some xy)
    (hfirst : t.entity_indexes.head? = some first)
    (hex : t.get_tileset.pattern_exists (t.pattern_of which_border) = true)
    (hp : (t.get_tileset.pattern_frame_size (t.pattern_of which_border)).isEmpty = false) :
    t.make_tile which_border grid_index n =
      some { t with tiles := t.tiles ++
        [some ⟨t.pattern_of which_border, xy,
          tile_size which_border (t.get_tileset.pattern_frame_size (t.pattern_of which_border)) n,
          first.layer⟩] } := by
  have hs := tile_size_not_empty which_border _ n hn hp
  rw [make_tile_def, if_neg hk, if_neg (by omega), hxy]
  simp only [hex, hp, hfirst, hs, not_true_eq_false, if_false, Bool.false_eq_true]

/-- What a successful `make_tile` did: nothing, or it appended the tile of
`make_tile_eq`. -/
theorem make_tile_some (t u : AutoTiler) (which_border : BorderKind) (grid_index n : Int)
    (h : t.make_tile which_border grid_index n = some u) :
    u = t ∨
    (which_border ≠ BorderKind.NONE ∧ 0 < n ∧
      t.get_tileset.pattern_exists (t.pattern_of which_border) = true ∧
      ∃ xy first, t.to_map_xy grid_index = some xy ∧ t.entity_indexes.head? = some first ∧
        u = { t with tiles := t.tiles ++
          [some ⟨t.pattern_of which_border, xy,
            tile_size which_border
              (t.get_tileset.pattern_frame_size (t.pattern_of which_border)) n,
            first.layer⟩] }) := by
  rw [make_tile_def] at h
  by_cases hk : which_border = BorderKind.NONE
  · left
    rw [if_pos hk] at h
    exact (Option.some.inj h).symm
  rw [if_neg hk] at h
  by_cases hn : 0 < n
  swap
  · rw [if_pos (by omega)] at h
    cases h
  rw [if_neg (by omega)] at h
  cases hxy : t.to_map_xy grid_index with
  | none =>
    rw [hxy] at h
    cases h
  | some xy =>
    rw [hxy] at h
    simp only at h
    by_cases hex : t.get_tileset.pattern_exists (t.pattern_of which_border) = true
    swap
    · left
      rw [if_pos hex] at h
      exact (Option.some.inj h).symm
    rw [if_neg (by simpa using hex)] at h
    by_cases hp : (t.get_tileset.pattern_frame_size (t.pattern_of which_border)).isEmpty = true
    · rw [if_pos hp] at h
      cases h
    rw [if_neg hp] at h
    have hs := tile_size_not_empty which_border _ n hn (by simpa using hp)
    rw [if_neg (by simp [hs])] at h
    cases hfirst : t.entity_indexes.head? with
    | none =>
      rw [hfirst] at h
      cases h
    | some first =>
      right
      rw [hfirst] at h
      exact ⟨hk, hn, hex, xy, first, rfl, rfl, (Option.some.inj h).symm⟩

end AutoTiler

namespace AutoTiler

/-- C11. `make_tile(kind, cell, run_length)`, called as the code requires it
(a positive run length, a cell of a grid whose position is `xy`, a first input
entity): it appends nothing when the kind is NONE, when the pattern id mapped
to the kind does not exist in the tileset, and hence when the border set maps
no pattern to the kind (the lookup then resolving to an id that does not
exist); otherwise, the pattern having a non-empty size, it appends exactly
one tile, with the pattern mapped to the kind, at the position
`to_map_xy(cell)`, on the layer of the first entity, of size
(pattern width, run_length * 8) for LEFT and RIGHT,
(run_length * 8, pattern height) for TOP and BOTTOM and the size of the
pattern for the eight corner kinds. -/
theorem make_tile_contract (t : AutoTiler) (kind : BorderKind) (cell run_length : Int)
    (xy : QPoint) (first : EntityIndex) (hrun : 0 < run_length)
    (hxy : t.to_map_xy cell = some xy) (hfirst : t.entity_indexes.head? = some first) :
    (kind = BorderKind.NONE → t.make_tile kind cell run_length = some t) ∧
    (t.get_tileset.pattern_exists (t.pattern_of kind) = false →
      t.make_tile kind cell run_length = some t) ∧
    ((t.get_tileset.has_border_set_pattern t.border_set_id kind = false →
        t.get_tileset.pattern_exists (t.pattern_of kind) = false) →
      t.get_tileset.has_border_set_pattern t.border_set_id kind = false →
      t.make_tile kind cell run_length = some t) ∧
    (kind ≠ BorderKind.NONE → t.get_tileset.pattern_exists (t.pattern_of kind) = true →
      (t.get_tileset.pattern_frame_size (t.pattern_of kind)).isEmpty = false →
      ∃ size : QSize,
        t.make_tile kind cell run_length =
          some { t with tiles := t.tiles ++ [some ⟨t.pattern_of kind, xy, size, first.layer⟩] } ∧
        (kind = BorderKind.LEFT ∨ kind = BorderKind.RIGHT →
          size = ⟨(t.get_tileset.pattern_frame_size (t.pattern_of kind)).wd, run_length * 8⟩) ∧
        (kind = BorderKind.TOP ∨ kind = BorderKind.BOTTOM →
          size = ⟨run_length * 8, (t.get_tileset.pattern_frame_size (t.pattern_of kind)).ht⟩) ∧
        (is_corner_border kind = true →
          size = t.get_tileset.pattern_frame_size (t.pattern_of kind))) := by
  have hno : t.get_tileset.pattern_exists (t.pattern_of kind) = false →
      t.make_tile kind cell run_length = some t := by
    intro hex
    rw [make_tile_def, hxy]
    by_cases hk : kind = BorderKind.NONE
    · rw [if_pos hk]
    · rw [if_neg hk, if_neg (by omega)]
      simp [hex]
  refine ⟨?_, hno, fun hc hu => hno (hc hu), ?_⟩
  · intro hk
    rw [make_tile_def, if_pos hk]
  · intro hk hex hp
    refine ⟨_, make_tile_eq t kind cell run_length xy first hk hrun hxy hfirst hex hp, ?_, ?_, ?_⟩
    · rintro (h | h) <;> subst h <;> rfl
    · rintro (h | h) <;> subst h <;> rfl
    · intro hc
      cases kind <;> first | rfl | exact absurd hc (by decide)

theorem make_tile_contract_witness :
    (0 : Int) < 2 ∧ (grid_3x3 false).to_map_xy 1 = some ⟨0, -8⟩ ∧
    (grid_3x3 false).entity_indexes.head? = some ⟨0, 0⟩ ∧
    (grid_3x3 false).make_tile BorderKind.NONE 1 2 = some (grid_3x3 false) ∧
    ∃ size : QSize,
      (grid_3x3 false).make_tile BorderKind.TOP 1 2 =
        some { grid_3x3 false with
          tiles := (grid_3x3 false).tiles ++ [some ⟨"p", ⟨0, -8⟩, size, 0⟩] } ∧
      size = ⟨2 * 8, 8⟩ :=
  have h := make_tile_contract (grid_3x3 false) BorderKind.TOP 1 2 ⟨0, -8⟩ ⟨0, 0⟩
    (by decide) (by decide!) (by decide!)
  have h0 := make_tile_contract (grid_3x3 false) BorderKind.NONE 1 2 ⟨0, -8⟩ ⟨0, 0⟩
    (by decide) (by decide!) (by decide!)
  ⟨by decide, by decide!, by decide!, h0.1 rfl,
    (h.2.2.2 (by decide) rfl rfl).imp fun _ hs => ⟨hs.1, hs.2.2.1 (Or.inl rfl)⟩⟩

end AutoTiler

/-! ### Evaluations of `generate_border_tiles` -/

namespace AutoTiler

/-- C13, counterexample. Outer mode, one region (0, 0, 24, 8), the pattern of
TOP 16x8 and the other patterns 8x8: the run of 3 cells above the region is
rounded up to 4 cells, a multiple of the 2 cells of the pattern, so the TOP
tile is 32 pixels wide from x = 0 and covers the top-right corner tile at
(24, -8). -/
theorem overlapping_tiles_counterexample :
    (QRect.ofXYWH 0 0 24 8).cell_aligned ∧
    (tiler_of (tileset_wide_top false) [QRect.ofXYWH 0 0 24 8]).emitted =
      some [some ⟨"top", ⟨0, -8⟩, ⟨32, 8⟩, 0⟩, some ⟨"p", ⟨0, 8⟩, ⟨24, 8⟩, 0⟩,
        some ⟨"p", ⟨-8, -8⟩, ⟨8, 8⟩, 0⟩, some ⟨"p", ⟨24, -8⟩, ⟨8, 8⟩, 0⟩,
        some ⟨"p", ⟨-8, 8⟩, ⟨8, 8⟩, 0⟩, some ⟨"p", ⟨24, 8⟩, ⟨8, 8⟩, 0⟩] ∧
    (Tile.rect ⟨"top", ⟨0, -8⟩, ⟨32, 8⟩, 0⟩).overlaps (Tile.rect ⟨"p", ⟨24, -8⟩, ⟨8, 8⟩, 0⟩) := by
  refine ⟨by decide, by decide!, by decide⟩

/-- C14, counterexample. Inner mode, one region (0, 0, 24, 24), all patterns
8x8: the output is 4 side tiles (one per edge, not (24/8)*2 + (24/8)*2 = 12)
and 4 corner tiles, and every tile lies inside the region, not one cell
outside its edges. -/
theorem symmetry_counterexample :
    (tiler_of (tileset_8x8 true) [QRect.ofXYWH 0 0 24 24]).emitted =
      some [some ⟨"p", ⟨8, 0⟩, ⟨8, 8⟩, 0⟩, some ⟨"p", ⟨0, 8⟩, ⟨8, 8⟩, 0⟩,
        some ⟨"p", ⟨16, 8⟩, ⟨8, 8⟩, 0⟩, some ⟨"p", ⟨8, 16⟩, ⟨8, 8⟩, 0⟩,
        some ⟨"p", ⟨0, 0⟩, ⟨8, 8⟩, 0⟩, some ⟨"p", ⟨16, 0⟩, ⟨8, 8⟩, 0⟩,
        some ⟨"p", ⟨0, 16⟩, ⟨8, 8⟩, 0⟩, some ⟨"p", ⟨16, 16⟩, ⟨8, 8⟩, 0⟩] ∧
    ((tiler_of (tileset_8x8 true) [QRect.ofXYWH 0 0 24 24]).emitted.map List.length) = some 8 ∧
    (24 / 8) * 2 + (24 / 8) * 2 + 4 = 16 := by
  refine ⟨by decide!, by decide!, by decide⟩

/-- C15, counterexample. With all 12 patterns 8x8, one region (0, 0, 16, 16)
in inner mode and one region (0, 0, 8, 8) in outer mode give 4 corner tiles
and no side tile: no cell is classified as a side. -/
theorem four_sides_counterexample :
    (tiler_of (tileset_8x8 true) [QRect.ofXYWH 0 0 16 16]).emitted =
      some [some ⟨"p", ⟨0, 0⟩, ⟨8, 8⟩, 0⟩, some ⟨"p", ⟨8, 0⟩, ⟨8, 8⟩, 0⟩,
        some ⟨"p", ⟨0, 8⟩, ⟨8, 8⟩, 0⟩, some ⟨"p", ⟨8, 8⟩, ⟨8, 8⟩, 0⟩] ∧
    ((tiler_of (tileset_8x8 true) [QRect.ofXYWH 0 0 16 16]).classify.map fun g =>
      g.which_borders) =
      some [(5, BorderKind.TOP_LEFT_CONVEX), (6, BorderKind.TOP_RIGHT_CONVEX),
        (9, BorderKind.BOTTOM_LEFT_CONVEX), (10, BorderKind.BOTTOM_RIGHT_CONVEX)] ∧
    (tiler_of (tileset_8x8 false) [QRect.ofXYWH 0 0 8 8]).emitted =
      some [some ⟨"p", ⟨-8, -8⟩, ⟨8, 8⟩, 0⟩, some ⟨"p", ⟨8, -8⟩, ⟨8, 8⟩, 0⟩,
        some ⟨"p", ⟨-8, 8⟩, ⟨8, 8⟩, 0⟩, some ⟨"p", ⟨8, 8⟩, ⟨8, 8⟩, 0⟩] ∧
    ((tiler_of (tileset_8x8 false) [QRect.ofXYWH 0 0 8 8]).classify.map fun g =>
      g.which_borders) =
      some [(0, BorderKind.TOP_LEFT_CONVEX), (2, BorderKind.TOP_RIGHT_CONVEX),
        (6, BorderKind.BOTTOM_LEFT_CONVEX), (8, BorderKind.BOTTOM_RIGHT_CONVEX)] := by
  refine ⟨by decide!, by decide!, by decide!, by decide!⟩

/-- C16, failing input. One region (0, 0, 16, 16), outer mode, a tileset
with one 8x8 pattern. Under the border set "top_only", which maps TOP only,
the output is the TOP tile alone: no tile of another kind. Under the border
set "bare", which differs from it by leaving TOP unmapped, no pattern exists
at all, the grid has no margin, and the call fails on the window at index -3
instead of returning the empty sequence. -/
theorem missing_top_unmapped :
    (tiler_with (tileset_top_only false) [QRect.ofXYWH 0 0 16 16] "top_only").emitted =
      some [some ⟨"p", ⟨0, -8⟩, ⟨16, 8⟩, 0⟩] ∧
    (∀ kind, (tileset_top_only false).has_border_set_pattern "bare" kind = false) ∧
    (∀ kind, kind ≠ BorderKind.TOP →
      (tileset_top_only false).has_border_set_pattern "top_only" kind =
        (tileset_top_only false).has_border_set_pattern "bare" kind ∧
      (tileset_top_only false).get_border_set_pattern "top_only" kind =
        (tileset_top_only false).get_border_set_pattern "bare" kind) ∧
    ((tiler_with (tileset_top_only false)
        [QRect.ofXYWH 0 0 16 16] "bare").compute_pattern_sizes.compute_bounding_box.compute_occupied_squares.map
      fun g => (g.grid_size, g.processed_windows.head?, g.compute_borders.isNone)) =
      some (⟨2, 2⟩, some (-3), true) ∧
    (tiler_with (tileset_top_only false) [QRect.ofXYWH 0 0 16 16] "bare").emitted = none := by
  refine ⟨by decide!, ?_, ?_, by decide!, by decide!⟩
  · intro kind
    cases kind <;> rfl
  · intro kind hk
    cases kind <;> first | exact absurd rfl hk | exact ⟨rfl, rfl⟩

/-- C17, failing input. One region (0, 0, 16, 16), a border set that maps
TOP to a pattern id that does not exist in the tileset (the other kinds are
mapped to an existing 8x8 pattern): the size recorded for TOP is the invalid
size (-1, -1), the base size of the run above the region is -1 / 8 = 0 cells,
and the remainder of the run length by this base is a division by zero: the
call fails, in both modes. -/
theorem ghost_pattern_fails :
    (tileset_ghost_top false).has_border_set_pattern "border" BorderKind.TOP = true ∧
    (tileset_ghost_top false).pattern_exists
      ((tileset_ghost_top false).get_border_set_pattern "border" BorderKind.TOP) = false ∧
    ((tiler_of (tileset_ghost_top false) [QRect.ofXYWH 0 0 16 16]).classify.map fun g =>
      (g.border_at 1, g.get_pattern_size BorderKind.TOP,
        (side_tile BorderKind.LEFT BorderKind.TOP is_concave_corner_border g 1).isNone)) =
      some (BorderKind.TOP, some ⟨-1, -1⟩, true) ∧
    Int.tdiv (-1) 8 = 0 ∧
    (tiler_of (tileset_ghost_top false) [QRect.ofXYWH 0 0 16 16]).emitted = none ∧
    (tiler_of (tileset_ghost_top true) [QRect.ofXYWH 0 0 24 24]).emitted = none := by
  refine ⟨by decide, by decide, by decide!, by decide, by decide!, by decide!⟩

/-- C20, failing input. One region (0, 0, 16, 16), outer mode, all patterns
8x8. The first call returns 8 tiles and leaves 8 moved-from entries in the
member `tiles`, which no step of `generate_border_tiles` clears; the second
call on the same tiler appends its tiles after them and fails when it reads
the layer of the first entry, instead of returning the same 8 tiles. -/
theorem second_invocation_fails :
    ((tiler_of (tileset_8x8 false) [QRect.ofXYWH 0 0 16 16]).emitted.map List.length) =
      some 8 ∧
    ((tiler_of (tileset_8x8 false) [QRect.ofXYWH 0 0 16 16]).generate_border_tiles.map fun r =>
      (r.1.tiles, r.1.which_borders)) =
      some ([none, none, none, none, none, none, none, none], []) ∧
    ((tiler_of (tileset_8x8 false) [QRect.ofXYWH 0 0 16 16]).generate_border_tiles.map fun r =>
      (r.1.compute_pattern_sizes.compute_bounding_box.compute_occupied_squares.bind fun g =>
        g.compute_borders.bind fun g => g.compute_tiles.map fun g => g.tiles.map Option.isSome)) =
      some (some [false, false, false, false, false, false, false, false,
        true, true, true, true, true, true, true, true]) ∧
    ((tiler_of (tileset_8x8 false) [QRect.ofXYWH 0 0 16 16]).generate_border_tiles.map fun r =>
      r.1.emitted) = some none := by
  refine ⟨by decide!, by decide!, by decide!, by decide!⟩

end AutoTiler

/-! ### The border map as a sorted list -/

theorem map_assign_keys_mem (m : List (Int × BorderKind)) (key : Int) (v : BorderKind)
    (x : Int) (h : x ∈ (map_assign m key v).map Prod.fst) : x = key ∨ x ∈ m.map Prod.fst := by
  induction m with
  | nil =>
    simp only [map_assign, List.map_cons, List.map_nil, List.mem_singleton] at h
    exact Or.inl h
  | cons a rest ih =>
    obtain ⟨k, w⟩ := a
    unfold map_assign at h
    by_cases h1 : key < k
    · rw [if_pos h1] at h
      simp only [List.map_cons, List.mem_cons] at h ⊢
      tauto
    · rw [if_neg h1] at h
      by_cases h2 : key = k
      · rw [if_pos h2] at h
        simp only [List.map_cons, List.mem_cons] at h ⊢
        tauto
      · rw [if_neg h2] at h
        simp only [List.map_cons, List.mem_cons] at h ⊢
        rcases h with h | h
        · exact Or.inr (Or.inl h)
        · rcases ih h with h3 | h3
          · exact Or.inl h3
          · exact Or.inr (Or.inr h3)

theorem map_assign_sorted (m : List (Int × BorderKind)) (key : Int) (v : BorderKind)
    (h : (m.map Prod.fst).Pairwise (· < ·)) :
    ((map_assign m key v).map Prod.fst).Pairwise (· < ·) := by
  induction m with
  | nil => simp [map_assign]
  | cons a rest ih =>
    obtain ⟨k, w⟩ := a
    simp only [List.map_cons, List.pairwise_cons] at h
    unfold map_assign
    by_cases h1 : key < k
    · rw [if_pos h1]
      simp only [List.map_cons, List.pairwise_cons, List.mem_cons]
      refine ⟨?_, h.1, h.2⟩
      rintro x (hx | hx)
      · omega
      · have := h.1 x hx
        omega
    · rw [if_neg h1]
      by_cases h2 : key = k
      · rw [if_pos h2]
        simp only [List.map_cons, List.pairwise_cons]
        exact h
      · rw [if_neg h2]
        simp only [List.map_cons, List.pairwise_cons]
        refine ⟨?_, ih h.2⟩
        intro x hx
        rcases map_assign_keys_mem rest key v x hx with h3 | h3
        · omega
        · exact h.1 x h3

theorem map_find_some_mem (m : List (Int × BorderKind)) (key : Int) (v : BorderKind)
    (h : map_find m key = some v) : key ∈ m.map Prod.fst := by
  induction m with
  | nil => simp [map_find] at h
  | cons a rest ih =>
    obtain ⟨k, w⟩ := a
    unfold map_find at h
    by_cases h1 : key = k
    · simp [h1]
    · rw [if_neg h1] at h
      simp only [List.map_cons, List.mem_cons]
      exact Or.inr (ih h)

theorem map_find_of_mem (m : List (Int × BorderKind)) (key : Int)
    (h : key ∈ m.map Prod.fst) : ∃ v, map_find m key = some v := by
  induction m with
  | nil => simp at h
  | cons a rest ih =>
    obtain ⟨k, w⟩ := a
    unfold map_find
    by_cases h1 : key = k
    · exact ⟨w, by rw [if_pos h1]⟩
    · rw [if_neg h1]
      simp only [List.map_cons, List.mem_cons] at h
      rcases h with h | h
      · exact absurd h h1
      · exact ih h

namespace AutoTiler

theorem same_frame_refl (t : AutoTiler) : same_frame t t :=
  ⟨rfl, rfl, rfl, rfl, rfl, rfl, rfl, rfl⟩

theorem same_frame_trans (t u v : AutoTiler) (h1 : same_frame t u) (h2 : same_frame u v) :
    same_frame t v := by
  obtain ⟨a1, a2, a3, a4, a5, a6, a7, a8⟩ := h1
  obtain ⟨b1, b2, b3, b4, b5, b6, b7, b8⟩ := h2
  exact ⟨b1.trans a1, b2.trans a2, b3.trans a3, b4.trans a4, b5.trans a5, b6.trans a6,
    b7.trans a7, b8.trans a8⟩

theorem same_frame_with_border (t : AutoTiler) (c : Int) (k : BorderKind) :
    same_frame t (t.with_border c k) :=
  ⟨rfl, rfl, rfl, rfl, rfl, rfl, rfl, rfl⟩

theorem same_frame_tiles (t : AutoTiler) (tiles : List (Option Tile)) :
    same_frame t { t with tiles := tiles } :=
  ⟨rfl, rfl, rfl, rfl, rfl, rfl, rfl, rfl⟩

theorem same_frame_of_borders_only (t u : AutoTiler) (h : borders_only t u) :
    same_frame t u ∧ u.tiles = t.tiles := by
  unfold borders_only at h
  rw [h]
  exact ⟨⟨rfl, rfl, rfl, rfl, rfl, rfl, rfl, rfl⟩, rfl⟩

theorem same_frame_in_grid (t u : AutoTiler) (h : same_frame t u) (c : Int) :
    u.in_grid c ↔ t.in_grid c :=
  in_grid_congr t u h.2.2.2.2.2.2.1 c

theorem same_frame_pattern_of (t u : AutoTiler) (h : same_frame t u) (k : BorderKind) :
    u.pattern_of k = t.pattern_of k := by
  unfold pattern_of get_tileset
  rw [h.1, h.2.2.1]

theorem same_frame_tileset (t u : AutoTiler) (h : same_frame t u) :
    u.get_tileset = t.get_tileset := by
  unfold get_tileset
  rw [h.1]

theorem same_frame_inner (t u : AutoTiler) (h : same_frame t u) :
    u.get_tileset.is_border_set_inner u.border_set_id =
      t.get_tileset.is_border_set_inner t.border_set_id := by
  rw [same_frame_tileset t u h, h.2.2.1]

theorem same_frame_get_pattern_size (t u : AutoTiler) (h : same_frame t u) (k : BorderKind) :
    u.get_pattern_size k = t.get_pattern_size k := by
  unfold get_pattern_size
  rw [h.2.2.2.2.1]

theorem same_frame_to_map_xy (t u : AutoTiler) (h : same_frame t u) (c : Int) :
    u.to_map_xy c = t.to_map_xy c := by
  unfold to_map_xy
  rw [h.2.2.2.2.2.2.1, h.2.2.2.2.2.1]

theorem fades_refl (t : AutoTiler) : fades t t := fun _ => Or.inl rfl

theorem fades_trans (t u v : AutoTiler) (h1 : fades t u) (h2 : fades u v) : fades t v := by
  intro c
  rcases h2 c with h | h
  · rcases h1 c with h3 | h3
    · exact Or.inl (h.trans h3)
    · exact Or.inr (h.trans h3)
  · exact Or.inr h

theorem fades_of_eq (t u : AutoTiler) (h : u.which_borders = t.which_borders) : fades t u := by
  intro c
  left
  unfold border_at
  rw [h]

theorem border_at_with_border_eq (t : AutoTiler) (cell : Int) (k : BorderKind) (c : Int) :
    (t.with_border cell k).border_at c = if c = cell then k else t.border_at c :=
  border_at_assign t cell k c

theorem fades_with_border_none (t : AutoTiler) (cell : Int) :
    fades t (t.with_border cell BorderKind.NONE) := by
  intro c
  rw [border_at_with_border_eq]
  by_cases h : c = cell
  · rw [if_pos h]; exact Or.inr rfl
  · rw [if_neg h]; exact Or.inl rfl

theorem keys_sorted_with_border (t : AutoTiler) (cell : Int) (k : BorderKind)
    (h : t.keys_sorted) : (t.with_border cell k).keys_sorted :=
  map_assign_sorted t.which_borders cell k h

theorem keys_sorted_with_side (t : AutoTiler) (cell : Int) (k : BorderKind)
    (h : t.keys_sorted) : (t.with_side cell k).keys_sorted := by
  unfold with_side
  split
  · exact h
  · exact keys_sorted_with_border t cell k h

theorem map_find_border_at (t : AutoTiler) (c : Int) (k : BorderKind)
    (h : map_find t.which_borders c = some k) : t.border_at c = k := by
  unfold border_at
  rw [h]
  rfl

theorem mem_keys_of_border_at (t : AutoTiler) (c : Int) (h : t.border_at c ≠ BorderKind.NONE) :
    c ∈ t.border_keys := by
  unfold border_at at h
  cases e : map_find t.which_borders c with
  | none => rw [e] at h; exact absurd rfl h
  | some v => exact map_find_some_mem _ _ _ e

theorem map_find_of_key (t : AutoTiler) (c : Int) (h : c ∈ t.border_keys) :
    map_find t.which_borders c = some (t.border_at c) := by
  obtain ⟨v, hv⟩ := map_find_of_mem t.which_borders c h
  rw [hv, map_find_border_at t c v hv]

/-! ### The counting loop of a side run -/

theorem clear_run_frame (m : Nat) (t : AutoTiler) (cur step : Int) :
    same_frame t (clear_run t cur step m) ∧ (clear_run t cur step m).tiles = t.tiles ∧
    fades t (clear_run t cur step m) ∧
    (t.keys_sorted → (clear_run t cur step m).keys_sorted) := by
  induction m generalizing t cur with
  | zero => exact ⟨same_frame_refl t, rfl, fades_refl t, id⟩
  | succ m ih =>
    obtain ⟨h1, h2, h3, h4⟩ := ih (t.with_border (cur + step) BorderKind.NONE) (cur + step)
    refine ⟨same_frame_trans _ _ _ (same_frame_with_border t _ _) h1, h2,
      fades_trans _ _ _ (fades_with_border_none t _) h3, fun hs => h4 ?_⟩
    exact keys_sorted_with_border t _ _ hs

theorem clear_run_border_at (m : Nat) (t : AutoTiler) (cur step c : Int) :
    ((∃ j : Nat, 1 ≤ j ∧ j ≤ m ∧ c = cur + j * step) →
      (clear_run t cur step m).border_at c = BorderKind.NONE) ∧
    ((¬ ∃ j : Nat, 1 ≤ j ∧ j ≤ m ∧ c = cur + j * step) →
      (clear_run t cur step m).border_at c = t.border_at c) := by
  induction m generalizing t cur with
  | zero =>
    constructor
    · rintro ⟨j, h1, h2, -⟩
      omega
    · intro _
      rfl
  | succ m ih =>
    obtain ⟨ih1, ih2⟩ := ih (t.with_border (cur + step) BorderKind.NONE) (cur + step)
    by_cases h : ∃ j : Nat, 1 ≤ j ∧ j ≤ m ∧ c = cur + step + j * step
    · constructor
      · intro _
        exact ih1 h
      · intro hn
        exfalso
        apply hn
        obtain ⟨j, h1, h2, h3⟩ := h
        refine ⟨j + 1, by omega, by omega, ?_⟩
        rw [h3]; push_cast; ring
    · have e := ih2 h
      rw [border_at_with_border_eq] at e
      by_cases hc : c = cur + step
      · rw [if_pos hc] at e
        constructor
        · intro _
          exact e
        · intro hn
          exfalso
          apply hn
          exact ⟨1, le_refl _, by omega, by rw [hc]; push_cast; ring⟩
      · rw [if_neg hc] at e
        constructor
        · rintro ⟨j, h1, h2, h3⟩
          exfalso
          rcases Nat.lt_or_ge 1 j with h4 | h4
          · apply h
            refine ⟨j - 1, by omega, by omega, ?_⟩
            rw [h3]
            have : ((j - 1 : Nat) : Int) = (j : Int) - 1 := by omega
            rw [this]; ring
          · have : j = 1 := by omega
            subst this
            apply hc
            rw [h3]; push_cast; ring
        · intro _
          exact e

theorem count_run_some (which_border : BorderKind) (step : Int)
    (hk : which_border ≠ BorderKind.NONE) (steps : Nat) (t : AutoTiler) (cur n : Int)
    (r : AutoTiler × Int × Int) (h : count_run which_border step steps t cur n = some r) :
    ∃ m : Nat, m ≤ steps ∧ r.1 = clear_run t cur step m ∧ r.2.2 = n + m ∧
      (∀ j : Nat, 1 ≤ j → j ≤ m →
        t.in_grid (cur + j * step) ∧ t.border_at (cur + j * step) = which_border) ∧
      ((m + 1 ≤ steps ∧ r.2.1 = cur + (m + 1 : Nat) * step ∧ t.in_grid r.2.1 ∧
          r.1.border_at r.2.1 ≠ which_border) ∨
        (m = steps ∧ r.2.1 = cur + m * step)) := by
  induction steps generalizing t cur n r with
  | zero =>
    unfold count_run at h
    cases h
    refine ⟨0, le_refl _, rfl, by simp, ?_, Or.inr ⟨rfl, by simp⟩⟩
    intro j h1 h2
    omega
  | succ steps ih =>
    unfold count_run at h
    simp only at h
    cases hg : t.get_which_border (cur + step) with
    | none => rw [hg] at h; cases h
    | some found =>
      rw [hg] at h
      simp only at h
      have hin : t.in_grid (cur + step) := by
        unfold get_which_border at hg
        by_contra hc
        unfold in_grid at hc
        rw [if_neg hc] at hg
        cases hg
      have hf : found = t.border_at (cur + step) := by
        rw [get_which_border_eq t _ hin] at hg
        exact (Option.some.inj hg).symm
      by_cases hne : found ≠ which_border
      · rw [if_pos hne] at h
        cases h
        refine ⟨0, Nat.zero_le _, rfl, by simp, ?_, Or.inl ⟨by omega, by simp, hin, ?_⟩⟩
        · intro j h1 h2
          omega
        · show t.border_at (cur + step) ≠ which_border
          rw [← hf]
          exact hne
      · rw [if_neg hne] at h
        rw [set_which_border_some t _ _ hin, Option.some_bind] at h
        obtain ⟨m, h1, h2, h3, h4, h5⟩ := ih _ _ _ _ h
        have hfw : t.border_at (cur + step) = which_border := by
          rw [← hf]
          exact not_not.1 hne
        refine ⟨m + 1, Nat.succ_le_succ h1, h2, by rw [h3]; push_cast; ring, ?_, ?_⟩
        · intro j hj1 hj2
          rcases Nat.lt_or_ge 1 j with hj | hj
          · obtain ⟨a, b⟩ := h4 (j - 1) (by omega) (by omega)
            have e : cur + step + ((j - 1 : Nat) : Int) * step = cur + j * step := by
              have : ((j - 1 : Nat) : Int) = (j : Int) - 1 := by omega
              rw [this]; ring
            rw [e] at a b
            refine ⟨(in_grid_with_border _ _ _ _).1 a, ?_⟩
            rw [border_at_with_border_eq] at b
            by_cases hc : cur + j * step = cur + step
            · rw [if_pos hc] at b
              exact absurd b.symm hk
            · rw [if_neg hc] at b
              exact b
          · have : j = 1 := by omega
            subst this
            simp only [Nat.cast_one, one_mul]
            exact ⟨hin, hfw⟩
        · rcases h5 with ⟨a0, a, b, c⟩ | ⟨a, b⟩
          · left
            refine ⟨by omega, by rw [a]; push_cast; ring, (in_grid_with_border _ _ _ _).1 b, c⟩
          · right
            exact ⟨by omega, by rw [b]; push_cast; ring⟩

theorem count_run_eq (which_border : BorderKind) (step : Int) (hs : step ≠ 0) (m : Nat)
    (steps : Nat) (t : AutoTiler) (cur n : Int) (hm : m + 1 ≤ steps)
    (hrun : ∀ j : Nat, 1 ≤ j → j ≤ m →
      t.in_grid (cur + j * step) ∧ t.border_at (cur + j * step) = which_border)
    (hin : t.in_grid (cur + (m + 1 : Nat) * step))
    (hend : t.border_at (cur + (m + 1 : Nat) * step) ≠ which_border) :
    count_run which_border step steps t cur n =
      some (clear_run t cur step m, cur + (m + 1 : Nat) * step, n + m) := by
  induction m generalizing steps t cur n with
  | zero =>
    obtain ⟨s, rfl⟩ : ∃ s, steps = s + 1 := ⟨steps - 1, by omega⟩
    simp only [Nat.zero_add, Nat.cast_one, one_mul] at hin hend
    unfold count_run
    simp only [get_which_border_eq t _ hin]
    rw [if_pos hend]
    simp [clear_run]
  | succ m ih =>
    obtain ⟨s, rfl⟩ : ∃ s, steps = s + 1 := ⟨steps - 1, by omega⟩
    obtain ⟨h1, h2⟩ := hrun 1 (le_refl _) (by omega)
    simp only [Nat.cast_one, one_mul] at h1 h2
    unfold count_run
    simp only [get_which_border_eq t _ h1]
    rw [if_neg (by simpa using h2), set_which_border_some t _ _ h1, Option.some_bind]
    rw [ih s _ (cur + step) (n + 1) (by omega)]
    · simp only [clear_run, Option.some.injEq, Prod.mk.injEq, true_and]
      constructor
      · push_cast; ring
      · push_cast; ring
    · intro j hj1 hj2
      obtain ⟨a, b⟩ := hrun (j + 1) (by omega) (by omega)
      have e : cur + ((j + 1 : Nat) : Int) * step = cur + step + j * step := by
        push_cast; ring
      rw [e] at a b
      refine ⟨(in_grid_with_border _ _ _ _).2 a, ?_⟩
      rw [border_at_with_border_eq, if_neg]
      · exact b
      · intro hc
        have : (j : Int) * step = 0 := by linarith
        rcases mul_eq_zero.1 this with h | h
        · omega
        · exact hs h
    · have e : cur + ((m + 1 + 1 : Nat) : Int) * step = cur + step + ((m + 1 : Nat) : Int) * step := by
        push_cast; ring
      rw [e] at hin
      exact (in_grid_with_border _ _ _ _).2 hin
    · have e : cur + ((m + 1 + 1 : Nat) : Int) * step = cur + step + ((m + 1 : Nat) : Int) * step := by
        push_cast; ring
      rw [e] at hend
      rw [border_at_with_border_eq, if_neg]
      · exact hend
      · intro hc
        have : ((m + 1 : Nat) : Int) * step = 0 := by linarith
        rcases mul_eq_zero.1 this with h | h
        · omega
        · exact hs h

end AutoTiler

/-! ### The end of a side run -/

namespace AutoTiler

theorem tdiv_dvd_round (n base : Int) : base ∣ n + (base - Int.tmod n base) := by
  have h := Int.tmod_add_tdiv n base
  refine ⟨Int.tdiv n base + 1, ?_⟩
  linarith

theorem dvd_of_tmod_eq_zero (n base : Int) (h : Int.tmod n base = 0) : base ∣ n := by
  have h1 := Int.tmod_add_tdiv n base
  rw [h] at h1
  exact ⟨Int.tdiv n base, by linarith⟩

/-- What a successful `finish_run` did: both ends of the run hold corners,
and either no tile was created or `make_tile` was called with a number of
cells that is a multiple of the base size of the pattern along the run. -/
theorem finish_run_some (t u : AutoTiler) (thick : BorderKind → Bool) (along : QSize → Int)
    (step : Int) (which_border corner_1 corner_2 : BorderKind) (start_index n : Int)
    (h : finish_run t thick along step which_border corner_1 corner_2 start_index n = some u) :
    is_corner_border corner_1 = true ∧ is_corner_border corner_2 = true ∧
    (u = t ∨ ∃ pattern_size grid_index num_cells_repeat,
      t.get_pattern_size which_border = some pattern_size ∧
      Int.tdiv (along pattern_size) 8 ∣ num_cells_repeat ∧
      t.make_tile which_border grid_index num_cells_repeat = some u) := by
  unfold finish_run at h
  by_cases hc : is_corner_border corner_1 = true ∧ is_corner_border corner_2 = true
  swap
  · rw [if_pos hc] at h
    cases h
  rw [if_neg (not_not.2 hc)] at h
  refine ⟨hc.1, hc.2, ?_⟩
  simp only [Option.bind_eq_some] at h
  obtain ⟨r1, -, n2, -, h⟩ := h
  by_cases hpos : n2 > 0
  swap
  · rw [if_neg hpos] at h
    exact Or.inl (Option.some.inj h).symm
  rw [if_pos hpos] at h
  simp only [Option.bind_eq_some] at h
  obtain ⟨ps, hps, h⟩ := h
  by_cases hb : Int.tdiv (along ps) 8 = 0
  · rw [if_pos hb] at h
    cases h
  rw [if_neg hb] at h
  right
  by_cases hr : Int.tmod n2 (Int.tdiv (along ps) 8) ≠ 0
  · rw [if_pos hr] at h
    exact ⟨ps, _, _, hps, tdiv_dvd_round n2 _, h⟩
  · rw [if_neg hr] at h
    exact ⟨ps, _, _, hps, dvd_of_tmod_eq_zero n2 _ (not_not.1 hr), h⟩

/-- With corner and side patterns of 8 pixels along the run, `finish_run`
creates the tile of the run as counted, without compensation or rounding. -/
theorem finish_run_eq (t : AutoTiler) (thick : BorderKind → Bool) (along : QSize → Int)
    (step : Int) (which_border corner_1 corner_2 : BorderKind) (start_index n : Int)
    (s1 s2 s : QSize) (hc1 : is_corner_border corner_1 = true)
    (hc2 : is_corner_border corner_2 = true)
    (h1 : t.get_pattern_size corner_1 = some s1) (h2 : t.get_pattern_size corner_2 = some s2)
    (h : t.get_pattern_size which_border = some s)
    (a1 : along s1 = 8) (a2 : along s2 = 8) (a : along s = 8) (hn : 0 < n) :
    finish_run t thick along step which_border corner_1 corner_2 start_index n =
      t.make_tile which_border start_index n := by
  unfold finish_run
  rw [if_neg (not_not.2 ⟨hc1, hc2⟩), h1, h2, h]
  have e : Int.tdiv 8 8 - 1 = 0 := by decide
  have e1 : Int.tdiv 8 8 = 1 := by decide
  simp only [Option.map_some', a1, a2, a, e, e1, sub_self, sub_zero, zero_mul, add_zero,
    ite_self, Option.some_bind, gt_iff_lt, hn, if_true, Int.tmod_one, ne_eq,
    not_true_eq_false, if_false, one_ne_zero]

end AutoTiler

/-! ### One step of the side loop -/

namespace AutoTiler

theorem set_which_border_in_grid (t u : AutoTiler) (c : Int) (k : BorderKind)
    (h : t.set_which_border c k = some u) : t.in_grid c := by
  unfold set_which_border at h
  by_contra hc
  unfold in_grid at hc
  rw [if_neg hc] at h
  cases h

theorem get_which_border_some (t : AutoTiler) (c : Int) (k : BorderKind)
    (h : t.get_which_border c = some k) : t.in_grid c ∧ t.border_at c = k := by
  have hin : t.in_grid c := by
    unfold get_which_border at h
    by_contra hc
    unfold in_grid at hc
    rw [if_neg hc] at h
    cases h
  rw [get_which_border_eq t c hin] at h
  exact ⟨hin, Option.some.inj h⟩

theorem along_run_vertical (which_border : BorderKind)
    (h : which_border = BorderKind.RIGHT ∨ which_border = BorderKind.LEFT) :
    along_run which_border = QSize.ht := by
  funext s
  unfold along_run
  rw [if_pos h]

theorem along_run_horizontal (which_border : BorderKind)
    (h : ¬ (which_border = BorderKind.RIGHT ∨ which_border = BorderKind.LEFT)) :
    along_run which_border = QSize.wd := by
  funext s
  unfold along_run
  rw [if_neg h]

/-- The steps of a successful `side_tile`. -/
theorem side_tile_some (sv sh : BorderKind) (thick : BorderKind → Bool) (t u : AutoTiler)
    (k : Int) (h : side_tile sv sh thick t k = some u) :
    map_find t.which_borders k = some (t.border_at k) ∧ t.grid_size.wd ≠ 0 ∧
    ((is_side_border (t.border_at k) = false ∧ u = t) ∨
      (is_side_border (t.border_at k) = true ∧ t.in_grid k ∧
        ((t.get_tileset.has_border_set_pattern t.border_set_id (t.border_at k) = false ∧
            u = t.with_border k BorderKind.NONE) ∨
          (t.get_tileset.has_border_set_pattern t.border_set_id (t.border_at k) = true ∧
            ∃ (corner_1 corner_2 : BorderKind) (shifted_index : Int)
              (r : AutoTiler × Int × Int),
              (t.with_border k BorderKind.NONE).get_which_border
                (k - t.run_step (t.border_at k)) = some corner_1 ∧
              (shifted_index = k ∨ ∃ pattern_size,
                t.get_pattern_size (t.border_at k) = some pattern_size ∧
                (shifted_index = k - (Int.tdiv pattern_size.wd 8 - 1) ∨
                  shifted_index = k - (Int.tdiv pattern_size.ht 8 - 1) * t.grid_size.wd)) ∧
              count_run (t.border_at k) (t.run_step (t.border_at k))
                (t.run_steps (t.border_at k) k)
                (t.with_border k BorderKind.NONE) k 1 = some r ∧
              r.1.get_which_border r.2.1 = some corner_2 ∧
              finish_run r.1 thick (along_run (t.border_at k)) (t.run_step (t.border_at k))
                (t.border_at k) corner_1 corner_2 shifted_index r.2.2 = some u)))) := by
  unfold side_tile at h
  cases hm : map_find t.which_borders k with
  | none => rw [hm] at h; cases h
  | some wb =>
    have hb : t.border_at k = wb := map_find_border_at t k wb hm
    rw [hb]
    rw [hm] at h
    simp only at h
    by_cases hg : t.grid_size.wd = 0
    · rw [if_pos hg] at h; cases h
    rw [if_neg hg] at h
    refine ⟨rfl, hg, ?_⟩
    by_cases hn : wb = BorderKind.NONE
    · rw [if_pos hn] at h
      left
      exact ⟨by rw [hn]; rfl, (Option.some.inj h).symm⟩
    rw [if_neg hn] at h
    by_cases hs : is_side_border wb = true
    swap
    · rw [if_pos hs] at h
      left
      exact ⟨by simpa using hs, (Option.some.inj h).symm⟩
    rw [if_neg (not_not.2 hs)] at h
    right
    obtain ⟨t1, ht1, h⟩ := Option.bind_eq_some.1 h
    have hin := set_which_border_in_grid t t1 k _ ht1
    rw [set_which_border_some t k _ hin] at ht1
    cases ht1
    refine ⟨hs, hin, ?_⟩
    by_cases hh : (t.with_border k BorderKind.NONE).get_tileset.has_border_set_pattern
        (t.with_border k BorderKind.NONE).border_set_id wb = true
    swap
    · rw [if_pos hh] at h
      left
      exact ⟨by simpa using hh, (Option.some.inj h).symm⟩
    rw [if_neg (not_not.2 hh)] at h
    right
    refine ⟨hh, ?_⟩
    by_cases hv : wb = BorderKind.RIGHT ∨ wb = BorderKind.LEFT
    · rw [if_pos hv] at h
      simp only [Option.bind_eq_some] at h
      obtain ⟨c1, hc1, si, hsi, r, hr, c2, hc2, h⟩ := h
      have hgr : r.1.grid_size.wd = t.grid_size.wd := by
        obtain ⟨m, -, e, -⟩ := count_run_some wb _ hn _ _ _ _ r hr
        rw [e, (clear_run_frame m (t.with_border k BorderKind.NONE) k _).1.2.2.2.2.2.2.1]
        rfl
      rw [hgr] at h
      have e : t.run_step wb = t.grid_size.wd := by
        unfold run_step; rw [if_pos hv]
      have e2 : t.run_steps wb k =
          (t.grid_size.ht - (Int.tdiv k t.grid_size.wd + 1)).toNat := by
        unfold run_steps; rw [if_pos hv]
      rw [e, e2, along_run_vertical wb hv]
      refine ⟨c1, c2, si, r, hc1, ?_, hr, hc2, h⟩
      by_cases hsv : wb = sv
      · rw [if_pos hsv] at hsi
        obtain ⟨ps, hps, rfl⟩ := Option.map_eq_some'.1 hsi
        exact Or.inr ⟨ps, hps, Or.inl rfl⟩
      · rw [if_neg hsv] at hsi
        exact Or.inl (Option.some.inj hsi).symm
    · rw [if_neg hv] at h
      simp only [Option.bind_eq_some] at h
      obtain ⟨c1, hc1, si, hsi, r, hr, c2, hc2, h⟩ := h
      have e : t.run_step wb = 1 := by
        unfold run_step; rw [if_neg hv]
      have e2 : t.run_steps wb k =
          (t.grid_size.wd - (Int.tmod k t.grid_size.wd + 1)).toNat := by
        unfold run_steps; rw [if_neg hv]
      rw [e, e2, along_run_horizontal wb hv]
      refine ⟨c1, c2, si, r, hc1, ?_, hr, hc2, h⟩
      by_cases hsh : wb = sh
      · rw [if_pos hsh] at hsi
        obtain ⟨ps, hps, rfl⟩ := Option.map_eq_some'.1 hsi
        exact Or.inr ⟨ps, hps, Or.inr rfl⟩
      · rw [if_neg hsh] at hsi
        exact Or.inl (Option.some.inj hsi).symm

/-- The effect of a successful step of the side loop, for every tileset: the
members other than the border map and the tiles are kept, cells of the border
map are only reset to `NONE`, and at most one tile is appended, a side tile of
the kind held by the entry. -/
theorem side_tile_effect (sv sh : BorderKind) (thick : BorderKind → Bool) (t u : AutoTiler)
    (k : Int) (h : side_tile sv sh thick t k = some u) :
    same_frame t u ∧ fades t u ∧ (t.keys_sorted → u.keys_sorted) ∧
    is_side_border (u.border_at k) = false ∧
    (u.tiles = t.tiles ∨ ∃ x, u.tiles = t.tiles ++ [some x] ∧ side_emitted t k x) := by
  obtain ⟨hm, hg, h1⟩ := side_tile_some sv sh thick t u k h
  rcases h1 with ⟨hs, rfl⟩ | ⟨hs, hin, h2⟩
  · exact ⟨same_frame_refl _, fades_refl _, id, hs, Or.inl rfl⟩
  rcases h2 with ⟨-, rfl⟩ | ⟨hh, c1, c2, si, r, hc1, -, hr, hc2, hf⟩
  · refine ⟨same_frame_with_border t _ _, fades_with_border_none t _,
      keys_sorted_with_border t _ _, ?_, Or.inl rfl⟩
    rw [border_at_with_border_eq, if_pos rfl]
    rfl
  have hn : t.border_at k ≠ BorderKind.NONE := by
    intro e
    rw [e] at hs
    exact absurd hs (by decide)
  obtain ⟨m, -, e, -, -, -⟩ := count_run_some _ _ hn _ _ _ _ r hr
  obtain ⟨f1, f2, f3, f4⟩ := clear_run_frame m (t.with_border k BorderKind.NONE) k
    (t.run_step (t.border_at k))
  rw [← e] at f1 f2 f3 f4
  have g1 : same_frame t r.1 := same_frame_trans _ _ _ (same_frame_with_border t _ _) f1
  have g3 : fades t r.1 := fades_trans _ _ _ (fades_with_border_none t _) f3
  have g4 : t.keys_sorted → r.1.keys_sorted := fun hs => f4 (keys_sorted_with_border t _ _ hs)
  have g5 : r.1.border_at k = BorderKind.NONE := by
    rcases f3 k with h5 | h5
    · rw [h5, border_at_with_border_eq, if_pos rfl]
    · exact h5
  obtain ⟨-, -, h3⟩ := finish_run_some _ _ _ _ _ _ _ _ _ _ hf
  rcases h3 with rfl | ⟨ps, idx, n, hps, hdvd, hmk⟩
  · exact ⟨g1, g3, g4, by rw [g5]; rfl, Or.inl f2⟩
  rcases make_tile_some _ _ _ _ _ hmk with rfl | ⟨-, hpos, hex, xy, first, -, hfirst, rfl⟩
  · exact ⟨g1, g3, g4, by rw [g5]; rfl, Or.inl f2⟩
  refine ⟨same_frame_trans _ _ _ g1 (same_frame_tiles _ _),
    fades_trans _ _ _ g3 (fades_of_eq _ _ rfl), g4, by
      show is_side_border (r.1.border_at k) = false
      rw [g5]; rfl, Or.inr ?_⟩
  refine ⟨⟨r.1.pattern_of (t.border_at k), xy,
    tile_size (t.border_at k)
      (r.1.get_tileset.pattern_frame_size (r.1.pattern_of (t.border_at k))) n,
    first.layer⟩, ?_, ?_⟩
  · show r.1.tiles ++ _ = t.tiles ++ _
    rw [f2]
    rfl
  · rw [same_frame_pattern_of t r.1 g1, same_frame_tileset t r.1 g1] at *
    rw [same_frame_get_pattern_size t r.1 g1] at hps
    refine ⟨hs, rfl, hex, ⟨first, ?_, rfl⟩, n, ps, hpos, hps, hdvd, rfl⟩
    rw [← g1.2.1]
    exact hfirst

end AutoTiler

/-! ### One step of the corner loop, and the two loops -/

namespace AutoTiler

/-- The effect of a successful step of the corner loop, for every tileset:
only the tiles change, and at most one tile of one cell is appended, of the
kind held by the entry. -/
theorem corner_tile_effect (sx sy : BorderKind → Bool) (t u : AutoTiler) (k : Int)
    (h : corner_tile sx sy t k = some u) :
    map_find t.which_borders k = some (t.border_at k) ∧
    (u = t ∨ ∃ x, u = { t with tiles := t.tiles ++ [some x] } ∧ corner_emitted t k x) := by
  unfold corner_tile at h
  cases hm : map_find t.which_borders k with
  | none => rw [hm] at h; cases h
  | some wb =>
    have hb : t.border_at k = wb := map_find_border_at t k wb hm
    rw [hb]
    rw [hm] at h
    simp only at h
    refine ⟨rfl, ?_⟩
    by_cases hh : t.get_tileset.has_border_set_pattern t.border_set_id wb = true
    swap
    · rw [if_pos hh] at h
      exact Or.inl (Option.some.inj h).symm
    rw [if_neg (not_not.2 hh)] at h
    simp only [Option.bind_eq_some] at h
    obtain ⟨i1, -, i2, -, h⟩ := h
    rcases make_tile_some _ _ _ _ _ h with rfl | ⟨hk, -, hex, xy, first, -, hfirst, rfl⟩
    · exact Or.inl rfl
    · right
      refine ⟨⟨t.pattern_of wb, xy,
        tile_size wb (t.get_tileset.pattern_frame_size (t.pattern_of wb)) 1, first.layer⟩,
        rfl, ?_⟩
      unfold corner_emitted
      rw [hb]
      exact ⟨hk, rfl, hex, ⟨first, hfirst, rfl⟩, rfl⟩

/-- The tiles appended by a loop over keys, each step of which appends at
most one tile: they are listed with the key of their step, in the order of the
keys. -/
theorem fold_trace (f : AutoTiler → Int → Option AutoTiler) (I : AutoTiler → Prop)
    (P : Int → Tile → Prop)
    (hstep : ∀ v k w, I v → f v k = some w →
      I w ∧ (w.tiles = v.tiles ∨ ∃ x, w.tiles = v.tiles ++ [some x] ∧ P k x))
    (l : List Int) (t u : AutoTiler) (ht : I t) (h : l.foldlM f t = some u) :
    I u ∧ ∃ S : List (Int × Tile),
      u.tiles = t.tiles ++ S.map (fun p => some p.2) ∧ (S.map Prod.fst).Sublist l ∧
      ∀ p ∈ S, P p.1 p.2 := by
  induction l generalizing t with
  | nil =>
    simp only [List.foldlM, Option.pure_def, Option.some.injEq] at h
    subst h
    exact ⟨ht, [], by simp, by simp, by simp⟩
  | cons k rest ih =>
    simp only [List.foldlM, Option.bind_eq_bind, Option.bind_eq_some] at h
    obtain ⟨v, hv, h⟩ := h
    obtain ⟨hI, hx⟩ := hstep t k v ht hv
    obtain ⟨hu, S, hS, hsub, hP⟩ := ih v hI h
    refine ⟨hu, ?_⟩
    rcases hx with hx | ⟨x, hx, hp⟩
    · refine ⟨S, by rw [hS, hx], hsub.trans (List.sublist_cons_self k rest), hP⟩
    · refine ⟨(k, x) :: S, ?_, ?_, ?_⟩
      · rw [hS, hx]
        simp
      · simpa using hsub
      · intro p hp2
        rcases List.mem_cons.1 hp2 with rfl | hp2
        · exact hp
        · exact hP p hp2

theorem side_emitted_of_fades (g v : AutoTiler) (k : Int) (x : Tile) (h1 : same_frame g v)
    (h2 : fades g v) (h : side_emitted v k x) : side_emitted g k x := by
  have hb : v.border_at k = g.border_at k := by
    rcases h2 k with e | e
    · exact e
    · have := h.1
      rw [e] at this
      exact absurd this (by decide)
  unfold side_emitted at h ⊢
  rw [hb, same_frame_pattern_of g v h1, same_frame_tileset g v h1,
    same_frame_get_pattern_size g v h1, h1.2.1] at h
  exact h

theorem corner_emitted_of_fades (g v : AutoTiler) (k : Int) (x : Tile) (h1 : same_frame g v)
    (h2 : fades g v) (h : corner_emitted v k x) : corner_emitted g k x := by
  have hb : v.border_at k = g.border_at k := by
    rcases h2 k with e | e
    · exact e
    · exact absurd e h.1
  unfold corner_emitted at h ⊢
  rw [hb, same_frame_pattern_of g v h1, same_frame_tileset g v h1, h1.2.1] at h
  exact h

/-- The side loop over a list of keys. -/
theorem side_fold_effect (sv sh : BorderKind) (thick : BorderKind → Bool) (l : List Int)
    (g u : AutoTiler) (h : l.foldlM (side_tile sv sh thick) g = some u) :
    same_frame g u ∧ fades g u ∧ (g.keys_sorted → u.keys_sorted) ∧
    ∃ S : List (Int × Tile),
      u.tiles = g.tiles ++ S.map (fun p => some p.2) ∧ (S.map Prod.fst).Sublist l ∧
      ∀ p ∈ S, side_emitted g p.1 p.2 := by
  have key := fold_trace (side_tile sv sh thick)
    (fun v => same_frame g v ∧ fades g v ∧ (g.keys_sorted → v.keys_sorted))
    (fun k x => side_emitted g k x) ?_ l g u
    ⟨same_frame_refl g, fades_refl g, id⟩ h
  · exact ⟨key.1.1, key.1.2.1, key.1.2.2, key.2⟩
  · intro v k w ⟨i1, i2, i3⟩ hw
    obtain ⟨e1, e2, e3, -, e5⟩ := side_tile_effect sv sh thick v w k hw
    refine ⟨⟨same_frame_trans _ _ _ i1 e1, fades_trans _ _ _ i2 e2, fun hs => e3 (i3 hs)⟩, ?_⟩
    rcases e5 with e5 | ⟨x, e5, e6⟩
    · exact Or.inl e5
    · exact Or.inr ⟨x, e5, side_emitted_of_fades g v k x i1 i2 e6⟩

/-- After the side loop no visited entry holds a side kind. -/
theorem side_fold_cleared (sv sh : BorderKind) (thick : BorderKind → Bool) (l : List Int)
    (g u : AutoTiler) (h : l.foldlM (side_tile sv sh thick) g = some u) :
    ∀ k ∈ l, is_side_border (u.border_at k) = false := by
  induction l generalizing g with
  | nil => simp
  | cons k rest ih =>
    simp only [List.foldlM, Option.bind_eq_bind, Option.bind_eq_some] at h
    obtain ⟨v, hv, h⟩ := h
    intro c hc
    rcases List.mem_cons.1 hc with rfl | hc
    · obtain ⟨-, -, -, e4, -⟩ := side_tile_effect sv sh thick g v c hv
      obtain ⟨-, f, -⟩ := side_fold_effect sv sh thick rest v u h
      rcases f c with e | e
      · rw [e]; exact e4
      · rw [e]; rfl
    · exact ih v h c hc

/-- The corner loop over a list of keys. -/
theorem corner_fold_effect (sx sy : BorderKind → Bool) (l : List Int)
    (g u : AutoTiler) (h : l.foldlM (corner_tile sx sy) g = some u) :
    same_frame g u ∧ u.which_borders = g.which_borders ∧
    ∃ S : List (Int × Tile),
      u.tiles = g.tiles ++ S.map (fun p => some p.2) ∧ (S.map Prod.fst).Sublist l ∧
      ∀ p ∈ S, corner_emitted g p.1 p.2 := by
  have key := fold_trace (corner_tile sx sy)
    (fun v => same_frame g v ∧ v.which_borders = g.which_borders)
    (fun k x => corner_emitted g k x) ?_ l g u ⟨same_frame_refl g, rfl⟩ h
  · exact ⟨key.1.1, key.1.2, key.2⟩
  · intro v k w ⟨i1, i2⟩ hw
    obtain ⟨-, e⟩ := corner_tile_effect sx sy v w k hw
    rcases e with rfl | ⟨x, rfl, e6⟩
    · exact ⟨⟨i1, i2⟩, Or.inl rfl⟩
    · refine ⟨⟨same_frame_trans _ _ _ i1 (same_frame_tiles _ _), i2⟩, Or.inr ⟨x, rfl, ?_⟩⟩
      exact corner_emitted_of_fades g v k x i1 (fades_of_eq _ _ i2) e6

end AutoTiler

/-! ### The border map stays sorted -/

namespace AutoTiler

theorem set_which_border_preserves (P : AutoTiler → Prop)
    (hP : ∀ t c k, P t → P (t.with_border c k)) (t u : AutoTiler) (c : Int) (k : BorderKind)
    (h : t.set_which_border c k = some u) (ht : P t) : P u := by
  have hin := set_which_border_in_grid t u c k h
  rw [set_which_border_some t c k hin] at h
  cases h
  exact hP t c k ht

theorem set_side_if_no_border_preserves (P : AutoTiler → Prop)
    (hP : ∀ t c k, P t → P (t.with_border c k)) (t u : AutoTiler) (c : Int) (k : BorderKind)
    (h : t.set_side_if_no_border c k = some u) (ht : P t) : P u := by
  unfold set_side_if_no_border at h
  split at h
  · cases h
  · cases h; exact ht
  · exact set_which_border_preserves P hP t u c k h ht

theorem detect_border_info_inner_preserves (P : AutoTiler → Prop)
    (hP : ∀ t c k, P t → P (t.with_border c k)) (t u : AutoTiler) (c : Int)
    (h : t.detect_border_info_inner c = some u) (ht : P t) : P u := by
  unfold detect_border_info_inner at h
  simp only at h
  split at h
  · cases h
  · split at h
    all_goals
      first
        | (cases h; exact ht)
        | exact set_which_border_preserves P hP _ _ _ _ h ht
        | (obtain ⟨t1, h1, h2⟩ := Option.bind_eq_some.1 h
           first
             | exact set_which_border_preserves P hP _ _ _ _ h2
                 (set_which_border_preserves P hP _ _ _ _ h1 ht)
             | exact set_side_if_no_border_preserves P hP _ _ _ _ h2
                 (set_side_if_no_border_preserves P hP _ _ _ _ h1 ht))

theorem detect_border_info_outer_preserves (P : AutoTiler → Prop)
    (hP : ∀ t c k, P t → P (t.with_border c k)) (t u : AutoTiler) (c : Int)
    (h : t.detect_border_info_outer c = some u) (ht : P t) : P u := by
  unfold detect_border_info_outer at h
  simp only at h
  split at h
  · cases h
  · split at h
    all_goals
      first
        | (cases h; exact ht)
        | exact set_which_border_preserves P hP _ _ _ _ h ht
        | (obtain ⟨t1, h1, h2⟩ := Option.bind_eq_some.1 h
           first
             | exact set_which_border_preserves P hP _ _ _ _ h2
                 (set_which_border_preserves P hP _ _ _ _ h1 ht)
             | exact set_side_if_no_border_preserves P hP _ _ _ _ h2
                 (set_side_if_no_border_preserves P hP _ _ _ _ h1 ht))

theorem detect_fold_preserves (P : AutoTiler → Prop)
    (hP : ∀ t c k, P t → P (t.with_border c k)) (ws : List Int) (t u : AutoTiler)
    (h : ws.foldlM detect_border_info t = some u) (ht : P t) : P u := by
  induction ws generalizing t with
  | nil =>
    simp only [List.foldlM, Option.pure_def, Option.some.injEq] at h
    subst h
    exact ht
  | cons w rest ih =>
    simp only [List.foldlM, Option.bind_eq_bind, Option.bind_eq_some] at h
    obtain ⟨v, hv, h⟩ := h
    refine ih v h ?_
    unfold detect_border_info at hv
    split at hv
    · exact detect_border_info_inner_preserves P hP t v w hv ht
    · exact detect_border_info_outer_preserves P hP t v w hv ht

/-- The border map that `compute_borders` builds is in ascending order of
keys, and the tiles are not touched. -/
theorem compute_borders_sorted (t u : AutoTiler) (h : t.compute_borders = some u) :
    u.keys_sorted ∧ u.tiles = t.tiles := by
  rw [compute_borders_eq] at h
  constructor
  · refine detect_fold_preserves keys_sorted (fun t c k => keys_sorted_with_border t c k) _ _ _ h ?_
    exact List.Pairwise.nil
  · have h2 := (detect_fold_some _ _ _ h).1
    exact (same_frame_of_borders_only _ _ h2).2

theorem classify_frame (t g : AutoTiler) (h : t.classify = some g) :
    g.keys_sorted ∧ g.tiles = t.tiles ∧ g.map = t.map ∧ g.entity_indexes = t.entity_indexes ∧
    g.border_set_id = t.border_set_id ∧ g.entity_rectangles = t.entity_rectangles ∧
    g.pattern_sizes = t.compute_pattern_sizes.pattern_sizes := by
  obtain ⟨o, ho, hg⟩ := classify_some t g h
  obtain ⟨h1, h2⟩ := compute_borders_sorted o g hg
  have h3 := (compute_occupied_squares_some _ _ ho).1
  have h4 : borders_only o g := by
    rw [compute_borders_eq] at hg
    exact borders_only_trans _ _ _ (cleared_borders_only o) (detect_fold_some _ _ _ hg).1
  obtain ⟨f, -⟩ := same_frame_of_borders_only o g h4
  obtain ⟨f1, f2, f3, f4, f5, -⟩ := f
  rw [h3] at f1 f2 f3 f4 f5 h2
  exact ⟨h1, h2, f1, f2, f3, f4, f5⟩

/-! ### `compute_tiles` and `generate_border_tiles` as a sequence of passes -/

theorem side_pass_effect (g s : AutoTiler) (h : g.side_pass = some s) :
    same_frame g s ∧ fades g s ∧ (g.keys_sorted → s.keys_sorted) ∧
    (∀ k ∈ g.border_keys, is_side_border (s.border_at k) = false) ∧
    ∃ S : List (Int × Tile),
      s.tiles = g.tiles ++ S.map (fun p => some p.2) ∧ (S.map Prod.fst).Sublist g.border_keys ∧
      ∀ p ∈ S, side_emitted g p.1 p.2 := by
  unfold side_pass at h
  split at h
  · obtain ⟨a, b, c, d⟩ := side_fold_effect _ _ _ _ _ _ h
    exact ⟨a, b, c, side_fold_cleared _ _ _ _ _ _ h, d⟩
  · obtain ⟨a, b, c, d⟩ := side_fold_effect _ _ _ _ _ _ h
    exact ⟨a, b, c, side_fold_cleared _ _ _ _ _ _ h, d⟩

theorem corner_pass_effect (s c : AutoTiler) (h : s.corner_pass = some c) :
    same_frame s c ∧ c.which_borders = s.which_borders ∧
    ∃ S : List (Int × Tile),
      c.tiles = s.tiles ++ S.map (fun p => some p.2) ∧ (S.map Prod.fst).Sublist s.border_keys ∧
      ∀ p ∈ S, corner_emitted s p.1 p.2 := by
  unfold corner_pass at h
  split at h
  · exact corner_fold_effect _ _ _ _ _ h
  · exact corner_fold_effect _ _ _ _ _ h

theorem compute_tiles_eq (t : AutoTiler) :
    t.compute_tiles =
      t.side_pass.bind fun s => s.corner_pass.bind fun c =>
        some { c with which_borders := [] } := by
  unfold compute_tiles
  cases hs : t.side_pass with
  | none =>
    unfold side_pass at hs
    unfold compute_tiles_inner compute_tiles_outer
    split
    · rename_i hi
      rw [if_pos hi] at hs
      rw [hs]; rfl
    · rename_i hi
      rw [if_neg hi] at hs
      rw [hs]; rfl
  | some s =>
    have hf := (side_pass_effect t s hs).1
    have hi := same_frame_inner t s hf
    have hk : s.border_keys = s.border_keys := rfl
    unfold side_pass at hs
    unfold compute_tiles_inner compute_tiles_outer corner_pass
    split
    · rename_i hi2
      rw [if_pos hi2] at hs
      rw [hs, Option.some_bind, Option.some_bind, hi, if_pos hi2]
    · rename_i hi2
      rw [if_neg hi2] at hs
      rw [hs, Option.some_bind, Option.some_bind, hi, if_neg hi2]

theorem addable_from_map_fst (tiles : List (Option Tile)) (layer order : Int) :
    (addable_from tiles layer order).map Prod.fst = tiles := by
  induction tiles generalizing order with
  | nil => rfl
  | cons a rest ih => simp [addable_from, ih]

theorem addable_from_length (tiles : List (Option Tile)) (layer order : Int) :
    (addable_from tiles layer order).length = tiles.length := by
  rw [← List.length_map (addable_from tiles layer order) Prod.fst, addable_from_map_fst]

theorem addable_from_get (tiles : List (Option Tile)) (layer order : Int) (k : Nat)
    (hk : k < tiles.length) :
    (addable_from tiles layer order)[k]? = some (tiles.get ⟨k, hk⟩, ⟨layer, order + k⟩) := by
  induction tiles generalizing order k with
  | nil => simp at hk
  | cons a rest ih =>
    cases k with
    | zero => simp [addable_from]
    | succ k =>
      simp only [addable_from, List.getElem?_cons_succ, List.get_cons_succ]
      simp only [List.length_cons, Nat.succ_lt_succ_iff] at hk
      rw [ih (order + 1) k hk]
      simp only [Option.some.injEq, Prod.mk.injEq, EntityIndex.mk.injEq, true_and]
      push_cast
      ring

/-- The steps of a successful `generate_border_tiles` on at least one
region: the classification, the side loop, the corner loop, and the pairing of
the tiles with their indexes. -/
theorem generate_border_tiles_some (t u : AutoTiler) (out : List (Option Tile × EntityIndex))
    (hne : t.entity_rectangles ≠ []) (h : t.generate_border_tiles = some (u, out)) :
    ∃ g s c, t.classify = some g ∧ g.side_pass = some s ∧ s.corner_pass = some c ∧
      out.map Prod.fst = c.tiles ∧
      ((c.tiles = [] ∧ out = []) ∨
        ∃ first rest, c.tiles = some first :: rest ∧
          out = addable_from c.tiles first.layer (c.map.get_num_tiles first.layer)) := by
  unfold generate_border_tiles at h
  have he : t.entity_rectangles.isEmpty = false := by
    cases e : t.entity_rectangles with
    | nil => exact absurd e hne
    | cons a b => rfl
  rw [he] at h
  simp only [Bool.false_eq_true, if_false, Option.bind_eq_some] at h
  obtain ⟨o, ho, g, hg, c0, hc0, h⟩ := h
  have hcl : t.classify = some g := by
    unfold classify
    rw [ho]
    exact hg
  rw [compute_tiles_eq] at hc0
  simp only [Option.bind_eq_some] at hc0
  obtain ⟨s, hs, c, hc, hc0⟩ := hc0
  simp only [Option.some.injEq] at hc0
  subst hc0
  refine ⟨g, s, c, hcl, hs, hc, ?_⟩
  simp only at h
  cases hct : c.tiles with
  | nil =>
    rw [hct] at h
    simp only [Option.some.injEq, Prod.mk.injEq] at h
    rw [← h.2]
    exact ⟨rfl, Or.inl ⟨rfl, rfl⟩⟩
  | cons a rest =>
    rw [hct] at h
    cases a with
    | none => simp at h
    | some first =>
      simp only [Option.some.injEq, Prod.mk.injEq] at h
      rw [← h.2]
      exact ⟨addable_from_map_fst _ _ _, Or.inr ⟨first, rest, rfl, rfl⟩⟩

end AutoTiler

/-! ### Properties of every output of `generate_border_tiles` -/

namespace AutoTiler

theorem generate_border_tiles_get (t : AutoTiler)
    (h : t.generate_border_tiles.isSome = true) :
    t.generate_border_tiles = some (t.generated_state, t.generated) := by
  unfold generated_state generated
  cases e : t.generate_border_tiles with
  | none => rw [e] at h; cases h
  | some r => rfl

theorem get_pattern_size_computed (t : AutoTiler) (kind : BorderKind)
    (hk : kind ≠ BorderKind.NONE) :
    t.compute_pattern_sizes.get_pattern_size kind =
      some (if t.get_tileset.pattern_exists (t.pattern_of kind) then
        t.get_tileset.pattern_frame_size (t.pattern_of kind) else QSize.invalid) := by
  cases kind <;> first | exact absurd rfl hk | rfl

theorem along_run_tile_size (kind : BorderKind) (pattern_size : QSize) (n : Int)
    (hk : is_side_border kind = true) :
    along_run kind (tile_size kind pattern_size n) = n * 8 := by
  cases kind <;> first | rfl | exact absurd hk (by decide)

theorem tile_size_corner (kind : BorderKind) (pattern_size : QSize) (n : Int)
    (hk : is_side_border kind = false) : tile_size kind pattern_size n = pattern_size := by
  cases kind <;> first | rfl | exact absurd hk (by decide)

theorem classify_pattern_of (t g : AutoTiler) (h : t.classify = some g) (kind : BorderKind) :
    g.pattern_of kind = t.pattern_of kind ∧ g.get_tileset = t.get_tileset := by
  obtain ⟨-, -, h1, -, h2, -⟩ := classify_frame t g h
  unfold pattern_of get_tileset
  rw [h1, h2]
  exact ⟨rfl, rfl⟩

/-- The dimension along the run of a tile that the side loop creates. -/
theorem side_emitted_multiple (t g : AutoTiler) (h : t.classify = some g) (k : Int) (x : Tile)
    (hx : side_emitted g k x) :
    x.pattern = t.pattern_of (g.border_at k) ∧
    8 ∣ along_run (g.border_at k) x.size ∧
    (8 ∣ along_run (g.border_at k) (t.get_tileset.pattern_frame_size x.pattern) →
      along_run (g.border_at k) (t.get_tileset.pattern_frame_size x.pattern) ∣
        along_run (g.border_at k) x.size) := by
  obtain ⟨hs, hp, hex, -, n, ps, hn, hps, hdvd, hsz⟩ := hx
  obtain ⟨e1, e2⟩ := classify_pattern_of t g h (g.border_at k)
  have hne : g.border_at k ≠ BorderKind.NONE := by
    intro e
    rw [e] at hs
    exact absurd hs (by decide)
  have hps2 : ps = t.get_tileset.pattern_frame_size x.pattern := by
    have e3 : g.get_pattern_size (g.border_at k) =
        t.compute_pattern_sizes.get_pattern_size (g.border_at k) := by
      unfold get_pattern_size
      rw [(classify_frame t g h).2.2.2.2.2.2]
    rw [e3, get_pattern_size_computed t _ hne, ← e1, ← hp, ← e2, if_pos hex] at hps
    rw [← e2]
    exact (Option.some.inj hps).symm
  rw [e2] at hsz
  rw [hsz, along_run_tile_size _ _ _ hs]
  refine ⟨hp.trans e1, ⟨n, by ring⟩, ?_⟩
  rintro ⟨b, hb⟩
  rw [hps2, hb, tdiv_eight_mul] at hdvd
  obtain ⟨c, hc⟩ := hdvd
  exact ⟨c, by rw [hb, hc]; ring⟩

end AutoTiler

namespace AutoTiler

/-- The tiles after the two loops, with the keys of the steps that created
them. -/
theorem passes_trace (g s c : AutoTiler) (hs : g.side_pass = some s)
    (hc : s.corner_pass = some c) (hk : g.keys_sorted) :
    ∃ S C : List (Int × Tile),
      c.tiles = g.tiles ++ S.map (fun p => some p.2) ++ C.map (fun p => some p.2) ∧
      (S.map Prod.fst).Pairwise (· < ·) ∧ (C.map Prod.fst).Pairwise (· < ·) ∧
      (∀ p ∈ S, side_emitted g p.1 p.2) ∧
      (∀ p ∈ C, corner_emitted g p.1 p.2 ∧ is_corner_border (g.border_at p.1) = true) := by
  obtain ⟨f1, f2, f3, f4, S, hS, hsub, hP⟩ := side_pass_effect g s hs
  obtain ⟨-, -, C, hC, hsubC, hQ⟩ := corner_pass_effect s c hc
  refine ⟨S, C, by rw [hC, hS], hk.sublist hsub, (f3 hk).sublist hsubC, hP, ?_⟩
  intro p hp
  have h1 := hQ p hp
  have h2 : s.border_at p.1 = g.border_at p.1 := by
    rcases f2 p.1 with e | e
    · exact e
    · exact absurd e h1.1
  have h3 : g.border_at p.1 ≠ BorderKind.NONE := by
    rw [← h2]; exact h1.1
  have h4 := f4 p.1 (mem_keys_of_border_at g p.1 h3)
  rw [h2] at h4
  refine ⟨corner_emitted_of_fades g s p.1 p.2 f1 f2 h1, ?_⟩
  exact (is_corner_iff _).2 ⟨h3, h4⟩

/-- C18. Layer and stacking order: for a tiler as constructed (no tile yet)
whose first input entity is `first`, every tile returned by
`generate_border_tiles` carries the layer of `first`, and the k-th returned
tile, counted from 0, is paired with the index of that layer and of order
n + k, where n is the number of tiles that the map has on this layer; the
orders are therefore strictly increasing along the sequence. -/
theorem layer_and_order (t u : AutoTiler) (out : List (Option Tile × EntityIndex))
    (first : EntityIndex) (ht : t.tiles = []) (hf : t.entity_indexes.head? = some first)
    (h : t.generate_border_tiles = some (u, out)) :
    (∀ k : Nat, k < out.length →
      ∃ x : Tile, x.layer = first.layer ∧
        out[k]? = some (some x, ⟨first.layer, t.map.get_num_tiles first.layer + k⟩)) ∧
    (∀ (i j : Nat) (a b : Option Tile × EntityIndex), i < j → out[i]? = some a →
      out[j]? = some b → a.2.order < b.2.order) := by
  have main : ∀ k : Nat, k < out.length →
      ∃ x : Tile, x.layer = first.layer ∧
        out[k]? = some (some x, ⟨first.layer, t.map.get_num_tiles first.layer + k⟩) := by
    by_cases hne : t.entity_rectangles = []
    · unfold generate_border_tiles at h
      rw [hne] at h
      simp only [List.isEmpty_nil, if_true, Option.some.injEq, Prod.mk.injEq] at h
      rw [← h.2]
      intro k hk
      simp at hk
    obtain ⟨g, s, c, hg, hs, hc, -, ho⟩ := generate_border_tiles_some t u out hne h
    obtain ⟨hsorted, htiles, hmap, hidx, -⟩ := classify_frame t g hg
    obtain ⟨S, C, hT, -, -, hS, hC⟩ := passes_trace g s c hs hc hsorted
    rw [htiles, ht, List.nil_append] at hT
    have hlayer : ∀ tile ∈ c.tiles, ∃ x : Tile, tile = some x ∧ x.layer = first.layer := by
      intro tile htile
      rw [hT] at htile
      rcases List.mem_append.1 htile with hm | hm
      · obtain ⟨p, hp, rfl⟩ := List.mem_map.1 hm
        obtain ⟨-, -, -, ⟨f, hf1, hf2⟩, -⟩ := hS p hp
        rw [hidx, hf] at hf1
        cases hf1
        exact ⟨p.2, rfl, hf2⟩
      · obtain ⟨p, hp, rfl⟩ := List.mem_map.1 hm
        obtain ⟨-, -, -, ⟨f, hf1, hf2⟩, -⟩ := (hC p hp).1
        rw [hidx, hf] at hf1
        cases hf1
        exact ⟨p.2, rfl, hf2⟩
    have hcm : c.map = t.map := by
      have a := (side_pass_effect g s hs).1.1
      have b := (corner_pass_effect s c hc).1.1
      rw [b, a, hmap]
    rcases ho with ⟨-, rfl⟩ | ⟨f0, rest, hct, rfl⟩
    · intro k hk
      simp at hk
    · intro k hk
      rw [addable_from_length] at hk
      obtain ⟨x0, hx0, hl0⟩ := hlayer (some f0) (by rw [hct]; exact List.mem_cons_self _ _)
      cases hx0
      obtain ⟨x, hx, hl⟩ := hlayer (c.tiles.get ⟨k, hk⟩) (List.get_mem _ _ _)
      refine ⟨x, hl, ?_⟩
      rw [addable_from_get _ _ _ k hk, hx, hl0, hcm]
  refine ⟨main, ?_⟩
  intro i j a b hij ha hb
  have hj : j < out.length := by
    by_contra hc
    rw [List.getElem?_eq_none (by omega)] at hb
    cases hb
  obtain ⟨x, -, hx⟩ := main i (by omega)
  obtain ⟨y, -, hy⟩ := main j hj
  rw [hx] at ha
  rw [hy] at hb
  cases ha
  cases hb
  show t.map.get_num_tiles first.layer + (i : Int) < t.map.get_num_tiles first.layer + (j : Int)
  omega

theorem layer_and_order_witness :
    (tiler_of (tileset_8x8 false) [QRect.ofXYWH 0 0 16 16]).tiles = [] ∧
    (tiler_of (tileset_8x8 false) [QRect.ofXYWH 0 0 16 16]).entity_indexes.head? =
      some ⟨0, 0⟩ ∧
    (tiler_of (tileset_8x8 false) [QRect.ofXYWH 0 0 16 16]).generated.length = 8 ∧
    ∀ k : Nat, k < (tiler_of (tileset_8x8 false) [QRect.ofXYWH 0 0 16 16]).generated.length →
      ∃ x : Tile, x.layer = (⟨0, 0⟩ : EntityIndex).layer ∧
        (tiler_of (tileset_8x8 false) [QRect.ofXYWH 0 0 16 16]).generated[k]? =
          some (some x, ⟨(⟨0, 0⟩ : EntityIndex).layer,
            (tiler_of (tileset_8x8 false) [QRect.ofXYWH 0 0 16 16]).map.get_num_tiles
              (⟨0, 0⟩ : EntityIndex).layer + k⟩) :=
  ⟨rfl, rfl, by decide!,
    (layer_and_order (tiler_of (tileset_8x8 false) [QRect.ofXYWH 0 0 16 16]) _ _ ⟨0, 0⟩ rfl rfl
      (generate_border_tiles_get _ (by decide!))).1⟩

end AutoTiler

/-! ### The side loop when every pattern is 8x8 -/

namespace AutoTiler

theorem tdiv_tmod_row_col (gw R C : Int) (hR : 0 ≤ R) (hC : 0 ≤ C) (hC2 : C < gw) :
    Int.tdiv (R * gw + C) gw = R ∧ Int.tmod (R * gw + C) gw = C := by
  have hgw : 0 < gw := by omega
  have hi : 0 ≤ R * gw + C := by
    have := mul_nonneg hR (le_of_lt hgw)
    omega
  have hu := (Int.ediv_emod_unique (a := R * gw + C) (r := C) (q := R) hgw).2
    ⟨by ring, hC, hC2⟩
  rw [Int.tmod_eq_emod hi (le_of_lt hgw), Int.tdiv_eq_ediv hi (le_of_lt hgw)]
  exact hu

theorem count_run_grid (which_border : BorderKind) (step : Int) (steps : Nat)
    (t : AutoTiler) (cur n : Int) (r : AutoTiler × Int × Int)
    (h : count_run which_border step steps t cur n = some r) :
    r.1.grid_size = t.grid_size := by
  induction steps generalizing t cur n with
  | zero =>
    unfold count_run at h
    cases h
    rfl
  | succ steps ih =>
    unfold count_run at h
    simp only at h
    split at h
    · cases h
    · split at h
      · cases h
        rfl
      · obtain ⟨t1, h1, h2⟩ := Option.bind_eq_some.1 h
        have hin := set_which_border_in_grid _ _ _ _ h1
        rw [set_which_border_some _ _ _ hin] at h1
        cases h1
        exact ih (t.with_border (cur + step) BorderKind.NONE) _ _ h2

/-- The run of a side entry: `side_tile` from the results of its steps. -/
theorem side_tile_of_steps (sv sh : BorderKind) (thick : BorderKind → Bool) (t : AutoTiler)
    (k : Int) (wb corner_1 corner_2 : BorderKind) (shifted_index : Int)
    (r : AutoTiler × Int × Int)
    (hkey : map_find t.which_borders k = some wb) (hg : t.grid_size.wd ≠ 0)
    (hs : is_side_border wb = true) (hin : t.in_grid k)
    (hh : t.get_tileset.has_border_set_pattern t.border_set_id wb = true)
    (hc1 : (t.with_border k BorderKind.NONE).get_which_border (k - t.run_step wb) =
      some corner_1)
    (hsi : t.shifted_start sv sh wb k = some shifted_index)
    (hr : count_run wb (t.run_step wb) (t.run_steps wb k) (t.with_border k BorderKind.NONE) k 1 =
      some r)
    (hc2 : r.1.get_which_border r.2.1 = some corner_2) :
    side_tile sv sh thick t k =
      finish_run r.1 thick (along_run wb) (t.run_step wb) wb corner_1 corner_2
        shifted_index r.2.2 := by
  have hn : wb ≠ BorderKind.NONE := by
    intro e
    rw [e] at hs
    exact absurd hs (by decide)
  have hgr : r.1.grid_size.wd = t.grid_size.wd := by
    rw [count_run_grid _ _ _ _ _ _ r hr]
    rfl
  unfold side_tile
  rw [hkey]
  simp only
  rw [if_neg hg, if_neg hn, if_neg (not_not.2 hs), set_which_border_some t k _ hin,
    Option.some_bind]
  have hh2 : (t.with_border k BorderKind.NONE).get_tileset.has_border_set_pattern
      (t.with_border k BorderKind.NONE).border_set_id wb = true := hh
  rw [if_neg (not_not.2 hh2)]
  unfold shifted_start at hsi
  unfold run_step at hc1 hr
  unfold run_steps at hr
  by_cases hv : wb = BorderKind.RIGHT ∨ wb = BorderKind.LEFT
  · rw [if_pos hv] at hsi hc1
    rw [if_pos hv, if_pos hv] at hr
    have e : t.run_step wb = t.grid_size.wd := by
      unfold run_step; rw [if_pos hv]
    rw [if_pos hv, e, along_run_vertical wb hv]
    have hc1b : (t.with_border k BorderKind.NONE).get_which_border
        (k - (t.with_border k BorderKind.NONE).grid_size.wd) = some corner_1 := hc1
    rw [hc1b, Option.some_bind]
    have hsib : (if wb = sv then
        Option.map (fun pattern_size => k - (Int.tdiv pattern_size.wd 8 - 1))
          ((t.with_border k BorderKind.NONE).get_pattern_size wb)
        else some k) = some shifted_index := hsi
    rw [hsib, Option.some_bind]
    have hrb : count_run wb (t.with_border k BorderKind.NONE).grid_size.wd
        ((t.with_border k BorderKind.NONE).grid_size.ht -
          (Int.tdiv k t.grid_size.wd + 1)).toNat
        (t.with_border k BorderKind.NONE) k 1 = some r := hr
    rw [hrb, Option.some_bind, hc2, Option.some_bind, hgr]
  · rw [if_neg hv] at hsi hc1
    rw [if_neg hv, if_neg hv] at hr
    have e : t.run_step wb = 1 := by
      unfold run_step; rw [if_neg hv]
    rw [if_neg hv, e, along_run_horizontal wb hv]
    rw [hc1, Option.some_bind]
    have hsib : (if wb = sh then
        Option.map (fun pattern_size =>
          k - (Int.tdiv pattern_size.ht 8 - 1) * (t.with_border k BorderKind.NONE).grid_size.wd)
          ((t.with_border k BorderKind.NONE).get_pattern_size wb)
        else some k) = some shifted_index := hsi
    rw [hsib, Option.some_bind]
    have hrb : count_run wb 1
        ((t.with_border k BorderKind.NONE).grid_size.wd -
          (Int.tmod k t.grid_size.wd + 1)).toNat
        (t.with_border k BorderKind.NONE) k 1 = some r := hr
    rw [hrb, Option.some_bind, hc2, Option.some_bind]

theorem shifted_start_8x8 (t : AutoTiler) (sv sh wb : BorderKind) (k : Int)
    (h8 : t.sizes_8x8) (hn : wb ≠ BorderKind.NONE) : t.shifted_start sv sh wb k = some k := by
  unfold shifted_start
  rw [h8 wb hn]
  have e : Int.tdiv 8 8 - 1 = 0 := by decide
  simp only [Option.map_some', e, sub_zero, zero_mul, ite_self]

end AutoTiler

namespace AutoTiler

theorem side_ne_none (wb : BorderKind) (hs : is_side_border wb = true) :
    wb ≠ BorderKind.NONE := by
  intro e
  rw [e] at hs
  exact absurd hs (by decide)

theorem run_step_ne_zero (t : AutoTiler) (wb : BorderKind) (hg : t.grid_size.wd ≠ 0) :
    t.run_step wb ≠ 0 := by
  unfold run_step
  split
  · exact hg
  · exact one_ne_zero

theorem along_run_8x8 (wb : BorderKind) : along_run wb ⟨8, 8⟩ = 8 := by
  unfold along_run
  split <;> rfl

theorem sizes_8x8_of_frame (t u : AutoTiler) (h : same_frame t u) (h8 : t.sizes_8x8) :
    u.sizes_8x8 := by
  intro kind hk
  rw [same_frame_get_pattern_size t u h]
  exact h8 kind hk

theorem patterns_8x8_of_frame (t u : AutoTiler) (h : same_frame t u) (hp : t.patterns_8x8) :
    u.patterns_8x8 := by
  intro kind hk
  rw [same_frame_pattern_of t u h, same_frame_tileset t u h]
  exact hp kind hk

/-- With 8x8 patterns, the step of the side loop at the first cell of a run
of `1 + m` cells that lies between two corners creates the tile of the run and
marks its cells visited. -/
theorem side_tile_run (sv sh : BorderKind) (thick : BorderKind → Bool) (t : AutoTiler)
    (k : Int) (m : Nat) (wb : BorderKind) (xy : QPoint) (first : EntityIndex)
    (h8 : t.sizes_8x8) (hp : t.patterns_8x8)
    (hh : t.get_tileset.has_border_set_pattern t.border_set_id wb = true)
    (hfirst : t.entity_indexes.head? = some first) (hxy : t.to_map_xy k = some xy)
    (hg : t.grid_size.wd ≠ 0) (hwb : t.border_at k = wb) (hs : is_side_border wb = true)
    (hin : t.in_grid k) (hsteps : m + 1 ≤ t.run_steps wb k)
    (hpre_in : t.in_grid (k - t.run_step wb))
    (hpre : is_corner_border (t.border_at (k - t.run_step wb)) = true)
    (hrun : ∀ j : Nat, 1 ≤ j → j ≤ m →
      t.in_grid (k + j * t.run_step wb) ∧ t.border_at (k + j * t.run_step wb) = wb)
    (hend_in : t.in_grid (k + (m + 1 : Nat) * t.run_step wb))
    (hend : is_corner_border (t.border_at (k + (m + 1 : Nat) * t.run_step wb)) = true) :
    side_tile sv sh thick t k =
      some { clear_run (t.with_border k BorderKind.NONE) k (t.run_step wb) m with
        tiles := t.tiles ++ [some ⟨t.pattern_of wb, xy, tile_size wb ⟨8, 8⟩ (1 + m),
          first.layer⟩] } := by
  have hn := side_ne_none wb hs
  have hstep := run_step_ne_zero t wb hg
  have hkey : map_find t.which_borders k = some wb := by
    rw [map_find_of_key t k (mem_keys_of_border_at t k (by rw [hwb]; exact hn)), hwb]
  have hne : ∀ j : Nat, 1 ≤ j → k + j * t.run_step wb ≠ k := by
    intro j hj e
    have : (j : Int) * t.run_step wb = 0 := by linarith
    rcases mul_eq_zero.1 this with h | h
    · omega
    · exact hstep h
  have hc1 : (t.with_border k BorderKind.NONE).get_which_border (k - t.run_step wb) =
      some (t.border_at (k - t.run_step wb)) := by
    rw [get_which_border_eq _ _ ((in_grid_with_border _ _ _ _).2 hpre_in),
      border_at_with_border_eq, if_neg]
    intro e
    exact hstep (by linarith)
  have hr := count_run_eq wb (t.run_step wb) hstep m (t.run_steps wb k)
    (t.with_border k BorderKind.NONE) k 1 hsteps
    (by
      intro j h1 h2
      obtain ⟨a, b⟩ := hrun j h1 h2
      refine ⟨(in_grid_with_border _ _ _ _).2 a, ?_⟩
      rw [border_at_with_border_eq, if_neg (hne j h1)]
      exact b)
    ((in_grid_with_border _ _ _ _).2 hend_in)
    (by
      rw [border_at_with_border_eq, if_neg (hne (m + 1) (by omega))]
      intro e
      rw [e] at hend
      have := corner_not_side wb hend
      rw [hs] at this
      cases this)
  obtain ⟨f1, f2, -, -⟩ := clear_run_frame m (t.with_border k BorderKind.NONE) k (t.run_step wb)
  have g1 : same_frame t (clear_run (t.with_border k BorderKind.NONE) k (t.run_step wb) m) :=
    same_frame_trans _ _ _ (same_frame_with_border t _ _) f1
  have hc2 : (clear_run (t.with_border k BorderKind.NONE) k (t.run_step wb) m).get_which_border
      (k + (m + 1 : Nat) * t.run_step wb) =
      some (t.border_at (k + (m + 1 : Nat) * t.run_step wb)) := by
    rw [get_which_border_eq _ _ ((same_frame_in_grid _ _ g1 _).2 hend_in),
      (clear_run_border_at m _ k (t.run_step wb) _).2, border_at_with_border_eq,
      if_neg (hne (m + 1) (by omega))]
    rintro ⟨j, h1, h2, h3⟩
    have : ((m + 1 : Nat) : Int) * t.run_step wb = j * t.run_step wb := by linarith
    have := mul_right_cancel₀ hstep this
    omega
  rw [side_tile_of_steps sv sh thick t k wb _ _ k _ hkey hg hs hin hh hc1
    (shifted_start_8x8 t sv sh wb k h8 hn) hr hc2]
  have h8u := sizes_8x8_of_frame _ _ g1 h8
  have hpu := patterns_8x8_of_frame _ _ g1 hp
  rw [finish_run_eq _ thick (along_run wb) (t.run_step wb) wb _ _ k (1 + (m : Int))
    ⟨8, 8⟩ ⟨8, 8⟩ ⟨8, 8⟩ hpre hend
    (h8u _ ((is_corner_iff _).1 hpre).1) (h8u _ ((is_corner_iff _).1 hend).1) (h8u wb hn)
    (along_run_8x8 wb) (along_run_8x8 wb) (along_run_8x8 wb) (by omega)]
  rw [make_tile_eq _ wb k (1 + (m : Int)) xy first hn (by omega)
    (by rw [same_frame_to_map_xy _ _ g1]; exact hxy)
    (by rw [g1.2.1]; exact hfirst) (hpu wb hn).1 (by rw [(hpu wb hn).2]; rfl)]
  rw [(hpu wb hn).2, same_frame_pattern_of _ _ g1, f2]
  rfl

end AutoTiler

namespace AutoTiler

theorem tile_size_8x8_one (kind : BorderKind) : tile_size kind ⟨8, 8⟩ 1 = ⟨8, 8⟩ := by
  cases kind <;> rfl

/-- With 8x8 patterns, what a successful step of the side loop did: it
created no tile, or the entry held a side kind and it created the tile of the
run of `1 + m` cells that starts at the entry, all of which held this kind and
are now marked visited. -/
theorem side_tile_8x8_some (sv sh : BorderKind) (thick : BorderKind → Bool) (t u : AutoTiler)
    (k : Int) (h8 : t.sizes_8x8) (hp : t.patterns_8x8)
    (h : side_tile sv sh thick t k = some u) :
    u.tiles = t.tiles ∨
    ∃ (m : Nat) (xy : QPoint) (first : EntityIndex),
      is_side_border (t.border_at k) = true ∧ t.to_map_xy k = some xy ∧
      m + 1 ≤ t.run_steps (t.border_at k) k ∧
      (∀ j : Nat, j ≤ m → t.in_grid (k + j * t.run_step (t.border_at k)) ∧
        t.border_at (k + j * t.run_step (t.border_at k)) = t.border_at k ∧
        u.border_at (k + j * t.run_step (t.border_at k)) = BorderKind.NONE) ∧
      u.tiles = t.tiles ++ [some ⟨t.pattern_of (t.border_at k), xy,
        tile_size (t.border_at k) ⟨8, 8⟩ (1 + m), first.layer⟩] := by
  obtain ⟨hm, hg, h1⟩ := side_tile_some sv sh thick t u k h
  rcases h1 with ⟨-, rfl⟩ | ⟨hs, hin, h2⟩
  · exact Or.inl rfl
  rcases h2 with ⟨-, rfl⟩ | ⟨hh, c1, c2, si, r, hc1, hsi, hr, hc2, hf⟩
  · exact Or.inl rfl
  have hn := side_ne_none _ hs
  have hstep := run_step_ne_zero t (t.border_at k) hg
  have hsi2 : si = k := by
    rcases hsi with e | ⟨ps, hps, e⟩
    · exact e
    · rw [h8 _ hn] at hps
      cases hps
      have e0 : Int.tdiv 8 8 - 1 = 0 := by decide
      simp only [e0, sub_zero, zero_mul] at e
      rcases e with e | e <;> exact e
  rw [hsi2] at hf
  clear hsi hsi2
  obtain ⟨m, -, e, en, hcells, hstop⟩ := count_run_some _ _ hn _ _ _ _ r hr
  obtain ⟨f1, f2, f3, -⟩ := clear_run_frame m (t.with_border k BorderKind.NONE) k
    (t.run_step (t.border_at k))
  rw [← e] at f1 f2 f3
  have g1 : same_frame t r.1 := same_frame_trans _ _ _ (same_frame_with_border t _ _) f1
  obtain ⟨hcor1, hcor2, -⟩ := finish_run_some _ _ _ _ _ _ _ _ _ _ hf
  obtain ⟨hin2, hb2⟩ := get_which_border_some _ _ _ hc2
  have hk0 : r.1.border_at k = BorderKind.NONE := by
    rcases f3 k with h5 | h5
    · rw [h5, border_at_with_border_eq, if_pos rfl]
    · exact h5
  have hcl : ∀ j : Nat, 1 ≤ j → j ≤ m →
      r.1.border_at (k + j * t.run_step (t.border_at k)) = BorderKind.NONE := by
    intro j h1 h2
    rw [e]
    exact (clear_run_border_at m _ k _ _).1 ⟨j, h1, h2, rfl⟩
  have hnot : ¬ (m = t.run_steps (t.border_at k) k ∧ r.2.1 = k + m * t.run_step (t.border_at k)) := by
    rintro ⟨-, e2⟩
    have : r.1.border_at r.2.1 = BorderKind.NONE := by
      rw [e2]
      rcases Nat.eq_zero_or_pos m with h0 | h0
      · subst h0
        simpa using hk0
      · exact hcl m h0 (le_refl _)
    rw [hb2] at this
    rw [this] at hcor2
    exact absurd hcor2 (by decide)
  rcases hstop with ⟨hlt, -, -, -⟩ | hex
  swap
  · exact absurd hex hnot
  have h8u := sizes_8x8_of_frame _ _ g1 h8
  have hpu := patterns_8x8_of_frame _ _ g1 hp
  rw [en, finish_run_eq _ thick _ _ _ _ _ k (1 + (m : Int)) ⟨8, 8⟩ ⟨8, 8⟩ ⟨8, 8⟩ hcor1 hcor2
    (h8u _ ((is_corner_iff _).1 hcor1).1) (h8u _ ((is_corner_iff _).1 hcor2).1) (h8u _ hn)
    (along_run_8x8 _) (along_run_8x8 _) (along_run_8x8 _) (by omega)] at hf
  rcases make_tile_some _ _ _ _ _ hf with rfl | ⟨-, -, -, xy, first, hxy, -, rfl⟩
  · exact Or.inl f2
  right
  rw [same_frame_to_map_xy _ _ g1] at hxy
  refine ⟨m, xy, first, hs, hxy, hlt, ?_, ?_⟩
  · intro j hj
    rcases Nat.eq_zero_or_pos j with h0 | h0
    · subst h0
      have e0 : k + ((0 : Nat) : Int) * t.run_step (t.border_at k) = k := by simp
      rw [e0]
      exact ⟨hin, rfl, hk0⟩
    · obtain ⟨a, b⟩ := hcells j h0 hj
      refine ⟨(in_grid_with_border _ _ _ _).1 a, ?_, hcl j h0 hj⟩
      rw [border_at_with_border_eq] at b
      split at b
      · exact absurd b.symm hn
      · exact b
  · show r.1.tiles ++ _ = t.tiles ++ _
    rw [f2, (hpu _ hn).2, same_frame_pattern_of _ _ g1]
    rfl

/-- With 8x8 patterns, the step of the corner loop at an entry that holds a
kind creates an 8x8 tile at the cell of the entry. -/
theorem corner_tile_eq (sx sy : BorderKind → Bool) (t : AutoTiler) (k : Int)
    (kind : BorderKind) (xy : QPoint) (first : EntityIndex)
    (h8 : t.sizes_8x8) (hp : t.patterns_8x8)
    (hh : t.get_tileset.has_border_set_pattern t.border_set_id kind = true)
    (hfirst : t.entity_indexes.head? = some first) (hxy : t.to_map_xy k = some xy)
    (hb : t.border_at k = kind) (hn : kind ≠ BorderKind.NONE) :
    corner_tile sx sy t k =
      some { t with tiles := t.tiles ++ [some ⟨t.pattern_of kind, xy, ⟨8, 8⟩, first.layer⟩] } := by
  have hkey : map_find t.which_borders k = some kind := by
    rw [map_find_of_key t k (mem_keys_of_border_at t k (by rw [hb]; exact hn)), hb]
  unfold corner_tile
  rw [hkey]
  simp only
  rw [if_neg (not_not.2 hh), h8 kind hn]
  have e : Int.tdiv 8 8 - 1 = 0 := by decide
  simp only [Option.map_some', e, sub_zero, zero_mul, ite_self, Option.some_bind]
  rw [make_tile_eq t kind k 1 xy first hn (by decide) hxy hfirst (hp kind hn).1
    (by rw [(hp kind hn).2]; rfl), (hp kind hn).2, tile_size_8x8_one]

/-- The step of the corner loop at an entry that holds `NONE` does
nothing. -/
theorem corner_tile_none (sx sy : BorderKind → Bool) (t : AutoTiler) (k : Int)
    (hsx : sx BorderKind.NONE = false) (hsy : sy BorderKind.NONE = false)
    (hkey : k ∈ t.border_keys) (hb : t.border_at k = BorderKind.NONE) :
    corner_tile sx sy t k = some t := by
  unfold corner_tile
  rw [map_find_of_key t k hkey, hb]
  simp only
  split
  · rfl
  · rw [hsx, hsy]
    simp [make_tile]

/-- With 8x8 patterns, what a successful step of the corner loop did. -/
theorem corner_tile_8x8_some (sx sy : BorderKind → Bool) (t u : AutoTiler) (k : Int)
    (h8 : t.sizes_8x8) (hp : t.patterns_8x8) (h : corner_tile sx sy t k = some u) :
    u = t ∨ ∃ (xy : QPoint) (first : EntityIndex),
      t.border_at k ≠ BorderKind.NONE ∧ t.to_map_xy k = some xy ∧
      u = { t with tiles := t.tiles ++
        [some ⟨t.pattern_of (t.border_at k), xy, ⟨8, 8⟩, first.layer⟩] } := by
  obtain ⟨hm, -⟩ := corner_tile_effect sx sy t u k h
  by_cases hn : t.border_at k = BorderKind.NONE
  · left
    unfold corner_tile at h
    rw [hm, hn] at h
    simp only at h
    split at h
    · exact (Option.some.inj h).symm
    · simp only [Option.bind_eq_some] at h
      obtain ⟨i1, -, i2, -, h⟩ := h
      simp only [make_tile, if_true] at h
      exact (Option.some.inj h).symm
  unfold corner_tile at h
  rw [hm] at h
  simp only at h
  split at h
  · exact Or.inl (Option.some.inj h).symm
  · rw [h8 _ hn] at h
    have e : Int.tdiv 8 8 - 1 = 0 := by decide
    simp only [Option.map_some', e, sub_zero, zero_mul, ite_self, Option.some_bind] at h
    rcases make_tile_some _ _ _ _ _ h with rfl | ⟨-, -, -, xy, first, hxy, -, rfl⟩
    · exact Or.inl rfl
    · right
      refine ⟨xy, first, hn, hxy, ?_⟩
      rw [(hp _ hn).2, tile_size_8x8_one]

end AutoTiler

/-! ### Tiles as blocks of cells -/

namespace AutoTiler

/-- Two tiles that cover blocks of cells and have a pixel in common have a
cell in common. -/
theorem overlap_common_cell (t : AutoTiler) (x y : Tile) (P Q : Int → Prop)
    (hx : is_block t x P) (hy : is_block t y Q) (ho : x.rect.overlaps y.rect) :
    ∃ i, P i ∧ Q i := by
  obtain ⟨R, C, nr, nc, h1, h2, a1, a2, a3, a4, hP⟩ := hx
  obtain ⟨R', C', nr', nc', h1', h2', b1, b2, b3, b4, hQ⟩ := hy
  unfold QRect.overlaps at ho
  rw [a1, a2, a3, a4, b1, b2, b3, b4] at ho
  obtain ⟨o1, o2, o3, o4⟩ := ho
  refine ⟨max R R' * t.grid_size.wd + max C C', hP _ _ ?_ ?_ ?_ ?_, hQ _ _ ?_ ?_ ?_ ?_⟩
  · exact le_max_left _ _
  · rcases le_total R R' with h | h
    · rw [max_eq_right h]; omega
    · rw [max_eq_left h]; omega
  · exact le_max_left _ _
  · rcases le_total C C' with h | h
    · rw [max_eq_right h]; omega
    · rw [max_eq_left h]; omega
  · exact le_max_right _ _
  · rcases le_total R R' with h | h
    · rw [max_eq_right h]; omega
    · rw [max_eq_left h]; omega
  · exact le_max_right _ _
  · rcases le_total C C' with h | h
    · rw [max_eq_right h]; omega
    · rw [max_eq_left h]; omega

theorem is_block_mono (t : AutoTiler) (x : Tile) (P Q : Int → Prop) (h : ∀ i, P i → Q i)
    (hx : is_block t x P) : is_block t x Q := by
  obtain ⟨R, C, nr, nc, h1, h2, a1, a2, a3, a4, hP⟩ := hx
  exact ⟨R, C, nr, nc, h1, h2, a1, a2, a3, a4, fun r c p q p2 q2 => h _ (hP r c p q p2 q2)⟩

theorem is_block_frame (t u : AutoTiler) (x : Tile) (P : Int → Prop) (h : same_frame t u)
    (hx : is_block t x P) : is_block u x P := by
  unfold is_block at hx ⊢
  rw [h.2.2.2.2.2.1, h.2.2.2.2.2.2.1]
  exact hx

theorem to_map_xy_some (t : AutoTiler) (k : Int) (xy : QPoint) (h : t.to_map_xy k = some xy) :
    xy = ⟨Int.tmod k t.grid_size.wd * 8 + t.bounding_box.x1,
      Int.tdiv k t.grid_size.wd * 8 + t.bounding_box.y1⟩ := by
  unfold to_map_xy at h
  split at h
  · cases h
  · exact (Option.some.inj h).symm

/-- An 8x8 tile at the position of a cell covers this cell. -/
theorem is_block_cell (t : AutoTiler) (k : Int) (xy : QPoint) (pattern : String) (layer : Int)
    (h : t.to_map_xy k = some xy) :
    is_block t ⟨pattern, xy, ⟨8, 8⟩, layer⟩ (fun i => i = k) := by
  rw [to_map_xy_some t k xy h]
  refine ⟨Int.tdiv k t.grid_size.wd, Int.tmod k t.grid_size.wd, 1, 1, by decide, by decide, ?_, ?_,
    ?_, ?_, ?_⟩
  · rfl
  · show _ + 8 - 1 = _
    ring
  · rfl
  · show _ + 8 - 1 = _
    ring
  · intro r c h1 h2 h3 h4
    have e1 : r = Int.tdiv k t.grid_size.wd := by omega
    have e2 : c = Int.tmod k t.grid_size.wd := by omega
    rw [e1, e2]
    have := Int.tmod_add_tdiv k t.grid_size.wd
    linarith

/-- The tile of a run of `1 + m` cells that starts at the cell `k` covers the
cells of the run. -/
theorem is_block_run (t : AutoTiler) (k : Int) (m : Nat) (wb : BorderKind) (xy : QPoint)
    (pattern : String) (layer : Int) (hs : is_side_border wb = true)
    (h : t.to_map_xy k = some xy) :
    is_block t ⟨pattern, xy, tile_size wb ⟨8, 8⟩ (1 + m), layer⟩
      (fun i => ∃ j : Nat, j ≤ m ∧ i = k + j * t.run_step wb) := by
  rw [to_map_xy_some t k xy h]
  have hk := Int.tmod_add_tdiv k t.grid_size.wd
  by_cases hv : wb = BorderKind.RIGHT ∨ wb = BorderKind.LEFT
  · have e : t.run_step wb = t.grid_size.wd := by
      unfold run_step; rw [if_pos hv]
    have es : tile_size wb ⟨8, 8⟩ (1 + m) = ⟨8, (1 + m) * 8⟩ := by
      rcases hv with rfl | rfl <;> rfl
    rw [e, es]
    refine ⟨Int.tdiv k t.grid_size.wd, Int.tmod k t.grid_size.wd, 1 + m, 1, by omega,
      by decide, ?_, ?_, ?_, ?_, ?_⟩
    · rfl
    · show _ + 8 - 1 = _
      ring
    · rfl
    · show _ + (1 + (m : Int)) * 8 - 1 = _
      ring
    · intro r c h1 h2 h3 h4
      have e2 : c = Int.tmod k t.grid_size.wd := by omega
      refine ⟨(r - Int.tdiv k t.grid_size.wd).toNat, by omega, ?_⟩
      have e3 : (((r - Int.tdiv k t.grid_size.wd).toNat : Nat) : Int) =
          r - Int.tdiv k t.grid_size.wd := Int.toNat_of_nonneg (by omega)
      rw [e3, e2]
      linarith
  · have e : t.run_step wb = 1 := by
      unfold run_step; rw [if_neg hv]
    have es : tile_size wb ⟨8, 8⟩ (1 + m) = ⟨(1 + m) * 8, 8⟩ := by
      cases wb <;>
        first
          | rfl
          | exact absurd hs (by decide)
          | exact absurd (Or.inl rfl : BorderKind.RIGHT = BorderKind.RIGHT ∨ _) hv
          | exact absurd (Or.inr rfl : _ ∨ BorderKind.LEFT = BorderKind.LEFT) hv
    rw [e, es]
    refine ⟨Int.tdiv k t.grid_size.wd, Int.tmod k t.grid_size.wd, 1, 1 + m, by decide,
      by omega, ?_, ?_, ?_, ?_, ?_⟩
    · rfl
    · show _ + (1 + (m : Int)) * 8 - 1 = _
      ring
    · rfl
    · show _ + 8 - 1 = _
      ring
    · intro r c h1 h2 h3 h4
      have e2 : r = Int.tdiv k t.grid_size.wd := by omega
      refine ⟨(c - Int.tmod k t.grid_size.wd).toNat, by omega, ?_⟩
      have e3 : (((c - Int.tmod k t.grid_size.wd).toNat : Nat) : Int) =
          c - Int.tmod k t.grid_size.wd := Int.toNat_of_nonneg (by omega)
      rw [e3, e2]
      linarith

end AutoTiler

/-! ### No two tiles overlap when every pattern is 8x8 -/

namespace AutoTiler

theorem same_frame_symm (t u : AutoTiler) (h : same_frame t u) : same_frame u t := by
  obtain ⟨a1, a2, a3, a4, a5, a6, a7, a8⟩ := h
  exact ⟨a1.symm, a2.symm, a3.symm, a4.symm, a5.symm, a6.symm, a7.symm, a8.symm⟩

/-- The side loop keeps the tiles disjoint: each tile covers cells that are
marked visited, and the cells of a new run are not. -/
theorem side_fold_disjoint (sv sh : BorderKind) (thick : BorderKind → Bool) (g : AutoTiler)
    (h8 : g.sizes_8x8) (hp : g.patterns_8x8) (l : List Int) (v u : AutoTiler)
    (T : List (Option Tile)) (hf : same_frame g v) (hT : v.tiles = g.tiles ++ T)
    (hblk : ∀ tile ∈ T, ∃ x, tile = some x ∧
      is_block g x (fun i => v.border_at i = BorderKind.NONE))
    (hdis : tiles_disjoint T) (h : l.foldlM (side_tile sv sh thick) v = some u) :
    ∃ T', u.tiles = g.tiles ++ T' ∧
      (∀ tile ∈ T', ∃ x, tile = some x ∧
        is_block g x (fun i => u.border_at i = BorderKind.NONE)) ∧
      tiles_disjoint T' := by
  induction l generalizing v T with
  | nil =>
    simp only [List.foldlM, Option.pure_def, Option.some.injEq] at h
    subst h
    exact ⟨T, hT, hblk, hdis⟩
  | cons k rest ih =>
    simp only [List.foldlM, Option.bind_eq_bind, Option.bind_eq_some] at h
    obtain ⟨w, hw, h⟩ := h
    obtain ⟨e1, e2, -, -, -⟩ := side_tile_effect sv sh thick v w k hw
    have hfw : same_frame g w := same_frame_trans _ _ _ hf e1
    have hold : ∀ tile ∈ T, ∃ x, tile = some x ∧
        is_block g x (fun i => w.border_at i = BorderKind.NONE) := by
      intro tile ht
      obtain ⟨x, hx, hb⟩ := hblk tile ht
      refine ⟨x, hx, is_block_mono g x _ _ ?_ hb⟩
      intro i hi
      rcases e2 i with e | e
      · rw [e]; exact hi
      · exact e
    rcases side_tile_8x8_some sv sh thick v w k (sizes_8x8_of_frame _ _ hf h8)
      (patterns_8x8_of_frame _ _ hf hp) hw with hno | ⟨m, xy, first, hs, hxy, -, hcells, htile⟩
    · exact ih w T hfw (by rw [hno, hT]) hold hdis h
    · have hn := side_ne_none _ hs
      have hb0 := is_block_run v k m (v.border_at k) xy (v.pattern_of (v.border_at k))
        first.layer hs hxy
      have hb1 : is_block g ⟨v.pattern_of (v.border_at k), xy,
          tile_size (v.border_at k) ⟨8, 8⟩ (1 + m), first.layer⟩
          (fun i => v.border_at i = v.border_at k ∧ w.border_at i = BorderKind.NONE) := by
        refine is_block_frame v g _ _ (same_frame_symm _ _ hf) (is_block_mono v _ _ _ ?_ hb0)
        rintro i ⟨j, hj, rfl⟩
        exact (hcells j hj).2
      refine ih w (T ++ [some _]) hfw (by rw [htile, hT, List.append_assoc]) ?_ ?_ h
      · intro tile ht
        rcases List.mem_append.1 ht with ht | ht
        · exact hold tile ht
        · rw [List.mem_singleton] at ht
          exact ⟨_, ht, is_block_mono g _ _ _ (fun i hi => hi.2) hb1⟩
      · unfold tiles_disjoint
        rw [List.pairwise_append]
        refine ⟨hdis, List.pairwise_singleton _ _, ?_⟩
        intro a ha b hb x y hax hby ho
        rw [List.mem_singleton] at hb
        obtain ⟨x', hx', hbx⟩ := hblk a ha
        rw [hax] at hx'
        cases hx'
        rw [hb] at hby
        cases hby
        obtain ⟨i, hi1, hi2⟩ := overlap_common_cell g _ _ _ _ hbx hb1 ho
        rw [hi1] at hi2
        exact hn hi2.1.symm

/-- The tiles of the corner loop, with 8x8 patterns: each covers the cell of
its key, which holds a kind. -/
theorem corner_fold_cells (sx sy : BorderKind → Bool) (s c : AutoTiler) (h8 : s.sizes_8x8)
    (hp : s.patterns_8x8) (l : List Int) (h : l.foldlM (corner_tile sx sy) s = some c) :
    ∃ S : List (Int × Tile),
      c.tiles = s.tiles ++ S.map (fun p => some p.2) ∧ (S.map Prod.fst).Sublist l ∧
      ∀ p ∈ S, s.border_at p.1 ≠ BorderKind.NONE ∧ is_block s p.2 (fun i => i = p.1) := by
  have key := fold_trace (corner_tile sx sy)
    (fun v => same_frame s v ∧ v.which_borders = s.which_borders)
    (fun k x => s.border_at k ≠ BorderKind.NONE ∧ is_block s x (fun i => i = k)) ?_ l s c
    ⟨same_frame_refl s, rfl⟩ h
  · exact key.2
  · intro v k w ⟨i1, i2⟩ hw
    have hb : v.border_at k = s.border_at k := by
      unfold border_at
      rw [i2]
    rcases corner_tile_8x8_some sx sy v w k (sizes_8x8_of_frame _ _ i1 h8)
      (patterns_8x8_of_frame _ _ i1 hp) hw with rfl | ⟨xy, first, hn, hxy, rfl⟩
    · exact ⟨⟨i1, i2⟩, Or.inl rfl⟩
    · refine ⟨⟨same_frame_trans _ _ _ i1 (same_frame_tiles _ _), i2⟩, Or.inr ⟨_, rfl, ?_, ?_⟩⟩
      · rw [← hb]; exact hn
      · exact is_block_frame v s _ _ (same_frame_symm _ _ i1) (is_block_cell v k xy _ _ hxy)

theorem sizes_8x8_of_classify (t g : AutoTiler) (h : t.classify = some g)
    (hp : t.patterns_8x8) : g.sizes_8x8 ∧ g.patterns_8x8 := by
  constructor
  · intro kind hk
    have e3 : g.get_pattern_size kind = t.compute_pattern_sizes.get_pattern_size kind := by
      unfold get_pattern_size
      rw [(classify_frame t g h).2.2.2.2.2.2]
    rw [e3, get_pattern_size_computed t kind hk, (hp kind hk).1, if_pos rfl, (hp kind hk).2]
  · intro kind hk
    obtain ⟨e1, e2⟩ := classify_pattern_of t g h kind
    rw [e1, e2]
    exact hp kind hk

/-- The tiles after the two loops are disjoint when every pattern is
8x8. -/
theorem passes_disjoint (g s c : AutoTiler) (h8 : g.sizes_8x8) (hp : g.patterns_8x8)
    (hk : g.keys_sorted) (hg : g.tiles = []) (hs : g.side_pass = some s)
    (hc : s.corner_pass = some c) :
    tiles_disjoint c.tiles ∧ ∀ tile ∈ c.tiles, ∃ x, tile = some x := by
  obtain ⟨f1, -, f3, -, -⟩ := side_pass_effect g s hs
  have hside : ∃ T', s.tiles = g.tiles ++ T' ∧
      (∀ tile ∈ T', ∃ x, tile = some x ∧
        is_block g x (fun i => s.border_at i = BorderKind.NONE)) ∧
      tiles_disjoint T' := by
    unfold side_pass at hs
    split at hs
    · exact side_fold_disjoint _ _ _ g h8 hp _ g s [] (same_frame_refl g) (by simp)
        (by simp) List.Pairwise.nil hs
    · exact side_fold_disjoint _ _ _ g h8 hp _ g s [] (same_frame_refl g) (by simp)
        (by simp) List.Pairwise.nil hs
  obtain ⟨T, hT, hblk, hdis⟩ := hside
  have hcorner : ∃ S : List (Int × Tile),
      c.tiles = s.tiles ++ S.map (fun p => some p.2) ∧ (S.map Prod.fst).Sublist s.border_keys ∧
      ∀ p ∈ S, s.border_at p.1 ≠ BorderKind.NONE ∧ is_block s p.2 (fun i => i = p.1) := by
    unfold corner_pass at hc
    split at hc
    · exact corner_fold_cells _ _ s c (sizes_8x8_of_frame _ _ f1 h8)
        (patterns_8x8_of_frame _ _ f1 hp) _ hc
    · exact corner_fold_cells _ _ s c (sizes_8x8_of_frame _ _ f1 h8)
        (patterns_8x8_of_frame _ _ f1 hp) _ hc
  obtain ⟨S, hS, hsub, hcells⟩ := hcorner
  have hkeys : (S.map Prod.fst).Pairwise (· < ·) := (f3 hk).sublist hsub
  rw [hS, hT, hg, List.nil_append]
  constructor
  · unfold tiles_disjoint
    rw [List.pairwise_append]
    refine ⟨hdis, ?_, ?_⟩
    · rw [List.pairwise_map]
      rw [List.pairwise_map] at hkeys
      refine hkeys.imp_of_mem ?_
      intro p q hp1 hq1 hlt x y hx hy ho
      cases hx
      cases hy
      obtain ⟨i, hi1, hi2⟩ := overlap_common_cell s _ _ _ _ (hcells p hp1).2 (hcells q hq1).2 ho
      rw [hi1] at hi2
      omega
    · intro a ha b hb x y hax hby ho
      obtain ⟨x', hx', hbx⟩ := hblk a ha
      rw [hax] at hx'
      cases hx'
      obtain ⟨q, hq, rfl⟩ := List.mem_map.1 hb
      cases hby
      obtain ⟨i, hi1, hi2⟩ := overlap_common_cell s _ _ _ _
        (is_block_frame g s _ _ f1 hbx) (hcells q hq).2 ho
      rw [hi2] at hi1
      exact (hcells q hq).1 hi1
  · intro tile ht
    rcases List.mem_append.1 ht with ht | ht
    · obtain ⟨x, hx, -⟩ := hblk tile ht
      exact ⟨x, hx⟩
    · obtain ⟨q, -, rfl⟩ := List.mem_map.1 ht
      exact ⟨q.2, rfl⟩

/-- C13, amended. For every list of regions and both modes, with a border
set whose 12 patterns exist and are 8x8, the pixel rectangles of the tiles
that `generate_border_tiles` returns are pairwise disjoint. -/
theorem tiles_disjoint_8x8 (t u : AutoTiler) (out : List (Option Tile × EntityIndex))
    (ht : t.tiles = []) (hp : t.patterns_8x8)
    (h : t.generate_border_tiles = some (u, out)) :
    (out.map Prod.fst).Pairwise (fun a b =>
      ∀ x y, a = some x → b = some y → ¬ x.rect.overlaps y.rect) ∧
    ∀ tile ∈ out.map Prod.fst, ∃ x, tile = some x := by
  by_cases hne : t.entity_rectangles = []
  · unfold generate_border_tiles at h
    rw [hne] at h
    simp only [List.isEmpty_nil, if_true, Option.some.injEq, Prod.mk.injEq] at h
    rw [← h.2]
    exact ⟨List.Pairwise.nil, by simp⟩
  obtain ⟨g, s, c, hg, hs, hc, ho, -⟩ := generate_border_tiles_some t u out hne h
  obtain ⟨hsorted, htiles, -⟩ := classify_frame t g hg
  obtain ⟨h8, hp2⟩ := sizes_8x8_of_classify t g hg hp
  rw [ho]
  exact passes_disjoint g s c h8 hp2 hsorted (by rw [htiles, ht]) hs hc

theorem tiles_disjoint_8x8_witness :
    (tiler_of (tileset_8x8 false) [QRect.ofXYWH 0 0 32 16, QRect.ofXYWH 16 8 32 32]).tiles = [] ∧
    (tiler_of (tileset_8x8 false)
      [QRect.ofXYWH 0 0 32 16, QRect.ofXYWH 16 8 32 32]).generated.length = 15 ∧
    ((tiler_of (tileset_8x8 false)
      [QRect.ofXYWH 0 0 32 16, QRect.ofXYWH 16 8 32 32]).generated.map Prod.fst).Pairwise
        (fun a b => ∀ x y, a = some x → b = some y → ¬ x.rect.overlaps y.rect) :=
  ⟨rfl, by decide!,
    (tiles_disjoint_8x8
      (tiler_of (tileset_8x8 false) [QRect.ofXYWH 0 0 32 16, QRect.ofXYWH 16 8 32 32]) _ _ rfl
      (fun kind _ => ⟨rfl, rfl⟩) (generate_border_tiles_get _ (by decide!))).1⟩

end AutoTiler

/-! ### The grid of a single region -/

namespace AutoTiler

theorem pattern_sizes_8x8 (t : AutoTiler) (hp : t.patterns_8x8) :
    t.compute_pattern_sizes.pattern_sizes = List.replicate 12 ⟨8, 8⟩ := by
  have h : ∀ kind ∈ BorderKind.all12,
      (if t.get_tileset.pattern_exists
          (t.get_tileset.get_border_set_pattern t.border_set_id kind) then
        t.get_tileset.pattern_frame_size
          (t.get_tileset.get_border_set_pattern t.border_set_id kind)
      else QSize.invalid) = (fun _ => (⟨8, 8⟩ : QSize)) kind := by
    intro kind hk
    have hn : kind ≠ BorderKind.NONE := by
      intro e
      rw [e] at hk
      exact absurd hk (by decide)
    obtain ⟨h1, h2⟩ := hp kind hn
    unfold pattern_of at h1 h2
    rw [h1, if_pos rfl, h2]
  have e : t.compute_pattern_sizes.pattern_sizes =
      BorderKind.all12.map (fun kind =>
        if t.get_tileset.pattern_exists
            (t.get_tileset.get_border_set_pattern t.border_set_id kind) then
          t.get_tileset.pattern_frame_size
            (t.get_tileset.get_border_set_pattern t.border_set_id kind)
        else QSize.invalid) := rfl
  rw [e, List.map_congr_left h]
  rfl

theorem max_pattern_size_8x8 (t : AutoTiler) (hp : t.patterns_8x8) :
    t.compute_pattern_sizes.max_pattern_size = ⟨8, 8⟩ := by
  unfold max_pattern_size
  rw [pattern_sizes_8x8 t hp]
  decide

/-- When the grid built by `compute_bounding_box` fits the regions with a
margin of one cell, the steps of `generate_border_tiles` up to the
classification succeed, with the properties listed in `classify_of_margin`. -/
theorem classify_of_fit (t : AutoTiler)
    (hb : grid_fits 1 t.compute_pattern_sizes.compute_bounding_box) :
    ∃ g u, t.compute_pattern_sizes.compute_bounding_box.compute_occupied_squares = some g ∧
      grid_fits 1 g ∧ g.mask_sized ∧
      (∀ i, g.in_grid i → g.is_cell_occupied i = some (g.cell_covered i)) ∧
      (∀ w ∈ g.processed_windows, g.window_in_grid w) ∧
      g.compute_borders = some u ∧ t.classify = some u := by
  obtain ⟨g, hg, hgf, hgs, hcov⟩ := compute_occupied_squares_covered _
    (grid_fits_mono 1 0 _ (by decide) hb)
  have hfit : grid_fits 1 g := by
    rw [hgf]
    exact grid_fits_squares 1 _ _ hb
  have hwin := processed_windows_in_grid g hfit
  obtain ⟨u, hu, -, -⟩ := compute_borders_apply g hgs hwin
  refine ⟨g, u, hg, hfit, hgs, ?_, hwin, hu, ?_⟩
  · intro i hi
    have h1 : t.compute_pattern_sizes.compute_bounding_box.in_grid i := by
      rw [hgf] at hi
      exact hi
    have h2 : g.cell_covered i = t.compute_pattern_sizes.compute_bounding_box.cell_covered i := by
      rw [hgf]
      rfl
    rw [h2]
    exact hcov i h1
  · unfold classify
    rw [hg]
    exact hu

/-- The grid built for a single region of `nx` by `ny` cells and 8x8
patterns fits the region with a margin of one cell, wherever the region
is. -/
theorem single_region_fits (t : AutoTiler) (x0 y0 : Int) (nx ny : Nat)
    (hr : t.entity_rectangles = [QRect.ofXYWH x0 y0 (8 * nx) (8 * ny)])
    (hnx : 1 ≤ nx) (hny : 1 ≤ ny) (hp : t.patterns_8x8) :
    grid_fits 1 t.compute_pattern_sizes.compute_bounding_box := by
  have hmax := max_pattern_size_8x8 t hp
  have hun : t.compute_pattern_sizes.union_box = QRect.ofXYWH x0 y0 (8 * nx) (8 * ny) := by
    unfold union_box
    show List.foldl QRect.united QRect.null t.entity_rectangles = _
    rw [hr]
    exact united_null_left _
  have hgrid : t.compute_pattern_sizes.compute_bounding_box.grid_size = ⟨nx + 2, ny + 2⟩ := by
    rw [compute_bounding_box_grid, hun, hmax]
    have e1 : (QRect.ofXYWH x0 y0 (8 * nx) (8 * ny)).width + 2 * 8 = 8 * ((nx : Int) + 2) := by
      unfold QRect.width QRect.ofXYWH
      ring
    have e2 : (QRect.ofXYWH x0 y0 (8 * nx) (8 * ny)).height + 2 * 8 = 8 * ((ny : Int) + 2) := by
      unfold QRect.height QRect.ofXYWH
      ring
    show (⟨qRoundDiv ((QRect.ofXYWH x0 y0 (8 * nx) (8 * ny)).width + 2 * 8) 8,
      qRoundDiv ((QRect.ofXYWH x0 y0 (8 * nx) (8 * ny)).height + 2 * 8) 8⟩ : QSize) = _
    rw [e1, e2, qRoundDiv_eight_mul, qRoundDiv_eight_mul]
  have hbx : t.compute_pattern_sizes.compute_bounding_box.bounding_box.x1 = x0 - 8 := by
    rw [compute_bounding_box_x1, hun, hmax]
    rfl
  have hby : t.compute_pattern_sizes.compute_bounding_box.bounding_box.y1 = y0 - 8 := by
    rw [compute_bounding_box_y1, hun, hmax]
    rfl
  refine ⟨by rw [hgrid]; show (0 : Int) < nx + 2; omega,
    by rw [hgrid]; show (0 : Int) < ny + 2; omega, ?_⟩
  intro r hr2
  have hr3 : r ∈ t.entity_rectangles := hr2
  rw [hr, List.mem_singleton] at hr3
  subst hr3
  refine ⟨1, 1, nx, ny, ?_, ?_, ?_, ?_, by omega, by omega, le_refl _, le_refl _, ?_, ?_⟩
  · rw [hbx]
    show x0 = _
    ring
  · rw [hby]
    show y0 = _
    ring
  · unfold QRect.width QRect.ofXYWH
    ring
  · unfold QRect.height QRect.ofXYWH
    ring
  · rw [hgrid]
    show (1 : Int) + nx + 1 ≤ nx + 2
    omega
  · rw [hgrid]
    show (1 : Int) + ny + 1 ≤ ny + 2
    omega

/-- The grid, the occupancy mask and the processed windows for a single
region of `nx` by `ny` cells and 8x8 patterns, wherever it is: the grid has
`nx + 2` columns and `ny + 2` rows, its origin is one cell above and to the
left of the region, the occupied cells are those of the rows 1 to `ny` and of
the columns 1 to `nx`, and the windows are those of the perimeter. -/
theorem single_region_grid (t : AutoTiler) (x0 y0 : Int) (nx ny : Nat)
    (hr : t.entity_rectangles = [QRect.ofXYWH x0 y0 (8 * nx) (8 * ny)])
    (hnx : 1 ≤ nx) (hny : 1 ≤ ny) (hp : t.patterns_8x8) :
    ∃ g0 g, t.compute_pattern_sizes.compute_bounding_box.compute_occupied_squares = some g0 ∧
      g0.compute_borders = some g ∧ t.classify = some g ∧
      g0.grid_size = ⟨nx + 2, ny + 2⟩ ∧ g0.bounding_box.x1 = x0 - 8 ∧
      g0.bounding_box.y1 = y0 - 8 ∧ g0.mask_sized ∧
      (∀ R C : Int, 0 ≤ R → R < ny + 2 → 0 ≤ C → C < nx + 2 →
        g0.is_cell_occupied (R * (nx + 2) + C) =
          some (decide (1 ≤ R ∧ R ≤ ny ∧ 1 ≤ C ∧ C ≤ nx))) ∧
      g0.processed_windows =
        side_windows nx 1 0 ++ side_windows ny (nx + 2) nx ++
          side_windows nx (-1) (nx + ny * (nx + 2)) ++
          side_windows ny (-(nx + 2)) (ny * (nx + 2)) ∧
      (∀ w ∈ g0.processed_windows, g0.window_in_grid w) ∧ borders_only g0 g ∧
      g.border_at =
        apply_assignments no_border (g0.processed_windows.flatMap g0.window_assignments) := by
  have hmax := max_pattern_size_8x8 t hp
  obtain ⟨g0, g, hg0, hfit, hsized, hocc, hwin, hg, hcl⟩ :=
    classify_of_fit t (single_region_fits t x0 y0 nx ny hr hnx hny hp)
  obtain ⟨hg0eq, -, -, -⟩ := compute_occupied_squares_some _ _ hg0
  have hun : t.compute_pattern_sizes.union_box = QRect.ofXYWH x0 y0 (8 * nx) (8 * ny) := by
    unfold union_box
    show List.foldl QRect.united QRect.null t.entity_rectangles = _
    rw [hr]
    exact united_null_left _
  have hgrid : g0.grid_size = ⟨nx + 2, ny + 2⟩ := by
    rw [hg0eq]
    show t.compute_pattern_sizes.compute_bounding_box.grid_size = _
    rw [compute_bounding_box_grid, hun, hmax]
    have e1 : (QRect.ofXYWH x0 y0 (8 * nx) (8 * ny)).width + 2 * 8 = 8 * ((nx : Int) + 2) := by
      unfold QRect.width QRect.ofXYWH
      ring
    have e2 : (QRect.ofXYWH x0 y0 (8 * nx) (8 * ny)).height + 2 * 8 = 8 * ((ny : Int) + 2) := by
      unfold QRect.height QRect.ofXYWH
      ring
    show (⟨qRoundDiv ((QRect.ofXYWH x0 y0 (8 * nx) (8 * ny)).width + 2 * 8) 8,
      qRoundDiv ((QRect.ofXYWH x0 y0 (8 * nx) (8 * ny)).height + 2 * 8) 8⟩ : QSize) = _
    rw [e1, e2, qRoundDiv_eight_mul, qRoundDiv_eight_mul]
  have hbx : g0.bounding_box.x1 = x0 - 8 := by
    rw [hg0eq]
    show t.compute_pattern_sizes.compute_bounding_box.bounding_box.x1 = _
    rw [compute_bounding_box_x1, hun, hmax]
    rfl
  have hby : g0.bounding_box.y1 = y0 - 8 := by
    rw [hg0eq]
    show t.compute_pattern_sizes.compute_bounding_box.bounding_box.y1 = _
    rw [compute_bounding_box_y1, hun, hmax]
    rfl
  have hrect : g0.entity_rectangles = [QRect.ofXYWH x0 y0 (8 * nx) (8 * ny)] := by
    rw [hg0eq]
    exact hr
  have hgw : g0.grid_size.wd = nx + 2 := by rw [hgrid]
  have hgh : g0.grid_size.ht = ny + 2 := by rw [hgrid]
  obtain ⟨u, hu, hbo, hba⟩ := compute_borders_apply g0 hsized hwin
  rw [hg] at hu
  cases hu
  refine ⟨g0, g, hg0, hg, hcl, hgrid, hbx, hby, hsized, ?_, ?_, hwin, hbo, hba⟩
  · intro R C hR hR2 hC hC2
    have hin : g0.in_grid (R * g0.grid_size.wd + C) :=
      in_grid_of_row_col g0 R C hR (by rw [hgh]; exact hR2) hC (by rw [hgw]; exact hC2)
    rw [hgw] at hin
    rw [hocc _ hin]
    congr 1
    unfold cell_covered
    have hxy := to_map_xy_of_row_col g0 R C hR hC (by rw [hgw]; exact hC2)
    rw [hgw] at hxy
    rw [hxy, hrect]
    simp only [List.any_cons, List.any_nil, Bool.or_false]
    unfold QRect.contains_square QRect.ofXYWH
    simp only [hbx, hby]
    rw [Bool.eq_iff_iff]
    simp only [Bool.and_eq_true, decide_eq_true_eq]
    constructor
    · rintro ⟨⟨⟨a, b⟩, c⟩, d⟩
      refine ⟨?_, ?_, ?_, ?_⟩ <;> omega
    · rintro ⟨a, b, c, d⟩
      refine ⟨⟨⟨?_, ?_⟩, ?_⟩, ?_⟩ <;> omega
  · unfold processed_windows
    rw [hrect]
    simp only [List.flatMap_cons, List.flatMap_nil, List.append_nil]
    unfold rectangle_windows
    have e1 : (Int.tdiv (QRect.ofXYWH x0 y0 (8 * nx) (8 * ny)).width 8).toNat = nx := by
      have : (QRect.ofXYWH x0 y0 (8 * nx) (8 * ny)).width = 8 * (nx : Int) := by
        unfold QRect.width QRect.ofXYWH
        ring
      rw [this, tdiv_eight_mul]
      exact Int.toNat_natCast nx
    have e2 : (Int.tdiv (QRect.ofXYWH x0 y0 (8 * nx) (8 * ny)).height 8).toNat = ny := by
      have : (QRect.ofXYWH x0 y0 (8 * nx) (8 * ny)).height = 8 * (ny : Int) := by
        unfold QRect.height QRect.ofXYWH
        ring
      rw [this, tdiv_eight_mul]
      exact Int.toNat_natCast ny
    have e3 : g0.to_grid_index (QRect.ofXYWH x0 y0 (8 * nx) (8 * ny)).topLeft =
        1 * g0.grid_size.wd + 1 := by
      have := to_grid_index_of_row_col g0 1 1
      rw [hbx, hby] at this
      rw [← this]
      unfold QRect.topLeft QRect.ofXYWH
      congr 2 <;> ring
    simp only [e1, e2, e3, hgw]
    congr 1
    · congr 1
      · congr 1
        · congr 1
          ring
        · congr 1
          ring
      · congr 1
        ring
    · congr 1
      ring

end AutoTiler

/-! ### The classification of a single region -/

theorem side_windows_mem_iff (n : Nat) (step cell_0 w : Int) :
    w ∈ AutoTiler.side_windows n step cell_0 ↔ ∃ j : Nat, j < n ∧ w = cell_0 + j * step := by
  induction n generalizing cell_0 with
  | zero =>
    simp only [AutoTiler.side_windows, List.not_mem_nil, false_iff]
    rintro ⟨j, hj, -⟩
    omega
  | succ n ih =>
    simp only [AutoTiler.side_windows, List.mem_cons, ih]
    constructor
    · rintro (h | ⟨j, hj, h⟩)
      · exact ⟨0, by omega, by simp [h]⟩
      · exact ⟨j + 1, by omega, by rw [h]; push_cast; ring⟩
    · rintro ⟨j, hj, h⟩
      rcases Nat.eq_zero_or_pos j with h0 | h0
      · left
        subst h0
        simpa using h
      · right
        refine ⟨j - 1, by omega, ?_⟩
        have : ((j - 1 : Nat) : Int) = (j : Int) - 1 := by omega
        rw [h, this]
        ring

/-- A cell to which every assignment of the list gives the kind `k`, and
which was unset, holds `k`. -/
theorem apply_assignments_all_eq (l : List (Int × BorderKind)) (f : Int → BorderKind)
    (c : Int) (k : BorderKind) (hk : k ≠ BorderKind.NONE)
    (hf : (f c = BorderKind.NONE ∧ (c, k) ∈ l) ∨ f c = k)
    (hall : ∀ k2, (c, k2) ∈ l → k2 = k) : apply_assignments f l c = k := by
  induction l generalizing f with
  | nil =>
    rcases hf with ⟨-, h⟩ | h
    · simp at h
    · exact h
  | cons a rest ih =>
    obtain ⟨c2, k2⟩ := a
    simp only [apply_assignments]
    apply ih
    · by_cases hc : c2 = c
      · subst hc
        have e := hall k2 (List.mem_cons_self _ _)
        subst e
        right
        rw [apply_rule_same]
        rcases hf with ⟨h, -⟩ | h
        · rw [if_neg]
          rintro ⟨-, h2⟩
          exact h2 h
        · split
          · exact h
          · rfl
      · rw [apply_rule_other _ _ _ _ (fun e => hc e.symm)]
        rcases hf with ⟨h, h2⟩ | h
        · left
          refine ⟨h, ?_⟩
          rcases List.mem_cons.1 h2 with h3 | h3
          · exact absurd (congrArg Prod.fst h3).symm hc
          · exact h3
        · exact Or.inr h
    · intro k3 h3
      exact hall k3 (List.mem_cons_of_mem _ h3)

/-- A cell to which the list assigns the corner kind `k` and no other corner
kind holds `k`. -/
theorem apply_assignments_one_corner (l : List (Int × BorderKind)) (f : Int → BorderKind)
    (c : Int) (k : BorderKind) (hk : is_corner_border k = true)
    (hn : ∀ a ∈ l, a.2 ≠ BorderKind.NONE) (hf : (c, k) ∈ l ∨ f c = k)
    (hall : ∀ k2, (c, k2) ∈ l → is_corner_border k2 = true → k2 = k) :
    apply_assignments f l c = k := by
  induction l generalizing f with
  | nil =>
    rcases hf with h | h
    · simp at h
    · exact h
  | cons a rest ih =>
    obtain ⟨c2, k2⟩ := a
    simp only [apply_assignments]
    apply ih
    · intro a ha
      exact hn a (List.mem_cons_of_mem _ ha)
    · by_cases hc : c2 = c
      · subst hc
        rw [apply_rule_same]
        by_cases hk2 : is_corner_border k2 = true
        · have e := hall k2 (List.mem_cons_self _ _) hk2
          subst e
          right
          rw [if_neg]
          rintro ⟨h, -⟩
          rw [corner_not_side _ hk] at h
          cases h
        · have hn2 : k2 ≠ BorderKind.NONE := hn (c2, k2) (List.mem_cons_self _ _)
          have hs2 : is_side_border k2 = true := side_of_not_corner k2 hn2 (by simpa using hk2)
          rcases hf with h | h
          · left
            rcases List.mem_cons.1 h with h3 | h3
            · have : k = k2 := congrArg Prod.snd h3
              rw [this] at hk
              exact absurd hk hk2
            · exact h3
          · right
            rw [if_pos ⟨hs2, by rw [h]; exact ((is_corner_iff k).1 hk).1⟩]
            exact h
      · rw [apply_rule_other _ _ _ _ (fun e => hc e.symm)]
        rcases hf with h | h
        · left
          rcases List.mem_cons.1 h with h3 | h3
          · exact absurd (congrArg Prod.fst h3).symm hc
          · exact h3
        · exact Or.inr h
    · intro k3 h3
      exact hall k3 (List.mem_cons_of_mem _ h3)

namespace AutoTiler

theorem region_window_assignments (g : AutoTiler) (nx ny : Nat) (hg : region_grid g nx ny)
    (Rw Cw : Int) (h0 : 0 ≤ Rw) (h1 : Rw ≤ ny) (h2 : 0 ≤ Cw) (h3 : Cw ≤ nx)
    (tl tr bl br : Bool)
    (b0 : decide (1 ≤ Rw ∧ Rw ≤ ny ∧ 1 ≤ Cw ∧ Cw ≤ nx) = tl)
    (b1 : decide (1 ≤ Rw ∧ Rw ≤ ny ∧ 1 ≤ Cw + 1 ∧ Cw + 1 ≤ nx) = tr)
    (b2 : decide (1 ≤ Rw + 1 ∧ Rw + 1 ≤ ny ∧ 1 ≤ Cw ∧ Cw ≤ nx) = bl)
    (b3 : decide (1 ≤ Rw + 1 ∧ Rw + 1 ≤ ny ∧ 1 ≤ Cw + 1 ∧ Cw + 1 ≤ nx) = br) :
    g.window_assignments (Rw * (nx + 2) + Cw) =
      (if g.get_tileset.is_border_set_inner g.border_set_id then
          inner_rules (window_mask tl tr bl br)
        else outer_rules (window_mask tl tr bl br)).map
        fun r => (r.1.index (nx + 2) (Rw * (nx + 2) + Cw), r.2) := by
  obtain ⟨hgrid, hocc⟩ := hg
  have hgw : g.grid_size.wd = nx + 2 := by rw [hgrid]
  have e0 := hocc Rw Cw h0 (by omega) h2 (by omega)
  have e1 := hocc Rw (Cw + 1) h0 (by omega) (by omega) (by omega)
  have e2 := hocc (Rw + 1) Cw (by omega) (by omega) h2 (by omega)
  have e3 := hocc (Rw + 1) (Cw + 1) (by omega) (by omega) (by omega) (by omega)
  rw [b0] at e0
  rw [b1] at e1
  rw [b2] at e2
  rw [b3] at e3
  have hm := four_cells_mask_of_bits g (Rw * (nx + 2) + Cw) tl tr bl br e0
    (by rw [← e1]; congr 1; ring)
    (by rw [← e2, hgw]; congr 1; ring)
    (by rw [← e3, hgw]; congr 1; ring)
  unfold window_assignments rules_at mask_at
  rw [hm, hgw]
  rfl

theorem mode_offset_cases (g : AutoTiler) :
    (g.get_tileset.is_border_set_inner g.border_set_id = true ∧ g.mode_offset = 1) ∨
    (g.get_tileset.is_border_set_inner g.border_set_id = false ∧ g.mode_offset = 0) := by
  unfold mode_offset
  cases h : g.get_tileset.is_border_set_inner g.border_set_id
  · right; exact ⟨rfl, by simp⟩
  · left; exact ⟨rfl, by simp⟩

/-- The assignments of the windows of the top side of a single region. -/
theorem top_window_assignments (g : AutoTiler) (nx ny : Nat) (hg : region_grid g nx ny)
    (hnx : 2 ≤ nx) (hny : 2 ≤ ny) (j : Nat) (hj : j < nx) :
    g.window_assignments (0 + j * 1) =
      if j = 0 then
        [(g.mode_offset * (nx + 2) + g.mode_offset, BorderKind.TOP_LEFT_CONVEX)]
      else
        [(g.mode_offset * (nx + 2) + j, BorderKind.TOP),
          (g.mode_offset * (nx + 2) + (j + 1), BorderKind.TOP)] := by
  have e : (0 + j * 1 : Int) = 0 * ((nx : Int) + 2) + j := by ring
  rw [e]
  rcases Nat.eq_zero_or_pos j with h0 | h0
  · rw [region_window_assignments g nx ny hg (0) (j) (by omega) (by omega) (by omega)
      (by omega) false false false true (by simp <;> omega) (by simp <;> omega) (by simp <;> omega)
      (by simp <;> omega), if_pos h0]
    subst h0
    rcases mode_offset_cases g with ⟨h, ha⟩ | ⟨h, ha⟩
    · rw [h, ha]
      simp [window_mask, inner_rules, WindowCell.index]
      all_goals first | (refine ⟨?_, ?_⟩ <;> ring) | ring
    · rw [h, ha]
      simp [window_mask, outer_rules, WindowCell.index]
      all_goals first | (refine ⟨?_, ?_⟩ <;> ring) | ring
  · rw [region_window_assignments g nx ny hg (0) (j) (by omega) (by omega) (by omega)
      (by omega) false false true true (by simp <;> omega) (by simp <;> omega) (by simp <;> omega)
      (by simp <;> omega), if_neg (show ¬ j = 0 by omega)]
    rcases mode_offset_cases g with ⟨h, ha⟩ | ⟨h, ha⟩
    · rw [h, ha]
      simp [window_mask, inner_rules, WindowCell.index]
      all_goals first | (refine ⟨?_, ?_⟩ <;> ring) | ring
    · rw [h, ha]
      simp [window_mask, outer_rules, WindowCell.index]
      all_goals first | (refine ⟨?_, ?_⟩ <;> ring) | ring

/-- The assignments of the windows of the right side of a single region. -/
theorem right_window_assignments (g : AutoTiler) (nx ny : Nat) (hg : region_grid g nx ny)
    (hnx : 2 ≤ nx) (hny : 2 ≤ ny) (j : Nat) (hj : j < ny) :
    g.window_assignments (nx + j * (nx + 2)) =
      if j = 0 then
        [(g.mode_offset * (nx + 2) + (nx + 1 - g.mode_offset), BorderKind.TOP_RIGHT_CONVEX)]
      else
        [(j * (nx + 2) + (nx + 1 - g.mode_offset), BorderKind.RIGHT),
          ((j + 1) * (nx + 2) + (nx + 1 - g.mode_offset), BorderKind.RIGHT)] := by
  have e : (nx + j * (nx + 2) : Int) = (j : Int) * ((nx : Int) + 2) + nx := by ring
  rw [e]
  rcases Nat.eq_zero_or_pos j with h0 | h0
  · rw [region_window_assignments g nx ny hg (j) (nx) (by omega) (by omega) (by omega)
      (by omega) false false true false (by simp <;> omega) (by simp <;> omega) (by simp <;> omega)
      (by simp <;> omega), if_pos h0]
    subst h0
    rcases mode_offset_cases g with ⟨h, ha⟩ | ⟨h, ha⟩
    · rw [h, ha]
      simp [window_mask, inner_rules, WindowCell.index]
      all_goals first | (refine ⟨?_, ?_⟩ <;> ring) | ring
    · rw [h, ha]
      simp [window_mask, outer_rules, WindowCell.index]
      all_goals first | (refine ⟨?_, ?_⟩ <;> ring) | ring
  · rw [region_window_assignments g nx ny hg (j) (nx) (by omega) (by omega) (by omega)
      (by omega) true false true false (by simp <;> omega) (by simp <;> omega) (by simp <;> omega)
      (by simp <;> omega), if_neg (show ¬ j = 0 by omega)]
    rcases mode_offset_cases g with ⟨h, ha⟩ | ⟨h, ha⟩
    · rw [h, ha]
      simp [window_mask, inner_rules, WindowCell.index]
      all_goals first | (refine ⟨?_, ?_⟩ <;> ring) | ring
    · rw [h, ha]
      simp [window_mask, outer_rules, WindowCell.index]
      all_goals first | (refine ⟨?_, ?_⟩ <;> ring) | ring

/-- The assignments of the windows of the bottom side of a single region. -/
theorem bottom_window_assignments (g : AutoTiler) (nx ny : Nat) (hg : region_grid g nx ny)
    (hnx : 2 ≤ nx) (hny : 2 ≤ ny) (j : Nat) (hj : j < nx) :
    g.window_assignments (nx + ny * (nx + 2) + j * (-1)) =
      if j = 0 then
        [((ny + 1 - g.mode_offset) * (nx + 2) + (nx + 1 - g.mode_offset), BorderKind.BOTTOM_RIGHT_CONVEX)]
      else
        [((ny + 1 - g.mode_offset) * (nx + 2) + (nx - j), BorderKind.BOTTOM),
          ((ny + 1 - g.mode_offset) * (nx + 2) + (nx - j + 1), BorderKind.BOTTOM)] := by
  have e : (nx + ny * (nx + 2) + j * (-1) : Int) = (ny : Int) * ((nx : Int) + 2) + (nx - j) := by ring
  rw [e]
  rcases Nat.eq_zero_or_pos j with h0 | h0
  · rw [region_window_assignments g nx ny hg (ny) (nx - j) (by omega) (by omega) (by omega)
      (by omega) true false false false (by simp <;> omega) (by simp <;> omega) (by simp <;> omega)
      (by simp <;> omega), if_pos h0]
    subst h0
    rcases mode_offset_cases g with ⟨h, ha⟩ | ⟨h, ha⟩
    · rw [h, ha]
      simp [window_mask, inner_rules, WindowCell.index]
      all_goals first | (refine ⟨?_, ?_⟩ <;> ring) | ring
    · rw [h, ha]
      simp [window_mask, outer_rules, WindowCell.index]
      all_goals first | (refine ⟨?_, ?_⟩ <;> ring) | ring
  · rw [region_window_assignments g nx ny hg (ny) (nx - j) (by omega) (by omega) (by omega)
      (by omega) true true false false (by simp <;> omega) (by simp <;> omega) (by simp <;> omega)
      (by simp <;> omega), if_neg (show ¬ j = 0 by omega)]
    rcases mode_offset_cases g with ⟨h, ha⟩ | ⟨h, ha⟩
    · rw [h, ha]
      simp [window_mask, inner_rules, WindowCell.index]
      all_goals first | (refine ⟨?_, ?_⟩ <;> ring) | ring
    · rw [h, ha]
      simp [window_mask, outer_rules, WindowCell.index]
      all_goals first | (refine ⟨?_, ?_⟩ <;> ring) | ring

/-- The assignments of the windows of the left side of a single region. -/
theorem left_window_assignments (g : AutoTiler) (nx ny : Nat) (hg : region_grid g nx ny)
    (hnx : 2 ≤ nx) (hny : 2 ≤ ny) (j : Nat) (hj : j < ny) :
    g.window_assignments (ny * (nx + 2) + j * (-(nx + 2))) =
      if j = 0 then
        [((ny + 1 - g.mode_offset) * (nx + 2) + g.mode_offset, BorderKind.BOTTOM_LEFT_CONVEX)]
      else
        [((ny - j) * (nx + 2) + g.mode_offset, BorderKind.LEFT),
          ((ny - j + 1) * (nx + 2) + g.mode_offset, BorderKind.LEFT)] := by
  have e : (ny * (nx + 2) + j * (-(nx + 2)) : Int) = ((ny : Int) - j) * ((nx : Int) + 2) + 0 := by ring
  rw [e]
  rcases Nat.eq_zero_or_pos j with h0 | h0
  · rw [region_window_assignments g nx ny hg (ny - j) (0) (by omega) (by omega) (by omega)
      (by omega) false true false false (by simp <;> omega) (by simp <;> omega) (by simp <;> omega)
      (by simp <;> omega), if_pos h0]
    subst h0
    rcases mode_offset_cases g with ⟨h, ha⟩ | ⟨h, ha⟩
    · rw [h, ha]
      simp [window_mask, inner_rules, WindowCell.index]
      all_goals first | (refine ⟨?_, ?_⟩ <;> ring) | ring
    · rw [h, ha]
      simp [window_mask, outer_rules, WindowCell.index]
      all_goals first | (refine ⟨?_, ?_⟩ <;> ring) | ring
  · rw [region_window_assignments g nx ny hg (ny - j) (0) (by omega) (by omega) (by omega)
      (by omega) false true false true (by simp <;> omega) (by simp <;> omega) (by simp <;> omega)
      (by simp <;> omega), if_neg (show ¬ j = 0 by omega)]
    rcases mode_offset_cases g with ⟨h, ha⟩ | ⟨h, ha⟩
    · rw [h, ha]
      simp [window_mask, inner_rules, WindowCell.index]
      all_goals first | (refine ⟨?_, ?_⟩ <;> ring) | ring
    · rw [h, ha]
      simp [window_mask, outer_rules, WindowCell.index]
      all_goals first | (refine ⟨?_, ?_⟩ <;> ring) | ring

end AutoTiler

namespace AutoTiler

theorem mode_offset_range (g : AutoTiler) : g.mode_offset = 0 ∨ g.mode_offset = 1 := by
  rcases mode_offset_cases g with ⟨-, h⟩ | ⟨-, h⟩
  · exact Or.inr h
  · exact Or.inl h

/-- Every assignment of the windows of the perimeter of a single region is
one of `region_rule`. -/
theorem region_assignments_rule (g : AutoTiler) (nx ny : Nat) (hg : region_grid g nx ny)
    (hnx : 2 ≤ nx) (hny : 2 ≤ ny)
    (hw : g.processed_windows =
      side_windows nx 1 0 ++ side_windows ny (nx + 2) nx ++
        side_windows nx (-1) (nx + ny * (nx + 2)) ++
        side_windows ny (-(nx + 2)) (ny * (nx + 2)))
    (i : Int) (k : BorderKind)
    (h : (i, k) ∈ g.processed_windows.flatMap g.window_assignments) :
    ∃ R C : Int, 0 ≤ R ∧ R < ny + 2 ∧ 0 ≤ C ∧ C < nx + 2 ∧ i = R * (nx + 2) + C ∧
      region_rule g.mode_offset nx ny R C k := by
  have ha := mode_offset_range g
  rw [hw] at h
  simp only [List.mem_flatMap, List.mem_append, side_windows_mem_iff] at h
  obtain ⟨w, hw2, hm⟩ := h
  rcases hw2 with ((⟨j, hj, rfl⟩ | ⟨j, hj, rfl⟩) | ⟨j, hj, rfl⟩) | ⟨j, hj, rfl⟩
  · rw [top_window_assignments g nx ny hg hnx hny j hj] at hm
    split at hm
    · simp only [List.mem_singleton, Prod.mk.injEq] at hm
      obtain ⟨rfl, rfl⟩ := hm
      exact ⟨g.mode_offset, g.mode_offset, by omega, by omega, by omega, by omega, rfl,
        Or.inl ⟨rfl, rfl, rfl⟩⟩
    · simp only [List.mem_cons, Prod.mk.injEq, List.mem_singleton, List.not_mem_nil,
        or_false] at hm
      rcases hm with ⟨rfl, rfl⟩ | ⟨rfl, rfl⟩
      · exact ⟨g.mode_offset, j, by omega, by omega, by omega, by omega, rfl,
          Or.inr (Or.inl ⟨rfl, rfl, by omega, by omega⟩)⟩
      · exact ⟨g.mode_offset, j + 1, by omega, by omega, by omega, by omega, rfl,
          Or.inr (Or.inl ⟨rfl, rfl, by omega, by omega⟩)⟩
  · rw [right_window_assignments g nx ny hg hnx hny j hj] at hm
    split at hm
    · simp only [List.mem_singleton, Prod.mk.injEq] at hm
      obtain ⟨rfl, rfl⟩ := hm
      exact ⟨g.mode_offset, nx + 1 - g.mode_offset, by omega, by omega, by omega, by omega, rfl,
        Or.inr (Or.inr (Or.inl ⟨rfl, rfl, rfl⟩))⟩
    · simp only [List.mem_cons, Prod.mk.injEq, List.mem_singleton, List.not_mem_nil,
        or_false] at hm
      rcases hm with ⟨rfl, rfl⟩ | ⟨rfl, rfl⟩
      · exact ⟨j, nx + 1 - g.mode_offset, by omega, by omega, by omega, by omega, rfl,
          Or.inr (Or.inr (Or.inr (Or.inl ⟨rfl, by omega, by omega, rfl⟩)))⟩
      · exact ⟨j + 1, nx + 1 - g.mode_offset, by omega, by omega, by omega, by omega, rfl,
          Or.inr (Or.inr (Or.inr (Or.inl ⟨rfl, by omega, by omega, rfl⟩)))⟩
  · rw [bottom_window_assignments g nx ny hg hnx hny j hj] at hm
    split at hm
    · simp only [List.mem_singleton, Prod.mk.injEq] at hm
      obtain ⟨rfl, rfl⟩ := hm
      exact ⟨ny + 1 - g.mode_offset, nx + 1 - g.mode_offset, by omega, by omega, by omega,
        by omega, rfl, Or.inr (Or.inr (Or.inr (Or.inr (Or.inl ⟨rfl, rfl, rfl⟩))))⟩
    · simp only [List.mem_cons, Prod.mk.injEq, List.mem_singleton, List.not_mem_nil,
        or_false] at hm
      rcases hm with ⟨rfl, rfl⟩ | ⟨rfl, rfl⟩
      · exact ⟨ny + 1 - g.mode_offset, nx - j, by omega, by omega, by omega, by omega, rfl,
          Or.inr (Or.inr (Or.inr (Or.inr (Or.inr (Or.inl ⟨rfl, rfl, by omega, by omega⟩)))))⟩
      · exact ⟨ny + 1 - g.mode_offset, nx - j + 1, by omega, by omega, by omega, by omega, rfl,
          Or.inr (Or.inr (Or.inr (Or.inr (Or.inr (Or.inl ⟨rfl, rfl, by omega, by omega⟩)))))⟩
  · rw [left_window_assignments g nx ny hg hnx hny j hj] at hm
    split at hm
    · simp only [List.mem_singleton, Prod.mk.injEq] at hm
      obtain ⟨rfl, rfl⟩ := hm
      exact ⟨ny + 1 - g.mode_offset, g.mode_offset, by omega, by omega, by omega,
        by omega, rfl,
        Or.inr (Or.inr (Or.inr (Or.inr (Or.inr (Or.inr (Or.inl ⟨rfl, rfl, rfl⟩))))))⟩
    · simp only [List.mem_cons, Prod.mk.injEq, List.mem_singleton, List.not_mem_nil,
        or_false] at hm
      rcases hm with ⟨rfl, rfl⟩ | ⟨rfl, rfl⟩
      · exact ⟨ny - j, g.mode_offset, by omega, by omega, by omega, by omega, rfl,
          Or.inr (Or.inr (Or.inr (Or.inr (Or.inr (Or.inr (Or.inr
            ⟨rfl, by omega, by omega, rfl⟩))))))⟩
      · exact ⟨ny - j + 1, g.mode_offset, by omega, by omega, by omega, by omega, rfl,
          Or.inr (Or.inr (Or.inr (Or.inr (Or.inr (Or.inr (Or.inr
            ⟨rfl, by omega, by omega, rfl⟩))))))⟩

/-- Every assignment of `region_rule` is made by a window of the perimeter
of a single region. -/
theorem region_rule_assigned (g : AutoTiler) (nx ny : Nat) (hg : region_grid g nx ny)
    (hnx : 2 ≤ nx) (hny : 2 ≤ ny)
    (hw : g.processed_windows =
      side_windows nx 1 0 ++ side_windows ny (nx + 2) nx ++
        side_windows nx (-1) (nx + ny * (nx + 2)) ++
        side_windows ny (-(nx + 2)) (ny * (nx + 2)))
    (R C : Int) (k : BorderKind) (h : region_rule g.mode_offset nx ny R C k) :
    (R * (nx + 2) + C, k) ∈ g.processed_windows.flatMap g.window_assignments := by
  rw [hw]
  simp only [List.mem_flatMap, List.mem_append, side_windows_mem_iff]
  rcases h with ⟨rfl, rfl, rfl⟩ | ⟨rfl, rfl, h1, h2⟩ | ⟨rfl, rfl, rfl⟩ | ⟨rfl, h1, h2, rfl⟩ |
    ⟨rfl, rfl, rfl⟩ | ⟨rfl, rfl, h1, h2⟩ | ⟨rfl, rfl, rfl⟩ | ⟨rfl, h1, h2, rfl⟩
  · refine ⟨_, Or.inl (Or.inl (Or.inl ⟨0, by omega, rfl⟩)), ?_⟩
    rw [top_window_assignments g nx ny hg hnx hny 0 (by omega), if_pos rfl]
    exact List.mem_singleton.2 rfl
  · by_cases hc : C ≤ nx - 1
    · refine ⟨_, Or.inl (Or.inl (Or.inl ⟨C.toNat, by omega, rfl⟩)), ?_⟩
      rw [top_window_assignments g nx ny hg hnx hny C.toNat (by omega),
        if_neg (show ¬ C.toNat = 0 by omega)]
      have e : ((C.toNat : Nat) : Int) = C := Int.toNat_of_nonneg (by omega)
      rw [e]
      exact List.mem_cons_self _ _
    · refine ⟨_, Or.inl (Or.inl (Or.inl ⟨nx - 1, by omega, rfl⟩)), ?_⟩
      rw [top_window_assignments g nx ny hg hnx hny (nx - 1) (by omega),
        if_neg (show ¬ nx - 1 = 0 by omega)]
      have e : (((nx - 1 : Nat) : Int)) + 1 = C := by omega
      rw [e]
      exact List.mem_cons_of_mem _ (List.mem_singleton.2 rfl)
  · refine ⟨_, Or.inl (Or.inl (Or.inr ⟨0, by omega, rfl⟩)), ?_⟩
    rw [right_window_assignments g nx ny hg hnx hny 0 (by omega), if_pos rfl]
    exact List.mem_singleton.2 rfl
  · by_cases hc : R ≤ ny - 1
    · refine ⟨_, Or.inl (Or.inl (Or.inr ⟨R.toNat, by omega, rfl⟩)), ?_⟩
      rw [right_window_assignments g nx ny hg hnx hny R.toNat (by omega),
        if_neg (show ¬ R.toNat = 0 by omega)]
      have e : ((R.toNat : Nat) : Int) = R := Int.toNat_of_nonneg (by omega)
      rw [e]
      exact List.mem_cons_self _ _
    · refine ⟨_, Or.inl (Or.inl (Or.inr ⟨ny - 1, by omega, rfl⟩)), ?_⟩
      rw [right_window_assignments g nx ny hg hnx hny (ny - 1) (by omega),
        if_neg (show ¬ ny - 1 = 0 by omega)]
      have e : (((ny - 1 : Nat) : Int)) + 1 = R := by omega
      rw [e]
      exact List.mem_cons_of_mem _ (List.mem_singleton.2 rfl)
  · refine ⟨_, Or.inl (Or.inr ⟨0, by omega, rfl⟩), ?_⟩
    rw [bottom_window_assignments g nx ny hg hnx hny 0 (by omega), if_pos rfl]
    exact List.mem_singleton.2 rfl
  · by_cases hc : C ≤ nx - 1
    · refine ⟨_, Or.inl (Or.inr ⟨(nx - C).toNat, by omega, rfl⟩), ?_⟩
      rw [bottom_window_assignments g nx ny hg hnx hny (nx - C).toNat (by omega),
        if_neg (show ¬ (nx - C).toNat = 0 by omega)]
      have e : (nx : Int) - (((nx : Int) - C).toNat : Nat) = C := by omega
      rw [e]
      exact List.mem_cons_self _ _
    · refine ⟨_, Or.inl (Or.inr ⟨1, by omega, rfl⟩), ?_⟩
      rw [bottom_window_assignments g nx ny hg hnx hny 1 (by omega),
        if_neg (show ¬ 1 = 0 by omega)]
      have e : (nx : Int) - ((1 : Nat) : Int) + 1 = C := by omega
      rw [e]
      exact List.mem_cons_of_mem _ (List.mem_singleton.2 rfl)
  · refine ⟨_, Or.inr ⟨0, by omega, rfl⟩, ?_⟩
    rw [left_window_assignments g nx ny hg hnx hny 0 (by omega), if_pos rfl]
    exact List.mem_singleton.2 rfl
  · by_cases hc : R ≤ ny - 1
    · refine ⟨_, Or.inr ⟨(ny - R).toNat, by omega, rfl⟩, ?_⟩
      rw [left_window_assignments g nx ny hg hnx hny (ny - R).toNat (by omega),
        if_neg (show ¬ (ny - R).toNat = 0 by omega)]
      have e : (ny : Int) - (((ny : Int) - R).toNat : Nat) = R := by omega
      rw [e]
      exact List.mem_cons_self _ _
    · refine ⟨_, Or.inr ⟨1, by omega, rfl⟩, ?_⟩
      rw [left_window_assignments g nx ny hg hnx hny 1 (by omega),
        if_neg (show ¬ 1 = 0 by omega)]
      have e : (ny : Int) - ((1 : Nat) : Int) + 1 = R := by omega
      rw [e]
      exact List.mem_cons_of_mem _ (List.mem_singleton.2 rfl)

end AutoTiler

namespace AutoTiler

set_option maxHeartbeats 3200000 in
/-- The border map of a single region of at least 2 by 2 cells after the
classification: a frame of four convex corners joined by sides, on the cells
of the margin in outer mode and on the outermost cells of the region in inner
mode; every other cell is unset. -/
theorem region_border_map (g0 g : AutoTiler) (nx ny : Nat) (hg : region_grid g0 nx ny)
    (hnx : 2 ≤ nx) (hny : 2 ≤ ny)
    (hw : g0.processed_windows =
      side_windows nx 1 0 ++ side_windows ny (nx + 2) nx ++
        side_windows nx (-1) (nx + ny * (nx + 2)) ++
        side_windows ny (-(nx + 2)) (ny * (nx + 2)))
    (hba : g.border_at =
      apply_assignments no_border (g0.processed_windows.flatMap g0.window_assignments)) :
    (∀ R C : Int, 0 ≤ R → R < ny + 2 → 0 ≤ C → C < nx + 2 →
      g.border_at (R * (nx + 2) + C) =
        frame_kind g0.mode_offset (ny + 1 - g0.mode_offset) g0.mode_offset
          (nx + 1 - g0.mode_offset) true true true true R C) ∧
    (∀ i : Int, (¬ ∃ R C : Int, 0 ≤ R ∧ R < ny + 2 ∧ 0 ≤ C ∧ C < nx + 2 ∧
      i = R * (nx + 2) + C) → g.border_at i = BorderKind.NONE) := by
  have ha := mode_offset_range g0
  have hn := flat_assignments_ne_none g0 g0.processed_windows
  have hrule : ∀ R C : Int, 0 ≤ C → C < nx + 2 → ∀ k,
      (R * (nx + 2) + C, k) ∈ g0.processed_windows.flatMap g0.window_assignments →
      region_rule g0.mode_offset nx ny R C k := by
    intro R C hC hC2 k hk
    obtain ⟨R2, C2, -, -, h3, h4, h5, h6⟩ :=
      region_assignments_rule g0 nx ny hg hnx hny hw _ k hk
    obtain ⟨e1, e2⟩ := row_col_unique (nx + 2) R C R2 C2 hC hC2 h3 h4 h5
    rw [e1, e2]
    exact h6
  have hmem := region_rule_assigned g0 nx ny hg hnx hny hw
  constructor
  swap
  · intro i hi
    rw [hba]
    refine (apply_assignments_none_iff _ _ _ hn).2 ⟨rfl, ?_⟩
    intro k hk
    obtain ⟨R2, C2, h1, h2, h3, h4, h5, -⟩ :=
      region_assignments_rule g0 nx ny hg hnx hny hw _ k hk
    exact hi ⟨R2, C2, h1, h2, h3, h4, h5⟩
  intro R C hR hR2 hC hC2
  have corner_case : ∀ K, is_corner_border K = true →
      region_rule g0.mode_offset nx ny R C K →
      (∀ k2, region_rule g0.mode_offset nx ny R C k2 → is_corner_border k2 = true → k2 = K) →
      g.border_at (R * (nx + 2) + C) = K := by
    intro K hK h1 h2
    rw [hba]
    exact apply_assignments_one_corner _ _ _ K hK hn (Or.inl (hmem R C K h1))
      (fun k2 hk2 hc2 => h2 k2 (hrule R C hC hC2 k2 hk2) hc2)
  have side_case : ∀ K, K ≠ BorderKind.NONE →
      region_rule g0.mode_offset nx ny R C K →
      (∀ k2, region_rule g0.mode_offset nx ny R C k2 → k2 = K) →
      g.border_at (R * (nx + 2) + C) = K := by
    intro K hK h1 h2
    rw [hba]
    exact apply_assignments_all_eq _ _ _ K hK (Or.inl ⟨rfl, hmem R C K h1⟩)
      (fun k2 hk2 => h2 k2 (hrule R C hC hC2 k2 hk2))
  have none_case : (∀ k2, ¬ region_rule g0.mode_offset nx ny R C k2) →
      g.border_at (R * (nx + 2) + C) = BorderKind.NONE := by
    intro h1
    rw [hba]
    exact (apply_assignments_none_iff _ _ _ hn).2
      ⟨rfl, fun k hk => h1 k (hrule R C hC hC2 k hk)⟩
  unfold region_rule at corner_case side_case none_case
  simp only [frame_kind, eq_self_iff_true, and_true]
  split_ifs with c1 c2 c3 c4 c5 c6 c7 c8 c9 c10 c11
  all_goals
    first
      | (refine corner_case _ (by decide) (by simp; omega) ?_
         intro k2 hk2 hc2
         rcases hk2 with ⟨rfl, h1, h2⟩ | ⟨rfl, h1, h2, h3⟩ | ⟨rfl, h1, h2⟩ | ⟨rfl, h1, h2, h3⟩ |
           ⟨rfl, h1, h2⟩ | ⟨rfl, h1, h2, h3⟩ | ⟨rfl, h1, h2⟩ | ⟨rfl, h1, h2, h3⟩
         all_goals first | rfl | (exfalso; omega) | exact absurd hc2 (by decide))
      | (refine side_case _ (by decide) (by simp; omega) ?_
         intro k2 hk2
         rcases hk2 with ⟨rfl, h1, h2⟩ | ⟨rfl, h1, h2, h3⟩ | ⟨rfl, h1, h2⟩ | ⟨rfl, h1, h2, h3⟩ |
           ⟨rfl, h1, h2⟩ | ⟨rfl, h1, h2, h3⟩ | ⟨rfl, h1, h2⟩ | ⟨rfl, h1, h2, h3⟩
         all_goals first | rfl | (exfalso; omega))
      | (refine none_case ?_
         intro k2 hk2
         rcases hk2 with ⟨rfl, h1, h2⟩ | ⟨rfl, h1, h2, h3⟩ | ⟨rfl, h1, h2⟩ | ⟨rfl, h1, h2, h3⟩ |
           ⟨rfl, h1, h2⟩ | ⟨rfl, h1, h2, h3⟩ | ⟨rfl, h1, h2⟩ | ⟨rfl, h1, h2, h3⟩
         all_goals omega)

end AutoTiler

/-! ### The tile synthesis on a frame of cells -/

theorem map_assign_keys_superset (m : List (Int × BorderKind)) (key : Int) (v : BorderKind)
    (x : Int) (h : x ∈ m.map Prod.fst) : x ∈ (map_assign m key v).map Prod.fst := by
  induction m with
  | nil => simp at h
  | cons a rest ih =>
    obtain ⟨k, w⟩ := a
    unfold map_assign
    simp only [List.map_cons, List.mem_cons] at h
    split
    · simp only [List.map_cons, List.mem_cons]
      rcases h with h | h
      · exact Or.inr (Or.inl h)
      · exact Or.inr (Or.inr h)
    · split
      · simp only [List.map_cons, List.mem_cons]
        exact h
      · simp only [List.map_cons, List.mem_cons]
        rcases h with h | h
        · exact Or.inl h
        · exact Or.inr (ih h)

theorem sorted_split (l : List Int) (hs : l.Pairwise (· < ·)) (x : Int) (hx : x ∈ l) :
    l = l.filter (fun y => decide (y < x)) ++ x :: l.filter (fun y => decide (x < y)) := by
  induction l with
  | nil => simp at hx
  | cons a rest ih =>
    rw [List.pairwise_cons] at hs
    rcases List.mem_cons.1 hx with rfl | hx2
    · have h1 : rest.filter (fun y => decide (y < x)) = [] := by
        rw [List.filter_eq_nil_iff]
        intro y hy
        have := hs.1 y hy
        simp only [decide_eq_true_eq]
        omega
      have h2 : rest.filter (fun y => decide (x < y)) = rest := by
        rw [List.filter_eq_self]
        intro y hy
        have := hs.1 y hy
        simp only [decide_eq_true_eq]
        exact this
      rw [List.filter_cons_of_neg (by simp), List.filter_cons_of_neg (by simp), h1, h2]
      rfl
    · have hlt : a < x := hs.1 x hx2
      rw [List.filter_cons_of_pos (by simpa using hlt),
        List.filter_cons_of_neg (by simp only [decide_eq_true_eq]; omega)]
      rw [List.cons_append]
      congr 1
      exact ih hs.2 hx2

theorem foldlM_append_option {α β : Type} (f : β → α → Option β) (l1 l2 : List α) (b : β) :
    (l1 ++ l2).foldlM f b = (l1.foldlM f b).bind fun b2 => l2.foldlM f b2 := by
  induction l1 generalizing b with
  | nil => rfl
  | cons a rest ih =>
    simp only [List.cons_append, List.foldlM, Option.bind_eq_bind]
    cases f b a with
    | none => rfl
    | some b2 => exact ih b2

namespace AutoTiler

theorem with_border_keys_superset (t : AutoTiler) (c : Int) (k : BorderKind) (x : Int)
    (h : x ∈ t.border_keys) : x ∈ (t.with_border c k).border_keys :=
  map_assign_keys_superset t.which_borders c k x h

theorem clear_run_keys_superset (m : Nat) (t : AutoTiler) (cur step : Int) (x : Int)
    (h : x ∈ t.border_keys) : x ∈ (clear_run t cur step m).border_keys := by
  induction m generalizing t cur with
  | zero => exact h
  | succ m ih => exact ih _ _ (with_border_keys_superset t _ _ x h)

/-- The side loop over entries none of which holds a side kind does
nothing. -/
theorem side_fold_skip (sv sh : BorderKind) (thick : BorderKind → Bool) (v : AutoTiler)
    (hg : v.grid_size.wd ≠ 0) (l : List Int)
    (h : ∀ k ∈ l, k ∈ v.border_keys ∧ is_side_border (v.border_at k) = false) :
    l.foldlM (side_tile sv sh thick) v = some v := by
  induction l with
  | nil => rfl
  | cons k rest ih =>
    obtain ⟨hk, hs⟩ := h k (List.mem_cons_self _ _)
    have e : side_tile sv sh thick v k = some v := by
      unfold side_tile
      rw [map_find_of_key v k hk]
      simp only
      rw [if_neg hg]
      by_cases hn : v.border_at k = BorderKind.NONE
      · rw [if_pos hn]
      · rw [if_neg hn, if_pos (by rw [hs]; simp)]
    simp only [List.foldlM, Option.bind_eq_bind, e, Option.some_bind]
    exact ih (fun k2 hk2 => h k2 (List.mem_cons_of_mem _ hk2))

/-- The corner loop over entries all of which hold `NONE` does nothing. -/
theorem corner_fold_skip (sx sy : BorderKind → Bool) (v : AutoTiler)
    (hsx : sx BorderKind.NONE = false) (hsy : sy BorderKind.NONE = false) (l : List Int)
    (h : ∀ k ∈ l, k ∈ v.border_keys ∧ v.border_at k = BorderKind.NONE) :
    l.foldlM (corner_tile sx sy) v = some v := by
  induction l with
  | nil => rfl
  | cons k rest ih =>
    obtain ⟨hk, hs⟩ := h k (List.mem_cons_self _ _)
    simp only [List.foldlM, Option.bind_eq_bind, corner_tile_none sx sy v k hsx hsy hk hs,
      Option.some_bind]
    exact ih (fun k2 hk2 => h k2 (List.mem_cons_of_mem _ hk2))

/-- A loop over sorted keys up to and including the key `ks`, when the steps
before `ks` do nothing: the loop goes on from the state after the step at
`ks` with the keys that follow. -/
theorem fold_to_key (f : AutoTiler → Int → Option AutoTiler) (l : List Int)
    (hs : l.Pairwise (· < ·)) (ks : Int) (hks : ks ∈ l) (v u : AutoTiler)
    (hskip : (l.filter (fun y => decide (y < ks))).foldlM f v = some v)
    (hstep : f v ks = some u) :
    l.foldlM f v = (l.filter (fun y => decide (ks < y))).foldlM f u := by
  conv_lhs => rw [sorted_split l hs ks hks]
  rw [foldlM_append_option, hskip, Option.some_bind]
  simp only [List.foldlM, Option.bind_eq_bind, hstep, Option.some_bind]

/-- The step of the side loop at the first cell of a run between two
corners, with 8x8 patterns: the resulting state. -/
theorem side_tile_run_state (sv sh : BorderKind) (thick : BorderKind → Bool) (t : AutoTiler)
    (k : Int) (m : Nat) (wb : BorderKind) (xy : QPoint) (first : EntityIndex)
    (h8 : t.sizes_8x8) (hp : t.patterns_8x8)
    (hh : t.get_tileset.has_border_set_pattern t.border_set_id wb = true)
    (hfirst : t.entity_indexes.head? = some first) (hxy : t.to_map_xy k = some xy)
    (hg : t.grid_size.wd ≠ 0) (hwb : t.border_at k = wb) (hs : is_side_border wb = true)
    (hin : t.in_grid k) (hsteps : m + 1 ≤ t.run_steps wb k)
    (hpre_in : t.in_grid (k - t.run_step wb))
    (hpre : is_corner_border (t.border_at (k - t.run_step wb)) = true)
    (hrun : ∀ j : Nat, 1 ≤ j → j ≤ m →
      t.in_grid (k + j * t.run_step wb) ∧ t.border_at (k + j * t.run_step wb) = wb)
    (hend_in : t.in_grid (k + (m + 1 : Nat) * t.run_step wb))
    (hend : is_corner_border (t.border_at (k + (m + 1 : Nat) * t.run_step wb)) = true) :
    ∃ u, side_tile sv sh thick t k = some u ∧ same_frame t u ∧
      (t.keys_sorted → u.keys_sorted) ∧ (∀ x ∈ t.border_keys, x ∈ u.border_keys) ∧
      u.tiles = t.tiles ++
        [some ⟨t.pattern_of wb, xy, tile_size wb ⟨8, 8⟩ (1 + m), first.layer⟩] ∧
      (∀ i, (∃ j : Nat, j ≤ m ∧ i = k + j * t.run_step wb) →
        u.border_at i = BorderKind.NONE) ∧
      (∀ i, (¬ ∃ j : Nat, j ≤ m ∧ i = k + j * t.run_step wb) →
        u.border_at i = t.border_at i) := by
  refine ⟨_, side_tile_run sv sh thick t k m wb xy first h8 hp hh hfirst hxy hg hwb hs hin
    hsteps hpre_in hpre hrun hend_in hend, ?_, ?_, ?_, rfl, ?_, ?_⟩
  · obtain ⟨f1, -, -, -⟩ := clear_run_frame m (t.with_border k BorderKind.NONE) k
      (t.run_step wb)
    exact same_frame_trans _ _ _
      (same_frame_trans _ _ _ (same_frame_with_border t _ _) f1) (same_frame_tiles _ _)
  · intro hsort
    exact (clear_run_frame m (t.with_border k BorderKind.NONE) k (t.run_step wb)).2.2.2
      (keys_sorted_with_border t _ _ hsort)
  · intro x hx
    exact clear_run_keys_superset m _ _ _ x (with_border_keys_superset t _ _ x hx)
  · rintro i ⟨j, hj, rfl⟩
    show (clear_run (t.with_border k BorderKind.NONE) k (t.run_step wb) m).border_at _ = _
    rcases Nat.eq_zero_or_pos j with h0 | h0
    · subst h0
      obtain ⟨-, -, f3, -⟩ := clear_run_frame m (t.with_border k BorderKind.NONE) k
        (t.run_step wb)
      have e0 : k + ((0 : Nat) : Int) * t.run_step wb = k := by simp
      rw [e0]
      rcases f3 k with h5 | h5
      · rw [h5, border_at_with_border_eq, if_pos rfl]
      · exact h5
    · exact (clear_run_border_at m _ k _ _).1 ⟨j, h0, hj, rfl⟩
  · intro i hi
    show (clear_run (t.with_border k BorderKind.NONE) k (t.run_step wb) m).border_at _ = _
    rw [(clear_run_border_at m _ k _ _).2, border_at_with_border_eq, if_neg]
    · intro e
      exact hi ⟨0, Nat.zero_le _, by simp [e]⟩
    · rintro ⟨j, h1, h2, h3⟩
      exact hi ⟨j, h2, h3⟩

end AutoTiler

theorem row_col_lt (gw R C R2 C2 : Int) (hC : 0 ≤ C) (hC2 : C < gw) (hD : 0 ≤ C2)
    (hD2 : C2 < gw) :
    R * gw + C < R2 * gw + C2 ↔ R < R2 ∨ (R = R2 ∧ C < C2) := by
  constructor
  · intro h
    by_contra hn
    have h1 : R2 ≤ R := by omega
    have h2 : R2 * gw ≤ R * gw := mul_le_mul_of_nonneg_right h1 (by omega)
    rcases lt_or_eq_of_le h1 with h3 | h3
    · have h4 : (R2 + 1) * gw ≤ R * gw := mul_le_mul_of_nonneg_right (by omega) (by omega)
      have h5 : (R2 + 1) * gw = R2 * gw + gw := by ring
      omega
    · subst h3
      omega
  · rintro (h | ⟨rfl, h⟩)
    · have h4 : (R + 1) * gw ≤ R2 * gw := mul_le_mul_of_nonneg_right (by omega) (by omega)
      have h5 : (R + 1) * gw = R * gw + gw := by ring
      omega
    · omega

namespace AutoTiler

theorem border_map_is_cases (v : AutoTiler) (F : Int → Int → BorderKind)
    (hd : v.border_map_is F) (hgw : 0 < v.grid_size.wd) (i : Int) :
    (∃ R C : Int, 0 ≤ R ∧ R < v.grid_size.ht ∧ 0 ≤ C ∧ C < v.grid_size.wd ∧
      i = R * v.grid_size.wd + C ∧ v.border_at i = F R C) ∨
    v.border_at i = BorderKind.NONE := by
  by_cases h : v.in_grid i
  · obtain ⟨R, C, e, h1, h2, h3, h4⟩ := in_grid_row_col v i hgw h
    left
    exact ⟨R, C, h1, h2, h3, h4, e, by rw [e]; exact hd.1 R C h1 h2 h3 h4⟩
  · right
    exact hd.2 i h

/-- The step of the side loop at the first cell of a horizontal run of the
row `r`, between the corners of the columns `c0` and `c1`: one tile for the
run, and the cells of the run are reset. -/
theorem horizontal_run_step (sv sh : BorderKind) (thick : BorderKind → Bool) (v : AutoTiler)
    (F : Int → Int → BorderKind) (K : BorderKind) (r c0 c1 : Int) (first : EntityIndex)
    (hd : v.border_map_is F) (hK : K = BorderKind.TOP ∨ K = BorderKind.BOTTOM)
    (hr : 0 ≤ r) (hr2 : r < v.grid_size.ht) (hc0 : 0 ≤ c0) (hc : c0 + 2 ≤ c1)
    (hc1 : c1 < v.grid_size.wd)
    (hpre : is_corner_border (F r c0) = true) (hend : is_corner_border (F r c1) = true)
    (hrun : ∀ C, c0 < C → C < c1 → F r C = K)
    (h8 : v.sizes_8x8) (hp : v.patterns_8x8)
    (hh : v.get_tileset.has_border_set_pattern v.border_set_id K = true)
    (hfirst : v.entity_indexes.head? = some first) :
    ∃ u, side_tile sv sh thick v (r * v.grid_size.wd + (c0 + 1)) = some u ∧ same_frame v u ∧
      (v.keys_sorted → u.keys_sorted) ∧ (∀ x ∈ v.border_keys, x ∈ u.border_keys) ∧
      u.tiles = v.tiles ++
        [some ⟨v.pattern_of K, ⟨(c0 + 1) * 8 + v.bounding_box.x1, r * 8 + v.bounding_box.y1⟩,
          ⟨(c1 - c0 - 1) * 8, 8⟩, first.layer⟩] ∧
      u.border_map_is (fun R C => if R = r ∧ c0 < C ∧ C < c1 then BorderKind.NONE else F R C) := by
  have hs : is_side_border K = true := by rcases hK with rfl | rfl <;> rfl
  have hstep : v.run_step K = 1 := by
    unfold run_step
    rw [if_neg]
    rcases hK with rfl | rfl <;> decide
  have hm : (((c1 - c0 - 2).toNat : Nat) : Int) = c1 - c0 - 2 := Int.toNat_of_nonneg (by omega)
  have hsteps : (c1 - c0 - 2).toNat + 1 ≤ v.run_steps K (r * v.grid_size.wd + (c0 + 1)) := by
    unfold run_steps
    rw [if_neg (by rcases hK with rfl | rfl <;> decide),
      (tdiv_tmod_row_col v.grid_size.wd r (c0 + 1) hr (by omega) (by omega)).2]
    omega
  have hcell : ∀ C, 0 ≤ C → C < v.grid_size.wd →
      v.in_grid (r * v.grid_size.wd + C) ∧ v.border_at (r * v.grid_size.wd + C) = F r C :=
    fun C h1 h2 => ⟨in_grid_of_row_col v r C hr hr2 h1 h2, hd.1 r C hr hr2 h1 h2⟩
  have e1 : r * v.grid_size.wd + (c0 + 1) - v.run_step K = r * v.grid_size.wd + c0 := by
    rw [hstep]; ring
  have e2 : ∀ j : Nat, r * v.grid_size.wd + (c0 + 1) + (j : Int) * v.run_step K =
      r * v.grid_size.wd + (c0 + 1 + j) := by
    intro j
    rw [hstep]; ring
  obtain ⟨u, hu, hfr, hsort, hsup, htiles, hclr, hkeep⟩ :=
    side_tile_run_state sv sh thick v (r * v.grid_size.wd + (c0 + 1)) (c1 - c0 - 2).toNat K
      ⟨(c0 + 1) * 8 + v.bounding_box.x1, r * 8 + v.bounding_box.y1⟩ first h8 hp hh hfirst
      (to_map_xy_of_row_col v r (c0 + 1) hr (by omega) (by omega)) (by omega)
      (by rw [(hcell (c0 + 1) (by omega) (by omega)).2]; exact hrun _ (by omega) (by omega))
      hs (hcell (c0 + 1) (by omega) (by omega)).1 hsteps
      (by rw [e1]; exact (hcell c0 hc0 (by omega)).1)
      (by rw [e1, (hcell c0 hc0 (by omega)).2]; exact hpre)
      (by
        intro j h1 h2
        rw [e2]
        obtain ⟨a, b⟩ := hcell (c0 + 1 + j) (by omega) (by omega)
        exact ⟨a, by rw [b]; exact hrun _ (by omega) (by omega)⟩)
      (by
        rw [e2]
        have e3 : c0 + 1 + (((c1 - c0 - 2).toNat + 1 : Nat) : Int) = c1 := by
          push_cast; omega
        rw [e3]
        exact (hcell c1 (by omega) hc1).1)
      (by
        rw [e2]
        have e3 : c0 + 1 + (((c1 - c0 - 2).toNat + 1 : Nat) : Int) = c1 := by
          push_cast; omega
        rw [e3, (hcell c1 (by omega) hc1).2]
        exact hend)
  have hsize : tile_size K ⟨8, 8⟩ (1 + ((c1 - c0 - 2).toNat : Nat)) = ⟨(c1 - c0 - 1) * 8, 8⟩ := by
    rw [hm]
    have e4 : (1 : Int) + (c1 - c0 - 2) = c1 - c0 - 1 := by ring
    rw [e4]
    rcases hK with rfl | rfl <;> rfl
  rw [hsize] at htiles
  have hgs : u.grid_size = v.grid_size := hfr.2.2.2.2.2.2.1
  refine ⟨u, hu, hfr, hsort, hsup, htiles, ?_, ?_⟩
  · intro R C h1 h2 h3 h4
    rw [hgs] at h2 h4 ⊢
    show _ = if R = r ∧ c0 < C ∧ C < c1 then BorderKind.NONE else F R C
    by_cases hin : R = r ∧ c0 < C ∧ C < c1
    · rw [if_pos hin]
      obtain ⟨rfl, h5, h6⟩ := hin
      apply hclr
      refine ⟨(C - c0 - 1).toNat, ?_, ?_⟩
      · omega
      · rw [e2, Int.toNat_of_nonneg (by omega)]
        ring
    · rw [if_neg hin, hkeep, hd.1 R C h1 h2 h3 h4]
      rintro ⟨j, hj, e⟩
      rw [e2] at e
      obtain ⟨e5, e6⟩ := row_col_unique v.grid_size.wd R C r (c0 + 1 + j) h3 h4 (by omega)
        (by omega) e
      exact hin ⟨e5, by omega, by omega⟩
  · intro i hi
    rw [same_frame_in_grid v u hfr] at hi
    by_cases hrn : ∃ j : Nat, j ≤ (c1 - c0 - 2).toNat ∧
        i = r * v.grid_size.wd + (c0 + 1) + j * v.run_step K
    · exact hclr i hrn
    · rw [hkeep i hrn]
      exact hd.2 i hi

/-- The step of the side loop at the first cell of a vertical run of the
column `c`, between the corners of the rows `r0` and `r1`: one tile for the
run, and the cells of the run are reset. -/
theorem vertical_run_step (sv sh : BorderKind) (thick : BorderKind → Bool) (v : AutoTiler)
    (F : Int → Int → BorderKind) (K : BorderKind) (c r0 r1 : Int) (first : EntityIndex)
    (hd : v.border_map_is F) (hK : K = BorderKind.LEFT ∨ K = BorderKind.RIGHT)
    (hc : 0 ≤ c) (hc2 : c < v.grid_size.wd) (hr0 : 0 ≤ r0) (hr : r0 + 2 ≤ r1)
    (hr1 : r1 < v.grid_size.ht)
    (hpre : is_corner_border (F r0 c) = true) (hend : is_corner_border (F r1 c) = true)
    (hrun : ∀ R, r0 < R → R < r1 → F R c = K)
    (h8 : v.sizes_8x8) (hp : v.patterns_8x8)
    (hh : v.get_tileset.has_border_set_pattern v.border_set_id K = true)
    (hfirst : v.entity_indexes.head? = some first) :
    ∃ u, side_tile sv sh thick v ((r0 + 1) * v.grid_size.wd + c) = some u ∧ same_frame v u ∧
      (v.keys_sorted → u.keys_sorted) ∧ (∀ x ∈ v.border_keys, x ∈ u.border_keys) ∧
      u.tiles = v.tiles ++
        [some ⟨v.pattern_of K, ⟨c * 8 + v.bounding_box.x1, (r0 + 1) * 8 + v.bounding_box.y1⟩,
          ⟨8, (r1 - r0 - 1) * 8⟩, first.layer⟩] ∧
      u.border_map_is (fun R C => if C = c ∧ r0 < R ∧ R < r1 then BorderKind.NONE else F R C) := by
  have hs : is_side_border K = true := by rcases hK with rfl | rfl <;> rfl
  have hstep : v.run_step K = v.grid_size.wd := by
    unfold run_step
    rw [if_pos]
    rcases hK with rfl | rfl <;> decide
  have hm : (((r1 - r0 - 2).toNat : Nat) : Int) = r1 - r0 - 2 := Int.toNat_of_nonneg (by omega)
  have hsteps : (r1 - r0 - 2).toNat + 1 ≤ v.run_steps K ((r0 + 1) * v.grid_size.wd + c) := by
    unfold run_steps
    rw [if_pos (by rcases hK with rfl | rfl <;> decide),
      (tdiv_tmod_row_col v.grid_size.wd (r0 + 1) c (by omega) hc hc2).1]
    omega
  have hcell : ∀ R, 0 ≤ R → R < v.grid_size.ht →
      v.in_grid (R * v.grid_size.wd + c) ∧ v.border_at (R * v.grid_size.wd + c) = F R c :=
    fun R h1 h2 => ⟨in_grid_of_row_col v R c h1 h2 hc hc2, hd.1 R c h1 h2 hc hc2⟩
  have e1 : (r0 + 1) * v.grid_size.wd + c - v.run_step K = r0 * v.grid_size.wd + c := by
    rw [hstep]; ring
  have e2 : ∀ j : Nat, (r0 + 1) * v.grid_size.wd + c + (j : Int) * v.run_step K =
      (r0 + 1 + j) * v.grid_size.wd + c := by
    intro j
    rw [hstep]; ring
  obtain ⟨u, hu, hfr, hsort, hsup, htiles, hclr, hkeep⟩ :=
    side_tile_run_state sv sh thick v ((r0 + 1) * v.grid_size.wd + c) (r1 - r0 - 2).toNat K
      ⟨c * 8 + v.bounding_box.x1, (r0 + 1) * 8 + v.bounding_box.y1⟩ first h8 hp hh hfirst
      (to_map_xy_of_row_col v (r0 + 1) c (by omega) hc hc2) (by omega)
      (by rw [(hcell (r0 + 1) (by omega) (by omega)).2]; exact hrun _ (by omega) (by omega))
      hs (hcell (r0 + 1) (by omega) (by omega)).1 hsteps
      (by rw [e1]; exact (hcell r0 hr0 (by omega)).1)
      (by rw [e1, (hcell r0 hr0 (by omega)).2]; exact hpre)
      (by
        intro j h1 h2
        rw [e2]
        obtain ⟨a, b⟩ := hcell (r0 + 1 + j) (by omega) (by omega)
        exact ⟨a, by rw [b]; exact hrun _ (by omega) (by omega)⟩)
      (by
        rw [e2]
        have e3 : r0 + 1 + (((r1 - r0 - 2).toNat + 1 : Nat) : Int) = r1 := by
          push_cast; omega
        rw [e3]
        exact (hcell r1 (by omega) hr1).1)
      (by
        rw [e2]
        have e3 : r0 + 1 + (((r1 - r0 - 2).toNat + 1 : Nat) : Int) = r1 := by
          push_cast; omega
        rw [e3, (hcell r1 (by omega) hr1).2]
        exact hend)
  have hsize : tile_size K ⟨8, 8⟩ (1 + ((r1 - r0 - 2).toNat : Nat)) = ⟨8, (r1 - r0 - 1) * 8⟩ := by
    rw [hm]
    have e4 : (1 : Int) + (r1 - r0 - 2) = r1 - r0 - 1 := by ring
    rw [e4]
    rcases hK with rfl | rfl <;> rfl
  rw [hsize] at htiles
  have hgs : u.grid_size = v.grid_size := hfr.2.2.2.2.2.2.1
  refine ⟨u, hu, hfr, hsort, hsup, htiles, ?_, ?_⟩
  · intro R C h1 h2 h3 h4
    rw [hgs] at h2 h4 ⊢
    show _ = if C = c ∧ r0 < R ∧ R < r1 then BorderKind.NONE else F R C
    by_cases hin : C = c ∧ r0 < R ∧ R < r1
    · rw [if_pos hin]
      obtain ⟨rfl, h5, h6⟩ := hin
      apply hclr
      refine ⟨(R - r0 - 1).toNat, ?_, ?_⟩
      · omega
      · rw [e2, Int.toNat_of_nonneg (by omega)]
        ring
    · rw [if_neg hin, hkeep, hd.1 R C h1 h2 h3 h4]
      rintro ⟨j, hj, e⟩
      rw [e2] at e
      obtain ⟨e5, e6⟩ := row_col_unique v.grid_size.wd R C (r0 + 1 + j) c h3 h4 hc hc2 e
      exact hin ⟨e6, by omega, by omega⟩
  · intro i hi
    rw [same_frame_in_grid v u hfr] at hi
    by_cases hrn : ∃ j : Nat, j ≤ (r1 - r0 - 2).toNat ∧
        i = (r0 + 1) * v.grid_size.wd + c + j * v.run_step K
    · exact hclr i hrn
    · rw [hkeep i hrn]
      exact hd.2 i hi

end AutoTiler

/-! ### The kinds of a frame of cells -/

theorem frame_kind_top_left (r0 r1 c0 c1 : Int) (t l r b : Bool) :
    frame_kind r0 r1 c0 c1 t l r b r0 c0 = BorderKind.TOP_LEFT_CONVEX := by
  simp [frame_kind]

theorem frame_kind_top_right (r0 r1 c0 c1 : Int) (t l r b : Bool) (hc : c0 < c1) :
    frame_kind r0 r1 c0 c1 t l r b r0 c1 = BorderKind.TOP_RIGHT_CONVEX := by
  have : c1 ≠ c0 := by omega
  simp [frame_kind, this]

theorem frame_kind_bottom_left (r0 r1 c0 c1 : Int) (t l r b : Bool) (hr : r0 < r1) :
    frame_kind r0 r1 c0 c1 t l r b r1 c0 = BorderKind.BOTTOM_LEFT_CONVEX := by
  have : r1 ≠ r0 := by omega
  simp [frame_kind, this]

theorem frame_kind_bottom_right (r0 r1 c0 c1 : Int) (t l r b : Bool) (hr : r0 < r1)
    (hc : c0 < c1) :
    frame_kind r0 r1 c0 c1 t l r b r1 c1 = BorderKind.BOTTOM_RIGHT_CONVEX := by
  have h1 : r1 ≠ r0 := by omega
  have h2 : c1 ≠ c0 := by omega
  simp [frame_kind, h1, h2]

theorem frame_kind_top (r0 r1 c0 c1 : Int) (l r b : Bool) (C : Int) (h1 : c0 < C)
    (h2 : C < c1) : frame_kind r0 r1 c0 c1 true l r b r0 C = BorderKind.TOP := by
  have h3 : C ≠ c0 := by omega
  have h4 : C ≠ c1 := by omega
  simp [frame_kind, h1, h2, h3, h4]

theorem frame_kind_bottom (r0 r1 c0 c1 : Int) (t l r : Bool) (C : Int) (hr : r0 < r1)
    (h1 : c0 < C) (h2 : C < c1) :
    frame_kind r0 r1 c0 c1 t l r true r1 C = BorderKind.BOTTOM := by
  have h3 : C ≠ c0 := by omega
  have h4 : C ≠ c1 := by omega
  have h5 : r1 ≠ r0 := by omega
  simp [frame_kind, h1, h2, h3, h4, h5]

theorem frame_kind_left (r0 r1 c0 c1 : Int) (t r b : Bool) (R : Int) (h1 : r0 < R)
    (h2 : R < r1) : frame_kind r0 r1 c0 c1 t true r b R c0 = BorderKind.LEFT := by
  have h3 : R ≠ r0 := by omega
  have h4 : R ≠ r1 := by omega
  simp [frame_kind, h1, h2, h3, h4]

theorem frame_kind_right (r0 r1 c0 c1 : Int) (t l b : Bool) (R : Int) (hc : c0 < c1)
    (h1 : r0 < R) (h2 : R < r1) :
    frame_kind r0 r1 c0 c1 t l true b R c1 = BorderKind.RIGHT := by
  have h3 : R ≠ r0 := by omega
  have h4 : R ≠ r1 := by omega
  have h5 : c1 ≠ c0 := by omega
  simp [frame_kind, h1, h2, h3, h4, h5]

theorem frame_kind_clear_top (r0 r1 c0 c1 : Int) (l r b : Bool) (hr : r0 < r1) (R C : Int) :
    (if R = r0 ∧ c0 < C ∧ C < c1 then BorderKind.NONE
      else frame_kind r0 r1 c0 c1 true l r b R C) =
      frame_kind r0 r1 c0 c1 false l r b R C := by
  simp only [frame_kind, Bool.false_eq_true, and_false, if_false, and_true]
  split_ifs <;> first | rfl | omega

theorem frame_kind_clear_bottom (r0 r1 c0 c1 : Int) (t l r : Bool) (hr : r0 < r1) (R C : Int) :
    (if R = r1 ∧ c0 < C ∧ C < c1 then BorderKind.NONE
      else frame_kind r0 r1 c0 c1 t l r true R C) =
      frame_kind r0 r1 c0 c1 t l r false R C := by
  simp only [frame_kind, Bool.false_eq_true, and_false, if_false, and_true]
  split_ifs <;> first | rfl | omega

theorem frame_kind_clear_left (r0 r1 c0 c1 : Int) (t r b : Bool) (hc : c0 < c1) (R C : Int) :
    (if C = c0 ∧ r0 < R ∧ R < r1 then BorderKind.NONE
      else frame_kind r0 r1 c0 c1 t true r b R C) =
      frame_kind r0 r1 c0 c1 t false r b R C := by
  simp only [frame_kind, Bool.false_eq_true, and_false, if_false, and_true]
  split_ifs <;> first | rfl | omega

theorem frame_kind_clear_right (r0 r1 c0 c1 : Int) (t l b : Bool) (hc : c0 < c1) (R C : Int) :
    (if C = c1 ∧ r0 < R ∧ R < r1 then BorderKind.NONE
      else frame_kind r0 r1 c0 c1 t l true b R C) =
      frame_kind r0 r1 c0 c1 t l false b R C := by
  simp only [frame_kind, Bool.false_eq_true, and_false, if_false, and_true]
  split_ifs <;> first | rfl | omega

/-- Before the first cell of a side that is still present, in the order of
the indexes, a frame holds no side: the sides before it have been reset. -/
theorem frame_kind_before (r0 r1 c0 c1 : Int) (t l r b : Bool) (hr : r0 + 2 ≤ r1)
    (hc : c0 + 2 ≤ c1) (rs cs R C : Int) (h : R < rs ∨ (R = rs ∧ C < cs))
    (hcase : (rs = r0 ∧ cs = c0 + 1) ∨
      (t = false ∧ rs = r0 + 1 ∧ cs = c0) ∨
      (t = false ∧ l = false ∧ rs = r0 + 1 ∧ cs = c1) ∨
      (t = false ∧ l = false ∧ r = false ∧ rs = r1 ∧ cs = c0 + 1)) :
    is_side_border (frame_kind r0 r1 c0 c1 t l r b R C) = false := by
  rcases hcase with ⟨rfl, rfl⟩ | ⟨rfl, rfl, rfl⟩ | ⟨rfl, rfl, rfl, rfl⟩ | ⟨rfl, rfl, rfl, rfl, rfl⟩
  all_goals
    simp only [frame_kind, Bool.false_eq_true, and_false, if_false, and_true]
    split_ifs <;> first | rfl | omega

theorem frame_kind_no_side (r0 r1 c0 c1 : Int) (R C : Int) :
    is_side_border (frame_kind r0 r1 c0 c1 false false false false R C) = false := by
  simp only [frame_kind, Bool.false_eq_true, and_false, if_false, and_true]
  split_ifs <;> rfl

/-- Away from its four corners, a frame without sides holds `NONE`. -/
theorem frame_kind_corners_only (r0 r1 c0 c1 : Int) (R C : Int)
    (h : ¬ ((R = r0 ∨ R = r1) ∧ (C = c0 ∨ C = c1))) :
    frame_kind r0 r1 c0 c1 false false false false R C = BorderKind.NONE := by
  simp only [frame_kind, Bool.false_eq_true, and_false, if_false, and_true]
  split_ifs <;> first | rfl | (exfalso; apply h; constructor <;> omega)

namespace AutoTiler

theorem border_map_is_congr (v : AutoTiler) (F G : Int → Int → BorderKind)
    (h : ∀ R C, F R C = G R C) (hd : v.border_map_is F) : v.border_map_is G :=
  ⟨fun R C h1 h2 h3 h4 => by rw [← h R C]; exact hd.1 R C h1 h2 h3 h4, hd.2⟩

/-- A loop over sorted keys when the steps before the key `ks` do nothing:
the loop goes on from the state after the step at `ks` with the keys that
follow, which are sorted. -/
theorem fold_phase (f : AutoTiler → Int → Option AutoTiler) (l : List Int)
    (hs : l.Pairwise (· < ·)) (ks : Int) (hks : ks ∈ l) (v u : AutoTiler)
    (hskip : ∀ l2 : List Int, (∀ k ∈ l2, k ∈ l ∧ k < ks) → l2.foldlM f v = some v)
    (hstep : f v ks = some u) :
    l.foldlM f v = (l.filter (fun y => decide (ks < y))).foldlM f u ∧
    (l.filter (fun y => decide (ks < y))).Pairwise (· < ·) ∧
    ∀ k ∈ l.filter (fun y => decide (ks < y)), k ∈ l ∧ ks < k := by
  refine ⟨fold_to_key f l hs ks hks v u (hskip _ ?_) hstep, hs.filter _, ?_⟩
  · intro k hk
    rw [List.mem_filter] at hk
    exact ⟨hk.1, by simpa using hk.2⟩
  · intro k hk
    rw [List.mem_filter] at hk
    exact ⟨hk.1, by simpa using hk.2⟩

/-- The cells before the cell of row `rs` and column `cs`, in the order of the
indexes, hold no side when the function of the border map has none there. -/
theorem side_gap (v : AutoTiler) (F : Int → Int → BorderKind) (hd : v.border_map_is F)
    (rs cs : Int) (hcs : 0 ≤ cs) (hcs2 : cs < v.grid_size.wd)
    (hF : ∀ R C : Int, (R < rs ∨ (R = rs ∧ C < cs)) → is_side_border (F R C) = false)
    (i : Int) (hi : i < rs * v.grid_size.wd + cs) : is_side_border (v.border_at i) = false := by
  rcases border_map_is_cases v F hd (by omega) i with ⟨R, C, h1, h2, h3, h4, e, hv⟩ | hv
  · rw [hv]
    rw [e, row_col_lt v.grid_size.wd R C rs cs h3 h4 hcs hcs2] at hi
    exact hF R C hi
  · rw [hv]; rfl

/-- The side loop on a frame of cells, with 8x8 patterns: four tiles, one per
side in the order top, left, right, bottom, and the sides are reset. -/
theorem frame_side_fold (sv sh : BorderKind) (thick : BorderKind → Bool) (g : AutoTiler)
    (r0 r1 c0 c1 : Int) (first : EntityIndex)
    (hd : g.border_map_is (frame_kind r0 r1 c0 c1 true true true true))
    (hr0 : 0 ≤ r0) (hr : r0 + 2 ≤ r1) (hr1 : r1 < g.grid_size.ht)
    (hc0 : 0 ≤ c0) (hc : c0 + 2 ≤ c1) (hc1 : c1 < g.grid_size.wd)
    (hsort : g.keys_sorted) (h8 : g.sizes_8x8) (hp : g.patterns_8x8) (hm : g.all_mapped)
    (hfirst : g.entity_indexes.head? = some first) :
    ∃ s, g.border_keys.foldlM (side_tile sv sh thick) g = some s ∧ same_frame g s ∧
      s.keys_sorted ∧
      s.tiles = g.tiles ++
        [some ⟨g.pattern_of BorderKind.TOP,
          ⟨(c0 + 1) * 8 + g.bounding_box.x1, r0 * 8 + g.bounding_box.y1⟩,
          ⟨(c1 - c0 - 1) * 8, 8⟩, first.layer⟩,
         some ⟨g.pattern_of BorderKind.LEFT,
          ⟨c0 * 8 + g.bounding_box.x1, (r0 + 1) * 8 + g.bounding_box.y1⟩,
          ⟨8, (r1 - r0 - 1) * 8⟩, first.layer⟩,
         some ⟨g.pattern_of BorderKind.RIGHT,
          ⟨c1 * 8 + g.bounding_box.x1, (r0 + 1) * 8 + g.bounding_box.y1⟩,
          ⟨8, (r1 - r0 - 1) * 8⟩, first.layer⟩,
         some ⟨g.pattern_of BorderKind.BOTTOM,
          ⟨(c0 + 1) * 8 + g.bounding_box.x1, r1 * 8 + g.bounding_box.y1⟩,
          ⟨(c1 - c0 - 1) * 8, 8⟩, first.layer⟩] ∧
      s.border_map_is (frame_kind r0 r1 c0 c1 false false false false) := by
  have hgw : g.grid_size.wd ≠ 0 := by omega
  -- the four steps
  obtain ⟨u1, hu1, hf1, hs1, hk1, ht1, hd1⟩ :=
    horizontal_run_step sv sh thick g _ BorderKind.TOP r0 c0 c1 first hd (Or.inl rfl) hr0
      (by omega) hc0 hc hc1 (by rw [frame_kind_top_left]; rfl)
      (by rw [frame_kind_top_right _ _ _ _ _ _ _ _ (by omega)]; rfl)
      (fun C a b => frame_kind_top r0 r1 c0 c1 _ _ _ C a b) h8 hp
      (hm _ (by decide)) hfirst
  have hd1 := border_map_is_congr u1 _ _
    (frame_kind_clear_top r0 r1 c0 c1 true true true (by omega)) hd1
  have g1 : u1.grid_size = g.grid_size := hf1.2.2.2.2.2.2.1
  have w1 : u1.grid_size.wd = g.grid_size.wd := by rw [g1]
  have y1 : u1.grid_size.ht = g.grid_size.ht := by rw [g1]
  have b1 : u1.bounding_box = g.bounding_box := hf1.2.2.2.2.2.1
  obtain ⟨u2, hu2, hf2, hs2, hk2, ht2, hd2⟩ :=
    vertical_run_step sv sh thick u1 _ BorderKind.LEFT c0 r0 r1 first hd1 (Or.inl rfl) hc0
      (by omega) hr0 hr (by omega) (by rw [frame_kind_top_left]; rfl)
      (by rw [frame_kind_bottom_left _ _ _ _ _ _ _ _ (by omega)]; rfl)
      (fun R a b => frame_kind_left r0 r1 c0 c1 _ _ _ R a b)
      (sizes_8x8_of_frame g u1 hf1 h8) (patterns_8x8_of_frame g u1 hf1 hp)
      (by rw [same_frame_tileset g u1 hf1, hf1.2.2.1]; exact hm _ (by decide))
      (by rw [hf1.2.1]; exact hfirst)
  have hd2 := border_map_is_congr u2 _ _
    (frame_kind_clear_left r0 r1 c0 c1 false true true (by omega)) hd2
  have f02 := same_frame_trans _ _ _ hf1 hf2
  have g2 : u2.grid_size = g.grid_size := f02.2.2.2.2.2.2.1
  have w2 : u2.grid_size.wd = g.grid_size.wd := by rw [g2]
  have y2 : u2.grid_size.ht = g.grid_size.ht := by rw [g2]
  obtain ⟨u3, hu3, hf3, hs3, hk3, ht3, hd3⟩ :=
    vertical_run_step sv sh thick u2 _ BorderKind.RIGHT c1 r0 r1 first hd2 (Or.inr rfl)
      (by omega) (by omega) hr0 hr (by omega)
      (by rw [frame_kind_top_right _ _ _ _ _ _ _ _ (by omega)]; rfl)
      (by rw [frame_kind_bottom_right _ _ _ _ _ _ _ _ (by omega) (by omega)]; rfl)
      (fun R a b => frame_kind_right r0 r1 c0 c1 _ _ _ R (by omega) a b)
      (sizes_8x8_of_frame g u2 f02 h8) (patterns_8x8_of_frame g u2 f02 hp)
      (by rw [same_frame_tileset g u2 f02, f02.2.2.1]; exact hm _ (by decide))
      (by rw [f02.2.1]; exact hfirst)
  have hd3 := border_map_is_congr u3 _ _
    (frame_kind_clear_right r0 r1 c0 c1 false false true (by omega)) hd3
  have f03 := same_frame_trans _ _ _ f02 hf3
  have g3 : u3.grid_size = g.grid_size := f03.2.2.2.2.2.2.1
  have w3 : u3.grid_size.wd = g.grid_size.wd := by rw [g3]
  have y3 : u3.grid_size.ht = g.grid_size.ht := by rw [g3]
  obtain ⟨u4, hu4, hf4, hs4, hk4, ht4, hd4⟩ :=
    horizontal_run_step sv sh thick u3 _ BorderKind.BOTTOM r1 c0 c1 first hd3 (Or.inr rfl)
      (by omega) (by omega) hc0 hc (by omega)
      (by rw [frame_kind_bottom_left _ _ _ _ _ _ _ _ (by omega)]; rfl)
      (by rw [frame_kind_bottom_right _ _ _ _ _ _ _ _ (by omega) (by omega)]; rfl)
      (fun C a b => frame_kind_bottom r0 r1 c0 c1 _ _ _ C (by omega) a b)
      (sizes_8x8_of_frame g u3 f03 h8) (patterns_8x8_of_frame g u3 f03 hp)
      (by rw [same_frame_tileset g u3 f03, f03.2.2.1]; exact hm _ (by decide))
      (by rw [f03.2.1]; exact hfirst)
  have hd4 := border_map_is_congr u4 _ _
    (frame_kind_clear_bottom r0 r1 c0 c1 false false false (by omega)) hd4
  have f04 := same_frame_trans _ _ _ f03 hf4
  have g4 : u4.grid_size = g.grid_size := f04.2.2.2.2.2.2.1
  have w4 : u4.grid_size.wd = g.grid_size.wd := by rw [g4]
  have y4 : u4.grid_size.ht = g.grid_size.ht := by rw [g4]
  rw [g1] at hu2
  rw [g2] at hu3
  rw [g3] at hu4
  -- the keys of the first cells of the runs
  have key : ∀ R C : Int, 0 ≤ R → R < g.grid_size.ht → 0 ≤ C → C < g.grid_size.wd →
      frame_kind r0 r1 c0 c1 true true true true R C ≠ BorderKind.NONE →
      R * g.grid_size.wd + C ∈ g.border_keys := by
    intro R C a b c d e
    apply mem_keys_of_border_at
    rw [hd.1 R C a b c d]
    exact e
  have kt : r0 * g.grid_size.wd + (c0 + 1) ∈ g.border_keys :=
    key _ _ hr0 (by omega) (by omega) (by omega)
      (by rw [frame_kind_top _ _ _ _ _ _ _ _ (by omega) (by omega)]; decide)
  have kl : (r0 + 1) * g.grid_size.wd + c0 ∈ g.border_keys :=
    key _ _ (by omega) (by omega) (by omega) (by omega)
      (by rw [frame_kind_left _ _ _ _ _ _ _ _ (by omega) (by omega)]; decide)
  have kr : (r0 + 1) * g.grid_size.wd + c1 ∈ g.border_keys :=
    key _ _ (by omega) (by omega) (by omega) (by omega)
      (by rw [frame_kind_right _ _ _ _ _ _ _ _ (by omega) (by omega) (by omega)]; decide)
  have kb : r1 * g.grid_size.wd + (c0 + 1) ∈ g.border_keys :=
    key _ _ (by omega) (by omega) (by omega) (by omega)
      (by rw [frame_kind_bottom _ _ _ _ _ _ _ _ (by omega) (by omega) (by omega)]; decide)
  have o1 : r0 * g.grid_size.wd + (c0 + 1) < (r0 + 1) * g.grid_size.wd + c0 :=
    (row_col_lt _ _ _ _ _ (by omega) (by omega) (by omega) (by omega)).2 (Or.inl (by omega))
  have o2 : (r0 + 1) * g.grid_size.wd + c0 < (r0 + 1) * g.grid_size.wd + c1 := by omega
  have o3 : (r0 + 1) * g.grid_size.wd + c1 < r1 * g.grid_size.wd + (c0 + 1) :=
    (row_col_lt _ _ _ _ _ (by omega) (by omega) (by omega) (by omega)).2 (Or.inl (by omega))
  -- the phases of the loop
  obtain ⟨p1, q1, m1⟩ := fold_phase (side_tile sv sh thick) g.border_keys hsort _ kt g u1
    (fun l2 hl2 => side_fold_skip sv sh thick g hgw l2 fun k hk => ⟨(hl2 k hk).1,
      side_gap g _ hd r0 (c0 + 1) (by omega) (by omega)
        (fun R C h => frame_kind_before r0 r1 c0 c1 _ _ _ _ hr hc _ _ R C h
          (Or.inl ⟨rfl, rfl⟩)) k (hl2 k hk).2⟩) hu1
  obtain ⟨p2, q2, m2⟩ := fold_phase (side_tile sv sh thick) _ q1 _
    (List.mem_filter.2 ⟨kl, by simpa using o1⟩) u1 u2
    (fun l2 hl2 => side_fold_skip sv sh thick u1 (by rw [g1]; exact hgw) l2 fun k hk =>
      ⟨hk1 k (m1 k (hl2 k hk).1).1,
      side_gap u1 _ hd1 (r0 + 1) c0 (by omega) (by omega)
        (fun R C h => frame_kind_before r0 r1 c0 c1 _ _ _ _ hr hc _ _ R C h
          (Or.inr (Or.inl ⟨rfl, rfl, rfl⟩))) k (by rw [g1]; exact (hl2 k hk).2)⟩) hu2
  obtain ⟨p3, q3, m3⟩ := fold_phase (side_tile sv sh thick) _ q2 _
    (List.mem_filter.2 ⟨List.mem_filter.2 ⟨kr, by simpa using (lt_trans o1 o2)⟩,
      by simpa using o2⟩) u2 u3
    (fun l2 hl2 => side_fold_skip sv sh thick u2 (by rw [g2]; exact hgw) l2 fun k hk =>
      ⟨hk2 k (hk1 k (m1 k (m2 k (hl2 k hk).1).1).1),
      side_gap u2 _ hd2 (r0 + 1) c1 (by omega) (by omega)
        (fun R C h => frame_kind_before r0 r1 c0 c1 _ _ _ _ hr hc _ _ R C h
          (Or.inr (Or.inr (Or.inl ⟨rfl, rfl, rfl, rfl⟩)))) k
          (by rw [g2]; exact (hl2 k hk).2)⟩) hu3
  obtain ⟨p4, q4, m4⟩ := fold_phase (side_tile sv sh thick) _ q3 _
    (List.mem_filter.2 ⟨List.mem_filter.2 ⟨List.mem_filter.2
      ⟨kb, by simpa using (lt_trans o1 (lt_trans o2 o3))⟩,
      by simpa using (lt_trans o2 o3)⟩, by simpa using o3⟩) u3 u4
    (fun l2 hl2 => side_fold_skip sv sh thick u3 (by rw [g3]; exact hgw) l2 fun k hk =>
      ⟨hk3 k (hk2 k (hk1 k (m1 k (m2 k (m3 k (hl2 k hk).1).1).1).1)),
      side_gap u3 _ hd3 r1 (c0 + 1) (by omega) (by omega)
        (fun R C h => frame_kind_before r0 r1 c0 c1 _ _ _ _ hr hc _ _ R C h
          (Or.inr (Or.inr (Or.inr ⟨rfl, rfl, rfl, rfl, rfl⟩)))) k
          (by rw [g3]; exact (hl2 k hk).2)⟩) hu4
  have p5 := side_fold_skip sv sh thick u4 (by rw [g4]; exact hgw) _ fun k hk =>
    ⟨hk4 k (hk3 k (hk2 k (hk1 k (m1 k (m2 k (m3 k (m4 k hk).1).1).1).1))), by
      rcases border_map_is_cases u4 _ hd4 (by omega) k with ⟨R, C, -, -, -, -, -, hv⟩ | hv
      · rw [hv]; exact frame_kind_no_side r0 r1 c0 c1 R C
      · rw [hv]; rfl⟩
  refine ⟨u4, by rw [p1, p2, p3, p4, p5], f04, hs4 (hs3 (hs2 (hs1 hsort))), ?_, hd4⟩
  rw [ht4, ht3, ht2, ht1, same_frame_pattern_of g u1 hf1, same_frame_pattern_of g u2 f02,
    same_frame_pattern_of g u3 f03, hf1.2.2.2.2.2.1, f02.2.2.2.2.2.1, f03.2.2.2.2.2.1]
  simp only [List.append_assoc, List.singleton_append, List.cons_append, List.nil_append]

end AutoTiler

namespace AutoTiler

theorem border_map_is_of_eq (v u : AutoTiler) (F : Int → Int → BorderKind)
    (hw : u.which_borders = v.which_borders) (hg : u.grid_size = v.grid_size)
    (hd : v.border_map_is F) : u.border_map_is F := by
  have e : ∀ i, u.border_at i = v.border_at i := by
    intro i
    unfold border_at
    rw [hw]
  constructor
  · intro R C h1 h2 h3 h4
    rw [hg] at h2 h4 ⊢
    rw [e]
    exact hd.1 R C h1 h2 h3 h4
  · intro i hi
    rw [in_grid_congr v u hg] at hi
    rw [e]
    exact hd.2 i hi

/-- The step of the corner loop at a cell that holds a kind, with 8x8
patterns: one tile of one cell, and the border map is left as it is. -/
theorem corner_step (sx sy : BorderKind → Bool) (v : AutoTiler) (F : Int → Int → BorderKind)
    (R C : Int) (kind : BorderKind) (first : EntityIndex) (hd : v.border_map_is F)
    (hR : 0 ≤ R) (hR2 : R < v.grid_size.ht) (hC : 0 ≤ C) (hC2 : C < v.grid_size.wd)
    (hk : F R C = kind) (hn : kind ≠ BorderKind.NONE)
    (h8 : v.sizes_8x8) (hp : v.patterns_8x8) (hm : v.all_mapped)
    (hfirst : v.entity_indexes.head? = some first) :
    ∃ u, corner_tile sx sy v (R * v.grid_size.wd + C) = some u ∧ same_frame v u ∧
      u.which_borders = v.which_borders ∧
      u.tiles = v.tiles ++
        [some ⟨v.pattern_of kind, ⟨C * 8 + v.bounding_box.x1, R * 8 + v.bounding_box.y1⟩,
          ⟨8, 8⟩, first.layer⟩] :=
  ⟨_, corner_tile_eq sx sy v _ kind _ first h8 hp (hm kind hn) hfirst
    (to_map_xy_of_row_col v R C hR hC hC2) (by rw [hd.1 R C hR hR2 hC hC2]; exact hk) hn,
    same_frame_tiles _ _, rfl, rfl⟩

/-- A cell that is not one of the four corners of a frame without sides
holds `NONE`. -/
theorem corner_gap (v : AutoTiler) (r0 r1 c0 c1 : Int)
    (hd : v.border_map_is (frame_kind r0 r1 c0 c1 false false false false))
    (hgw : 0 < v.grid_size.wd) (i : Int)
    (h : ∀ R C : Int, 0 ≤ C → C < v.grid_size.wd → i = R * v.grid_size.wd + C →
      ¬ ((R = r0 ∨ R = r1) ∧ (C = c0 ∨ C = c1))) :
    v.border_at i = BorderKind.NONE := by
  rcases border_map_is_cases v _ hd hgw i with ⟨R, C, h1, h2, h3, h4, e, hv⟩ | hv
  · rw [hv]
    exact frame_kind_corners_only r0 r1 c0 c1 R C (h R C h3 h4 e)
  · exact hv

/-- The corner loop on a frame of cells whose sides have been reset, with 8x8
patterns: four tiles of one cell, in the order top-left, top-right,
bottom-left, bottom-right. -/
theorem frame_corner_fold (sx sy : BorderKind → Bool) (s : AutoTiler)
    (r0 r1 c0 c1 : Int) (first : EntityIndex)
    (hsx : sx BorderKind.NONE = false) (hsy : sy BorderKind.NONE = false)
    (hd : s.border_map_is (frame_kind r0 r1 c0 c1 false false false false))
    (hr0 : 0 ≤ r0) (hr : r0 + 2 ≤ r1) (hr1 : r1 < s.grid_size.ht)
    (hc0 : 0 ≤ c0) (hc : c0 + 2 ≤ c1) (hc1 : c1 < s.grid_size.wd)
    (hsort : s.keys_sorted) (h8 : s.sizes_8x8) (hp : s.patterns_8x8) (hm : s.all_mapped)
    (hfirst : s.entity_indexes.head? = some first) :
    ∃ c, s.border_keys.foldlM (corner_tile sx sy) s = some c ∧ same_frame s c ∧
      c.tiles = s.tiles ++
        [some ⟨s.pattern_of BorderKind.TOP_LEFT_CONVEX,
          ⟨c0 * 8 + s.bounding_box.x1, r0 * 8 + s.bounding_box.y1⟩, ⟨8, 8⟩, first.layer⟩,
         some ⟨s.pattern_of BorderKind.TOP_RIGHT_CONVEX,
          ⟨c1 * 8 + s.bounding_box.x1, r0 * 8 + s.bounding_box.y1⟩, ⟨8, 8⟩, first.layer⟩,
         some ⟨s.pattern_of BorderKind.BOTTOM_LEFT_CONVEX,
          ⟨c0 * 8 + s.bounding_box.x1, r1 * 8 + s.bounding_box.y1⟩, ⟨8, 8⟩, first.layer⟩,
         some ⟨s.pattern_of BorderKind.BOTTOM_RIGHT_CONVEX,
          ⟨c1 * 8 + s.bounding_box.x1, r1 * 8 + s.bounding_box.y1⟩, ⟨8, 8⟩, first.layer⟩] := by
  have hgw : 0 < s.grid_size.wd := by omega
  -- the four steps
  obtain ⟨u1, hu1, hf1, hw1, ht1⟩ :=
    corner_step sx sy s _ r0 c0 _ first hd hr0 (by omega) hc0 (by omega)
      (frame_kind_top_left _ _ _ _ _ _ _ _) (by decide) h8 hp hm hfirst
  have g1 : u1.grid_size = s.grid_size := hf1.2.2.2.2.2.2.1
  have w1 : u1.grid_size.wd = s.grid_size.wd := by rw [g1]
  have y1 : u1.grid_size.ht = s.grid_size.ht := by rw [g1]
  have hd1 := border_map_is_of_eq s u1 _ hw1 g1 hd
  have hm1 : u1.all_mapped := by
    intro k hk
    rw [same_frame_tileset s u1 hf1, hf1.2.2.1]
    exact hm k hk
  obtain ⟨u2, hu2, hf2, hw2, ht2⟩ :=
    corner_step sx sy u1 _ r0 c1 _ first hd1 hr0 (by omega) (by omega) (by omega)
      (frame_kind_top_right _ _ _ _ _ _ _ _ (by omega)) (by decide)
      (sizes_8x8_of_frame s u1 hf1 h8) (patterns_8x8_of_frame s u1 hf1 hp) hm1
      (by rw [hf1.2.1]; exact hfirst)
  have f02 := same_frame_trans _ _ _ hf1 hf2
  have g2 : u2.grid_size = s.grid_size := f02.2.2.2.2.2.2.1
  have w2 : u2.grid_size.wd = s.grid_size.wd := by rw [g2]
  have y2 : u2.grid_size.ht = s.grid_size.ht := by rw [g2]
  have hd2 := border_map_is_of_eq s u2 _ (hw2.trans hw1) g2 hd
  have hm2 : u2.all_mapped := by
    intro k hk
    rw [same_frame_tileset s u2 f02, f02.2.2.1]
    exact hm k hk
  obtain ⟨u3, hu3, hf3, hw3, ht3⟩ :=
    corner_step sx sy u2 _ r1 c0 _ first hd2 (by omega) (by omega) hc0 (by omega)
      (frame_kind_bottom_left _ _ _ _ _ _ _ _ (by omega)) (by decide)
      (sizes_8x8_of_frame s u2 f02 h8) (patterns_8x8_of_frame s u2 f02 hp) hm2
      (by rw [f02.2.1]; exact hfirst)
  have f03 := same_frame_trans _ _ _ f02 hf3
  have g3 : u3.grid_size = s.grid_size := f03.2.2.2.2.2.2.1
  have w3 : u3.grid_size.wd = s.grid_size.wd := by rw [g3]
  have y3 : u3.grid_size.ht = s.grid_size.ht := by rw [g3]
  have hd3 := border_map_is_of_eq s u3 _ (hw3.trans (hw2.trans hw1)) g3 hd
  have hm3 : u3.all_mapped := by
    intro k hk
    rw [same_frame_tileset s u3 f03, f03.2.2.1]
    exact hm k hk
  obtain ⟨u4, hu4, hf4, hw4, ht4⟩ :=
    corner_step sx sy u3 _ r1 c1 _ first hd3 (by omega) (by omega) (by omega) (by omega)
      (frame_kind_bottom_right _ _ _ _ _ _ _ _ (by omega) (by omega)) (by decide)
      (sizes_8x8_of_frame s u3 f03 h8) (patterns_8x8_of_frame s u3 f03 hp) hm3
      (by rw [f03.2.1]; exact hfirst)
  have f04 := same_frame_trans _ _ _ f03 hf4
  have g4 : u4.grid_size = s.grid_size := f04.2.2.2.2.2.2.1
  have w4 : u4.grid_size.wd = s.grid_size.wd := by rw [g4]
  have hd4 := border_map_is_of_eq s u4 _ (hw4.trans (hw3.trans (hw2.trans hw1))) g4 hd
  rw [w1] at hu2
  rw [w2] at hu3
  rw [w3] at hu4
  have hk1 : u1.border_keys = s.border_keys := by unfold border_keys; rw [hw1]
  have hk2 : u2.border_keys = s.border_keys := by unfold border_keys; rw [hw2, hw1]
  have hk3 : u3.border_keys = s.border_keys := by unfold border_keys; rw [hw3, hw2, hw1]
  have hk4 : u4.border_keys = s.border_keys := by unfold border_keys; rw [hw4, hw3, hw2, hw1]
  -- the keys of the corners
  have key : ∀ R C : Int, 0 ≤ R → R < s.grid_size.ht → 0 ≤ C → C < s.grid_size.wd →
      frame_kind r0 r1 c0 c1 false false false false R C ≠ BorderKind.NONE →
      R * s.grid_size.wd + C ∈ s.border_keys := by
    intro R C a b c d e
    apply mem_keys_of_border_at
    rw [hd.1 R C a b c d]
    exact e
  have k1 : r0 * s.grid_size.wd + c0 ∈ s.border_keys :=
    key _ _ hr0 (by omega) (by omega) (by omega) (by rw [frame_kind_top_left]; decide)
  have k2 : r0 * s.grid_size.wd + c1 ∈ s.border_keys :=
    key _ _ hr0 (by omega) (by omega) (by omega)
      (by rw [frame_kind_top_right _ _ _ _ _ _ _ _ (by omega)]; decide)
  have k3 : r1 * s.grid_size.wd + c0 ∈ s.border_keys :=
    key _ _ (by omega) (by omega) (by omega) (by omega)
      (by rw [frame_kind_bottom_left _ _ _ _ _ _ _ _ (by omega)]; decide)
  have k4 : r1 * s.grid_size.wd + c1 ∈ s.border_keys :=
    key _ _ (by omega) (by omega) (by omega) (by omega)
      (by rw [frame_kind_bottom_right _ _ _ _ _ _ _ _ (by omega) (by omega)]; decide)
  have o1 : r0 * s.grid_size.wd + c0 < r0 * s.grid_size.wd + c1 := by omega
  have o2 : r0 * s.grid_size.wd + c1 < r1 * s.grid_size.wd + c0 :=
    (row_col_lt _ _ _ _ _ (by omega) (by omega) (by omega) (by omega)).2 (Or.inl (by omega))
  have o3 : r1 * s.grid_size.wd + c0 < r1 * s.grid_size.wd + c1 := by omega
  have lt_iff : ∀ R C R2 C2 : Int, 0 ≤ C → C < s.grid_size.wd → 0 ≤ C2 →
      C2 < s.grid_size.wd →
      (R * s.grid_size.wd + C < R2 * s.grid_size.wd + C2 ↔ R < R2 ∨ (R = R2 ∧ C < C2)) :=
    fun R C R2 C2 => row_col_lt s.grid_size.wd R C R2 C2
  -- the phases of the loop
  obtain ⟨p1, q1, m1⟩ := fold_phase (corner_tile sx sy) s.border_keys hsort _ k1 s u1
    (fun l2 hl2 => corner_fold_skip sx sy s hsx hsy l2 fun k hk => ⟨(hl2 k hk).1,
      corner_gap s r0 r1 c0 c1 hd hgw k (by
        intro R C h3 h4 e
        have h5 := (hl2 k hk).2
        rw [e, lt_iff R C r0 c0 h3 h4 (by omega) (by omega)] at h5
        omega)⟩) hu1
  obtain ⟨p2, q2, m2⟩ := fold_phase (corner_tile sx sy) _ q1 _
    (List.mem_filter.2 ⟨k2, by simpa using o1⟩) u1 u2
    (fun l2 hl2 => corner_fold_skip sx sy u1 hsx hsy l2 fun k hk =>
      ⟨by rw [hk1]; exact (m1 k (hl2 k hk).1).1,
      corner_gap u1 r0 r1 c0 c1 hd1 (by omega) k (by
        intro R C h3 h4 e
        have h5 := (hl2 k hk).2
        have h6 := (m1 k (hl2 k hk).1).2
        rw [w1] at h4 e
        rw [e, lt_iff R C r0 c1 h3 h4 (by omega) (by omega)] at h5
        rw [e, lt_iff r0 c0 R C (by omega) (by omega) h3 h4] at h6
        omega)⟩) hu2
  obtain ⟨p3, q3, m3⟩ := fold_phase (corner_tile sx sy) _ q2 _
    (List.mem_filter.2 ⟨List.mem_filter.2 ⟨k3, by simpa using (lt_trans o1 o2)⟩,
      by simpa using o2⟩) u2 u3
    (fun l2 hl2 => corner_fold_skip sx sy u2 hsx hsy l2 fun k hk =>
      ⟨by rw [hk2]; exact (m1 k (m2 k (hl2 k hk).1).1).1,
      corner_gap u2 r0 r1 c0 c1 hd2 (by omega) k (by
        intro R C h3 h4 e
        have h5 := (hl2 k hk).2
        have h6 := (m2 k (hl2 k hk).1).2
        rw [w2] at h4 e
        rw [e, lt_iff R C r1 c0 h3 h4 (by omega) (by omega)] at h5
        rw [e, lt_iff r0 c1 R C (by omega) (by omega) h3 h4] at h6
        omega)⟩) hu3
  obtain ⟨p4, q4, m4⟩ := fold_phase (corner_tile sx sy) _ q3 _
    (List.mem_filter.2 ⟨List.mem_filter.2 ⟨List.mem_filter.2
      ⟨k4, by simpa using (lt_trans o1 (lt_trans o2 o3))⟩,
      by simpa using (lt_trans o2 o3)⟩, by simpa using o3⟩) u3 u4
    (fun l2 hl2 => corner_fold_skip sx sy u3 hsx hsy l2 fun k hk =>
      ⟨by rw [hk3]; exact (m1 k (m2 k (m3 k (hl2 k hk).1).1).1).1,
      corner_gap u3 r0 r1 c0 c1 hd3 (by omega) k (by
        intro R C h3 h4 e
        have h5 := (hl2 k hk).2
        have h6 := (m3 k (hl2 k hk).1).2
        rw [w3] at h4 e
        rw [e, lt_iff R C r1 c1 h3 h4 (by omega) (by omega)] at h5
        rw [e, lt_iff r1 c0 R C (by omega) (by omega) h3 h4] at h6
        omega)⟩) hu4
  have p5 := corner_fold_skip sx sy u4 hsx hsy _ fun k hk =>
    ⟨by rw [hk4]; exact (m1 k (m2 k (m3 k (m4 k hk).1).1).1).1,
      corner_gap u4 r0 r1 c0 c1 hd4 (by omega) k (by
        intro R C h3 h4 e
        have h6 := (m4 k hk).2
        rw [w4] at h4 e
        rw [e, lt_iff r1 c1 R C (by omega) (by omega) h3 h4] at h6
        omega)⟩
  refine ⟨u4, by rw [p1, p2, p3, p4, p5], f04, ?_⟩
  rw [ht4, ht3, ht2, ht1, same_frame_pattern_of s u1 hf1, same_frame_pattern_of s u2 f02,
    same_frame_pattern_of s u3 f03, hf1.2.2.2.2.2.1, f02.2.2.2.2.2.1, f03.2.2.2.2.2.1]
  simp only [List.append_assoc, List.singleton_append, List.cons_append, List.nil_append]

end AutoTiler

namespace AutoTiler

/-- The side pass of `compute_tiles` on a frame of cells, in either mode. -/
theorem frame_side_pass (g : AutoTiler)
    (r0 r1 c0 c1 : Int) (first : EntityIndex)
    (hd : g.border_map_is (frame_kind r0 r1 c0 c1 true true true true))
    (hr0 : 0 ≤ r0) (hr : r0 + 2 ≤ r1) (hr1 : r1 < g.grid_size.ht)
    (hc0 : 0 ≤ c0) (hc : c0 + 2 ≤ c1) (hc1 : c1 < g.grid_size.wd)
    (hsort : g.keys_sorted) (h8 : g.sizes_8x8) (hp : g.patterns_8x8) (hm : g.all_mapped)
    (hfirst : g.entity_indexes.head? = some first) :
    ∃ s, g.side_pass = some s ∧ same_frame g s ∧
      s.keys_sorted ∧
      s.tiles = g.tiles ++
        [some ⟨g.pattern_of BorderKind.TOP,
          ⟨(c0 + 1) * 8 + g.bounding_box.x1, r0 * 8 + g.bounding_box.y1⟩,
          ⟨(c1 - c0 - 1) * 8, 8⟩, first.layer⟩,
         some ⟨g.pattern_of BorderKind.LEFT,
          ⟨c0 * 8 + g.bounding_box.x1, (r0 + 1) * 8 + g.bounding_box.y1⟩,
          ⟨8, (r1 - r0 - 1) * 8⟩, first.layer⟩,
         some ⟨g.pattern_of BorderKind.RIGHT,
          ⟨c1 * 8 + g.bounding_box.x1, (r0 + 1) * 8 + g.bounding_box.y1⟩,
          ⟨8, (r1 - r0 - 1) * 8⟩, first.layer⟩,
         some ⟨g.pattern_of BorderKind.BOTTOM,
          ⟨(c0 + 1) * 8 + g.bounding_box.x1, r1 * 8 + g.bounding_box.y1⟩,
          ⟨(c1 - c0 - 1) * 8, 8⟩, first.layer⟩] ∧
      s.border_map_is (frame_kind r0 r1 c0 c1 false false false false) := by
  unfold side_pass
  split
  · exact frame_side_fold _ _ _ g r0 r1 c0 c1 first hd hr0 hr hr1 hc0 hc hc1 hsort h8 hp hm hfirst
  · exact frame_side_fold _ _ _ g r0 r1 c0 c1 first hd hr0 hr hr1 hc0 hc hc1 hsort h8 hp hm hfirst

/-- The corner pass of `compute_tiles` on a frame of cells whose sides have
been reset, in either mode. -/
theorem frame_corner_pass (s : AutoTiler)
    (r0 r1 c0 c1 : Int) (first : EntityIndex)
    (hd : s.border_map_is (frame_kind r0 r1 c0 c1 false false false false))
    (hr0 : 0 ≤ r0) (hr : r0 + 2 ≤ r1) (hr1 : r1 < s.grid_size.ht)
    (hc0 : 0 ≤ c0) (hc : c0 + 2 ≤ c1) (hc1 : c1 < s.grid_size.wd)
    (hsort : s.keys_sorted) (h8 : s.sizes_8x8) (hp : s.patterns_8x8) (hm : s.all_mapped)
    (hfirst : s.entity_indexes.head? = some first) :
    ∃ c, s.corner_pass = some c ∧ same_frame s c ∧
      c.tiles = s.tiles ++
        [some ⟨s.pattern_of BorderKind.TOP_LEFT_CONVEX,
          ⟨c0 * 8 + s.bounding_box.x1, r0 * 8 + s.bounding_box.y1⟩, ⟨8, 8⟩, first.layer⟩,
         some ⟨s.pattern_of BorderKind.TOP_RIGHT_CONVEX,
          ⟨c1 * 8 + s.bounding_box.x1, r0 * 8 + s.bounding_box.y1⟩, ⟨8, 8⟩, first.layer⟩,
         some ⟨s.pattern_of BorderKind.BOTTOM_LEFT_CONVEX,
          ⟨c0 * 8 + s.bounding_box.x1, r1 * 8 + s.bounding_box.y1⟩, ⟨8, 8⟩, first.layer⟩,
         some ⟨s.pattern_of BorderKind.BOTTOM_RIGHT_CONVEX,
          ⟨c1 * 8 + s.bounding_box.x1, r1 * 8 + s.bounding_box.y1⟩, ⟨8, 8⟩, first.layer⟩] := by
  unfold corner_pass
  split
  · exact frame_corner_fold _ _ s r0 r1 c0 c1 first (by decide) (by decide) hd hr0 hr hr1 hc0 hc
      hc1 hsort h8 hp hm hfirst
  · exact frame_corner_fold _ _ s r0 r1 c0 c1 first (by decide) (by decide) hd hr0 hr hr1 hc0 hc
      hc1 hsort h8 hp hm hfirst

/-- The call as the sequence of its passes, when the corner pass leaves a
tile at the head of `tiles`: the output pairs the tiles with the layer of
the first one and orders that count up from the number of tiles of the map
on this layer. -/
theorem generate_of_passes (t g s c : AutoTiler) (x : Tile) (rest : List (Option Tile))
    (hne : t.entity_rectangles ≠ []) (hcl : t.classify = some g)
    (hs : g.side_pass = some s) (hc : s.corner_pass = some c)
    (htiles : c.tiles = some x :: rest) :
    ∃ u, t.generate_border_tiles =
      some (u, addable_from c.tiles x.layer (c.map.get_num_tiles x.layer)) := by
  obtain ⟨o, ho, hg⟩ := classify_some t g hcl
  have he : t.entity_rectangles.isEmpty = false := by
    cases e : t.entity_rectangles with
    | nil => exact absurd e hne
    | cons a b => rfl
  unfold generate_border_tiles
  rw [he]
  simp only [Bool.false_eq_true, if_false]
  rw [ho, Option.some_bind, hg, Option.some_bind, compute_tiles_eq, hs, Option.some_bind, hc,
    Option.some_bind, Option.some_bind]
  simp only [htiles]
  exact ⟨_, rfl⟩

/-- The whole call on a single region of `nx` by `ny` cells at any position,
with the 12 patterns mapped, existing and 8x8, when the region is
large enough for every side to have a cell (2 cells in each direction in
outer mode, 3 in inner mode): the output is the tile of the top side, of the
left side, of the right side, of the bottom side, and the tiles of the four
convex corners, on the frame of cells given by the mode. -/
theorem single_region_output (t : AutoTiler) (x0 y0 : Int) (nx ny : Nat) (first : EntityIndex)
    (hr : t.entity_rectangles = [QRect.ofXYWH x0 y0 (8 * nx) (8 * ny)])
    (hnx : 2 ≤ nx) (hny : 2 ≤ ny)
    (hnx2 : 1 + 2 * t.mode_offset ≤ nx) (hny2 : 1 + 2 * t.mode_offset ≤ ny)
    (hp : t.patterns_8x8) (hm : t.all_mapped)
    (hfirst : t.entity_indexes.head? = some first) (ht : t.tiles = []) :
    ∃ u, t.generate_border_tiles = some (u,
      addable_from
        [some ⟨t.pattern_of BorderKind.TOP,
          ⟨(t.mode_offset + 1) * 8 + (x0 - 8), t.mode_offset * 8 + (y0 - 8)⟩,
          ⟨(nx + 1 - t.mode_offset - t.mode_offset - 1) * 8, 8⟩, first.layer⟩,
         some ⟨t.pattern_of BorderKind.LEFT,
          ⟨t.mode_offset * 8 + (x0 - 8), (t.mode_offset + 1) * 8 + (y0 - 8)⟩,
          ⟨8, (ny + 1 - t.mode_offset - t.mode_offset - 1) * 8⟩, first.layer⟩,
         some ⟨t.pattern_of BorderKind.RIGHT,
          ⟨(nx + 1 - t.mode_offset) * 8 + (x0 - 8), (t.mode_offset + 1) * 8 + (y0 - 8)⟩,
          ⟨8, (ny + 1 - t.mode_offset - t.mode_offset - 1) * 8⟩, first.layer⟩,
         some ⟨t.pattern_of BorderKind.BOTTOM,
          ⟨(t.mode_offset + 1) * 8 + (x0 - 8), (ny + 1 - t.mode_offset) * 8 + (y0 - 8)⟩,
          ⟨(nx + 1 - t.mode_offset - t.mode_offset - 1) * 8, 8⟩, first.layer⟩,
         some ⟨t.pattern_of BorderKind.TOP_LEFT_CONVEX,
          ⟨t.mode_offset * 8 + (x0 - 8), t.mode_offset * 8 + (y0 - 8)⟩, ⟨8, 8⟩, first.layer⟩,
         some ⟨t.pattern_of BorderKind.TOP_RIGHT_CONVEX,
          ⟨(nx + 1 - t.mode_offset) * 8 + (x0 - 8), t.mode_offset * 8 + (y0 - 8)⟩, ⟨8, 8⟩,
          first.layer⟩,
         some ⟨t.pattern_of BorderKind.BOTTOM_LEFT_CONVEX,
          ⟨t.mode_offset * 8 + (x0 - 8), (ny + 1 - t.mode_offset) * 8 + (y0 - 8)⟩, ⟨8, 8⟩,
          first.layer⟩,
         some ⟨t.pattern_of BorderKind.BOTTOM_RIGHT_CONVEX,
          ⟨(nx + 1 - t.mode_offset) * 8 + (x0 - 8), (ny + 1 - t.mode_offset) * 8 + (y0 - 8)⟩,
          ⟨8, 8⟩, first.layer⟩]
        first.layer (t.map.get_num_tiles first.layer)) := by
  obtain ⟨g0, g, hg0, hg, hcl, hgs, hbx, hby, -, hocc, hwin, -, hbo, hba⟩ :=
    single_region_grid t x0 y0 nx ny hr (by omega) (by omega) hp
  obtain ⟨hsort, htl, hmap, hidx, hbs, -, -⟩ := classify_frame t g hcl
  obtain ⟨h8, hp2⟩ := sizes_8x8_of_classify t g hcl hp
  obtain ⟨f0, -⟩ := same_frame_of_borders_only g0 g hbo
  have hgg : g.grid_size = ⟨nx + 2, ny + 2⟩ := by rw [f0.2.2.2.2.2.2.1, hgs]
  have hw : g.grid_size.wd = nx + 2 := by rw [hgg]
  have hh : g.grid_size.ht = ny + 2 := by rw [hgg]
  have hts : g.get_tileset = t.get_tileset := by unfold get_tileset; rw [hmap]
  have hmo0 : g0.mode_offset = t.mode_offset := by
    have e1 : g.get_tileset = g0.get_tileset := same_frame_tileset g0 g f0
    unfold mode_offset
    rw [← e1, ← f0.2.2.1, hts, hbs]
  have hpo : ∀ k, g.pattern_of k = t.pattern_of k := by
    intro k
    unfold pattern_of
    rw [hts, hbs]
  have hma : g.all_mapped := by
    intro k hk
    rw [hts, hbs]
    exact hm k hk
  have hfi : g.entity_indexes.head? = some first := by rw [hidx]; exact hfirst
  have ha := mode_offset_range t
  obtain ⟨hin, hout⟩ := region_border_map g0 g nx ny ⟨hgs, hocc⟩ hnx hny hwin hba
  rw [hmo0] at hin
  have hd : g.border_map_is (frame_kind t.mode_offset (ny + 1 - t.mode_offset) t.mode_offset
      (nx + 1 - t.mode_offset) true true true true) := by
    constructor
    · intro R C h1 h2 h3 h4
      rw [hw] at h4 ⊢
      rw [hh] at h2
      exact hin R C h1 h2 h3 h4
    · intro i hi
      apply hout
      rintro ⟨R, C, h1, h2, h3, h4, e⟩
      apply hi
      have := in_grid_of_row_col g R C h1 (by rw [hh]; exact h2) h3 (by rw [hw]; exact h4)
      rw [hw] at this
      rw [e]
      exact this
  have hbb : g.bounding_box = g0.bounding_box := f0.2.2.2.2.2.1
  have hgx : g.bounding_box.x1 = x0 - 8 := by rw [hbb, hbx]
  have hgy : g.bounding_box.y1 = y0 - 8 := by rw [hbb, hby]
  obtain ⟨s, hs, fs, ssort, stiles, sd⟩ := frame_side_pass g _ _ _ _ first hd (by omega)
    (by omega) (by omega) (by omega) (by omega) (by omega) hsort h8 hp2 hma hfi
  have sw : s.grid_size.wd = nx + 2 := by rw [fs.2.2.2.2.2.2.1, hw]
  have sh : s.grid_size.ht = ny + 2 := by rw [fs.2.2.2.2.2.2.1, hh]
  have sma : s.all_mapped := by
    intro k hk
    rw [same_frame_tileset g s fs, fs.2.2.1]
    exact hma k hk
  obtain ⟨c, hc, fc, ctiles⟩ := frame_corner_pass s _ _ _ _ first sd (by omega)
    (by omega) (by omega) (by omega) (by omega) (by omega) ssort
    (sizes_8x8_of_frame g s fs h8) (patterns_8x8_of_frame g s fs hp2) sma
    (by rw [fs.2.1]; exact hfi)
  have hne : t.entity_rectangles ≠ [] := by rw [hr]; simp
  rw [stiles, htl, ht, List.nil_append, fs.2.2.2.2.2.1, hgx, hgy] at ctiles
  simp only [same_frame_pattern_of g s fs, hpo, List.cons_append, List.nil_append] at ctiles
  obtain ⟨u, hu⟩ := generate_of_passes t g s c _ _ hne hcl hs hc ctiles
  have hcm : c.map = t.map := by rw [fc.1, fs.1, hmap]
  rw [ctiles, hcm] at hu
  exact ⟨u, hu⟩

end AutoTiler

namespace AutoTiler

theorem emitted_of_generate (t u : AutoTiler) (tiles : List (Option Tile)) (layer order : Int)
    (h : t.generate_border_tiles = some (u, addable_from tiles layer order)) :
    t.emitted = some tiles := by
  unfold emitted
  rw [h, Option.map_some', addable_from_map_fst]

/-- C14, amended. For every single region of `nx` by `ny` cells, `nx` and
`ny` at least 3 (a rectangle of size `W = 8 * nx` by `H = 8 * ny`, at least
24x24), at a cell-aligned position `(x0, y0)`, with an inner-mode border set
whose 12 patterns are mapped, exist and are 8x8, and no tile left from an
earlier call, `generate_border_tiles` returns 4 side tiles, one per edge
whatever `W` and `H` are, then 4 convex corner tiles, all on the outermost
cells inside the rectangle: the top tile of size `(W - 16) x 8` at
`(x0 + 8, y0)`, the left tile of size `8 x (H - 16)` at `(x0, y0 + 8)`, the
right tile at `(x0 + W - 8, y0 + 8)`, the bottom tile at
`(x0 + 8, y0 + H - 8)`, and the 8x8 corner tiles at the four corner cells of
the rectangle. -/
theorem inner_region_tiles (t : AutoTiler) (x0 y0 : Int) (nx ny : Nat) (first : EntityIndex)
    (hr : t.entity_rectangles = [QRect.ofXYWH x0 y0 (8 * nx) (8 * ny)])
    (hx : 8 ∣ x0) (hy : 8 ∣ y0) (hnx : 3 ≤ nx) (hny : 3 ≤ ny)
    (hi : t.get_tileset.is_border_set_inner t.border_set_id = true)
    (hp : t.patterns_8x8) (hm : t.all_mapped)
    (hfirst : t.entity_indexes.head? = some first) (ht : t.tiles = []) :
    t.emitted = some
      [some ⟨t.pattern_of BorderKind.TOP, ⟨x0 + 8, y0⟩, ⟨8 * nx - 16, 8⟩, first.layer⟩,
       some ⟨t.pattern_of BorderKind.LEFT, ⟨x0, y0 + 8⟩, ⟨8, 8 * ny - 16⟩, first.layer⟩,
       some ⟨t.pattern_of BorderKind.RIGHT, ⟨x0 + 8 * nx - 8, y0 + 8⟩, ⟨8, 8 * ny - 16⟩,
        first.layer⟩,
       some ⟨t.pattern_of BorderKind.BOTTOM, ⟨x0 + 8, y0 + 8 * ny - 8⟩, ⟨8 * nx - 16, 8⟩,
        first.layer⟩,
       some ⟨t.pattern_of BorderKind.TOP_LEFT_CONVEX, ⟨x0, y0⟩, ⟨8, 8⟩, first.layer⟩,
       some ⟨t.pattern_of BorderKind.TOP_RIGHT_CONVEX, ⟨x0 + 8 * nx - 8, y0⟩, ⟨8, 8⟩,
        first.layer⟩,
       some ⟨t.pattern_of BorderKind.BOTTOM_LEFT_CONVEX, ⟨x0, y0 + 8 * ny - 8⟩, ⟨8, 8⟩,
        first.layer⟩,
       some ⟨t.pattern_of BorderKind.BOTTOM_RIGHT_CONVEX, ⟨x0 + 8 * nx - 8, y0 + 8 * ny - 8⟩,
        ⟨8, 8⟩, first.layer⟩] := by
  have hmo : t.mode_offset = 1 := by
    unfold mode_offset
    rw [if_pos hi]
  obtain ⟨u, hu⟩ := single_region_output t x0 y0 nx ny first hr (by omega) (by omega)
    (by rw [hmo]; omega) (by rw [hmo]; omega) hp hm hfirst ht
  rw [emitted_of_generate t u _ _ _ hu, hmo]
  have e1 : (1 + 1) * 8 + (x0 - 8) = x0 + 8 := by ring
  have e2 : (1 : Int) * 8 + (y0 - 8) = y0 := by ring
  have e3 : ((nx : Int) + 1 - 1 - 1 - 1) * 8 = 8 * nx - 16 := by ring
  have e4 : (1 : Int) * 8 + (x0 - 8) = x0 := by ring
  have e5 : (1 + 1) * 8 + (y0 - 8) = y0 + 8 := by ring
  have e6 : ((ny : Int) + 1 - 1 - 1 - 1) * 8 = 8 * ny - 16 := by ring
  have e7 : ((nx : Int) + 1 - 1) * 8 + (x0 - 8) = x0 + 8 * nx - 8 := by ring
  have e8 : ((ny : Int) + 1 - 1) * 8 + (y0 - 8) = y0 + 8 * ny - 8 := by ring
  rw [e1, e2, e3, e4, e5, e6, e7, e8]

theorem inner_region_tiles_witness :
    (tiler_of (tileset_8x8 true) [QRect.ofXYWH 0 0 24 24]).entity_rectangles =
      [QRect.ofXYWH 0 0 (8 * (3 : Nat)) (8 * (3 : Nat))] ∧
    (tiler_of (tileset_8x8 true) [QRect.ofXYWH 0 0 24 24]).get_tileset.is_border_set_inner
      (tiler_of (tileset_8x8 true) [QRect.ofXYWH 0 0 24 24]).border_set_id = true ∧
    (tiler_of (tileset_8x8 true) [QRect.ofXYWH 0 0 24 24]).tiles = [] ∧
    (tiler_of (tileset_8x8 true) [QRect.ofXYWH 0 0 24 24]).emitted = some
      [some ⟨"p", ⟨0 + 8, 0⟩, ⟨8 * (3 : Nat) - 16, 8⟩, 0⟩,
       some ⟨"p", ⟨0, 0 + 8⟩, ⟨8, 8 * (3 : Nat) - 16⟩, 0⟩,
       some ⟨"p", ⟨0 + 8 * (3 : Nat) - 8, 0 + 8⟩, ⟨8, 8 * (3 : Nat) - 16⟩, 0⟩,
       some ⟨"p", ⟨0 + 8, 0 + 8 * (3 : Nat) - 8⟩, ⟨8 * (3 : Nat) - 16, 8⟩, 0⟩,
       some ⟨"p", ⟨0, 0⟩, ⟨8, 8⟩, 0⟩,
       some ⟨"p", ⟨0 + 8 * (3 : Nat) - 8, 0⟩, ⟨8, 8⟩, 0⟩,
       some ⟨"p", ⟨0, 0 + 8 * (3 : Nat) - 8⟩, ⟨8, 8⟩, 0⟩,
       some ⟨"p", ⟨0 + 8 * (3 : Nat) - 8, 0 + 8 * (3 : Nat) - 8⟩, ⟨8, 8⟩, 0⟩] :=
  ⟨rfl, rfl, rfl,
    inner_region_tiles (tiler_of (tileset_8x8 true) [QRect.ofXYWH 0 0 24 24]) 0 0 3 3 ⟨0, 0⟩
      rfl (by decide) (by decide) (by decide) (by decide) rfl (fun _ _ => ⟨rfl, rfl⟩)
      (fun kind hk => by cases kind <;> first | rfl | exact absurd rfl hk) rfl rfl⟩

/-- C15, amended. For every single region of `nx` by `ny` cells at a
cell-aligned position, with `nx` and `ny` at least 2 in outer mode and at
least 3 in inner mode (`2 + mode_offset`), a border set whose 12 patterns are
mapped, exist and are 8x8, and no tile left from an earlier call,
`generate_border_tiles` returns exactly 8 tiles: the 4 side tiles (top, left,
right, bottom; the horizontal ones of height 8, the vertical ones of width 8,
as long as the run between the corners) then the 4 convex corner tiles, of
size 8x8. -/
theorem region_sides_and_corners (t : AutoTiler) (x0 y0 : Int) (nx ny : Nat)
    (first : EntityIndex)
    (hr : t.entity_rectangles = [QRect.ofXYWH x0 y0 (8 * nx) (8 * ny)])
    (hx : 8 ∣ x0) (hy : 8 ∣ y0) (hnx : 2 + t.mode_offset ≤ nx) (hny : 2 + t.mode_offset ≤ ny)
    (hp : t.patterns_8x8) (hm : t.all_mapped)
    (hfirst : t.entity_indexes.head? = some first) (ht : t.tiles = []) :
    ∃ p1 p2 p3 p4 p5 p6 p7 p8 : QPoint, t.emitted = some
      [some ⟨t.pattern_of BorderKind.TOP, p1, ⟨8 * (nx - 2 * t.mode_offset), 8⟩, first.layer⟩,
       some ⟨t.pattern_of BorderKind.LEFT, p2, ⟨8, 8 * (ny - 2 * t.mode_offset)⟩, first.layer⟩,
       some ⟨t.pattern_of BorderKind.RIGHT, p3, ⟨8, 8 * (ny - 2 * t.mode_offset)⟩, first.layer⟩,
       some ⟨t.pattern_of BorderKind.BOTTOM, p4, ⟨8 * (nx - 2 * t.mode_offset), 8⟩,
        first.layer⟩,
       some ⟨t.pattern_of BorderKind.TOP_LEFT_CONVEX, p5, ⟨8, 8⟩, first.layer⟩,
       some ⟨t.pattern_of BorderKind.TOP_RIGHT_CONVEX, p6, ⟨8, 8⟩, first.layer⟩,
       some ⟨t.pattern_of BorderKind.BOTTOM_LEFT_CONVEX, p7, ⟨8, 8⟩, first.layer⟩,
       some ⟨t.pattern_of BorderKind.BOTTOM_RIGHT_CONVEX, p8, ⟨8, 8⟩, first.layer⟩] := by
  have ha := mode_offset_range t
  obtain ⟨u, hu⟩ := single_region_output t x0 y0 nx ny first hr (by omega) (by omega)
    (by omega) (by omega) hp hm hfirst ht
  have he := emitted_of_generate t u _ _ _ hu
  have e3 : ((nx : Int) + 1 - t.mode_offset - t.mode_offset - 1) * 8 =
      8 * (nx - 2 * t.mode_offset) := by ring
  have e6 : ((ny : Int) + 1 - t.mode_offset - t.mode_offset - 1) * 8 =
      8 * (ny - 2 * t.mode_offset) := by ring
  rw [e3, e6] at he
  exact ⟨_, _, _, _, _, _, _, _, he⟩

theorem region_sides_and_corners_witness :
    (tiler_of (tileset_8x8 false) [QRect.ofXYWH 0 0 16 16]).entity_rectangles =
      [QRect.ofXYWH 0 0 (8 * (2 : Nat)) (8 * (2 : Nat))] ∧
    (tiler_of (tileset_8x8 false) [QRect.ofXYWH 0 0 16 16]).mode_offset = 0 ∧
    (tiler_of (tileset_8x8 false) [QRect.ofXYWH 0 0 16 16]).tiles = [] ∧
    ∃ p1 p2 p3 p4 p5 p6 p7 p8 : QPoint,
      (tiler_of (tileset_8x8 false) [QRect.ofXYWH 0 0 16 16]).emitted = some
        [some ⟨"p", p1, ⟨8 * ((2 : Nat) - 2 * 0), 8⟩, 0⟩,
         some ⟨"p", p2, ⟨8, 8 * ((2 : Nat) - 2 * 0)⟩, 0⟩,
         some ⟨"p", p3, ⟨8, 8 * ((2 : Nat) - 2 * 0)⟩, 0⟩,
         some ⟨"p", p4, ⟨8 * ((2 : Nat) - 2 * 0), 8⟩, 0⟩,
         some ⟨"p", p5, ⟨8, 8⟩, 0⟩, some ⟨"p", p6, ⟨8, 8⟩, 0⟩,
         some ⟨"p", p7, ⟨8, 8⟩, 0⟩, some ⟨"p", p8, ⟨8, 8⟩, 0⟩] :=
  ⟨rfl, rfl, rfl,
    region_sides_and_corners (tiler_of (tileset_8x8 false) [QRect.ofXYWH 0 0 16 16]) 0 0 2 2
      ⟨0, 0⟩ rfl (by decide) (by decide) (by decide) (by decide) (fun _ _ => ⟨rfl, rfl⟩)
      (fun kind hk => by cases kind <;> first | rfl | exact absurd rfl hk) rfl rfl⟩

end AutoTiler

/-! ### The traversal of the perimeter of a rectangle -/

theorem side_windows_eq_range (n : Nat) (step cell_0 : Int) :
    AutoTiler.side_windows n step cell_0 =
      (List.range n).map fun (i : Nat) => cell_0 + (i : Int) * step := by
  induction n generalizing cell_0 with
  | zero => rfl
  | succ n ih =>
    rw [AutoTiler.side_windows, ih, List.range_succ_eq_map, List.map_cons, List.map_map]
    congr 1
    · simp
    · apply List.map_congr_left
      intro i _
      simp only [Function.comp_apply]
      push_cast
      ring

theorem side_windows_length (n : Nat) (step cell_0 : Int) :
    (AutoTiler.side_windows n step cell_0).length = n := by
  rw [side_windows_eq_range, List.length_map, List.length_range]

namespace AutoTiler

/-- C21. For every rectangle of `nx = width / 8` by `ny = height / 8` cells,
`compute_borders` applies `detect_border_info` to exactly `2 * (nx + ny)`
windows, clockwise from the window one cell above and to the left of the
top-left cell of the rectangle: `nx` windows to the right along the top edge,
`ny` windows down the right edge, `nx` windows to the left along the bottom
edge and `ny` windows up the left edge, the origin of the window moving by one
cell at each step; and `compute_borders` does so for the rectangles in turn,
from the empty border map. -/
theorem perimeter_traversal (t : AutoTiler) (rectangle : QRect) (nx ny : Nat)
    (hw : Int.tdiv rectangle.width 8 = nx) (hh : Int.tdiv rectangle.height 8 = ny) :
    t.compute_borders =
      (t.entity_rectangles.flatMap t.rectangle_windows).foldlM detect_border_info
        { t with which_borders := [] } ∧
    t.detect_rectangle rectangle =
      (t.rectangle_windows rectangle).foldlM detect_border_info t ∧
    (t.rectangle_windows rectangle).length = 2 * (nx + ny) ∧
    t.rectangle_windows rectangle =
      ((List.range nx).map fun (i : Nat) =>
        t.to_grid_index rectangle.topLeft - 1 - t.grid_size.wd + (i : Int)) ++
      ((List.range ny).map fun (j : Nat) =>
        t.to_grid_index rectangle.topLeft - 1 - t.grid_size.wd + nx +
          (j : Int) * t.grid_size.wd) ++
      ((List.range nx).map fun (i : Nat) =>
        t.to_grid_index rectangle.topLeft - 1 - t.grid_size.wd + nx + ny * t.grid_size.wd -
          (i : Int)) ++
      ((List.range ny).map fun (j : Nat) =>
        t.to_grid_index rectangle.topLeft - 1 - t.grid_size.wd + ny * t.grid_size.wd -
          (j : Int) * t.grid_size.wd) := by
  have e : t.rectangle_windows rectangle =
      side_windows nx 1 (t.to_grid_index rectangle.topLeft - 1 - t.grid_size.wd) ++
      side_windows ny t.grid_size.wd
        (t.to_grid_index rectangle.topLeft - 1 - t.grid_size.wd + nx) ++
      side_windows nx (-1)
        (t.to_grid_index rectangle.topLeft - 1 - t.grid_size.wd + nx + ny * t.grid_size.wd) ++
      side_windows ny (-t.grid_size.wd)
        (t.to_grid_index rectangle.topLeft - 1 - t.grid_size.wd + ny * t.grid_size.wd) := by
    have e1 : ∀ a : Int, a + (nx : Int) * 1 = a + nx := fun a => by ring
    have e3 : ∀ a : Int, a + (nx : Int) + (ny : Int) * t.grid_size.wd + (nx : Int) * (-1) =
        a + (ny : Int) * t.grid_size.wd := fun a => by ring
    unfold rectangle_windows
    simp only [hw, hh, Int.toNat_ofNat, e1, e3]
  refine ⟨compute_borders_eq t, detect_rectangle_eq t rectangle, ?_, ?_⟩
  · rw [e]
    simp only [List.length_append, side_windows_length]
    omega
  · rw [e]
    simp only [side_windows_eq_range]
    congr 1
    · congr 1
      · congr 1
        · apply List.map_congr_left
          intro i _
          ring
      · apply List.map_congr_left
        intro i _
        ring
    · apply List.map_congr_left
      intro i _
      ring

theorem perimeter_traversal_witness :
    Int.tdiv (QRect.ofXYWH 0 0 16 8).width 8 = (2 : Nat) ∧
    Int.tdiv (QRect.ofXYWH 0 0 16 8).height 8 = (1 : Nat) ∧
    (grid_4x4 false).rectangle_windows (QRect.ofXYWH 0 0 16 8) = [0, 1, 2, 6, 5, 4] :=
  ⟨by decide, by decide,
    ((perimeter_traversal (grid_4x4 false) (QRect.ofXYWH 0 0 16 8) 2 1 (by decide)
      (by decide)).2.2.2).trans (by decide)⟩

end AutoTiler

/-! ### Coordinate round trip -/

namespace AutoTiler

/-- C30. In a grid of positive width, `to_grid_index (to_map_xy i) = i` for
every cell index `i` of the grid; and when the grid is that of the bounding
box (its size is the size of the box divided by 8, the width of the box being
a multiple of 8 as in the domain of the specification),
`to_map_xy (to_grid_index p) = p` for every point `p` inside the bounding box
whose offsets from the origin of the grid are multiples of 8. -/
theorem coordinate_round_trip (t : AutoTiler) (hgw : 0 < t.grid_size.wd) :
    (∀ i : Int, 0 ≤ i → i < t.grid_size.wd * t.grid_size.ht →
      (t.to_map_xy i).map t.to_grid_index = some i) ∧
    (t.grid_size = t.bounding_box.size.div 8 → 8 ∣ t.bounding_box.width →
      ∀ p : QPoint, t.bounding_box.x1 ≤ p.xp → p.xp ≤ t.bounding_box.x2 →
        t.bounding_box.y1 ≤ p.yp → p.yp ≤ t.bounding_box.y2 →
        8 ∣ p.xp - t.bounding_box.x → 8 ∣ p.yp - t.bounding_box.y →
        t.to_map_xy (t.to_grid_index p) = some p) := by
  constructor
  · intro i _ _
    unfold to_map_xy
    rw [if_neg (by omega)]
    simp only [Option.map_some', Option.some.injEq]
    unfold to_grid_index
    simp only
    have e1 : Int.tmod i t.grid_size.wd * 8 + t.bounding_box.x - t.bounding_box.x =
        8 * Int.tmod i t.grid_size.wd := by ring
    have e2 : Int.tdiv i t.grid_size.wd * 8 + t.bounding_box.y - t.bounding_box.y =
        8 * Int.tdiv i t.grid_size.wd := by ring
    rw [e1, e2, tdiv_eight_mul, tdiv_eight_mul]
    have := Int.tmod_add_tdiv i t.grid_size.wd
    linarith
  · intro hgs hw p hx1 hx2 hy1 hy2 hdx hdy
    obtain ⟨a, ha⟩ := hdx
    obtain ⟨b, hb⟩ := hdy
    obtain ⟨w, hw⟩ := hw
    have hwd : t.grid_size.wd = w := by
      rw [hgs]
      show qRoundDiv t.bounding_box.width 8 = w
      rw [hw, qRoundDiv_eight_mul]
    unfold QRect.width at hw
    unfold QRect.x at ha
    unfold QRect.y at hb
    have hp : p = ⟨t.bounding_box.x1 + 8 * a, t.bounding_box.y1 + 8 * b⟩ := by
      cases p
      simp only [QPoint.mk.injEq] at *
      constructor <;> omega
    rw [hp, to_grid_index_of_row_col, to_map_xy_of_row_col t b a (by rw [hp] at hy1; simp at hy1; omega)
      (by rw [hp] at hx1; simp at hx1; omega) (by rw [hp] at hx2; simp at hx2; omega)]
    congr 2 <;> ring

theorem coordinate_round_trip_witness :
    (0 : Int) < (grid_3x3 true).grid_size.wd ∧
    (grid_3x3 true).grid_size = (grid_3x3 true).bounding_box.size.div 8 ∧
    ((grid_3x3 true).to_map_xy 5).map (grid_3x3 true).to_grid_index = some 5 ∧
    (grid_3x3 true).to_map_xy ((grid_3x3 true).to_grid_index ⟨8, 0⟩) = some ⟨8, 0⟩ :=
  ⟨by decide, by decide,
    (coordinate_round_trip (grid_3x3 true) (by decide)).1 5 (by decide) (by decide),
    (coordinate_round_trip (grid_3x3 true) (by decide)).2 (by decide) (by decide) ⟨8, 0⟩
      (by decide) (by decide) (by decide) (by decide) (by decide) (by decide)⟩

end AutoTiler

/-! ### The end of a side run: compensation and rounding -/

namespace AutoTiler

/-- The body of `finish_run` when both ends of the run hold corners: `e1` and
`e2` are the numbers of cells removed because of the corner before and after
the run. -/
theorem finish_run_unfold (t : AutoTiler) (thick : BorderKind → Bool) (along : QSize → Int)
    (step : Int) (which_border corner_1 corner_2 : BorderKind) (start_index n e1 e2 : Int)
    (hc1 : is_corner_border corner_1 = true) (hc2 : is_corner_border corner_2 = true)
    (h1 : if thick corner_1 = true then
        ∃ s, t.get_pattern_size corner_1 = some s ∧ e1 = Int.tdiv (along s) 8 - 1
      else e1 = 0)
    (h2 : if thick corner_2 = true then
        ∃ s, t.get_pattern_size corner_2 = some s ∧ e2 = Int.tdiv (along s) 8 - 1
      else e2 = 0) :
    finish_run t thick along step which_border corner_1 corner_2 start_index n =
      if n - e1 - e2 > 0 then
        (t.get_pattern_size which_border).bind fun pattern_size =>
          if Int.tdiv (along pattern_size) 8 = 0 then none
          else if Int.tmod (n - e1 - e2) (Int.tdiv (along pattern_size) 8) ≠ 0 then
            t.make_tile which_border
              (if is_concave_corner_border corner_1 then
                start_index + e1 * step -
                  (Int.tdiv (along pattern_size) 8 -
                    Int.tmod (n - e1 - e2) (Int.tdiv (along pattern_size) 8)) * step
              else start_index + e1 * step)
              (n - e1 - e2 + (Int.tdiv (along pattern_size) 8 -
                Int.tmod (n - e1 - e2) (Int.tdiv (along pattern_size) 8)))
          else t.make_tile which_border (start_index + e1 * step) (n - e1 - e2)
      else some t := by
  unfold finish_run
  rw [if_neg (not_not.2 ⟨hc1, hc2⟩)]
  by_cases t1 : thick corner_1 = true
  · rw [if_pos t1] at h1
    obtain ⟨s1, hs1, rfl⟩ := h1
    by_cases t2 : thick corner_2 = true
    · rw [if_pos t2] at h2
      obtain ⟨s2, hs2, rfl⟩ := h2
      simp only [t1, t2, if_true, hs1, hs2, Option.map_some', Option.some_bind]
    · rw [if_neg t2] at h2
      subst h2
      simp only [t1, t2, if_true, hs1, Option.map_some', Option.some_bind, sub_zero,
        Bool.false_eq_true, if_false]
  · rw [if_neg t1] at h1
    subst h1
    by_cases t2 : thick corner_2 = true
    · rw [if_pos t2] at h2
      obtain ⟨s2, hs2, rfl⟩ := h2
      simp only [t1, t2, if_true, hs2, Option.map_some', Option.some_bind, sub_zero,
        Bool.false_eq_true, if_false, zero_mul, add_zero]
    · rw [if_neg t2] at h2
      subst h2
      simp only [t1, t2, Option.some_bind, sub_zero, Bool.false_eq_true, if_false, zero_mul,
        add_zero]

end AutoTiler

namespace AutoTiler

theorem finish_run_plain (t : AutoTiler) (along : QSize → Int)
    (step : Int) (which_border corner_1 corner_2 : BorderKind) (start_index n : Int)
    (hc1 : is_corner_border corner_1 = true) (hc2 : is_corner_border corner_2 = true) :
    finish_run t (fun _ => false) along step which_border corner_1 corner_2 start_index n =
      if n > 0 then
        (t.get_pattern_size which_border).bind fun pattern_size =>
          if Int.tdiv (along pattern_size) 8 = 0 then none
          else if Int.tmod n (Int.tdiv (along pattern_size) 8) ≠ 0 then
            t.make_tile which_border
              (if is_concave_corner_border corner_1 then
                start_index -
                  (Int.tdiv (along pattern_size) 8 -
                    Int.tmod n (Int.tdiv (along pattern_size) 8)) * step
              else start_index)
              (n + (Int.tdiv (along pattern_size) 8 -
                Int.tmod n (Int.tdiv (along pattern_size) 8)))
          else t.make_tile which_border start_index n
      else some t := by
  have h := finish_run_unfold t (fun _ => false) along step which_border corner_1 corner_2
    start_index n 0 0 hc1 hc2 (by simp) (by simp)
  simpa using h

end AutoTiler

/-! ### The translation of thick sides -/

namespace AutoTiler

/-- The step of the side loop at an entry that holds a mapped side kind, as
the sequence of its steps: the kind before the run, the counting loop, the
kind after the run and the end of the run from the translated start. -/
theorem side_tile_steps (sv sh : BorderKind) (thick : BorderKind → Bool) (t : AutoTiler)
    (k : Int) (wb : BorderKind) (shifted_index : Int)
    (hkey : map_find t.which_borders k = some wb) (hg : t.grid_size.wd ≠ 0)
    (hs : is_side_border wb = true) (hin : t.in_grid k)
    (hh : t.get_tileset.has_border_set_pattern t.border_set_id wb = true)
    (hsi : t.shifted_start sv sh wb k = some shifted_index) :
    side_tile sv sh thick t k =
      ((t.with_border k BorderKind.NONE).get_which_border (k - t.run_step wb)).bind
        fun corner_1 =>
      (count_run wb (t.run_step wb) (t.run_steps wb k)
        (t.with_border k BorderKind.NONE) k 1).bind fun r =>
      (r.1.get_which_border r.2.1).bind fun corner_2 =>
      finish_run r.1 thick (along_run wb) (t.run_step wb) wb corner_1 corner_2
        shifted_index r.2.2 := by
  have hb : t.border_at k = wb := map_find_border_at t k wb hkey
  have hnone : ∀ (P : Prop), (∀ u, side_tile sv sh thick t k = some u → P → False) → P →
      side_tile sv sh thick t k = none := by
    intro P h hP
    cases e : side_tile sv sh thick t k with
    | none => rfl
    | some u => exact absurd hP (fun hp => h u e hp)
  have hsome : ∀ u, side_tile sv sh thick t k = some u →
      ∃ (corner_1 corner_2 : BorderKind) (r : AutoTiler × Int × Int),
        (t.with_border k BorderKind.NONE).get_which_border (k - t.run_step wb) =
          some corner_1 ∧
        count_run wb (t.run_step wb) (t.run_steps wb k)
          (t.with_border k BorderKind.NONE) k 1 = some r ∧
        r.1.get_which_border r.2.1 = some corner_2 := by
    intro u hu
    obtain ⟨-, -, h1⟩ := side_tile_some sv sh thick t u k hu
    rw [hb] at h1
    rcases h1 with ⟨h1, -⟩ | ⟨-, -, h2⟩
    · rw [hs] at h1; cases h1
    rcases h2 with ⟨h2, -⟩ | ⟨-, c1, c2, si, r, a1, -, a3, a4, -⟩
    · rw [hh] at h2; cases h2
    exact ⟨c1, c2, r, a1, a3, a4⟩
  cases hc1 : (t.with_border k BorderKind.NONE).get_which_border (k - t.run_step wb) with
  | none =>
    rw [Option.none_bind]
    apply hnone True _ trivial
    intro u hu _
    obtain ⟨c1, c2, r, a1, -, -⟩ := hsome u hu
    rw [hc1] at a1
    cases a1
  | some corner_1 =>
    rw [Option.some_bind]
    cases hr : count_run wb (t.run_step wb) (t.run_steps wb k)
        (t.with_border k BorderKind.NONE) k 1 with
    | none =>
      rw [Option.none_bind]
      apply hnone True _ trivial
      intro u hu _
      obtain ⟨c1, c2, r, -, a3, -⟩ := hsome u hu
      rw [hr] at a3
      cases a3
    | some r =>
      rw [Option.some_bind]
      cases hc2 : r.1.get_which_border r.2.1 with
      | none =>
        rw [Option.none_bind]
        apply hnone True _ trivial
        intro u hu _
        obtain ⟨c1, c2, r2, -, a3, a4⟩ := hsome u hu
        rw [hr] at a3
        cases a3
        rw [hc2] at a4
        cases a4
      | some corner_2 =>
        rw [Option.some_bind]
        exact side_tile_of_steps sv sh thick t k wb corner_1 corner_2 shifted_index r hkey hg
          hs hin hh hc1 hsi hr hc2

end AutoTiler

namespace AutoTiler

/-- C24, counterexample. Outer mode, one region (0, 0, 32, 32), all patterns
16x16 (two cells thick): the RIGHT tile starts at x = 32, the first column to
the right of the region, and the BOTTOM tile at y = 32: they are not
translated, while the LEFT tile (x = -16) and the TOP tile (y = -16) are
translated by one cell away from the region. -/
theorem outer_shift_counterexample :
    (tiler_of (tileset_16x16 false) [QRect.ofXYWH 0 0 32 32]).emitted =
      some [some ⟨"top", ⟨0, -16⟩, ⟨32, 16⟩, 0⟩, some ⟨"left", ⟨-16, 0⟩, ⟨16, 32⟩, 0⟩,
        some ⟨"right", ⟨32, 0⟩, ⟨16, 32⟩, 0⟩, some ⟨"bottom", ⟨0, 32⟩, ⟨32, 16⟩, 0⟩,
        some ⟨"corner", ⟨-16, -16⟩, ⟨16, 16⟩, 0⟩, some ⟨"corner", ⟨32, -16⟩, ⟨16, 16⟩, 0⟩,
        some ⟨"corner", ⟨-16, 32⟩, ⟨16, 16⟩, 0⟩, some ⟨"corner", ⟨32, 32⟩, ⟨16, 16⟩, 0⟩] ∧
    ((tiler_of (tileset_16x16 false) [QRect.ofXYWH 0 0 32 32]).classify.map fun g =>
      (g.grid_size, g.bounding_box.topLeft, map_find g.which_borders 22,
        g.to_map_xy 22, g.to_map_xy (22 - (Int.tdiv 16 8 - 1)))) =
      some (⟨8, 8⟩, ⟨-16, -16⟩, some BorderKind.RIGHT, some ⟨32, 0⟩, some ⟨24, 0⟩) := by
  refine ⟨by decide!, by decide!⟩

end AutoTiler

/-! ### The corner loop -/

theorem option_eq_some_getD {α : Type} (o : Option α) (d : α) (h : o.isSome = true) :
    o = some (o.getD d) := by
  cases o with
  | none => cases h
  | some a => rfl

namespace AutoTiler

/-- The step of the corner loop at an entry whose kind is `NONE`, or is not
mapped, or is mapped to a pattern that does not exist: nothing is done. -/
theorem corner_tile_skip (sx sy : BorderKind → Bool) (v : AutoTiler) (k : Int)
    (hsx : sx BorderKind.NONE = false) (hsy : sy BorderKind.NONE = false)
    (hk : k ∈ v.border_keys) (hg : v.grid_size.wd ≠ 0)
    (hsz : ∀ kind, kind ≠ BorderKind.NONE → ∃ size, v.get_pattern_size kind = some size)
    (h : ¬ (v.border_at k ≠ BorderKind.NONE ∧
      v.get_tileset.has_border_set_pattern v.border_set_id (v.border_at k) = true ∧
      v.get_tileset.pattern_exists (v.pattern_of (v.border_at k)) = true)) :
    corner_tile sx sy v k = some v := by
  by_cases hn : v.border_at k = BorderKind.NONE
  · exact corner_tile_none sx sy v k hsx hsy hk hn
  have hkey := map_find_of_key v k hk
  unfold corner_tile
  rw [hkey]
  simp only
  by_cases hh : v.get_tileset.has_border_set_pattern v.border_set_id (v.border_at k) = true
  swap
  · rw [if_pos hh]
  rw [if_neg (not_not.2 hh)]
  have hex : v.get_tileset.pattern_exists
      (v.get_tileset.get_border_set_pattern v.border_set_id (v.border_at k)) = false := by
    have := fun e => h ⟨hn, hh, e⟩
    simpa [pattern_of] using this
  have hmt : ∀ c, v.make_tile (v.border_at k) c 1 = some v := by
    intro c
    unfold make_tile
    rw [if_neg hn, if_neg (by decide)]
    unfold to_map_xy
    rw [if_neg hg]
    simp only [hex, Bool.false_eq_true, not_false_eq_true, if_true]
  obtain ⟨size, hsize⟩ := hsz _ hn
  rw [hsize]
  split <;> split <;> simp only [Option.map_some', Option.some_bind, hmt]

/-- The step of the corner loop at an entry that holds a corner kind mapped
to an existing pattern whose size is the recorded one: one tile of the size
of the pattern, at the translated cell. -/
theorem corner_tile_emit (sx sy : BorderKind → Bool) (v : AutoTiler) (k : Int)
    (first : EntityIndex) (xy : QPoint)
    (hk : k ∈ v.border_keys) (hns : is_side_border (v.border_at k) = false)
    (hn : v.border_at k ≠ BorderKind.NONE)
    (hh : v.get_tileset.has_border_set_pattern v.border_set_id (v.border_at k) = true)
    (hex : v.get_tileset.pattern_exists (v.pattern_of (v.border_at k)) = true)
    (hfirst : v.entity_indexes.head? = some first)
    (hsz : v.get_pattern_size (v.border_at k) =
      some (v.get_tileset.pattern_frame_size (v.pattern_of (v.border_at k))))
    (hne : (v.get_tileset.pattern_frame_size (v.pattern_of (v.border_at k))).isEmpty = false)
    (hxy : v.to_map_xy (k -
      (if sx (v.border_at k) = true then
        Int.tdiv (v.get_tileset.pattern_frame_size (v.pattern_of (v.border_at k))).wd 8 - 1
      else 0) -
      (if sy (v.border_at k) = true then
        (Int.tdiv (v.get_tileset.pattern_frame_size (v.pattern_of (v.border_at k))).ht 8
          - 1) * v.grid_size.wd
      else 0)) = some xy) :
    corner_tile sx sy v k =
      some { v with tiles := v.tiles ++
        [some ⟨v.pattern_of (v.border_at k), xy,
          v.get_tileset.pattern_frame_size (v.pattern_of (v.border_at k)), first.layer⟩] } := by
  have hkey := map_find_of_key v k hk
  have hsize : tile_size (v.border_at k)
      (v.get_tileset.pattern_frame_size (v.pattern_of (v.border_at k))) 1 =
      v.get_tileset.pattern_frame_size (v.pattern_of (v.border_at k)) := by
    generalize v.get_tileset.pattern_frame_size (v.pattern_of (v.border_at k)) = sz
    generalize v.border_at k = kind at hn hns
    cases kind <;> first | rfl | exact absurd rfl hn | (exact absurd hns (by decide))
  unfold corner_tile
  rw [hkey]
  simp only
  rw [if_neg (not_not.2 hh), hsz]
  by_cases hx : sx (v.border_at k) = true <;> by_cases hy : sy (v.border_at k) = true
  all_goals
    simp only [hx, hy, if_true, if_false, Bool.false_eq_true, Option.map_some',
      Option.some_bind, sub_zero] at hxy ⊢
    rw [make_tile_eq v _ _ 1 xy first hn (by decide) hxy hfirst hex hne, hsize]

/-- The step of the corner loop at an entry that holds no side kind, when the
recorded pattern sizes are those of the tileset: it appends the tile of the
entry, if any, and changes nothing else. `sx` and `sy` select the kinds
translated to the left and to the top. -/
theorem corner_tile_step (sx sy : BorderKind → Bool) (v : AutoTiler) (k : Int)
    (first : EntityIndex) (hsx : sx BorderKind.NONE = false) (hsy : sy BorderKind.NONE = false)
    (hk : k ∈ v.border_keys) (hns : is_side_border (v.border_at k) = false)
    (hg : v.grid_size.wd ≠ 0) (hfirst : v.entity_indexes.head? = some first)
    (hsz : ∀ kind, kind ≠ BorderKind.NONE → v.get_pattern_size kind =
      some (if v.get_tileset.pattern_exists (v.pattern_of kind) then
        v.get_tileset.pattern_frame_size (v.pattern_of kind) else QSize.invalid))
    (hne : ∀ kind, v.get_tileset.pattern_exists (v.pattern_of kind) = true →
      (v.get_tileset.pattern_frame_size (v.pattern_of kind)).isEmpty = false) :
    ∃ u, corner_tile sx sy v k = some u ∧ same_frame v u ∧
      u.which_borders = v.which_borders ∧
      u.tiles = v.tiles ++
        ((if v.border_at k ≠ BorderKind.NONE ∧
            v.get_tileset.has_border_set_pattern v.border_set_id (v.border_at k) = true ∧
            v.get_tileset.pattern_exists (v.pattern_of (v.border_at k)) = true then
          (v.to_map_xy (k -
            (if sx (v.border_at k) = true then
              Int.tdiv (v.get_tileset.pattern_frame_size (v.pattern_of (v.border_at k))).wd 8 - 1
            else 0) -
            (if sy (v.border_at k) = true then
              (Int.tdiv (v.get_tileset.pattern_frame_size (v.pattern_of (v.border_at k))).ht 8
                - 1) * v.grid_size.wd
            else 0))).map fun xy =>
              (⟨v.pattern_of (v.border_at k), xy,
                v.get_tileset.pattern_frame_size (v.pattern_of (v.border_at k)),
                first.layer⟩ : Tile)
        else none).toList.map some) := by
  by_cases h : v.border_at k ≠ BorderKind.NONE ∧
      v.get_tileset.has_border_set_pattern v.border_set_id (v.border_at k) = true ∧
      v.get_tileset.pattern_exists (v.pattern_of (v.border_at k)) = true
  · rw [if_pos h]
    obtain ⟨hn, hh, hex⟩ := h
    have hxy : ∀ c, ∃ xy, v.to_map_xy c = some xy := by
      intro c
      unfold to_map_xy
      rw [if_neg hg]
      exact ⟨_, rfl⟩
    obtain ⟨xy, hc⟩ := hxy (k -
      (if sx (v.border_at k) = true then
        Int.tdiv (v.get_tileset.pattern_frame_size (v.pattern_of (v.border_at k))).wd 8 - 1
      else 0) -
      (if sy (v.border_at k) = true then
        (Int.tdiv (v.get_tileset.pattern_frame_size (v.pattern_of (v.border_at k))).ht 8
          - 1) * v.grid_size.wd
      else 0))
    refine ⟨_, corner_tile_emit sx sy v k first xy hk hns hn hh hex hfirst
      (by rw [hsz _ hn, if_pos hex]) (hne _ hex) hc, same_frame_tiles _ _, rfl, ?_⟩
    rw [hc]
    rfl
  · rw [if_neg h]
    exact ⟨v, corner_tile_skip sx sy v k hsx hsy hk hg (fun kind hkn => ⟨_, hsz kind hkn⟩) h,
      same_frame_refl v, rfl, by simp⟩

/-- The corner loop over a list of keys that hold no side kind: the tiles
appended are those of the keys, in order. `tile_at` gives the tile of each
step. -/
theorem corner_fold_tiles (f : AutoTiler → Int → Option AutoTiler) (s : AutoTiler)
    (tile_at : Int → Option Tile) (l : List Int)
    (hstep : ∀ v k, same_frame s v → v.which_borders = s.which_borders → k ∈ l →
      ∃ u, f v k = some u ∧ same_frame v u ∧ u.which_borders = v.which_borders ∧
        u.tiles = v.tiles ++ (tile_at k).toList.map some)
    (v : AutoTiler) (hv : same_frame s v) (hw : v.which_borders = s.which_borders) :
    ∃ c, l.foldlM f v = some c ∧ same_frame v c ∧ c.which_borders = v.which_borders ∧
      c.tiles = v.tiles ++ (l.filterMap tile_at).map some := by
  induction l generalizing v with
  | nil => exact ⟨v, rfl, same_frame_refl v, rfl, by simp⟩
  | cons k rest ih =>
    obtain ⟨u, hu, f1, w1, t1⟩ := hstep v k hv hw (List.mem_cons_self _ _)
    obtain ⟨c, hc, f2, w2, t2⟩ := ih
      (fun v2 k2 a b hk2 => hstep v2 k2 a b (List.mem_cons_of_mem _ hk2)) u
      (same_frame_trans _ _ _ hv f1) (w1.trans hw)
    refine ⟨c, ?_, same_frame_trans _ _ _ f1 f2, w2.trans w1, ?_⟩
    · simp only [List.foldlM, Option.bind_eq_bind, hu, Option.some_bind]
      exact hc
    · rw [t2, t1, List.append_assoc]
      congr 1
      cases h : tile_at k with
      | none => simp [List.filterMap_cons, h]
      | some x => simp [List.filterMap_cons, h]

end AutoTiler

namespace AutoTiler

theorem eq_with_tiles (s v : AutoTiler) (hf : same_frame s v)
    (hw : v.which_borders = s.which_borders) : v = { s with tiles := v.tiles } := by
  obtain ⟨a1, a2, a3, a4, a5, a6, a7, a8⟩ := hf
  cases s
  cases v
  simp only at a1 a2 a3 a4 a5 a6 a7 a8 hw
  subst a1 a2 a3 a4 a5 a6 a7 a8 hw
  rfl

theorem border_at_of_not_key (t : AutoTiler) (c : Int) (h : c ∉ t.border_keys) :
    t.border_at c = BorderKind.NONE := by
  by_contra hn
  exact h (mem_keys_of_border_at t c hn)

/-- The tile of `spec_corner_tile` at a cell that holds no side kind, in
terms of the selections `sx` and `sy` of the corner loop of the mode. -/
theorem spec_corner_tile_eq (s : AutoTiler) (layer : Int) (k : Int) (sx sy : BorderKind → Bool)
    (hns : is_side_border (s.border_at k) = false)
    (hsx : ∀ kind, is_corner_border kind = true → sx kind =
      if s.get_tileset.is_border_set_inner s.border_set_id then is_right_corner kind
      else is_left_corner kind)
    (hsy : ∀ kind, is_corner_border kind = true → sy kind =
      if s.get_tileset.is_border_set_inner s.border_set_id then is_bottom_corner kind
      else is_top_corner kind) :
    s.spec_corner_tile layer k =
      if s.border_at k ≠ BorderKind.NONE ∧
          s.get_tileset.has_border_set_pattern s.border_set_id (s.border_at k) = true ∧
          s.get_tileset.pattern_exists (s.pattern_of (s.border_at k)) = true then
        (s.to_map_xy (k -
          (if sx (s.border_at k) = true then
            Int.tdiv (s.get_tileset.pattern_frame_size (s.pattern_of (s.border_at k))).wd 8 - 1
          else 0) -
          (if sy (s.border_at k) = true then
            (Int.tdiv (s.get_tileset.pattern_frame_size (s.pattern_of (s.border_at k))).ht 8
              - 1) * s.grid_size.wd
          else 0))).map fun xy =>
            (⟨s.pattern_of (s.border_at k), xy,
              s.get_tileset.pattern_frame_size (s.pattern_of (s.border_at k)), layer⟩ : Tile)
      else none := by
  have hc : is_corner_border (s.border_at k) = true ↔ s.border_at k ≠ BorderKind.NONE := by
    unfold is_corner_border
    rw [hns]
    simp
  unfold spec_corner_tile pattern_of
  simp only
  by_cases h : s.border_at k ≠ BorderKind.NONE
  · have h2 := hc.2 h
    rw [hsx _ h2, hsy _ h2]
    simp only [h2, h, true_and, ne_eq, not_false_eq_true]
  · have h2 : ¬ is_corner_border (s.border_at k) = true := fun e => h (hc.1 e)
    rw [if_neg (fun e => h2 e.1), if_neg (fun e => h e.1)]

end AutoTiler

/-! ### The cells that receive a border -/

namespace AutoTiler

/-- Every assignment of the rule table targets an occupied cell of its
window in inner mode and an unoccupied cell in outer mode. -/
theorem window_assignments_occupancy (t : AutoTiler) (w : Int) (a : Int × BorderKind)
    (h : a ∈ t.window_assignments w) :
    t.is_cell_occupied a.1 = some (t.get_tileset.is_border_set_inner t.border_set_id) := by
  unfold window_assignments rules_at mask_at at h
  cases hm : t.get_four_cells_mask w with
  | none =>
    rw [hm] at h
    simp [inner_rules, outer_rules] at h
  | some m =>
    obtain ⟨tl, tr, bl, br, e0, e1, e2, e3, rfl⟩ := four_cells_mask_some t w m hm
    rw [hm] at h
    simp only [Option.getD_some] at h
    cases hi : t.get_tileset.is_border_set_inner t.border_set_id
    all_goals
      rw [hi] at h
      cases tl <;> cases tr <;> cases bl <;> cases br
      all_goals
        simp only [window_mask, Bool.toNat_false, Bool.toNat_true, Nat.mul_zero, Nat.mul_one,
          Nat.add_zero, Nat.zero_add, Nat.reduceAdd, inner_rules, outer_rules, if_true,
          Bool.false_eq_true, if_false, List.map_cons, List.map_nil, List.mem_cons,
          List.mem_singleton, List.not_mem_nil, or_false, WindowCell.index] at h
      all_goals
        first
          | (exact False.elim h)
          | (subst h; assumption)
          | (rcases h with h | h <;> subst h <;> assumption)

theorem set_which_border_keeps (P : AutoTiler → Prop)
    (hP : ∀ t c k, k ≠ BorderKind.NONE → P t → P (t.with_border c k)) (t u : AutoTiler)
    (c : Int) (k : BorderKind) (hk : k ≠ BorderKind.NONE)
    (h : t.set_which_border c k = some u) (ht : P t) : P u := by
  have hin := set_which_border_in_grid t u c k h
  rw [set_which_border_some t c k hin] at h
  cases h
  exact hP t c k hk ht

theorem set_side_if_no_border_keeps (P : AutoTiler → Prop)
    (hP : ∀ t c k, k ≠ BorderKind.NONE → P t → P (t.with_border c k)) (t u : AutoTiler)
    (c : Int) (k : BorderKind) (hk : k ≠ BorderKind.NONE)
    (h : t.set_side_if_no_border c k = some u) (ht : P t) : P u := by
  unfold set_side_if_no_border at h
  split at h
  · cases h
  · cases h; exact ht
  · exact set_which_border_keeps P hP t u c k hk h ht

theorem detect_border_info_inner_keeps (P : AutoTiler → Prop)
    (hP : ∀ t c k, k ≠ BorderKind.NONE → P t → P (t.with_border c k)) (t u : AutoTiler)
    (c : Int) (h : t.detect_border_info_inner c = some u) (ht : P t) : P u := by
  unfold detect_border_info_inner at h
  simp only at h
  split at h
  · cases h
  · split at h
    all_goals
      first
        | (cases h; exact ht)
        | exact set_which_border_keeps P hP _ _ _ _ (by decide) h ht
        | (obtain ⟨t1, h1, h2⟩ := Option.bind_eq_some.1 h
           first
             | exact set_which_border_keeps P hP _ _ _ _ (by decide) h2
                 (set_which_border_keeps P hP _ _ _ _ (by decide) h1 ht)
             | exact set_side_if_no_border_keeps P hP _ _ _ _ (by decide) h2
                 (set_side_if_no_border_keeps P hP _ _ _ _ (by decide) h1 ht))

theorem detect_border_info_outer_keeps (P : AutoTiler → Prop)
    (hP : ∀ t c k, k ≠ BorderKind.NONE → P t → P (t.with_border c k)) (t u : AutoTiler)
    (c : Int) (h : t.detect_border_info_outer c = some u) (ht : P t) : P u := by
  unfold detect_border_info_outer at h
  simp only at h
  split at h
  · cases h
  · split at h
    all_goals
      first
        | (cases h; exact ht)
        | exact set_which_border_keeps P hP _ _ _ _ (by decide) h ht
        | (obtain ⟨t1, h1, h2⟩ := Option.bind_eq_some.1 h
           first
             | exact set_which_border_keeps P hP _ _ _ _ (by decide) h2
                 (set_which_border_keeps P hP _ _ _ _ (by decide) h1 ht)
             | exact set_side_if_no_border_keeps P hP _ _ _ _ (by decide) h2
                 (set_side_if_no_border_keeps P hP _ _ _ _ (by decide) h1 ht))

/-- A property of the tiler that every assignment of a kind other than `NONE`
keeps is kept by the classification of a list of windows. -/
theorem detect_fold_keeps (P : AutoTiler → Prop)
    (hP : ∀ t c k, k ≠ BorderKind.NONE → P t → P (t.with_border c k)) (ws : List Int)
    (t u : AutoTiler) (h : ws.foldlM detect_border_info t = some u) (ht : P t) : P u := by
  induction ws generalizing t with
  | nil =>
    simp only [List.foldlM, Option.pure_def, Option.some.injEq] at h
    subst h
    exact ht
  | cons w rest ih =>
    simp only [List.foldlM, Option.bind_eq_bind, Option.bind_eq_some] at h
    obtain ⟨v, hv, h⟩ := h
    refine ih v h ?_
    unfold detect_border_info at hv
    split at hv
    · exact detect_border_info_inner_keeps P hP t v w hv ht
    · exact detect_border_info_outer_keeps P hP t v w hv ht

/-- The classification of a list of windows from a border map whose entries
all hold a kind: every entry of the result holds a kind. -/
theorem detect_fold_keys_set (ws : List Int) (t u : AutoTiler)
    (h : ws.foldlM detect_border_info t = some u)
    (ht : ∀ k ∈ t.border_keys, t.border_at k ≠ BorderKind.NONE) :
    ∀ k ∈ u.border_keys, u.border_at k ≠ BorderKind.NONE := by
  refine detect_fold_keeps (fun x => ∀ k ∈ x.border_keys, x.border_at k ≠ BorderKind.NONE)
    ?_ ws t u h ht
  intro x c kind hk hx k hmem
  rw [border_at_with_border_eq]
  by_cases e : k = c
  · rw [if_pos e]; exact hk
  · rw [if_neg e]
    rcases map_assign_keys_mem x.which_borders c kind k hmem with h1 | h1
    · exact absurd h1 e
    · exact hx k h1

end AutoTiler

namespace AutoTiler

theorem detect_fold_placement (t u : AutoTiler) (ws : List Int)
    (h : ws.foldlM detect_border_info { t with which_borders := [] } = some u) :
    (∀ c, u.border_at c ≠ BorderKind.NONE →
      t.is_cell_occupied c = some (t.get_tileset.is_border_set_inner t.border_set_id)) ∧
    (∀ k ∈ u.border_keys,
      t.is_cell_occupied k = some (t.get_tileset.is_border_set_inner t.border_set_id)) := by
  obtain ⟨-, -, hb⟩ := detect_fold_some ws _ u h
  rw [border_at_cleared] at hb
  have h1 : ∀ c, u.border_at c ≠ BorderKind.NONE →
      t.is_cell_occupied c = some (t.get_tileset.is_border_set_inner t.border_set_id) := by
    intro c hc
    rw [hb] at hc
    have hn := flat_assignments_ne_none { t with which_borders := [] } ws
    have h2 := (not_congr (apply_assignments_none_iff _ no_border c hn)).1 hc
    have h3 : ∃ k, (c, k) ∈ ws.flatMap (window_assignments { t with which_borders := [] }) := by
      by_contra hno
      exact h2 ⟨rfl, fun k hk => hno ⟨k, hk⟩⟩
    obtain ⟨k, hk⟩ := h3
    obtain ⟨w, -, hw⟩ := List.mem_flatMap.1 hk
    exact window_assignments_occupancy { t with which_borders := [] } w (c, k) hw
  refine ⟨h1, fun k hk => h1 k ?_⟩
  exact detect_fold_keys_set ws _ u h (by intro k hk; cases hk) k hk

/-- C26. For every occupancy mask and every list of windows, the
classification of the windows from the empty border map gives a kind only to
occupied cells in inner mode and only to unoccupied cells in outer mode, and
the keys of the resulting border map are such cells; so the keys of the
border map after `compute_borders` are all occupied (inner mode) or all
unoccupied (outer mode). -/
theorem border_placement (t u : AutoTiler) (ws : List Int)
    (h : ws.foldlM detect_border_info { t with which_borders := [] } = some u) :
    (∀ c, u.border_at c ≠ BorderKind.NONE →
      t.is_cell_occupied c = some (t.get_tileset.is_border_set_inner t.border_set_id)) ∧
    (∀ k ∈ u.border_keys,
      t.is_cell_occupied k = some (t.get_tileset.is_border_set_inner t.border_set_id)) ∧
    (∀ g, t.compute_borders = some g → ∀ k ∈ g.border_keys,
      t.is_cell_occupied k = some (t.get_tileset.is_border_set_inner t.border_set_id)) := by
  obtain ⟨h1, h2⟩ := detect_fold_placement t u ws h
  refine ⟨h1, h2, ?_⟩
  intro g hg
  rw [compute_borders_eq] at hg
  exact (detect_fold_placement t g _ hg).2

theorem border_placement_witness :
    (4 : Int) ∈ (([0, 1, 4, 3].foldlM detect_border_info
        { grid_3x3 true with which_borders := [] }).getD (grid_3x3 true)).border_keys ∧
    (grid_3x3 true).is_cell_occupied 4 = some true :=
  ⟨by decide,
    (border_placement (grid_3x3 true)
      (([0, 1, 4, 3].foldlM detect_border_info
        { grid_3x3 true with which_borders := [] }).getD (grid_3x3 true)) [0, 1, 4, 3]
      (option_eq_some_getD _ (grid_3x3 true) (by decide))).2.1 4 (by decide)⟩

end AutoTiler

/-! ### Side runs that do not end at a corner -/

namespace AutoTiler

/-- C28, failing input. Outer mode, 8x8 patterns, the three cell-aligned
regions of `regions_split_column`: the grid is 5 columns by 6 rows with a
margin of one cell. In the free column (column 2) the cells of the rows 1 to 3
are classified RIGHT by the first region and the cell of row 4 is classified
LEFT by the second region, before the third region is processed. The side
loop passes the keys 0, 2, 4 and 5, then starts at key 7 a RIGHT run of 3
cells that stops at the cell 22, which holds LEFT: `corner_2` is not a corner,
the assertion fails and the call returns nothing. -/
theorem side_run_meets_side :
    ((tiler_of (tileset_8x8 false) regions_split_column).classify.map fun g =>
      (g.grid_size, g.border_keys.take 5, g.border_at 7, g.border_at 12, g.border_at 17,
        g.border_at 22)) =
      some (⟨5, 6⟩, [0, 2, 4, 5, 7], BorderKind.RIGHT, BorderKind.RIGHT, BorderKind.RIGHT,
        BorderKind.LEFT) ∧
    (([0, 2, 4, 5].foldlM (side_tile BorderKind.LEFT BorderKind.TOP is_concave_corner_border)
      (tiler_of (tileset_8x8 false) regions_split_column).classified).bind fun s =>
        (count_run BorderKind.RIGHT 5 4 (s.with_border 7 BorderKind.NONE) 7 1).map fun r =>
          (s.border_at 2, r.2.1, r.2.2, r.1.border_at r.2.1)) =
      some (BorderKind.TOP_LEFT_CONVEX, 22, 3, BorderKind.LEFT) ∧
    is_corner_border BorderKind.LEFT = false ∧
    (([0, 2, 4, 5].foldlM (side_tile BorderKind.LEFT BorderKind.TOP is_concave_corner_border)
      (tiler_of (tileset_8x8 false) regions_split_column).classified).bind fun s =>
        side_tile BorderKind.LEFT BorderKind.TOP is_concave_corner_border s 7).isSome = false ∧
    (tiler_of (tileset_8x8 false) regions_split_column).classified.side_pass.isSome = false ∧
    (tiler_of (tileset_8x8 false) regions_split_column).generate_border_tiles.isSome = false := by
  refine ⟨by decide!, by decide!, by decide, by decide!, by decide!, by decide!⟩

end AutoTiler

/-! ### A single rectangle in outer mode -/

namespace AutoTiler

/-- C29. For every single rectangle `(x, y, W, H)` with `W = 8 * nx` and
`H = 8 * ny` at least 16 and an outer-mode border set whose 12 patterns are
mapped, exist and are 8x8, `generate_border_tiles` on the tiler constructed
for the entity returns exactly 8 tiles, in this order: TOP at `(x, y - 8)` of
size `(W, 8)`, LEFT at `(x - 8, y)` of size `(8, H)`, RIGHT at `(x + W, y)` of
size `(8, H)`, BOTTOM at `(x, y + H)` of size `(W, 8)`, then the 8x8 corners
TOP_LEFT_CONVEX at `(x - 8, y - 8)`, TOP_RIGHT_CONVEX at `(x + W, y - 8)`,
BOTTOM_LEFT_CONVEX at `(x - 8, y + H)` and BOTTOM_RIGHT_CONVEX at
`(x + W, y + H)`. No two of them have a pixel in common, and the pixels they
cover are exactly those of the ring of one cell around the rectangle. -/
theorem outer_region_tiles (map : MapModel) (index : EntityIndex) (border_set_id : String)
    (x y : Int) (nx ny : Nat)
    (hbox : map.get_entity_bounding_box index = QRect.ofXYWH x y (8 * nx) (8 * ny))
    (hnx : 2 ≤ nx) (hny : 2 ≤ ny)
    (ho : map.tileset.is_border_set_inner border_set_id = false)
    (hp : ∀ kind, kind ≠ BorderKind.NONE →
      map.tileset.has_border_set_pattern border_set_id kind = true ∧
      map.tileset.pattern_exists (map.tileset.get_border_set_pattern border_set_id kind) = true ∧
      map.tileset.pattern_frame_size (map.tileset.get_border_set_pattern border_set_id kind) =
        ⟨8, 8⟩) :
    ∃ tiles : List Tile,
      (create map [index] border_set_id).emitted = some (tiles.map some) ∧
      tiles =
        [⟨map.tileset.get_border_set_pattern border_set_id BorderKind.TOP,
          ⟨x, y - 8⟩, ⟨8 * nx, 8⟩, index.layer⟩,
         ⟨map.tileset.get_border_set_pattern border_set_id BorderKind.LEFT,
          ⟨x - 8, y⟩, ⟨8, 8 * ny⟩, index.layer⟩,
         ⟨map.tileset.get_border_set_pattern border_set_id BorderKind.RIGHT,
          ⟨x + 8 * nx, y⟩, ⟨8, 8 * ny⟩, index.layer⟩,
         ⟨map.tileset.get_border_set_pattern border_set_id BorderKind.BOTTOM,
          ⟨x, y + 8 * ny⟩, ⟨8 * nx, 8⟩, index.layer⟩,
         ⟨map.tileset.get_border_set_pattern border_set_id BorderKind.TOP_LEFT_CONVEX,
          ⟨x - 8, y - 8⟩, ⟨8, 8⟩, index.layer⟩,
         ⟨map.tileset.get_border_set_pattern border_set_id BorderKind.TOP_RIGHT_CONVEX,
          ⟨x + 8 * nx, y - 8⟩, ⟨8, 8⟩, index.layer⟩,
         ⟨map.tileset.get_border_set_pattern border_set_id BorderKind.BOTTOM_LEFT_CONVEX,
          ⟨x - 8, y + 8 * ny⟩, ⟨8, 8⟩, index.layer⟩,
         ⟨map.tileset.get_border_set_pattern border_set_id BorderKind.BOTTOM_RIGHT_CONVEX,
          ⟨x + 8 * nx, y + 8 * ny⟩, ⟨8, 8⟩, index.layer⟩] ∧
      tiles.Pairwise (fun a b => ¬ a.rect.overlaps b.rect) ∧
      ∀ px py : Int, (∃ tile ∈ tiles, tile.covers px py) ↔
        (x - 8 ≤ px ∧ px < x + 8 * nx + 8 ∧ y - 8 ≤ py ∧ py < y + 8 * ny + 8 ∧
          ¬ (x ≤ px ∧ px < x + 8 * nx ∧ y ≤ py ∧ py < y + 8 * ny)) := by
  have hmo : (create map [index] border_set_id).mode_offset = 0 := by
    unfold mode_offset
    rw [if_neg]
    show ¬ map.tileset.is_border_set_inner border_set_id = true
    rw [ho]
    decide
  obtain ⟨u, hu⟩ := single_region_output (create map [index] border_set_id) x y nx ny index
    (by show [map.get_entity_bounding_box index] = _; rw [hbox]) hnx hny
    (by rw [hmo]; omega) (by rw [hmo]; omega)
    (fun kind hk => ⟨(hp kind hk).2.1, (hp kind hk).2.2⟩) (fun kind hk => (hp kind hk).1)
    rfl rfl
  have he := emitted_of_generate _ u _ _ _ hu
  rw [hmo] at he
  have e1 : ((0 : Int) + 1) * 8 + (x - 8) = x := by ring
  have e2 : (0 : Int) * 8 + (y - 8) = y - 8 := by ring
  have e3 : ((nx : Int) + 1 - 0 - 0 - 1) * 8 = 8 * nx := by ring
  have e4 : (0 : Int) * 8 + (x - 8) = x - 8 := by ring
  have e5 : ((0 : Int) + 1) * 8 + (y - 8) = y := by ring
  have e6 : ((ny : Int) + 1 - 0 - 0 - 1) * 8 = 8 * ny := by ring
  have e7 : ((nx : Int) + 1 - 0) * 8 + (x - 8) = x + 8 * nx := by ring
  have e8 : ((ny : Int) + 1 - 0) * 8 + (y - 8) = y + 8 * ny := by ring
  rw [e1, e2, e3, e4, e5, e6, e7, e8] at he
  refine ⟨[⟨_, _, _, _⟩, ⟨_, _, _, _⟩, ⟨_, _, _, _⟩, ⟨_, _, _, _⟩, ⟨_, _, _, _⟩, ⟨_, _, _, _⟩,
    ⟨_, _, _, _⟩, ⟨_, _, _, _⟩], he, rfl, ?_, ?_⟩
  · simp only [List.pairwise_cons, List.mem_cons, List.mem_singleton, List.not_mem_nil,
      forall_eq_or_imp, forall_eq, QRect.overlaps, Tile.rect, QRect.ofXYWH,
      List.Pairwise.nil, and_true, IsEmpty.forall_iff, implies_true]
    omega
  · intro px py
    simp only [List.mem_cons, List.mem_singleton, List.not_mem_nil, or_false,
      exists_eq_or_imp, exists_eq_left, Tile.covers, Tile.rect, QRect.ofXYWH]
    omega

theorem outer_region_tiles_witness :
    (create ⟨tileset_8x8 false, fun _ => QRect.ofXYWH 4 12 16 24, fun _ => 0⟩ [⟨0, 0⟩]
      "border").emitted =
      some [some ⟨"p", ⟨4, 4⟩, ⟨16, 8⟩, 0⟩, some ⟨"p", ⟨-4, 12⟩, ⟨8, 24⟩, 0⟩,
        some ⟨"p", ⟨20, 12⟩, ⟨8, 24⟩, 0⟩, some ⟨"p", ⟨4, 36⟩, ⟨16, 8⟩, 0⟩,
        some ⟨"p", ⟨-4, 4⟩, ⟨8, 8⟩, 0⟩, some ⟨"p", ⟨20, 4⟩, ⟨8, 8⟩, 0⟩,
        some ⟨"p", ⟨-4, 36⟩, ⟨8, 8⟩, 0⟩, some ⟨"p", ⟨20, 36⟩, ⟨8, 8⟩, 0⟩] := by
  obtain ⟨tiles, h1, h2, -, -⟩ := outer_region_tiles
    ⟨tileset_8x8 false, fun _ => QRect.ofXYWH 4 12 16 24, fun _ => 0⟩ ⟨0, 0⟩ "border" 4 12 2 3
    rfl (by decide) (by decide) rfl
    (fun kind hk => ⟨by cases kind <;> first | rfl | exact absurd rfl hk, rfl, rfl⟩)
  rw [h1, h2]
  rfl

end AutoTiler

/-! ### Coverage of the scan -/

namespace AutoTiler

/-- In a grid aligned with the regions, a cell of the grid is covered exactly
when its row and its column are among those of a region. -/
theorem cell_covered_iff (t : AutoTiler) (hf : grid_fits 0 t) (R C : Int)
    (hR : 0 ≤ R) (hC : 0 ≤ C) (hC2 : C < t.grid_size.wd) :
    t.cell_covered (R * t.grid_size.wd + C) = true ↔
      ∃ r ∈ t.entity_rectangles, ∀ col row nx ny : Int,
        r.x1 = t.bounding_box.x1 + 8 * col → r.y1 = t.bounding_box.y1 + 8 * row →
        r.width = 8 * nx → r.height = 8 * ny →
        col ≤ C ∧ C < col + nx ∧ row ≤ R ∧ R < row + ny := by
  obtain ⟨-, -, hr⟩ := hf
  unfold cell_covered
  rw [to_map_xy_of_row_col t R C hR hC hC2]
  simp only [List.any_eq_true]
  constructor
  · rintro ⟨r, hrm, hc⟩
    refine ⟨r, hrm, ?_⟩
    intro col row nx ny ex ey ew eh
    unfold QRect.contains_square at hc
    simp only [Bool.and_eq_true, decide_eq_true_eq] at hc
    unfold QRect.width at ew
    unfold QRect.height at eh
    omega
  · rintro ⟨r, hrm, hc⟩
    refine ⟨r, hrm, ?_⟩
    obtain ⟨col, row, nx, ny, ex, ey, ew, eh, -⟩ := hr r hrm
    have h := hc col row nx ny ex ey ew eh
    unfold QRect.contains_square
    simp only [Bool.and_eq_true, decide_eq_true_eq]
    unfold QRect.width at ew
    unfold QRect.height at eh
    refine ⟨⟨⟨?_, ?_⟩, ?_⟩, ?_⟩ <;> omega

/-- The windows on the perimeter of a region are processed: those whose
origin is on the boundary of the block of rows `row - 1` to `row - 1 + ny` and
of columns `col - 1` to `col - 1 + nx`. -/
theorem ring_window_mem (t : AutoTiler) (r : QRect) (hrm : r ∈ t.entity_rectangles)
    (col row nx ny : Int)
    (ex : r.x1 = t.bounding_box.x1 + 8 * col) (ey : r.y1 = t.bounding_box.y1 + 8 * row)
    (ew : r.width = 8 * nx) (eh : r.height = 8 * ny) (hnx : 0 < nx) (hny : 0 < ny)
    (R C : Int) (hR : row - 1 ≤ R) (hR2 : R ≤ row - 1 + ny) (hC : col - 1 ≤ C)
    (hC2 : C ≤ col - 1 + nx)
    (hb : R = row - 1 ∨ R = row - 1 + ny ∨ C = col - 1 ∨ C = col - 1 + nx) :
    R * t.grid_size.wd + C ∈ t.processed_windows := by
  unfold processed_windows
  rw [List.mem_flatMap]
  refine ⟨r, hrm, ?_⟩
  have hidx : t.to_grid_index r.topLeft = row * t.grid_size.wd + col := by
    unfold QRect.topLeft
    rw [ex, ey]
    exact to_grid_index_of_row_col t col row
  have hnx2 : ((Int.tdiv r.width 8).toNat : Int) = nx := by
    rw [ew, tdiv_eight_mul, Int.toNat_of_nonneg (by omega)]
  have hny2 : ((Int.tdiv r.height 8).toNat : Int) = ny := by
    rw [eh, tdiv_eight_mul, Int.toNat_of_nonneg (by omega)]
  unfold rectangle_windows
  simp only [List.mem_append, hidx, hnx2, hny2, side_windows_mem_iff]
  by_cases c1 : R = row - 1 ∧ C < col - 1 + nx
  · left; left; left
    refine ⟨(C - (col - 1)).toNat, ?_, ?_⟩
    · have := Int.toNat_of_nonneg (show 0 ≤ C - (col - 1) by omega)
      omega
    · rw [Int.toNat_of_nonneg (by omega), c1.1]
      ring
  by_cases c2 : C = col - 1 + nx ∧ R < row - 1 + ny
  · left; left; right
    refine ⟨(R - (row - 1)).toNat, ?_, ?_⟩
    · have := Int.toNat_of_nonneg (show 0 ≤ R - (row - 1) by omega)
      omega
    · rw [Int.toNat_of_nonneg (by omega), c2.1]
      ring
  by_cases c3 : R = row - 1 + ny ∧ col - 1 < C
  · left; right
    refine ⟨(col - 1 + nx - C).toNat, ?_, ?_⟩
    · have := Int.toNat_of_nonneg (show 0 ≤ col - 1 + nx - C by omega)
      omega
    · rw [Int.toNat_of_nonneg (by omega), c3.1]
      ring
  · right
    have h4 : C = col - 1 ∧ row - 1 < R := by omega
    refine ⟨(row - 1 + ny - R).toNat, ?_, ?_⟩
    · have := Int.toNat_of_nonneg (show 0 ≤ row - 1 + ny - R by omega)
      omega
    · rw [Int.toNat_of_nonneg (by omega), h4.1]
      ring

end AutoTiler
namespace AutoTiler

/-- In a grid with a margin of one cell whose occupancy follows the regions,
every window of the grid whose mask is neither 0 nor 15 is on the perimeter of
a region, hence among the processed windows. -/
theorem mixed_window_processed (g : AutoTiler) (hf : grid_fits 1 g) (hs : g.mask_sized)
    (hcov : ∀ i, g.in_grid i → g.is_cell_occupied i = some (g.cell_covered i))
    (w : Int) (hw : g.window_in_grid w) (h0 : g.mask_at w ≠ 0) (h15 : g.mask_at w ≠ 15) :
    w ∈ g.processed_windows := by
  have hf0 : grid_fits 0 g := grid_fits_mono 1 0 g (by decide) hf
  obtain ⟨hgw, hgh, hr⟩ := hf
  obtain ⟨tl, tr, bl, br, e0, e1, e2, e3⟩ := window_bits g w hs hw
  have hm : g.mask_at w = window_mask tl tr bl br := by
    unfold mask_at
    rw [four_cells_mask_of_bits g w tl tr bl br e0 e1 e2 e3]
    rfl
  rw [hm] at h0 h15
  obtain ⟨i0, i1, i2, i3⟩ := hw
  rw [hcov w i0] at e0
  rw [hcov _ i1] at e1
  rw [hcov _ i2] at e2
  rw [hcov _ i3] at e3
  have c0 : g.cell_covered (w + 0 * g.grid_size.wd + 0) = tl := by
    have e : w + 0 * g.grid_size.wd + 0 = w := by ring
    rw [e]
    exact Option.some.inj e0
  have c1 : g.cell_covered (w + 0 * g.grid_size.wd + 1) = tr := by
    have e : w + 0 * g.grid_size.wd + 1 = w + 1 := by ring
    rw [e]
    exact Option.some.inj e1
  have c2 : g.cell_covered (w + 1 * g.grid_size.wd + 0) = bl := by
    have e : w + 1 * g.grid_size.wd + 0 = w + g.grid_size.wd := by ring
    rw [e]
    exact Option.some.inj e2
  have c3 : g.cell_covered (w + 1 * g.grid_size.wd + 1) = br := by
    have e : w + 1 * g.grid_size.wd + 1 = w + g.grid_size.wd + 1 := by ring
    rw [e]
    exact Option.some.inj e3
  have j0 : g.in_grid (w + 0 * g.grid_size.wd + 0) := by
    have e : w + 0 * g.grid_size.wd + 0 = w := by ring
    rw [e]; exact i0
  have j1 : g.in_grid (w + 0 * g.grid_size.wd + 1) := by
    have e : w + 0 * g.grid_size.wd + 1 = w + 1 := by ring
    rw [e]; exact i1
  have j2 : g.in_grid (w + 1 * g.grid_size.wd + 0) := by
    have e : w + 1 * g.grid_size.wd + 0 = w + g.grid_size.wd := by ring
    rw [e]; exact i2
  have j3 : g.in_grid (w + 1 * g.grid_size.wd + 1) := by
    have e : w + 1 * g.grid_size.wd + 1 = w + g.grid_size.wd + 1 := by ring
    rw [e]; exact i3
  have hocc : ∃ a b : Int, (a = 0 ∨ a = 1) ∧ (b = 0 ∨ b = 1) ∧
      g.in_grid (w + a * g.grid_size.wd + b) ∧
      g.cell_covered (w + a * g.grid_size.wd + b) = true := by
    cases tl
    · cases tr
      · cases bl
        · cases br
          · exact absurd rfl h0
          · exact ⟨1, 1, Or.inr rfl, Or.inr rfl, j3, c3⟩
        · exact ⟨1, 0, Or.inr rfl, Or.inl rfl, j2, c2⟩
      · exact ⟨0, 1, Or.inl rfl, Or.inr rfl, j1, c1⟩
    · exact ⟨0, 0, Or.inl rfl, Or.inl rfl, j0, c0⟩
  have hfree : ∃ a b : Int, (a = 0 ∨ a = 1) ∧ (b = 0 ∨ b = 1) ∧
      g.in_grid (w + a * g.grid_size.wd + b) ∧
      g.cell_covered (w + a * g.grid_size.wd + b) = false := by
    cases tl
    · exact ⟨0, 0, Or.inl rfl, Or.inl rfl, j0, c0⟩
    · cases tr
      · exact ⟨0, 1, Or.inl rfl, Or.inr rfl, j1, c1⟩
      · cases bl
        · exact ⟨1, 0, Or.inr rfl, Or.inl rfl, j2, c2⟩
        · cases br
          · exact ⟨1, 1, Or.inr rfl, Or.inr rfl, j3, c3⟩
          · exact absurd rfl h15
  obtain ⟨a, b, ha, hb, hin, hc⟩ := hocc
  obtain ⟨a2, b2, ha2, hb2, hin2, hc2⟩ := hfree
  -- the occupied cell, by row and column
  obtain ⟨R0, C0, hi, hR0, hR0h, hC0, hC0w⟩ := in_grid_row_col g _ hgw hin
  rw [hi] at hc
  obtain ⟨r, hrm, hbox⟩ := (cell_covered_iff g hf0 R0 C0 hR0 hC0 hC0w).1 hc
  obtain ⟨col, row, nx, ny, ex, ey, ew, eh, hnx, hny, hcol, hrow, hcx, hry⟩ := hr r hrm
  obtain ⟨b1, b2x, b3, b4⟩ := hbox col row nx ny ex ey ew eh
  -- the window, by row and column
  have hwe : w = (R0 - a) * g.grid_size.wd + (C0 - b) := by
    have : w = R0 * g.grid_size.wd + C0 - (a * g.grid_size.wd + b) := by omega
    rw [this]
    ring
  -- the free cell, by row and column
  have hfe : w + a2 * g.grid_size.wd + b2 =
      (R0 - a + a2) * g.grid_size.wd + (C0 - b + b2) := by
    rw [hwe]
    ring
  rw [hfe] at hc2
  have hnot : ¬ (col ≤ C0 - b + b2 ∧ C0 - b + b2 < col + nx ∧ row ≤ R0 - a + a2 ∧
      R0 - a + a2 < row + ny) := by
    intro hall
    have hcv : g.cell_covered ((R0 - a + a2) * g.grid_size.wd + (C0 - b + b2)) = true := by
      refine (cell_covered_iff g hf0 _ _ (by omega) (by omega) (by omega)).2 ⟨r, hrm, ?_⟩
      intro col2 row2 nx2 ny2 ex2 ey2 ew2 eh2
      have q1 : col2 = col := by omega
      have q2 : row2 = row := by omega
      have q3 : nx2 = nx := by omega
      have q4 : ny2 = ny := by omega
      rw [q1, q2, q3, q4]
      exact hall
    rw [hcv] at hc2
    exact Bool.noConfusion hc2
  rw [hwe]
  refine ring_window_mem g r hrm col row nx ny ex ey ew eh hnx hny _ _
    (by omega) (by omega) (by omega) (by omega) ?_
  omega

end AutoTiler
namespace AutoTiler

/-- The 4x4 grid of the fixtures has a margin of one cell around its two
regions. -/
theorem grid_4x4_fits (inner : Bool) : grid_fits 1 (grid_4x4 inner) := by
  have hl : (grid_4x4 inner).entity_rectangles =
      [QRect.ofXYWH 8 0 8 8, QRect.ofXYWH 0 8 8 8] := by
    cases inner <;> rfl
  have hb : (grid_4x4 inner).bounding_box = QRect.ofXYWH (-8) (-8) 32 32 := rfl
  have hgs : (grid_4x4 inner).grid_size = ⟨4, 4⟩ := rfl
  unfold grid_fits
  rw [hl, hb, hgs]
  refine ⟨by decide, by decide, ?_⟩
  intro r hr
  have h : r = QRect.ofXYWH 8 0 8 8 ∨ r = QRect.ofXYWH 0 8 8 8 := by
    simpa using hr
  rcases h with rfl | rfl
  · exact ⟨2, 1, 1, 1, by decide, by decide, by decide, by decide, by decide, by decide,
      by decide, by decide, by decide, by decide⟩
  · exact ⟨1, 2, 1, 1, by decide, by decide, by decide, by decide, by decide, by decide,
      by decide, by decide, by decide, by decide⟩

/-- Claim C27. Coverage of the scan: for regions placed on the cells of a grid
with a margin of at least one cell around each of them, the occupancy mask is
built, `compute_borders` succeeds and is the run of `detect_border_info` over
the processed windows, and every 2x2 window of the grid whose occupancy mask
is neither 0000 nor 1111 is among these processed windows: it is on the
perimeter of one of the regions. -/
theorem scan_coverage (b : AutoTiler) (hf : grid_fits 1 b) :
    ∃ g u, b.compute_occupied_squares = some g ∧ g.compute_borders = some u ∧
      g.compute_borders =
        g.processed_windows.foldlM detect_border_info { g with which_borders := [] } ∧
      ∀ w, g.window_in_grid w → g.mask_at w ≠ 0 → g.mask_at w ≠ 15 →
        w ∈ g.processed_windows ∧ ∃ r ∈ g.entity_rectangles, w ∈ g.rectangle_windows r := by
  obtain ⟨g, hg, hgf, hgs, hcov⟩ := compute_occupied_squares_covered b
    (grid_fits_mono 1 0 b (by decide) hf)
  have hfit : grid_fits 1 g := by
    rw [hgf]
    exact grid_fits_squares 1 _ _ hf
  have hwin := processed_windows_in_grid g hfit
  obtain ⟨u, hu, -, -⟩ := compute_borders_apply g hgs hwin
  have hcov2 : ∀ i, g.in_grid i → g.is_cell_occupied i = some (g.cell_covered i) := by
    intro i hi
    have h1 : b.in_grid i := by
      rw [hgf] at hi
      exact hi
    have h2 : g.cell_covered i = b.cell_covered i := by
      rw [hgf]
      rfl
    rw [h2]
    exact hcov i h1
  refine ⟨g, u, hg, hu, compute_borders_eq g, ?_⟩
  intro w hw h0 h15
  have hm := mixed_window_processed g hfit hgs hcov2 w hw h0 h15
  refine ⟨hm, ?_⟩
  unfold processed_windows at hm
  exact List.mem_flatMap.1 hm

/-- Claim C27, instance: the 4x4 grid of the regions (8, 0, 8, 8) and
(0, 8, 8, 8), whose central window has the mask 0110. -/
theorem scan_coverage_witness :
    grid_fits 1 (grid_4x4 false) ∧
    ∃ g u, (grid_4x4 false).compute_occupied_squares = some g ∧ g.compute_borders = some u ∧
      g.compute_borders =
        g.processed_windows.foldlM detect_border_info { g with which_borders := [] } ∧
      ∀ w, g.window_in_grid w → g.mask_at w ≠ 0 → g.mask_at w ≠ 15 →
        w ∈ g.processed_windows ∧ ∃ r ∈ g.entity_rectangles, w ∈ g.rectangle_windows r :=
  ⟨grid_4x4_fits false, scan_coverage (grid_4x4 false) (grid_4x4_fits false)⟩

end AutoTiler

/-! ### The tile loops in the words of the specification -/

namespace AutoTiler

/-- A successful `make_tile` for a kind whose pattern exists appended the
tile. -/
theorem make_tile_exists (t u : AutoTiler) (which_border : BorderKind) (grid_index n : Int)
    (hk : which_border ≠ BorderKind.NONE)
    (hex : t.get_tileset.pattern_exists (t.pattern_of which_border) = true)
    (h : t.make_tile which_border grid_index n = some u) :
    0 < n ∧ ∃ xy first, t.to_map_xy grid_index = some xy ∧
      t.entity_indexes.head? = some first ∧
      u = { t with tiles := t.tiles ++
        [some ⟨t.pattern_of which_border, xy,
          tile_size which_border
            (t.get_tileset.pattern_frame_size (t.pattern_of which_border)) n,
          first.layer⟩] } := by
  rw [make_tile_def, if_neg hk] at h
  by_cases hn : 0 < n
  swap
  · rw [if_pos (by omega)] at h
    cases h
  rw [if_neg (by omega)] at h
  refine ⟨hn, ?_⟩
  cases hxy : t.to_map_xy grid_index with
  | none =>
    rw [hxy] at h
    cases h
  | some xy =>
    rw [hxy] at h
    simp only at h
    rw [if_neg (by simpa using hex)] at h
    by_cases hp : (t.get_tileset.pattern_frame_size (t.pattern_of which_border)).isEmpty = true
    · rw [if_pos hp] at h
      cases h
    rw [if_neg hp] at h
    have hs := tile_size_not_empty which_border _ n hn (by simpa using hp)
    rw [if_neg (by simp [hs])] at h
    cases hfirst : t.entity_indexes.head? with
    | none =>
      rw [hfirst] at h
      cases h
    | some first =>
      rw [hfirst] at h
      exact ⟨xy, first, rfl, rfl, (Option.some.inj h).symm⟩

/-- The count of `spec_raw_run` when the first `m` cells hold the kind and either
the next cell does not or the fuel is spent. -/
theorem spec_raw_run_eq (t : AutoTiler) (kind : BorderKind) (step : Int) (m fuel : Nat)
    (cell : Int) (hm : m ≤ fuel)
    (hrun : ∀ j : Nat, j < m → t.border_at (cell + j * step) = kind)
    (hend : m < fuel → t.border_at (cell + m * step) ≠ kind) :
    t.spec_raw_run kind step fuel cell = m := by
  induction m generalizing fuel cell with
  | zero =>
    cases fuel with
    | zero => rfl
    | succ f =>
      have h := hend (Nat.succ_pos f)
      simp only [Nat.cast_zero, zero_mul, add_zero] at h
      unfold spec_raw_run
      rw [if_neg h]
      rfl
  | succ m ih =>
    obtain ⟨f, rfl⟩ : ∃ f, fuel = f + 1 := ⟨fuel - 1, by omega⟩
    have h0 := hrun 0 (Nat.succ_pos m)
    simp only [Nat.cast_zero, zero_mul, add_zero] at h0
    unfold spec_raw_run
    rw [if_pos h0, ih f (cell + step) (by omega)]
    · push_cast; ring
    · intro j hj
      have := hrun (j + 1) (by omega)
      have e : cell + ((j + 1 : Nat) : Int) * step = cell + step + j * step := by
        push_cast; ring
      rw [e] at this
      exact this
    · intro hlt
      have := hend (by omega)
      have e : cell + ((m + 1 : Nat) : Int) * step = cell + step + m * step := by
        push_cast; ring
      rw [e] at this
      exact this

theorem map_assign_keys_eq (m : List (Int × BorderKind)) (key : Int) (v : BorderKind)
    (hs : (m.map Prod.fst).Pairwise (· < ·))
    (h : key ∈ m.map Prod.fst) : (map_assign m key v).map Prod.fst = m.map Prod.fst := by
  induction m with
  | nil => simp at h
  | cons a rest ih =>
    obtain ⟨k, w⟩ := a
    simp only [List.map_cons, List.pairwise_cons] at hs
    unfold map_assign
    by_cases h2 : key = k
    · rw [if_neg (by omega), if_pos h2]
      rfl
    · simp only [List.map_cons, List.mem_cons] at h
      rcases h with h | h
      · exact absurd h h2
      have h1 : ¬ key < k := by
        have := hs.1 key h
        omega
      rw [if_neg h1, if_neg h2]
      simp only [List.map_cons, ih hs.2 h]

theorem with_border_keys_eq (t : AutoTiler) (c : Int) (k : BorderKind) (hs : t.keys_sorted)
    (h : c ∈ t.border_keys) : (t.with_border c k).border_keys = t.border_keys :=
  map_assign_keys_eq t.which_borders c k hs h

theorem clear_run_keys_eq (m : Nat) (t : AutoTiler) (cur step : Int) (hs : t.keys_sorted)
    (h : ∀ j : Nat, 1 ≤ j → j ≤ m → cur + j * step ∈ t.border_keys) :
    (clear_run t cur step m).border_keys = t.border_keys := by
  induction m generalizing t cur with
  | zero => rfl
  | succ m ih =>
    have h1 : cur + step ∈ t.border_keys := by
      have := h 1 (le_refl _) (by omega)
      simpa using this
    have e := with_border_keys_eq t (cur + step) BorderKind.NONE hs h1
    unfold clear_run
    rw [ih (t.with_border (cur + step) BorderKind.NONE) (cur + step)
      (keys_sorted_with_border t _ _ hs), e]
    intro j hj1 hj2
    rw [e]
    have := h (j + 1) (by omega) (by omega)
    have e2 : cur + ((j + 1 : Nat) : Int) * step = cur + step + j * step := by
      push_cast; ring
    rw [e2] at this
    exact this

end AutoTiler

namespace AutoTiler

theorem run_step_frame (g v : AutoTiler) (hf : same_frame g v) (kind : BorderKind) :
    v.run_step kind = g.run_step kind := by
  unfold run_step
  rw [hf.2.2.2.2.2.2.1]

theorem run_steps_frame (g v : AutoTiler) (hf : same_frame g v) (kind : BorderKind) (k : Int) :
    v.run_steps kind k = g.run_steps kind k := by
  unfold run_steps
  rw [hf.2.2.2.2.2.2.1]

/-- The start of a run after the translation of the side loop of the mode,
when the recorded sizes are those of `recorded_size`. -/
theorem shifted_start_spec (inner : Bool) (g v : AutoTiler) (kind : BorderKind) (k : Int)
    (hi : g.get_tileset.is_border_set_inner g.border_set_id = inner)
    (hsz : ∀ kind, kind ≠ BorderKind.NONE →
      g.get_pattern_size kind = some (g.recorded_size kind))
    (hf : same_frame g v) (hs : is_side_border kind = true) :
    v.shifted_start (if inner then BorderKind.RIGHT else BorderKind.LEFT)
      (if inner then BorderKind.BOTTOM else BorderKind.TOP) kind k =
      some (k - g.spec_pre_shift kind) := by
  unfold shifted_start spec_pre_shift
  rw [same_frame_get_pattern_size g v hf, hsz kind (side_ne_none kind hs), hi,
    hf.2.2.2.2.2.2.1]
  cases inner <;> cases kind <;> simp at hs ⊢

/-- The cells removed for a corner by `finish_run` with the selection of the
mode are those of `spec_corner_excess`. -/
theorem corner_excess_spec (inner : Bool) (g v : AutoTiler) (kind corner : BorderKind)
    (hi : g.get_tileset.is_border_set_inner g.border_set_id = inner)
    (hsz : ∀ kind, kind ≠ BorderKind.NONE →
      g.get_pattern_size kind = some (g.recorded_size kind))
    (hf : same_frame g v) (hc : is_corner_border corner = true) :
    if (if inner then is_convex_corner_border else is_concave_corner_border) corner = true then
      ∃ s, v.get_pattern_size corner = some s ∧
        g.spec_corner_excess kind corner = Int.tdiv (along_run kind s) 8 - 1
    else g.spec_corner_excess kind corner = 0 := by
  have hne : corner ≠ BorderKind.NONE := ((is_corner_iff corner).1 hc).1
  unfold spec_corner_excess
  rw [hi, same_frame_get_pattern_size g v hf, hsz corner hne]
  cases inner
  · simp only [Bool.false_eq_true, if_false]
    split
    · exact ⟨_, rfl, rfl⟩
    · rfl
  · simp only [if_true]
    split
    · exact ⟨_, rfl, rfl⟩
    · rfl

theorem along_run_invalid (kind : BorderKind) :
    Int.tdiv (along_run kind QSize.invalid) 8 = 0 := by
  unfold along_run
  split <;> rfl

/-- No tile for a cell that does not start a run. -/
theorem spec_side_tile_none (g : AutoTiler) (layer k : Int)
    (h : ¬ (is_side_border (g.border_at k) = true ∧
      g.get_tileset.has_border_set_pattern g.border_set_id (g.border_at k) = true ∧
      is_corner_border (g.border_at (k - g.run_step (g.border_at k))) = true)) :
    g.spec_side_tile layer k = none := by
  unfold spec_side_tile
  simp only
  rw [if_neg h]

/-- The tile of a cell that starts a run. -/
theorem spec_side_tile_run (g : AutoTiler) (layer k : Int) (n : Int)
    (h1 : is_side_border (g.border_at k) = true)
    (h2 : g.get_tileset.has_border_set_pattern g.border_set_id (g.border_at k) = true)
    (h3 : is_corner_border (g.border_at (k - g.run_step (g.border_at k))) = true)
    (hn : g.spec_raw_run (g.border_at k) (g.run_step (g.border_at k))
      (g.run_steps (g.border_at k) k + 1) k = n) :
    g.spec_side_tile layer k =
      if 0 < n - g.spec_corner_excess (g.border_at k)
            (g.border_at (k - g.run_step (g.border_at k))) -
          g.spec_corner_excess (g.border_at k)
            (g.border_at (k + n * g.run_step (g.border_at k))) ∧
          g.get_tileset.pattern_exists (g.pattern_of (g.border_at k)) = true then
        (g.to_map_xy (g.spec_rounded_run (g.border_at k)
          (g.border_at (k - g.run_step (g.border_at k)))
          (k - g.spec_pre_shift (g.border_at k) +
            g.spec_corner_excess (g.border_at k)
              (g.border_at (k - g.run_step (g.border_at k))) * g.run_step (g.border_at k))
          (n - g.spec_corner_excess (g.border_at k)
              (g.border_at (k - g.run_step (g.border_at k))) -
            g.spec_corner_excess (g.border_at k)
              (g.border_at (k + n * g.run_step (g.border_at k))))).1).map fun xy =>
          (⟨g.pattern_of (g.border_at k), xy,
            tile_size (g.border_at k)
              (g.get_tileset.pattern_frame_size (g.pattern_of (g.border_at k)))
              (g.spec_rounded_run (g.border_at k)
                (g.border_at (k - g.run_step (g.border_at k)))
                (k - g.spec_pre_shift (g.border_at k) +
                  g.spec_corner_excess (g.border_at k)
                    (g.border_at (k - g.run_step (g.border_at k))) *
                    g.run_step (g.border_at k))
                (n - g.spec_corner_excess (g.border_at k)
                    (g.border_at (k - g.run_step (g.border_at k))) -
                  g.spec_corner_excess (g.border_at k)
                    (g.border_at (k + n * g.run_step (g.border_at k))))).2, layer⟩ : Tile)
      else none := by
  unfold spec_side_tile
  simp only
  rw [if_pos ⟨h1, h2, h3⟩, hn]

end AutoTiler

namespace AutoTiler

/-- The end of a side run in the mode of the border set, when it succeeds:
the border map is kept and the tile appended, if any, is the one that the
specification describes from the raw length `n` and the kinds `c1` and `c2`
at the ends of the run. -/
theorem finish_run_spec (inner : Bool) (g r1 w : AutoTiler) (first : EntityIndex)
    (kind c1 c2 : BorderKind) (k n : Int)
    (hi : g.get_tileset.is_border_set_inner g.border_set_id = inner)
    (hsz : ∀ kind, kind ≠ BorderKind.NONE →
      g.get_pattern_size kind = some (g.recorded_size kind))
    (hfirst : g.entity_indexes.head? = some first)
    (hf : same_frame g r1) (hs : is_side_border kind = true)
    (h : finish_run r1 (if inner then is_convex_corner_border else is_concave_corner_border)
      (along_run kind) (g.run_step kind) kind c1 c2 (k - g.spec_pre_shift kind) n = some w) :
    w.which_borders = r1.which_borders ∧ same_frame r1 w ∧
    w.tiles = r1.tiles ++
      (if 0 < n - g.spec_corner_excess kind c1 - g.spec_corner_excess kind c2 ∧
          g.get_tileset.pattern_exists (g.pattern_of kind) = true then
        (g.to_map_xy (g.spec_rounded_run kind c1
          (k - g.spec_pre_shift kind + g.spec_corner_excess kind c1 * g.run_step kind)
          (n - g.spec_corner_excess kind c1 - g.spec_corner_excess kind c2)).1).map fun xy =>
          (⟨g.pattern_of kind, xy,
            tile_size kind (g.get_tileset.pattern_frame_size (g.pattern_of kind))
              (g.spec_rounded_run kind c1
                (k - g.spec_pre_shift kind + g.spec_corner_excess kind c1 * g.run_step kind)
                (n - g.spec_corner_excess kind c1 - g.spec_corner_excess kind c2)).2,
            first.layer⟩ : Tile)
      else none).toList.map some := by
  obtain ⟨hc1, hc2, -⟩ := finish_run_some _ _ _ _ _ _ _ _ _ _ h
  have hne : kind ≠ BorderKind.NONE := side_ne_none kind hs
  rw [finish_run_unfold r1 _ (along_run kind) (g.run_step kind) kind c1 c2 _ n
    (g.spec_corner_excess kind c1) (g.spec_corner_excess kind c2) hc1 hc2
    (corner_excess_spec inner g r1 kind c1 hi hsz hf hc1)
    (corner_excess_spec inner g r1 kind c2 hi hsz hf hc2)] at h
  generalize g.spec_corner_excess kind c1 = e1 at h ⊢
  generalize g.spec_corner_excess kind c2 = e2 at h ⊢
  by_cases hn : n - e1 - e2 > 0
  swap
  · rw [if_neg hn] at h
    cases h
    rw [if_neg (fun a => hn a.1)]
    exact ⟨rfl, same_frame_refl _, by simp⟩
  rw [if_pos hn, same_frame_get_pattern_size g r1 hf, hsz kind hne, Option.some_bind] at h
  by_cases hb : Int.tdiv (along_run kind (g.recorded_size kind)) 8 = 0
  · rw [if_pos hb] at h
    cases h
  rw [if_neg hb] at h
  have hex : g.get_tileset.pattern_exists (g.pattern_of kind) = true := by
    by_contra hex
    apply hb
    unfold recorded_size
    rw [if_neg hex]
    exact along_run_invalid kind
  have hmk : r1.make_tile kind
      (g.spec_rounded_run kind c1 (k - g.spec_pre_shift kind + e1 * g.run_step kind)
        (n - e1 - e2)).1
      (g.spec_rounded_run kind c1 (k - g.spec_pre_shift kind + e1 * g.run_step kind)
        (n - e1 - e2)).2 = some w := by
    unfold spec_rounded_run
    simp only
    by_cases hr : Int.tmod (n - e1 - e2) (Int.tdiv (along_run kind (g.recorded_size kind)) 8) = 0
    · rw [if_neg (not_not.2 hr)] at h
      rw [if_pos hr]
      exact h
    · rw [if_pos hr] at h
      rw [if_neg hr]
      simp only
      by_cases hcc : is_concave_corner_border c1 = true
      · rw [if_pos hcc] at h ⊢
        exact h
      · rw [if_neg hcc] at h ⊢
        exact h
  generalize g.spec_rounded_run kind c1 (k - g.spec_pre_shift kind + e1 * g.run_step kind)
    (n - e1 - e2) = r at hmk ⊢
  have hex2 : r1.get_tileset.pattern_exists (r1.pattern_of kind) = true := by
    rw [same_frame_tileset g r1 hf, same_frame_pattern_of g r1 hf]
    exact hex
  obtain ⟨-, xy, first2, hxy, hf2, rfl⟩ := make_tile_exists r1 w kind r.1 r.2 hne hex2 hmk
  rw [hf.2.1, hfirst] at hf2
  cases hf2
  rw [same_frame_to_map_xy g r1 hf] at hxy
  refine ⟨rfl, same_frame_tiles _ _, ?_⟩
  rw [if_pos ⟨hn, hex⟩, hxy, same_frame_tileset g r1 hf, same_frame_pattern_of g r1 hf]
  rfl

end AutoTiler

namespace AutoTiler

/-- One step of the side loop of the mode, in terms of the border map `g` at
the start of the loop. The state `v` differs from `g` by cells of side kinds
that earlier steps have reset to `NONE`; if the cell of the step is one of
them, it continues a run (`hd`). The step appends the tile that the
specification describes for the cell from the border map `g`, if any. -/
theorem side_tile_spec (inner : Bool) (g v w : AutoTiler) (first : EntityIndex) (k : Int)
    (hi : g.get_tileset.is_border_set_inner g.border_set_id = inner)
    (hsz : ∀ kind, kind ≠ BorderKind.NONE →
      g.get_pattern_size kind = some (g.recorded_size kind))
    (hfirst : g.entity_indexes.head? = some first)
    (hf : same_frame g v)
    (hfs : ∀ c, v.border_at c = g.border_at c ∨
      (v.border_at c = BorderKind.NONE ∧ is_side_border (g.border_at c) = true))
    (hks : v.keys_sorted)
    (hd : v.border_at k ≠ g.border_at k →
      g.border_at (k - g.run_step (g.border_at k)) = g.border_at k)
    (h : side_tile (if inner then BorderKind.RIGHT else BorderKind.LEFT)
        (if inner then BorderKind.BOTTOM else BorderKind.TOP)
        (if inner then is_convex_corner_border else is_concave_corner_border) v k = some w) :
    same_frame g w ∧
    (∀ c, w.border_at c = g.border_at c ∨
      (w.border_at c = BorderKind.NONE ∧ is_side_border (g.border_at c) = true)) ∧
    w.keys_sorted ∧ w.border_keys = v.border_keys ∧
    w.tiles = v.tiles ++ (g.spec_side_tile first.layer k).toList.map some ∧
    ∀ c, c ≠ k → w.border_at c ≠ g.border_at c →
      v.border_at c ≠ g.border_at c ∨
      g.border_at (c - g.run_step (g.border_at c)) = g.border_at c := by
  obtain ⟨hm, hg, h1⟩ := side_tile_some _ _ _ v w k h
  have hkey : k ∈ v.border_keys := map_find_some_mem _ _ _ hm
  have hts := same_frame_tileset g v hf
  have hbs : v.border_set_id = g.border_set_id := hf.2.2.1
  rcases h1 with ⟨hs, rfl⟩ | ⟨hs, hin, h2⟩
  · -- the entry holds no side kind
    have hspec : g.spec_side_tile first.layer k = none := by
      apply spec_side_tile_none
      rintro ⟨a, -, c⟩
      rcases hfs k with e | ⟨e, -⟩
      · rw [e, a] at hs
        cases hs
      · have e2 := hd (by
          rw [e]
          exact (side_ne_none _ a).symm)
        rw [e2] at c
        have := corner_not_side _ c
        rw [a] at this
        cases this
    refine ⟨hf, hfs, hks, rfl, by rw [hspec]; simp, ?_⟩
    intro c _ hc
    exact Or.inl hc
  have hb : v.border_at k = g.border_at k := by
    rcases hfs k with e | ⟨e, -⟩
    · exact e
    · rw [e] at hs
      cases hs
  rw [hb] at hs hm h2
  have hne : g.border_at k ≠ BorderKind.NONE := side_ne_none _ hs
  have hrs : v.run_step (g.border_at k) = g.run_step (g.border_at k) := run_step_frame g v hf _
  have hrn : v.run_steps (g.border_at k) k = g.run_steps (g.border_at k) k :=
    run_steps_frame g v hf _ _
  have hgw : g.grid_size.wd ≠ 0 := by
    rw [← hf.2.2.2.2.2.2.1]
    exact hg
  have hstep : g.run_step (g.border_at k) ≠ 0 := run_step_ne_zero g _ hgw
  rcases h2 with ⟨hnp, rfl⟩ | ⟨hh, -⟩
  · -- the kind is not mapped
    have hspec : g.spec_side_tile first.layer k = none := by
      apply spec_side_tile_none
      rintro ⟨-, b, -⟩
      rw [hts, hbs, b] at hnp
      cases hnp
    refine ⟨same_frame_trans _ _ _ hf (same_frame_with_border v _ _), ?_,
      keys_sorted_with_border v _ _ hks, with_border_keys_eq v k _ hks hkey,
      by rw [hspec]; simp; rfl, ?_⟩
    · intro c
      rw [border_at_with_border_eq]
      by_cases hc : c = k
      · rw [if_pos hc, hc]
        exact Or.inr ⟨rfl, hs⟩
      · rw [if_neg hc]
        exact hfs c
    · intro c hc hw
      rw [border_at_with_border_eq, if_neg hc] at hw
      exact Or.inl hw
  -- the kind is mapped: a run
  rw [side_tile_steps _ _ _ v k (g.border_at k) (k - g.spec_pre_shift (g.border_at k)) hm hg hs
    hin hh (shifted_start_spec inner g v _ k hi hsz hf hs), hrs, hrn] at h
  simp only [Option.bind_eq_some] at h
  obtain ⟨c1, hc1, r, hr, c2, hc2, hfin⟩ := h
  obtain ⟨hcc1, hcc2, -⟩ := finish_run_some _ _ _ _ _ _ _ _ _ _ hfin
  obtain ⟨m, hmle, hr1, hr22, hcells, hstop⟩ := count_run_some _ _ hne _ _ _ _ r hr
  -- the kind before the run
  have e1 : c1 = g.border_at (k - g.run_step (g.border_at k)) := by
    obtain ⟨-, e⟩ := get_which_border_some _ _ _ hc1
    rw [border_at_with_border_eq, if_neg (by omega)] at e
    rcases hfs (k - g.run_step (g.border_at k)) with a | ⟨a, -⟩
    · rw [← e, a]
    · rw [a] at e
      rw [← e] at hcc1
      cases hcc1
  -- the cells of the run
  have hrun : ∀ j : Nat, j < m + 1 →
      g.border_at (k + j * g.run_step (g.border_at k)) = g.border_at k := by
    intro j hj
    rcases Nat.eq_zero_or_pos j with rfl | hpos
    · simp
    · obtain ⟨-, e⟩ := hcells j hpos (by omega)
      have hjk : k + (j : Int) * g.run_step (g.border_at k) ≠ k := by
        intro hc
        have : (j : Int) * g.run_step (g.border_at k) = 0 := by linarith
        rcases mul_eq_zero.1 this with a | a
        · omega
        · exact hstep a
      rw [border_at_with_border_eq, if_neg hjk] at e
      rcases hfs (k + j * g.run_step (g.border_at k)) with a | ⟨a, -⟩
      · rw [← a, e]
      · rw [a] at e
        exact absurd e.symm hne
  have hclr := clear_run_border_at m (v.with_border k BorderKind.NONE) k
    (g.run_step (g.border_at k))
  obtain ⟨-, ec2⟩ := get_which_border_some _ _ _ hc2
  rw [hr1] at ec2
  -- the run stops at a cell that holds another kind
  have hstop2 : r.2.1 = k + ((m + 1 : Nat) : Int) * g.run_step (g.border_at k) := by
    rcases hstop with ⟨-, a, -, -⟩ | ⟨-, a⟩
    · exact a
    · exfalso
      rw [a] at ec2
      rcases Nat.eq_zero_or_pos m with rfl | hpos
      · simp only [Nat.cast_zero, zero_mul, add_zero, clear_run] at ec2
        rw [border_at_with_border_eq, if_pos rfl] at ec2
        rw [← ec2] at hcc2
        cases hcc2
      · rw [(hclr _).1 ⟨m, hpos, le_refl _, rfl⟩] at ec2
        rw [← ec2] at hcc2
        cases hcc2
  have hnotin : ∀ c, (¬ ∃ j : Nat, 1 ≤ j ∧ j ≤ m ∧ c = k + j * g.run_step (g.border_at k)) →
      c ≠ k → (clear_run (v.with_border k BorderKind.NONE) k
        (g.run_step (g.border_at k)) m).border_at c = v.border_at c := by
    intro c hc hck
    rw [(hclr c).2 hc, border_at_with_border_eq, if_neg hck]
  have hmul : ∀ a b : Nat, k + (a : Int) * g.run_step (g.border_at k) =
      k + (b : Int) * g.run_step (g.border_at k) → a = b := by
    intro a b hab
    have : ((a : Int) - b) * g.run_step (g.border_at k) = 0 := by linarith
    rcases mul_eq_zero.1 this with e | e
    · omega
    · exact absurd e hstep
  have e2 : c2 = g.border_at (k + ((m + 1 : Nat) : Int) * g.run_step (g.border_at k)) := by
    rw [hstop2, hnotin] at ec2
    · rcases hfs (k + ((m + 1 : Nat) : Int) * g.run_step (g.border_at k)) with a | ⟨a, -⟩
      · rw [← ec2, a]
      · rw [a] at ec2
        rw [← ec2] at hcc2
        cases hcc2
    · rintro ⟨j, -, hj2, hj3⟩
      have := hmul _ _ hj3
      omega
    · intro hc
      have := hmul (m + 1) 0 (by simpa using hc)
      omega
  -- the raw length
  have hraw : g.spec_raw_run (g.border_at k) (g.run_step (g.border_at k))
      (g.run_steps (g.border_at k) k + 1) k = ((m + 1 : Nat) : Int) := by
    have := spec_raw_run_eq g (g.border_at k) (g.run_step (g.border_at k)) (m + 1)
      (g.run_steps (g.border_at k) k + 1) k (by omega) hrun (by
        intro _ hc
        rw [← e2] at hc
        rw [hc] at hcc2
        have := corner_not_side _ hcc2
        rw [hs] at this
        cases this)
    exact this
  have hn : r.2.2 = ((m + 1 : Nat) : Int) := by
    rw [hr22]
    push_cast
    ring
  have hfr : same_frame v r.1 := by
    rw [hr1]
    exact same_frame_trans _ _ _ (same_frame_with_border v _ _) (clear_run_frame m _ _ _).1
  rw [hn, e1, e2] at hfin
  obtain ⟨hwb, hfw, htl⟩ := finish_run_spec inner g r.1 w first (g.border_at k) _ _ k _
    hi hsz hfirst (same_frame_trans _ _ _ hf hfr) hs hfin
  have hcorner : is_corner_border (g.border_at (k - g.run_step (g.border_at k))) = true := by
    rw [← e1]
    exact hcc1
  have hh2 : g.get_tileset.has_border_set_pattern g.border_set_id (g.border_at k) = true := by
    rw [← hts, ← hbs]
    exact hh
  rw [← spec_side_tile_run g first.layer k _ hs hh2 hcorner hraw] at htl
  have hwat : ∀ c, w.border_at c = (clear_run (v.with_border k BorderKind.NONE) k
      (g.run_step (g.border_at k)) m).border_at c := by
    intro c
    rw [← hr1]
    show (map_find w.which_borders c).getD BorderKind.NONE =
      (map_find r.1.which_borders c).getD BorderKind.NONE
    rw [hwb]
  have hcellkeys : ∀ j : Nat, 1 ≤ j → j ≤ m →
      k + j * g.run_step (g.border_at k) ∈ (v.with_border k BorderKind.NONE).border_keys := by
    intro j hj1 hj2
    apply mem_keys_of_border_at
    rw [(hcells j hj1 hj2).2]
    exact hne
  refine ⟨same_frame_trans _ _ _ hf (same_frame_trans _ _ _ hfr hfw), ?_, ?_, ?_, ?_, ?_⟩
  · intro c
    rw [hwat]
    by_cases hc : ∃ j : Nat, 1 ≤ j ∧ j ≤ m ∧ c = k + j * g.run_step (g.border_at k)
    · right
      refine ⟨(hclr c).1 hc, ?_⟩
      obtain ⟨j, -, hj2, rfl⟩ := hc
      rw [hrun j (by omega)]
      exact hs
    · by_cases hck : c = k
      · right
        rw [(hclr c).2 hc, border_at_with_border_eq, if_pos hck, hck]
        exact ⟨rfl, hs⟩
      · rw [hnotin c hc hck]
        exact hfs c
  · unfold keys_sorted border_keys
    rw [hwb, hr1]
    exact (clear_run_frame m _ _ _).2.2.2 (keys_sorted_with_border v _ _ hks)
  · unfold border_keys
    rw [hwb, hr1]
    exact (clear_run_keys_eq m _ k _ (keys_sorted_with_border v _ _ hks) hcellkeys).trans
      (with_border_keys_eq v k _ hks hkey)
  · rw [htl, hr1, (clear_run_frame m _ _ _).2.1]
    rfl
  · intro c hck hw
    rw [hwat] at hw
    by_cases hc : ∃ j : Nat, 1 ≤ j ∧ j ≤ m ∧ c = k + j * g.run_step (g.border_at k)
    · right
      obtain ⟨j, hj1, hj2, rfl⟩ := hc
      rw [hrun j (by omega)]
      have e : k + (j : Int) * g.run_step (g.border_at k) - g.run_step (g.border_at k) =
          k + ((j - 1 : Nat) : Int) * g.run_step (g.border_at k) := by
        have : ((j - 1 : Nat) : Int) = (j : Int) - 1 := by omega
        rw [this]
        ring
      rw [e]
      exact hrun (j - 1) (by omega)
    · left
      rw [hnotin c hc hck] at hw
      exact hw

end AutoTiler

namespace AutoTiler

/-- The side loop of the mode over a list of distinct keys, in terms of the
border map `g` at the start of the loop: the tiles appended are those that the
specification describes for the keys, in order. -/
theorem side_fold_spec (inner : Bool) (g : AutoTiler) (first : EntityIndex)
    (hi : g.get_tileset.is_border_set_inner g.border_set_id = inner)
    (hsz : ∀ kind, kind ≠ BorderKind.NONE →
      g.get_pattern_size kind = some (g.recorded_size kind))
    (hfirst : g.entity_indexes.head? = some first)
    (l : List Int) (hl : l.Nodup) (v u : AutoTiler)
    (hf : same_frame g v)
    (hfs : ∀ c, v.border_at c = g.border_at c ∨
      (v.border_at c = BorderKind.NONE ∧ is_side_border (g.border_at c) = true))
    (hks : v.keys_sorted)
    (hd : ∀ c ∈ l, v.border_at c ≠ g.border_at c →
      g.border_at (c - g.run_step (g.border_at c)) = g.border_at c)
    (h : l.foldlM (side_tile (if inner then BorderKind.RIGHT else BorderKind.LEFT)
        (if inner then BorderKind.BOTTOM else BorderKind.TOP)
        (if inner then is_convex_corner_border else is_concave_corner_border)) v = some u) :
    same_frame g u ∧
    (∀ c, u.border_at c = g.border_at c ∨
      (u.border_at c = BorderKind.NONE ∧ is_side_border (g.border_at c) = true)) ∧
    u.keys_sorted ∧ u.border_keys = v.border_keys ∧
    u.tiles = v.tiles ++ (l.filterMap (g.spec_side_tile first.layer)).map some := by
  induction l generalizing v with
  | nil =>
    simp only [List.foldlM, Option.pure_def, Option.some.injEq] at h
    subst h
    exact ⟨hf, hfs, hks, rfl, by simp⟩
  | cons k rest ih =>
    simp only [List.foldlM, Option.bind_eq_bind, Option.bind_eq_some] at h
    obtain ⟨w, hw, h⟩ := h
    rw [List.nodup_cons] at hl
    obtain ⟨a1, a2, a3, a4, a5, a6⟩ := side_tile_spec inner g v w first k hi hsz hfirst hf hfs
      hks (hd k (List.mem_cons_self _ _)) hw
    obtain ⟨b1, b2, b3, b4, b5⟩ := ih hl.2 w a1 a2 a3 (by
      intro c hc hne
      have hck : c ≠ k := fun e => hl.1 (e ▸ hc)
      rcases a6 c hck hne with e | e
      · exact hd c (List.mem_cons_of_mem _ hc) e
      · exact e) h
    refine ⟨b1, b2, b3, b4.trans a4, ?_⟩
    rw [b5, a5, List.append_assoc]
    congr 1
    cases hsp : g.spec_side_tile first.layer k with
    | none => simp [List.filterMap_cons, hsp]
    | some x => simp [List.filterMap_cons, hsp]

/-- The side loop of `compute_tiles_inner` or `compute_tiles_outer`, when it
succeeds, in terms of the border map `g` of the classification: the keys are
kept, the cells that held a corner kind still hold it and every other cell
holds `NONE`, and the tiles appended are those that the specification
describes for the keys of `g`, in ascending order of the keys. -/
theorem side_pass_spec (g s : AutoTiler) (first : EntityIndex) (hks : g.keys_sorted)
    (hsz : ∀ kind, kind ≠ BorderKind.NONE →
      g.get_pattern_size kind = some (g.recorded_size kind))
    (hfirst : g.entity_indexes.head? = some first)
    (h : g.side_pass = some s) :
    same_frame g s ∧ s.keys_sorted ∧ s.border_keys = g.border_keys ∧
    (∀ c, s.border_at c =
      if is_corner_border (g.border_at c) = true then g.border_at c else BorderKind.NONE) ∧
    s.tiles = g.tiles ++ (g.border_keys.filterMap (g.spec_side_tile first.layer)).map some := by
  have hclr := (side_pass_effect g s h).2.2.2.1
  have key : ∀ inner : Bool, g.get_tileset.is_border_set_inner g.border_set_id = inner →
      g.border_keys.foldlM (side_tile (if inner then BorderKind.RIGHT else BorderKind.LEFT)
        (if inner then BorderKind.BOTTOM else BorderKind.TOP)
        (if inner then is_convex_corner_border else is_concave_corner_border)) g = some s →
      same_frame g s ∧
      (∀ c, s.border_at c = g.border_at c ∨
        (s.border_at c = BorderKind.NONE ∧ is_side_border (g.border_at c) = true)) ∧
      s.keys_sorted ∧ s.border_keys = g.border_keys ∧
      s.tiles = g.tiles ++ (g.border_keys.filterMap (g.spec_side_tile first.layer)).map some := by
    intro inner hi hfold
    exact side_fold_spec inner g first hi hsz hfirst g.border_keys
      (hks.imp (fun hab => ne_of_lt hab)) g s (same_frame_refl g) (fun c => Or.inl rfl) hks
      (fun c _ hc => absurd rfl hc) hfold
  have main : same_frame g s ∧
      (∀ c, s.border_at c = g.border_at c ∨
        (s.border_at c = BorderKind.NONE ∧ is_side_border (g.border_at c) = true)) ∧
      s.keys_sorted ∧ s.border_keys = g.border_keys ∧
      s.tiles = g.tiles ++
        (g.border_keys.filterMap (g.spec_side_tile first.layer)).map some := by
    unfold side_pass at h
    by_cases hi : g.get_tileset.is_border_set_inner g.border_set_id = true
    · rw [if_pos hi] at h
      exact key true hi h
    · rw [if_neg hi] at h
      exact key false (by simpa using hi) h
  obtain ⟨m1, m2, m3, m4, m5⟩ := main
  refine ⟨m1, m3, m4, ?_, m5⟩
  intro c
  by_cases hc : is_corner_border (g.border_at c) = true
  · rw [if_pos hc]
    rcases m2 c with e | ⟨-, e⟩
    · exact e
    · rw [corner_not_side _ hc] at e
      cases e
  · rw [if_neg hc]
    rcases m2 c with e | ⟨e, -⟩
    swap
    · exact e
    by_cases hn : g.border_at c = BorderKind.NONE
    · rw [e, hn]
    · have hside := side_of_not_corner _ hn (by simpa using hc)
      have := hclr c (mem_keys_of_border_at g c hn)
      rw [e, hside] at this
      cases this

end AutoTiler

namespace AutoTiler

/-- The step of the corner loop at an entry whose kind is mapped: the call of
`make_tile` at the translated cell. -/
theorem corner_tile_make (sx sy : BorderKind → Bool) (v : AutoTiler) (k : Int) (sz : QSize)
    (hk : k ∈ v.border_keys)
    (hh : v.get_tileset.has_border_set_pattern v.border_set_id (v.border_at k) = true)
    (hsz : v.get_pattern_size (v.border_at k) = some sz) :
    corner_tile sx sy v k =
      v.make_tile (v.border_at k)
        (k - (if sx (v.border_at k) = true then Int.tdiv sz.wd 8 - 1 else 0) -
          (if sy (v.border_at k) = true then (Int.tdiv sz.ht 8 - 1) * v.grid_size.wd else 0))
        1 := by
  have hkey := map_find_of_key v k hk
  unfold corner_tile
  rw [hkey]
  simp only
  rw [if_neg (not_not.2 hh), hsz]
  by_cases hx : sx (v.border_at k) = true <;> by_cases hy : sy (v.border_at k) = true <;>
    simp only [hx, hy, if_true, if_false, Bool.false_eq_true, Option.map_some',
      Option.some_bind, sub_zero]

/-- What a successful step of the corner loop did at an entry that holds no
side kind, when the recorded pattern sizes are those of the tileset: it
appended the tile of the entry, if any, and changed nothing else. -/
theorem corner_tile_done (sx sy : BorderKind → Bool) (v u : AutoTiler) (k : Int)
    (first : EntityIndex) (hsx : sx BorderKind.NONE = false) (hsy : sy BorderKind.NONE = false)
    (hk : k ∈ v.border_keys) (hns : is_side_border (v.border_at k) = false)
    (hg : v.grid_size.wd ≠ 0) (hfirst : v.entity_indexes.head? = some first)
    (hsz : ∀ kind, kind ≠ BorderKind.NONE → v.get_pattern_size kind =
      some (if v.get_tileset.pattern_exists (v.pattern_of kind) then
        v.get_tileset.pattern_frame_size (v.pattern_of kind) else QSize.invalid))
    (h : corner_tile sx sy v k = some u) :
    same_frame v u ∧ u.which_borders = v.which_borders ∧
      u.tiles = v.tiles ++
        ((if v.border_at k ≠ BorderKind.NONE ∧
            v.get_tileset.has_border_set_pattern v.border_set_id (v.border_at k) = true ∧
            v.get_tileset.pattern_exists (v.pattern_of (v.border_at k)) = true then
          (v.to_map_xy (k -
            (if sx (v.border_at k) = true then
              Int.tdiv (v.get_tileset.pattern_frame_size (v.pattern_of (v.border_at k))).wd 8 - 1
            else 0) -
            (if sy (v.border_at k) = true then
              (Int.tdiv (v.get_tileset.pattern_frame_size (v.pattern_of (v.border_at k))).ht 8
                - 1) * v.grid_size.wd
            else 0))).map fun xy =>
              (⟨v.pattern_of (v.border_at k), xy,
                v.get_tileset.pattern_frame_size (v.pattern_of (v.border_at k)),
                first.layer⟩ : Tile)
        else none).toList.map some) := by
  by_cases hc : v.border_at k ≠ BorderKind.NONE ∧
      v.get_tileset.has_border_set_pattern v.border_set_id (v.border_at k) = true ∧
      v.get_tileset.pattern_exists (v.pattern_of (v.border_at k)) = true
  · rw [if_pos hc]
    obtain ⟨hn, hh, hex⟩ := hc
    have hs := hsz _ hn
    rw [if_pos hex] at hs
    rw [corner_tile_make sx sy v k _ hk hh hs] at h
    obtain ⟨-, xy, first2, hxy, hf2, rfl⟩ := make_tile_exists v u _ _ _ hn hex h
    rw [hfirst] at hf2
    cases hf2
    refine ⟨same_frame_tiles _ _, rfl, ?_⟩
    rw [hxy]
    have hsize : tile_size (v.border_at k)
        (v.get_tileset.pattern_frame_size (v.pattern_of (v.border_at k))) 1 =
        v.get_tileset.pattern_frame_size (v.pattern_of (v.border_at k)) :=
      tile_size_corner _ _ _ hns
    rw [hsize]
    rfl
  · rw [if_neg hc]
    rw [corner_tile_skip sx sy v k hsx hsy hk hg (fun kind hkn => ⟨_, hsz kind hkn⟩) hc] at h
    cases h
    exact ⟨same_frame_refl _, rfl, by simp⟩

/-- A loop over keys each step of which, when it succeeds, keeps the border
map and appends the tile that `tile_at` gives for the key, if any: the tiles
appended by the loop are those of the keys, in order. -/
theorem fold_tiles_done (f : AutoTiler → Int → Option AutoTiler) (s : AutoTiler)
    (tile_at : Int → Option Tile) (l : List Int)
    (hstep : ∀ v u k, same_frame s v → v.which_borders = s.which_borders → k ∈ l →
      f v k = some u →
      same_frame v u ∧ u.which_borders = v.which_borders ∧
        u.tiles = v.tiles ++ (tile_at k).toList.map some)
    (v c : AutoTiler) (hv : same_frame s v) (hw : v.which_borders = s.which_borders)
    (h : l.foldlM f v = some c) :
    same_frame v c ∧ c.which_borders = v.which_borders ∧
      c.tiles = v.tiles ++ (l.filterMap tile_at).map some := by
  induction l generalizing v with
  | nil =>
    simp only [List.foldlM, Option.pure_def, Option.some.injEq] at h
    subst h
    exact ⟨same_frame_refl v, rfl, by simp⟩
  | cons k rest ih =>
    simp only [List.foldlM, Option.bind_eq_bind, Option.bind_eq_some] at h
    obtain ⟨u, hu, h⟩ := h
    obtain ⟨f1, w1, t1⟩ := hstep v u k hv hw (List.mem_cons_self _ _) hu
    obtain ⟨f2, w2, t2⟩ := ih
      (fun v2 u2 k2 a b hk2 => hstep v2 u2 k2 a b (List.mem_cons_of_mem _ hk2)) u
      (same_frame_trans _ _ _ hv f1) (w1.trans hw) h
    refine ⟨same_frame_trans _ _ _ f1 f2, w2.trans w1, ?_⟩
    rw [t2, t1, List.append_assoc]
    congr 1
    cases h : tile_at k with
    | none => simp [List.filterMap_cons, h]
    | some x => simp [List.filterMap_cons, h]

/-- The corner loop of `compute_tiles_inner` or `compute_tiles_outer`, when
it succeeds on a border map without side kinds: the tiles appended are those
of `spec_corner_tile` for the keys, in ascending order of the keys. -/
theorem corner_pass_spec (s c : AutoTiler) (first : EntityIndex)
    (hns : ∀ k, is_side_border (s.border_at k) = false)
    (hg : s.border_keys ≠ [] → s.grid_size.wd ≠ 0)
    (hfirst : s.entity_indexes.head? = some first)
    (hsz : ∀ kind, kind ≠ BorderKind.NONE →
      s.get_pattern_size kind = some (s.recorded_size kind))
    (h : s.corner_pass = some c) :
    same_frame s c ∧ c.which_borders = s.which_borders ∧
    c.tiles = s.tiles ++
      (s.border_keys.filterMap (s.spec_corner_tile first.layer)).map some := by
  have key : ∀ (sx sy : BorderKind → Bool), sx BorderKind.NONE = false →
      sy BorderKind.NONE = false →
      (∀ kind, is_corner_border kind = true → sx kind =
        if s.get_tileset.is_border_set_inner s.border_set_id then is_right_corner kind
        else is_left_corner kind) →
      (∀ kind, is_corner_border kind = true → sy kind =
        if s.get_tileset.is_border_set_inner s.border_set_id then is_bottom_corner kind
        else is_top_corner kind) →
      s.border_keys.foldlM (corner_tile sx sy) s = some c →
      same_frame s c ∧ c.which_borders = s.which_borders ∧
        c.tiles = s.tiles ++
          (s.border_keys.filterMap (s.spec_corner_tile first.layer)).map some := by
    intro sx sy hsx0 hsy0 hsx hsy hfold
    refine fold_tiles_done (corner_tile sx sy) s (s.spec_corner_tile first.layer) s.border_keys
      ?_ s c (same_frame_refl s) rfl hfold
    intro v u k hf hw hk hu
    have ev := eq_with_tiles s v hf hw
    generalize v.tiles = vt at ev
    subst ev
    have hgs : s.grid_size.wd ≠ 0 := hg (List.ne_nil_of_mem hk)
    obtain ⟨f1, w1, t1⟩ := corner_tile_done sx sy { s with tiles := vt } u k first
      hsx0 hsy0 hk (hns k) hgs hfirst hsz hu
    refine ⟨f1, w1, ?_⟩
    rw [t1, spec_corner_tile_eq s first.layer k sx sy (hns k) hsx hsy]
    rfl
  unfold corner_pass at h
  by_cases hi : s.get_tileset.is_border_set_inner s.border_set_id = true
  · rw [if_pos hi] at h
    refine key _ _ (by decide) (by decide) ?_ ?_ h
    · intro kind hk
      rw [if_pos hi]
      cases kind <;> rfl
    · intro kind hk
      rw [if_pos hi]
      cases kind <;> rfl
  · rw [if_neg hi] at h
    refine key _ _ (by decide) (by decide) ?_ ?_ h
    · intro kind hk
      rw [if_neg hi]
      cases kind <;> rfl
    · intro kind hk
      rw [if_neg hi]
      cases kind <;> rfl

end AutoTiler

namespace AutoTiler

/-- A successful side loop over at least one key was run on a grid of
non-zero width. -/
theorem side_pass_grid (g s : AutoTiler) (h : g.side_pass = some s)
    (hk : g.border_keys ≠ []) : g.grid_size.wd ≠ 0 := by
  have key : ∀ (sv sh : BorderKind) (thick : BorderKind → Bool),
      g.border_keys.foldlM (side_tile sv sh thick) g = some s → g.grid_size.wd ≠ 0 := by
    intro sv sh thick hf
    cases hl : g.border_keys with
    | nil => exact absurd hl hk
    | cons k rest =>
      rw [hl] at hf
      simp only [List.foldlM, Option.bind_eq_bind, Option.bind_eq_some] at hf
      obtain ⟨w, hw, -⟩ := hf
      exact (side_tile_some sv sh thick g w k hw).2.1
  unfold side_pass at h
  split at h
  · exact key _ _ _ h
  · exact key _ _ _ h

/-- The corner tile of the specification is the same before and after the
side loop, which keeps the corners and resets the other cells. -/
theorem spec_corner_tile_congr (g s : AutoTiler) (layer k : Int) (hf : same_frame g s)
    (hb : s.border_at k =
      if is_corner_border (g.border_at k) = true then g.border_at k else BorderKind.NONE) :
    s.spec_corner_tile layer k = g.spec_corner_tile layer k := by
  unfold spec_corner_tile
  simp only
  rw [same_frame_tileset g s hf, hf.2.2.1, hf.2.2.2.2.2.2.1]
  by_cases hc : is_corner_border (g.border_at k) = true
  · rw [if_pos hc] at hb
    rw [hb]
    simp only [same_frame_to_map_xy g s hf]
  · rw [if_neg hc] at hb
    rw [hb, if_neg (fun a => absurd a.1 (by decide)), if_neg (fun a => hc a.1)]

/-- The sizes recorded at the end of the classification are those of
`recorded_size`. -/
theorem classify_recorded (t g : AutoTiler) (h : t.classify = some g) (kind : BorderKind)
    (hk : kind ≠ BorderKind.NONE) :
    g.get_pattern_size kind = some (g.recorded_size kind) := by
  obtain ⟨e1, e2⟩ := classify_pattern_of t g h kind
  have e3 : g.get_pattern_size kind = t.compute_pattern_sizes.get_pattern_size kind := by
    unfold get_pattern_size
    rw [(classify_frame t g h).2.2.2.2.2.2]
  unfold recorded_size
  rw [e3, get_pattern_size_computed t kind hk, e1, e2]

/-- The output of a successful `generate_border_tiles` on at least one
region, for a tiler as constructed, in terms of the border map `g` of the
classification: the side tiles that the specification describes for the keys
of `g`, in ascending order of the keys, then the corner tiles that it
describes for the keys, in ascending order. `s` is the state after the side
loop: the cells that held a corner kind still hold it and every other cell
holds `NONE`. -/
theorem generate_tiles_spec (t u : AutoTiler) (out : List (Option Tile × EntityIndex))
    (first : EntityIndex) (ht : t.tiles = []) (hne : t.entity_rectangles ≠ [])
    (hfirst : t.entity_indexes.head? = some first)
    (h : t.generate_border_tiles = some (u, out)) :
    ∃ g s, t.classify = some g ∧ g.keys_sorted ∧ g.side_pass = some s ∧
      (∀ c, s.border_at c =
        if is_corner_border (g.border_at c) = true then g.border_at c else BorderKind.NONE) ∧
      out.map Prod.fst =
        (g.border_keys.filterMap (g.spec_side_tile first.layer)).map some ++
        (g.border_keys.filterMap (g.spec_corner_tile first.layer)).map some := by
  obtain ⟨g, s, c, hg, hs, hc, ho, -⟩ := generate_border_tiles_some t u out hne h
  obtain ⟨hsorted, htiles, -, hidx, -⟩ := classify_frame t g hg
  have hfg : g.entity_indexes.head? = some first := by rw [hidx]; exact hfirst
  obtain ⟨f1, f2, f3, f4, f5⟩ := side_pass_spec g s first hsorted (classify_recorded t g hg)
    hfg hs
  have hns : ∀ k, is_side_border (s.border_at k) = false := by
    intro k
    rw [f4 k]
    split
    · rename_i hcc
      exact corner_not_side _ hcc
    · rfl
  have hsz : ∀ kind, kind ≠ BorderKind.NONE →
      s.get_pattern_size kind = some (s.recorded_size kind) := by
    intro kind hk
    rw [same_frame_get_pattern_size g s f1, classify_recorded t g hg kind hk]
    unfold recorded_size
    rw [same_frame_tileset g s f1, same_frame_pattern_of g s f1]
  obtain ⟨-, -, c3⟩ := corner_pass_spec s c first hns
    (fun hk => by
      rw [f1.2.2.2.2.2.2.1]
      exact side_pass_grid g s hs (by rw [← f3]; exact hk))
    (by rw [f1.2.1]; exact hfg) hsz hc
  refine ⟨g, s, hg, hsorted, hs, f4, ?_⟩
  rw [ho, c3, f5, htiles, ht, List.nil_append, f3]
  congr 2
  apply List.filterMap_congr
  intro k _
  exact spec_corner_tile_congr g s first.layer k f1 (f4 k)

end AutoTiler

/-- The tiles that a function gives for the keys of a list, paired with their
keys. -/
theorem keyed_tiles (l : List Int) (f : Int → Option Tile) :
    ((l.filterMap fun k => (f k).map fun x => (k, x)).map fun p => some p.2) =
      (l.filterMap f).map some ∧
    ((l.filterMap fun k => (f k).map fun x => (k, x)).map Prod.fst).Sublist l ∧
    ∀ k x, (k, x) ∈ (l.filterMap fun k => (f k).map fun x => (k, x)) ↔ k ∈ l ∧ f k = some x := by
  induction l with
  | nil => simp
  | cons a rest ih =>
    obtain ⟨h1, h2, h3⟩ := ih
    cases hf : f a with
    | none =>
      simp only [List.filterMap_cons, hf, Option.map_none']
      refine ⟨h1, h2.trans (List.sublist_cons_self a rest), ?_⟩
      intro k x
      rw [h3 k x]
      constructor
      · rintro ⟨p, q⟩
        exact ⟨List.mem_cons_of_mem _ p, q⟩
      · rintro ⟨p, q⟩
        rcases List.mem_cons.1 p with rfl | p
        · rw [hf] at q
          cases q
        · exact ⟨p, q⟩
    | some y =>
      simp only [List.filterMap_cons, hf, Option.map_some', List.map_cons]
      refine ⟨by rw [h1], h2.cons₂ a, ?_⟩
      intro k x
      rw [List.mem_cons, h3 k x]
      constructor
      · rintro (p | ⟨p, q⟩)
        · cases p
          exact ⟨List.mem_cons_self _ _, hf⟩
        · exact ⟨List.mem_cons_of_mem _ p, q⟩
      · rintro ⟨p, q⟩
        rcases List.mem_cons.1 p with rfl | p
        · rw [hf] at q
          cases q
          exact Or.inl rfl
        · exact Or.inr ⟨p, q⟩

namespace AutoTiler

/-- The length of a rounded run is a multiple of the size of the side pattern
along the run divided by 8. -/
theorem spec_rounded_run_dvd (g : AutoTiler) (kind c1 : BorderKind) (start n : Int) :
    Int.tdiv (along_run kind (g.recorded_size kind)) 8 ∣ (g.spec_rounded_run kind c1 start n).2 := by
  unfold spec_rounded_run
  simp only
  split
  · rename_i h
    exact dvd_of_tmod_eq_zero _ _ h
  · exact tdiv_dvd_round _ _

/-- The rounding of a run of positive length `n` for a side pattern of
positive size `b` along the run, in cells: nothing changes when `b` divides
`n`; otherwise the length becomes the least multiple of `b` greater than `n`
and the first cell is moved backward by the added cells exactly when the
corner before the run is concave. -/
theorem spec_rounded_run_least (g : AutoTiler) (kind c1 : BorderKind) (start n : Int)
    (hb : 0 < Int.tdiv (along_run kind (g.recorded_size kind)) 8) (hn : 0 < n) :
    (Int.tdiv (along_run kind (g.recorded_size kind)) 8 ∣ n →
      g.spec_rounded_run kind c1 start n = (start, n)) ∧
    (¬ Int.tdiv (along_run kind (g.recorded_size kind)) 8 ∣ n →
      Int.tdiv (along_run kind (g.recorded_size kind)) 8 ∣
        (g.spec_rounded_run kind c1 start n).2 ∧
      n < (g.spec_rounded_run kind c1 start n).2 ∧
      (∀ m : Int, Int.tdiv (along_run kind (g.recorded_size kind)) 8 ∣ m → n < m →
        (g.spec_rounded_run kind c1 start n).2 ≤ m) ∧
      (g.spec_rounded_run kind c1 start n).1 =
        if is_concave_corner_border c1 = true then
          start - ((g.spec_rounded_run kind c1 start n).2 - n) * g.run_step kind
        else start) := by
  unfold spec_rounded_run
  simp only
  generalize Int.tdiv (along_run kind (g.recorded_size kind)) 8 = b at hb ⊢
  have hmod : Int.tmod n b = n % b := Int.tmod_eq_emod (by omega) (by omega)
  rw [hmod]
  have hr0 : 0 ≤ n % b := Int.emod_nonneg _ (by omega)
  have hr1 : n % b < b := Int.emod_lt_of_pos _ hb
  have hdiv := Int.emod_add_ediv n b
  by_cases hr : n % b = 0
  · rw [if_pos hr]
    exact ⟨fun _ => rfl, fun hnd => absurd (Int.dvd_of_emod_eq_zero hr) hnd⟩
  · rw [if_neg hr]
    refine ⟨fun hd => absurd (Int.emod_eq_zero_of_dvd hd) hr, fun _ => ⟨?_, ?_, ?_, ?_⟩⟩
    · refine ⟨n / b + 1, ?_⟩
      have : b * (n / b + 1) = b * (n / b) + b := by ring
      show n + (b - n % b) = _
      omega
    · show n < n + (b - n % b)
      omega
    · rintro k ⟨q, rfl⟩ hk
      show n + (b - n % b) ≤ _
      have h1 : n / b < q := by
        by_contra hq
        have h2 : q ≤ n / b := by omega
        have h3 : b * q ≤ b * (n / b) := mul_le_mul_of_nonneg_left h2 (by omega)
        omega
      have h4 : b * (n / b + 1) ≤ b * q := mul_le_mul_of_nonneg_left (by omega) (by omega)
      have h5 : b * (n / b + 1) = b * (n / b) + b := by ring
      omega
    · show (if is_concave_corner_border c1 = true then start - (b - n % b) * g.run_step kind
        else start) = _
      have e : n + (b - n % b) - n = b - n % b := by ring
      simp only [e]

/-- What `spec_side_tile` says of a cell for which it gives a tile. -/
theorem spec_side_tile_some (g : AutoTiler) (layer k : Int) (x : Tile)
    (h : g.spec_side_tile layer k = some x) :
    is_side_border (g.border_at k) = true ∧
    g.get_tileset.has_border_set_pattern g.border_set_id (g.border_at k) = true ∧
    is_corner_border (g.border_at (k - g.run_step (g.border_at k))) = true ∧
    g.get_tileset.pattern_exists (g.pattern_of (g.border_at k)) = true ∧
    x.pattern = g.pattern_of (g.border_at k) ∧ x.layer = layer ∧
    ∃ len : Int, Int.tdiv (along_run (g.border_at k) (g.recorded_size (g.border_at k))) 8 ∣ len ∧
      x.size = tile_size (g.border_at k)
        (g.get_tileset.pattern_frame_size (g.pattern_of (g.border_at k))) len := by
  by_cases hc : is_side_border (g.border_at k) = true ∧
      g.get_tileset.has_border_set_pattern g.border_set_id (g.border_at k) = true ∧
      is_corner_border (g.border_at (k - g.run_step (g.border_at k))) = true
  swap
  · rw [spec_side_tile_none g layer k hc] at h
    cases h
  obtain ⟨h1, h2, h3⟩ := hc
  rw [spec_side_tile_run g layer k _ h1 h2 h3 rfl] at h
  split at h
  swap
  · cases h
  rename_i hpos
  obtain ⟨xy, -, rfl⟩ := Option.map_eq_some'.1 h
  exact ⟨h1, h2, h3, hpos.2, rfl, rfl, _, spec_rounded_run_dvd g _ _ _ _, rfl⟩

/-- What `spec_corner_tile` says of a cell for which it gives a tile. -/
theorem spec_corner_tile_some (g : AutoTiler) (layer k : Int) (x : Tile)
    (h : g.spec_corner_tile layer k = some x) :
    is_corner_border (g.border_at k) = true ∧
    g.get_tileset.has_border_set_pattern g.border_set_id (g.border_at k) = true ∧
    g.get_tileset.pattern_exists (g.pattern_of (g.border_at k)) = true ∧
    x.pattern = g.pattern_of (g.border_at k) ∧ x.layer = layer ∧
    x.size = g.get_tileset.pattern_frame_size x.pattern ∧
    g.to_map_xy (k -
      (if (if g.get_tileset.is_border_set_inner g.border_set_id then
          is_right_corner (g.border_at k) else is_left_corner (g.border_at k)) = true then
        Int.tdiv x.size.wd 8 - 1 else 0) -
      (if (if g.get_tileset.is_border_set_inner g.border_set_id then
          is_bottom_corner (g.border_at k) else is_top_corner (g.border_at k)) = true then
        (Int.tdiv x.size.ht 8 - 1) * g.grid_size.wd else 0)) = some x.xy := by
  unfold spec_corner_tile at h
  simp only at h
  split at h
  swap
  · cases h
  rename_i hc
  obtain ⟨xy, hxy, rfl⟩ := Option.map_eq_some'.1 h
  exact ⟨hc.1, hc.2.1, hc.2.2, rfl, rfl, rfl, hxy⟩

end AutoTiler

/-! ### Properties of the tiles of `generate_border_tiles` in the words of the specification -/

namespace AutoTiler

/-- C12. Size multiple invariant: for every input of at least one region and
every border set, the sequence returned by `generate_border_tiles`, for a
tiler as constructed, is the side tiles followed by the corner tiles. With `g`
the border map at the end of the classification, each side tile `x` is listed
with the grid index `k` of the cell at which its run is discovered (a pair
`(k, x)` is listed exactly when `x` is the tile that the specification
describes for the cell `k`, `spec_side_tile`), the cell `k` holds a side kind
(TOP, BOTTOM, LEFT or RIGHT), the tile has the pattern mapped to this kind,
and its dimension along the run of this kind (the height for LEFT and RIGHT,
the width for TOP and BOTTOM) is a multiple of 8 and, the size of the pattern
along the run being a multiple of 8 as the patterns of this domain are, a
multiple of that size. The other tiles are corner tiles. -/
theorem side_tile_size_multiple (t u : AutoTiler) (out : List (Option Tile × EntityIndex))
    (first : EntityIndex) (ht : t.tiles = []) (hne : t.entity_rectangles ≠ [])
    (hfirst : t.entity_indexes.head? = some first)
    (h : t.generate_border_tiles = some (u, out)) :
    ∃ (g : AutoTiler) (sides : List (Int × Tile)) (corners : List Tile),
      t.classify = some g ∧
      out.map Prod.fst = sides.map (fun p => some p.2) ++ corners.map some ∧
      (∀ k x, (k, x) ∈ sides ↔ g.spec_side_tile first.layer k = some x) ∧
      (∀ x ∈ corners, ∃ k, is_corner_border (g.border_at k) = true ∧
        g.spec_corner_tile first.layer k = some x) ∧
      ∀ p ∈ sides,
        is_side_border (g.border_at p.1) = true ∧
        p.2.pattern = t.pattern_of (g.border_at p.1) ∧
        8 ∣ along_run (g.border_at p.1) p.2.size ∧
        (8 ∣ along_run (g.border_at p.1) (t.get_tileset.pattern_frame_size p.2.pattern) →
          along_run (g.border_at p.1) (t.get_tileset.pattern_frame_size p.2.pattern) ∣
            along_run (g.border_at p.1) p.2.size) := by
  obtain ⟨g, s, hg, hsorted, -, -, ho⟩ := generate_tiles_spec t u out first ht hne hfirst h
  obtain ⟨a1, a2, a3⟩ := keyed_tiles g.border_keys (g.spec_side_tile first.layer)
  have hside : ∀ k x, g.spec_side_tile first.layer k = some x → k ∈ g.border_keys := by
    intro k x hx
    exact mem_keys_of_border_at g k (side_ne_none _ (spec_side_tile_some g _ k x hx).1)
  refine ⟨g, _, g.border_keys.filterMap (g.spec_corner_tile first.layer), hg,
    by rw [ho, a1], ?_, ?_, ?_⟩
  · intro k x
    rw [a3 k x]
    exact ⟨fun p => p.2, fun p => ⟨hside k x p, p⟩⟩
  · intro x hx
    obtain ⟨k, -, hk⟩ := List.mem_filterMap.1 hx
    exact ⟨k, (spec_corner_tile_some g _ k x hk).1, hk⟩
  · intro p hp
    obtain ⟨h1, -, -, hex, hpat, -, len, hdvd, hsz⟩ :=
      spec_side_tile_some g _ p.1 p.2 ((a3 p.1 p.2).1 hp).2
    obtain ⟨e1, e2⟩ := classify_pattern_of t g hg (g.border_at p.1)
    have hrec : g.recorded_size (g.border_at p.1) =
        t.get_tileset.pattern_frame_size p.2.pattern := by
      unfold recorded_size
      rw [if_pos hex, hpat, e2]
    rw [hrec] at hdvd
    rw [← hpat, e2] at hsz
    rw [hsz, along_run_tile_size _ _ _ h1]
    refine ⟨h1, hpat.trans e1, ⟨len, by ring⟩, ?_⟩
    rintro ⟨b, hb⟩
    rw [hb, tdiv_eight_mul] at hdvd
    obtain ⟨c, hc⟩ := hdvd
    exact ⟨c, by rw [hb, hc]; ring⟩

end AutoTiler

namespace AutoTiler

/-- C19. Output ordering: the sequence returned by `generate_border_tiles`
on at least one region, for a tiler as constructed, is the side tiles followed
by the corner tiles. With `g` the border map at the end of the classification,
the side tiles are listed with the grid index `k` of the cell at which their
run is discovered and the corner tiles with the grid index of their corner
cell: a pair `(k, x)` is listed exactly when `x` is the tile that the
specification describes for the cell `k` (`spec_side_tile`,
`spec_corner_tile`: pattern, position, size and layer), the cell of a side
tile holds a side kind and that of a corner tile a corner kind, and in both
lists the grid indexes are strictly ascending. -/
theorem output_ordering (t u : AutoTiler) (out : List (Option Tile × EntityIndex))
    (first : EntityIndex) (ht : t.tiles = []) (hne : t.entity_rectangles ≠ [])
    (hfirst : t.entity_indexes.head? = some first)
    (h : t.generate_border_tiles = some (u, out)) :
    ∃ (g : AutoTiler) (sides corners : List (Int × Tile)),
      t.classify = some g ∧
      out.map Prod.fst = sides.map (fun p => some p.2) ++ corners.map (fun p => some p.2) ∧
      (sides.map Prod.fst).Pairwise (· < ·) ∧ (corners.map Prod.fst).Pairwise (· < ·) ∧
      (∀ k x, (k, x) ∈ sides ↔ g.spec_side_tile first.layer k = some x) ∧
      (∀ k x, (k, x) ∈ corners ↔ g.spec_corner_tile first.layer k = some x) ∧
      (∀ p ∈ sides, is_side_border (g.border_at p.1) = true) ∧
      (∀ p ∈ corners, is_corner_border (g.border_at p.1) = true) := by
  obtain ⟨g, s, hg, hsorted, -, -, ho⟩ := generate_tiles_spec t u out first ht hne hfirst h
  obtain ⟨a1, a2, a3⟩ := keyed_tiles g.border_keys (g.spec_side_tile first.layer)
  obtain ⟨b1, b2, b3⟩ := keyed_tiles g.border_keys (g.spec_corner_tile first.layer)
  have hside : ∀ k x, g.spec_side_tile first.layer k = some x → k ∈ g.border_keys := by
    intro k x hx
    exact mem_keys_of_border_at g k (side_ne_none _ (spec_side_tile_some g _ k x hx).1)
  have hcorner : ∀ k x, g.spec_corner_tile first.layer k = some x → k ∈ g.border_keys := by
    intro k x hx
    exact mem_keys_of_border_at g k
      ((is_corner_iff _).1 (spec_corner_tile_some g _ k x hx).1).1
  refine ⟨g, _, _, hg, by rw [ho, a1, b1], hsorted.sublist a2, hsorted.sublist b2, ?_, ?_, ?_, ?_⟩
  · intro k x
    rw [a3 k x]
    exact ⟨fun p => p.2, fun p => ⟨hside k x p, p⟩⟩
  · intro k x
    rw [b3 k x]
    exact ⟨fun p => p.2, fun p => ⟨hcorner k x p, p⟩⟩
  · intro p hp
    exact (spec_side_tile_some g _ p.1 p.2 ((a3 p.1 p.2).1 hp).2).1
  · intro p hp
    exact (spec_corner_tile_some g _ p.1 p.2 ((b3 p.1 p.2).1 hp).2).1

end AutoTiler

namespace AutoTiler

/-- C22. Corner compensation of a side run. The sequence returned by
`generate_border_tiles`, for a tiler as constructed on at least one region,
begins with the side tiles that the specification describes
(`spec_side_tile`) for the keys of the border map `g` of the classification,
in ascending order, and the corner tiles follow. For a run discovered at the
cell `k` (a cell that holds a mapped side kind and whose previous cell along
the run holds a corner `c1`), of raw length `n`, followed by the kind `c2`:
the compensated length is `n - e1 - e2`, where `e1` and `e2` are `span - 1`
(`span` being the recorded size of the corner pattern along the run divided by
8) for a convex corner in inner mode and for a concave corner in outer mode,
and 0 for the other corners. A run whose compensated length is at most 0 gives
no tile; otherwise, the pattern existing, the tile is that of the rounded run
of the compensated length whose start is the translated start of the run
advanced by `e1` cells along the run. -/
theorem corner_compensation (t u : AutoTiler) (out : List (Option Tile × EntityIndex))
    (first : EntityIndex) (ht : t.tiles = []) (hne : t.entity_rectangles ≠ [])
    (hfirst : t.entity_indexes.head? = some first)
    (h : t.generate_border_tiles = some (u, out)) :
    ∃ (g : AutoTiler) (corners : List Tile),
      t.classify = some g ∧
      out.map Prod.fst =
        (g.border_keys.filterMap (g.spec_side_tile first.layer)).map some ++
          corners.map some ∧
      ∀ (k : Int) (kind c1 c2 : BorderKind) (step n e1 e2 : Int),
        kind = g.border_at k → step = g.run_step kind →
        is_side_border kind = true →
        g.get_tileset.has_border_set_pattern g.border_set_id kind = true →
        c1 = g.border_at (k - step) → is_corner_border c1 = true →
        n = g.spec_raw_run kind step (g.run_steps kind k + 1) k →
        c2 = g.border_at (k + n * step) →
        e1 = (if g.get_tileset.is_border_set_inner g.border_set_id then
            if is_convex_corner_border c1 then
              Int.tdiv (along_run kind (g.recorded_size c1)) 8 - 1
            else 0
          else
            if is_concave_corner_border c1 then
              Int.tdiv (along_run kind (g.recorded_size c1)) 8 - 1
            else 0) →
        e2 = (if g.get_tileset.is_border_set_inner g.border_set_id then
            if is_convex_corner_border c2 then
              Int.tdiv (along_run kind (g.recorded_size c2)) 8 - 1
            else 0
          else
            if is_concave_corner_border c2 then
              Int.tdiv (along_run kind (g.recorded_size c2)) 8 - 1
            else 0) →
        (n - e1 - e2 ≤ 0 → g.spec_side_tile first.layer k = none) ∧
        (0 < n - e1 - e2 → g.get_tileset.pattern_exists (g.pattern_of kind) = true →
          g.spec_side_tile first.layer k =
            (g.to_map_xy (g.spec_rounded_run kind c1
              (k - g.spec_pre_shift kind + e1 * step) (n - e1 - e2)).1).map fun xy =>
              (⟨g.pattern_of kind, xy,
                tile_size kind (g.get_tileset.pattern_frame_size (g.pattern_of kind))
                  (g.spec_rounded_run kind c1
                    (k - g.spec_pre_shift kind + e1 * step) (n - e1 - e2)).2,
                first.layer⟩ : Tile)) := by
  obtain ⟨g, s, hg, -, -, -, ho⟩ := generate_tiles_spec t u out first ht hne hfirst h
  refine ⟨g, g.border_keys.filterMap (g.spec_corner_tile first.layer), hg, ho, ?_⟩
  intro k kind c1 c2 step n e1 e2 hkind hstep hs hh hc1 hcc hn hc2 he1 he2
  subst hkind
  subst hstep
  subst hc1
  have e : g.spec_side_tile first.layer k = _ :=
    spec_side_tile_run g first.layer k n hs hh hcc hn.symm
  subst hc2
  have x1 : g.spec_corner_excess (g.border_at k)
      (g.border_at (k - g.run_step (g.border_at k))) = e1 := he1.symm
  have x2 : g.spec_corner_excess (g.border_at k)
      (g.border_at (k + n * g.run_step (g.border_at k))) = e2 := he2.symm
  rw [x1, x2] at e
  constructor
  · intro hle
    rw [e, if_neg (fun a => by omega)]
  · intro hpos hex
    rw [e, if_pos ⟨hpos, hex⟩]

end AutoTiler

namespace AutoTiler

/-- C23. Rounding of a side run, in both modes. The sequence returned by
`generate_border_tiles`, for a tiler as constructed on at least one region,
begins with the side tiles that the specification describes
(`spec_side_tile`) for the keys of the border map `g` of the classification,
in ascending order, and the corner tiles follow. For a run discovered at the
cell `k`, of compensated length `n'` and compensated start `start`, preceded
by the kind `c1`: when `n'` is positive and the pattern exists, the tile
begins at the first cell and has the length of the rounded run. With `b` the
recorded size of the side pattern along the run divided by 8, `b` positive:
when `b` divides `n'` the length and the start are unchanged; otherwise the
length is the least multiple of `b` greater than `n'`, and the first cell is
the start moved backward along the run by the added cells exactly when `c1` is
a concave corner, the start itself (the run is extended at its end)
otherwise. -/
theorem run_rounding (t u : AutoTiler) (out : List (Option Tile × EntityIndex))
    (first : EntityIndex) (ht : t.tiles = []) (hne : t.entity_rectangles ≠ [])
    (hfirst : t.entity_indexes.head? = some first)
    (h : t.generate_border_tiles = some (u, out)) :
    ∃ (g : AutoTiler) (corners : List Tile),
      t.classify = some g ∧
      out.map Prod.fst =
        (g.border_keys.filterMap (g.spec_side_tile first.layer)).map some ++
          corners.map some ∧
      ∀ (k : Int) (kind c1 c2 : BorderKind) (step n start n' b first_cell len : Int),
        kind = g.border_at k → step = g.run_step kind →
        is_side_border kind = true →
        g.get_tileset.has_border_set_pattern g.border_set_id kind = true →
        c1 = g.border_at (k - step) → is_corner_border c1 = true →
        n = g.spec_raw_run kind step (g.run_steps kind k + 1) k →
        c2 = g.border_at (k + n * step) →
        n' = n - g.spec_corner_excess kind c1 - g.spec_corner_excess kind c2 →
        start = k - g.spec_pre_shift kind + g.spec_corner_excess kind c1 * step →
        b = Int.tdiv (along_run kind (g.recorded_size kind)) 8 →
        first_cell = (g.spec_rounded_run kind c1 start n').1 →
        len = (g.spec_rounded_run kind c1 start n').2 →
        0 < n' → g.get_tileset.pattern_exists (g.pattern_of kind) = true →
        g.spec_side_tile first.layer k =
          ((g.to_map_xy first_cell).map fun xy =>
            (⟨g.pattern_of kind, xy,
              tile_size kind (g.get_tileset.pattern_frame_size (g.pattern_of kind)) len,
              first.layer⟩ : Tile)) ∧
        (0 < b →
          (b ∣ n' → len = n' ∧ first_cell = start) ∧
          (¬ b ∣ n' →
            b ∣ len ∧ n' < len ∧ (∀ m : Int, b ∣ m → n' < m → len ≤ m) ∧
            first_cell =
              if is_concave_corner_border c1 = true then start - (len - n') * step
              else start)) := by
  obtain ⟨g, s, hg, -, -, -, ho⟩ := generate_tiles_spec t u out first ht hne hfirst h
  refine ⟨g, g.border_keys.filterMap (g.spec_corner_tile first.layer), hg, ho, ?_⟩
  intro k kind c1 c2 step n start n' b first_cell len hkind hstep hs hh hc1 hcc hn hc2 hn'
    hstart hb hfc hlen hpos hex
  subst hkind
  subst hstep
  subst hc1
  have e : g.spec_side_tile first.layer k = _ :=
    spec_side_tile_run g first.layer k n hs hh hcc hn.symm
  subst hc2
  rw [← hn', ← hstart, if_pos ⟨hpos, hex⟩, ← hfc, ← hlen] at e
  refine ⟨e, ?_⟩
  intro hbpos
  rw [hb] at hbpos
  obtain ⟨r1, r2⟩ := spec_rounded_run_least g (g.border_at k)
    (g.border_at (k - g.run_step (g.border_at k))) start n' hbpos hpos
  rw [← hb, ← hfc, ← hlen] at r2
  rw [← hb] at r1
  refine ⟨fun hd => ?_, r2⟩
  have := r1 hd
  rw [hfc, hlen, this]
  exact ⟨rfl, rfl⟩

end AutoTiler

namespace AutoTiler

/-- C24, amended. The translation of a side run because of the thickness of
its pattern depends on the mode. The sequence returned by
`generate_border_tiles`, for a tiler as constructed on at least one region,
begins with the side tiles that the specification describes
(`spec_side_tile`) for the keys of the border map `g` of the classification,
in ascending order, and the corner tiles follow. For a run discovered at the
cell `k`, the run that gives the tile starts at `k - pre`, advanced by the
cells removed for the corner before the run, where `pre` is: with an inner
border set, `width / 8 - 1` cells for a RIGHT run (to the left),
`height / 8 - 1` rows for a BOTTOM run (to the top) and 0 for a LEFT or TOP
run; with an outer border set, `width / 8 - 1` cells for a LEFT run,
`height / 8 - 1` rows for a TOP run and 0 for a RIGHT or BOTTOM run; `width`
and `height` are the recorded size of the side pattern. -/
theorem side_pre_shift (t u : AutoTiler) (out : List (Option Tile × EntityIndex))
    (first : EntityIndex) (ht : t.tiles = []) (hne : t.entity_rectangles ≠ [])
    (hfirst : t.entity_indexes.head? = some first)
    (h : t.generate_border_tiles = some (u, out)) :
    ∃ (g : AutoTiler) (corners : List Tile),
      t.classify = some g ∧
      g.get_tileset.is_border_set_inner g.border_set_id =
        t.get_tileset.is_border_set_inner t.border_set_id ∧
      out.map Prod.fst =
        (g.border_keys.filterMap (g.spec_side_tile first.layer)).map some ++
          corners.map some ∧
      ∀ (k : Int) (kind c1 c2 : BorderKind) (step n n' pre : Int),
        kind = g.border_at k → step = g.run_step kind →
        is_side_border kind = true →
        g.get_tileset.has_border_set_pattern g.border_set_id kind = true →
        c1 = g.border_at (k - step) → is_corner_border c1 = true →
        n = g.spec_raw_run kind step (g.run_steps kind k + 1) k →
        c2 = g.border_at (k + n * step) →
        n' = n - g.spec_corner_excess kind c1 - g.spec_corner_excess kind c2 →
        pre = (if g.get_tileset.is_border_set_inner g.border_set_id then
            if kind = BorderKind.RIGHT then Int.tdiv (g.recorded_size kind).wd 8 - 1
            else if kind = BorderKind.BOTTOM then
              (Int.tdiv (g.recorded_size kind).ht 8 - 1) * g.grid_size.wd
            else 0
          else
            if kind = BorderKind.LEFT then Int.tdiv (g.recorded_size kind).wd 8 - 1
            else if kind = BorderKind.TOP then
              (Int.tdiv (g.recorded_size kind).ht 8 - 1) * g.grid_size.wd
            else 0) →
        0 < n' → g.get_tileset.pattern_exists (g.pattern_of kind) = true →
        g.spec_side_tile first.layer k =
          (g.to_map_xy (g.spec_rounded_run kind c1
            (k - pre + g.spec_corner_excess kind c1 * step) n').1).map fun xy =>
            (⟨g.pattern_of kind, xy,
              tile_size kind (g.get_tileset.pattern_frame_size (g.pattern_of kind))
                (g.spec_rounded_run kind c1
                  (k - pre + g.spec_corner_excess kind c1 * step) n').2,
              first.layer⟩ : Tile) := by
  obtain ⟨g, s, hg, -, -, -, ho⟩ := generate_tiles_spec t u out first ht hne hfirst h
  have hinner : g.get_tileset.is_border_set_inner g.border_set_id =
      t.get_tileset.is_border_set_inner t.border_set_id := by
    rw [(classify_pattern_of t g hg BorderKind.NONE).2, (classify_frame t g hg).2.2.2.2.1]
  refine ⟨g, g.border_keys.filterMap (g.spec_corner_tile first.layer), hg, hinner, ho, ?_⟩
  intro k kind c1 c2 step n n' pre hkind hstep hs hh hc1 hcc hn hc2 hn' hpre hpos hex
  subst hkind
  subst hstep
  subst hc1
  have e : g.spec_side_tile first.layer k = _ :=
    spec_side_tile_run g first.layer k n hs hh hcc hn.symm
  subst hc2
  have x1 : g.spec_pre_shift (g.border_at k) = pre := hpre.symm
  rw [← hn', x1, if_pos ⟨hpos, hex⟩] at e
  exact e

end AutoTiler

namespace AutoTiler

/-- C25. Corner emission. The sequence returned by `generate_border_tiles`,
for a tiler as constructed on at least one region, is the side tiles followed
by the corner tiles. With `g` the border map at the end of the classification
and `s` the state after the side loop: the cells that held a corner kind
still hold it and every other cell holds `NONE`; the corner tiles are, in
ascending order of the keys, the tiles that the specification describes for
the keys (`spec_corner_tile`). Every key that holds a corner kind whose
pattern is mapped and exists gives exactly one tile, and no other cell gives
one; the tile has the pattern mapped to the kind, the size of the pattern and
the layer of the first entity, and it is placed at the cell of the corner
translated to the left by `width / 8 - 1` cells (right-side corners in inner
mode, left-side corners in outer mode) and to the top by `height / 8 - 1` rows
(bottom-side corners in inner mode, top-side corners in outer mode). -/
theorem corner_emission (t u : AutoTiler) (out : List (Option Tile × EntityIndex))
    (first : EntityIndex) (ht : t.tiles = []) (hne : t.entity_rectangles ≠ [])
    (hfirst : t.entity_indexes.head? = some first)
    (h : t.generate_border_tiles = some (u, out)) :
    ∃ (g s : AutoTiler),
      t.classify = some g ∧ g.side_pass = some s ∧
      g.get_tileset.is_border_set_inner g.border_set_id =
        t.get_tileset.is_border_set_inner t.border_set_id ∧
      (∀ c, s.border_at c =
        if is_corner_border (g.border_at c) = true then g.border_at c else BorderKind.NONE) ∧
      g.border_keys.Pairwise (· < ·) ∧
      out.map Prod.fst =
        (g.border_keys.filterMap (g.spec_side_tile first.layer)).map some ++
          (g.border_keys.filterMap (g.spec_corner_tile first.layer)).map some ∧
      (∀ k, is_corner_border (g.border_at k) = true →
        g.get_tileset.has_border_set_pattern g.border_set_id (g.border_at k) = true →
        g.get_tileset.pattern_exists (g.pattern_of (g.border_at k)) = true →
        k ∈ g.border_keys ∧ ∃ x, g.spec_corner_tile first.layer k = some x) ∧
      (∀ k x, g.spec_corner_tile first.layer k = some x →
        is_corner_border (g.border_at k) = true ∧
        g.get_tileset.has_border_set_pattern g.border_set_id (g.border_at k) = true ∧
        g.get_tileset.pattern_exists (g.pattern_of (g.border_at k)) = true ∧
        x.pattern = g.pattern_of (g.border_at k) ∧ x.layer = first.layer ∧
        x.size = g.get_tileset.pattern_frame_size x.pattern ∧
        g.to_map_xy (k -
          (if (if g.get_tileset.is_border_set_inner g.border_set_id then
              is_right_corner (g.border_at k) else is_left_corner (g.border_at k)) = true then
            Int.tdiv x.size.wd 8 - 1 else 0) -
          (if (if g.get_tileset.is_border_set_inner g.border_set_id then
              is_bottom_corner (g.border_at k) else is_top_corner (g.border_at k)) = true then
            (Int.tdiv x.size.ht 8 - 1) * g.grid_size.wd else 0)) = some x.xy) := by
  obtain ⟨g, s, hg, hsorted, hs, hb, ho⟩ := generate_tiles_spec t u out first ht hne hfirst h
  have hinner : g.get_tileset.is_border_set_inner g.border_set_id =
      t.get_tileset.is_border_set_inner t.border_set_id := by
    rw [(classify_pattern_of t g hg BorderKind.NONE).2, (classify_frame t g hg).2.2.2.2.1]
  refine ⟨g, s, hg, hs, hinner, hb, hsorted, ho, ?_, ?_⟩
  · intro k hc hh hex
    have hkey : k ∈ g.border_keys :=
      mem_keys_of_border_at g k ((is_corner_iff _).1 hc).1
    refine ⟨hkey, ?_⟩
    have hgw : g.grid_size.wd ≠ 0 := side_pass_grid g s hs (List.ne_nil_of_mem hkey)
    unfold spec_corner_tile
    simp only
    rw [if_pos ⟨hc, hh, hex⟩]
    unfold to_map_xy
    rw [if_neg hgw]
    exact ⟨_, rfl⟩
  · intro k x hx
    exact spec_corner_tile_some g first.layer k x hx

end AutoTiler

namespace AutoTiler

/-- C19, instance: one region (0, 0, 16, 16) in outer mode with 8x8
patterns. -/
theorem output_ordering_witness :
    (tiler_of (tileset_8x8 false) [QRect.ofXYWH 0 0 16 16]).emitted =
      some [some ⟨"p", ⟨0, -8⟩, ⟨16, 8⟩, 0⟩, some ⟨"p", ⟨-8, 0⟩, ⟨8, 16⟩, 0⟩,
        some ⟨"p", ⟨16, 0⟩, ⟨8, 16⟩, 0⟩, some ⟨"p", ⟨0, 16⟩, ⟨16, 8⟩, 0⟩,
        some ⟨"p", ⟨-8, -8⟩, ⟨8, 8⟩, 0⟩, some ⟨"p", ⟨16, -8⟩, ⟨8, 8⟩, 0⟩,
        some ⟨"p", ⟨-8, 16⟩, ⟨8, 8⟩, 0⟩, some ⟨"p", ⟨16, 16⟩, ⟨8, 8⟩, 0⟩] ∧
    ∃ (g : AutoTiler) (sides corners : List (Int × Tile)),
      (tiler_of (tileset_8x8 false) [QRect.ofXYWH 0 0 16 16]).classify = some g ∧
      (tiler_of (tileset_8x8 false) [QRect.ofXYWH 0 0 16 16]).generated.map Prod.fst =
        sides.map (fun p => some p.2) ++ corners.map (fun p => some p.2) ∧
      (sides.map Prod.fst).Pairwise (· < ·) ∧ (corners.map Prod.fst).Pairwise (· < ·) ∧
      (∀ k x, (k, x) ∈ sides ↔ g.spec_side_tile 0 k = some x) ∧
      (∀ k x, (k, x) ∈ corners ↔ g.spec_corner_tile 0 k = some x) :=
  ⟨by decide!, by
    obtain ⟨g, sides, corners, h1, h2, h3, h4, h5, h6, -⟩ :=
      output_ordering (tiler_of (tileset_8x8 false) [QRect.ofXYWH 0 0 16 16]) _ _ ⟨0, 0⟩ rfl
        (by decide) rfl (generate_border_tiles_get _ (by decide!))
    exact ⟨g, sides, corners, h1, h2, h3, h4, h5, h6⟩⟩

/-- C12, instance: one region (0, 0, 24, 8) in outer mode, the pattern of TOP
being 16x8: the TOP run of 3 cells gives a tile 32 pixels wide. -/
theorem side_tile_size_multiple_witness :
    (tiler_of (tileset_wide_top false) [QRect.ofXYWH 0 0 24 8]).emitted =
      some [some ⟨"top", ⟨0, -8⟩, ⟨32, 8⟩, 0⟩, some ⟨"p", ⟨0, 8⟩, ⟨24, 8⟩, 0⟩,
        some ⟨"p", ⟨-8, -8⟩, ⟨8, 8⟩, 0⟩, some ⟨"p", ⟨24, -8⟩, ⟨8, 8⟩, 0⟩,
        some ⟨"p", ⟨-8, 8⟩, ⟨8, 8⟩, 0⟩, some ⟨"p", ⟨24, 8⟩, ⟨8, 8⟩, 0⟩] ∧
    ∃ (g : AutoTiler) (sides : List (Int × Tile)) (corners : List Tile),
      (tiler_of (tileset_wide_top false) [QRect.ofXYWH 0 0 24 8]).classify = some g ∧
      (tiler_of (tileset_wide_top false) [QRect.ofXYWH 0 0 24 8]).generated.map Prod.fst =
        sides.map (fun p => some p.2) ++ corners.map some ∧
      (∀ k x, (k, x) ∈ sides ↔ g.spec_side_tile 0 k = some x) ∧
      ∀ p ∈ sides,
        is_side_border (g.border_at p.1) = true ∧
        8 ∣ along_run (g.border_at p.1) p.2.size ∧
        (8 ∣ along_run (g.border_at p.1)
            ((tiler_of (tileset_wide_top false)
              [QRect.ofXYWH 0 0 24 8]).get_tileset.pattern_frame_size p.2.pattern) →
          along_run (g.border_at p.1)
            ((tiler_of (tileset_wide_top false)
              [QRect.ofXYWH 0 0 24 8]).get_tileset.pattern_frame_size p.2.pattern) ∣
            along_run (g.border_at p.1) p.2.size) :=
  ⟨by decide!, by
    obtain ⟨g, sides, corners, h1, h2, h3, -, h5⟩ :=
      side_tile_size_multiple (tiler_of (tileset_wide_top false) [QRect.ofXYWH 0 0 24 8]) _ _
        ⟨0, 0⟩ rfl (by decide) rfl (generate_border_tiles_get _ (by decide!))
    exact ⟨g, sides, corners, h1, h2, h3, fun p hp => ⟨(h5 p hp).1, (h5 p hp).2.2⟩⟩⟩

/-- C22, instance: one region (0, 0, 48, 48) in inner mode with 16x16
patterns. The TOP run has 4 cells between two convex corners two cells wide:
one cell is removed at each end and the tile, 2 cells long, starts one cell
after the first cell of the run. -/
theorem corner_compensation_witness :
    (tiler_of (tileset_16x16 true) [QRect.ofXYWH 0 0 48 48]).emitted =
      some [some ⟨"top", ⟨16, 0⟩, ⟨16, 16⟩, 0⟩, some ⟨"left", ⟨0, 16⟩, ⟨16, 16⟩, 0⟩,
        some ⟨"right", ⟨32, 16⟩, ⟨16, 16⟩, 0⟩, some ⟨"bottom", ⟨16, 32⟩, ⟨16, 16⟩, 0⟩,
        some ⟨"corner", ⟨0, 0⟩, ⟨16, 16⟩, 0⟩, some ⟨"corner", ⟨32, 0⟩, ⟨16, 16⟩, 0⟩,
        some ⟨"corner", ⟨0, 32⟩, ⟨16, 16⟩, 0⟩, some ⟨"corner", ⟨32, 32⟩, ⟨16, 16⟩, 0⟩] ∧
    ((tiler_of (tileset_16x16 true) [QRect.ofXYWH 0 0 48 48]).classify.map fun g =>
      (g.border_at 22, g.border_at 23,
        g.spec_raw_run BorderKind.TOP 1 (g.run_steps BorderKind.TOP 23 + 1) 23, g.border_at 27)) =
      some (BorderKind.TOP_LEFT_CONVEX, BorderKind.TOP, 4, BorderKind.TOP_RIGHT_CONVEX) ∧
    ((tiler_of (tileset_16x16 true) [QRect.ofXYWH 0 0 48 48]).classify.map fun g =>
      (g.spec_corner_excess BorderKind.TOP BorderKind.TOP_LEFT_CONVEX,
        g.spec_corner_excess BorderKind.TOP BorderKind.TOP_RIGHT_CONVEX,
        g.spec_side_tile 0 23)) =
      some (1, 1, some ⟨"top", ⟨16, 0⟩, ⟨16, 16⟩, 0⟩) ∧
    ∃ (g : AutoTiler) (corners : List Tile),
      (tiler_of (tileset_16x16 true) [QRect.ofXYWH 0 0 48 48]).classify = some g ∧
      (tiler_of (tileset_16x16 true) [QRect.ofXYWH 0 0 48 48]).generated.map Prod.fst =
        (g.border_keys.filterMap (g.spec_side_tile 0)).map some ++ corners.map some :=
  ⟨by decide!, by decide!, by decide!, by
    obtain ⟨g, corners, h1, h2, -⟩ :=
      corner_compensation (tiler_of (tileset_16x16 true) [QRect.ofXYWH 0 0 48 48]) _ _ ⟨0, 0⟩
        rfl (by decide) rfl (generate_border_tiles_get _ (by decide!))
    exact ⟨g, corners, h1, h2⟩⟩

/-- C23, instance: one region (0, 0, 56, 48) in inner mode with 16x16
patterns. The TOP run has 5 cells; its compensated length, 3 cells, is not a
multiple of 2 and is rounded to 4 cells; the corner before the run is convex,
so the tile keeps its start and is extended at its end. -/
theorem run_rounding_witness :
    (tiler_of (tileset_16x16 true) [QRect.ofXYWH 0 0 56 48]).emitted =
      some [some ⟨"top", ⟨16, 0⟩, ⟨32, 16⟩, 0⟩, some ⟨"left", ⟨0, 16⟩, ⟨16, 16⟩, 0⟩,
        some ⟨"right", ⟨40, 16⟩, ⟨16, 16⟩, 0⟩, some ⟨"bottom", ⟨16, 32⟩, ⟨32, 16⟩, 0⟩,
        some ⟨"corner", ⟨0, 0⟩, ⟨16, 16⟩, 0⟩, some ⟨"corner", ⟨40, 0⟩, ⟨16, 16⟩, 0⟩,
        some ⟨"corner", ⟨0, 32⟩, ⟨16, 16⟩, 0⟩, some ⟨"corner", ⟨40, 32⟩, ⟨16, 16⟩, 0⟩] ∧
    ((tiler_of (tileset_16x16 true) [QRect.ofXYWH 0 0 56 48]).classify.map fun g =>
      (g.border_at 25, g.spec_raw_run BorderKind.TOP 1 (g.run_steps BorderKind.TOP 25 + 1) 25,
        g.spec_rounded_run BorderKind.TOP BorderKind.TOP_LEFT_CONVEX 26 3,
        g.spec_side_tile 0 25)) =
      some (BorderKind.TOP, 5, (26, 4), some ⟨"top", ⟨16, 0⟩, ⟨32, 16⟩, 0⟩) ∧
    ∃ (g : AutoTiler) (corners : List Tile),
      (tiler_of (tileset_16x16 true) [QRect.ofXYWH 0 0 56 48]).classify = some g ∧
      (tiler_of (tileset_16x16 true) [QRect.ofXYWH 0 0 56 48]).generated.map Prod.fst =
        (g.border_keys.filterMap (g.spec_side_tile 0)).map some ++ corners.map some :=
  ⟨by decide!, by decide!, by
    obtain ⟨g, corners, h1, h2, -⟩ :=
      run_rounding (tiler_of (tileset_16x16 true) [QRect.ofXYWH 0 0 56 48]) _ _ ⟨0, 0⟩
        rfl (by decide) rfl (generate_border_tiles_get _ (by decide!))
    exact ⟨g, corners, h1, h2⟩⟩

/-- C24, instance: one region (0, 0, 32, 32) in outer mode with 16x16
patterns. The LEFT run discovered at the cell 17 is translated by one cell to
the left and the RIGHT run discovered at the cell 22 is not translated. -/
theorem side_pre_shift_witness :
    ((tiler_of (tileset_16x16 false) [QRect.ofXYWH 0 0 32 32]).classify.map fun g =>
      (g.border_at 17, g.spec_pre_shift BorderKind.LEFT, g.to_map_xy 17,
        g.spec_side_tile 0 17)) =
      some (BorderKind.LEFT, 1, some ⟨-8, 0⟩, some ⟨"left", ⟨-16, 0⟩, ⟨16, 32⟩, 0⟩) ∧
    ((tiler_of (tileset_16x16 false) [QRect.ofXYWH 0 0 32 32]).classify.map fun g =>
      (g.border_at 22, g.spec_pre_shift BorderKind.RIGHT, g.to_map_xy 22,
        g.spec_side_tile 0 22)) =
      some (BorderKind.RIGHT, 0, some ⟨32, 0⟩, some ⟨"right", ⟨32, 0⟩, ⟨16, 32⟩, 0⟩) ∧
    ∃ (g : AutoTiler) (corners : List Tile),
      (tiler_of (tileset_16x16 false) [QRect.ofXYWH 0 0 32 32]).classify = some g ∧
      g.get_tileset.is_border_set_inner g.border_set_id = false ∧
      (tiler_of (tileset_16x16 false) [QRect.ofXYWH 0 0 32 32]).generated.map Prod.fst =
        (g.border_keys.filterMap (g.spec_side_tile 0)).map some ++ corners.map some :=
  ⟨by decide!, by decide!, by
    obtain ⟨g, corners, h1, h2, h3, -⟩ :=
      side_pre_shift (tiler_of (tileset_16x16 false) [QRect.ofXYWH 0 0 32 32]) _ _ ⟨0, 0⟩
        rfl (by decide) rfl (generate_border_tiles_get _ (by decide!))
    exact ⟨g, corners, h1, h2, h3⟩⟩

/-- C25, instance: one region (0, 0, 48, 48) in inner mode with 16x16
patterns. The right-side corners are translated by one cell to the left and
the bottom-side corners by one row to the top. -/
theorem corner_emission_witness :
    ((tiler_of (tileset_16x16 true) [QRect.ofXYWH 0 0 48 48]).classify.map fun g =>
      (g.border_at 77, g.to_map_xy 77, g.spec_corner_tile 0 77,
        g.border_keys.filterMap (g.spec_corner_tile 0))) =
      some (BorderKind.BOTTOM_RIGHT_CONVEX, some ⟨40, 40⟩,
        some ⟨"corner", ⟨32, 32⟩, ⟨16, 16⟩, 0⟩,
        [⟨"corner", ⟨0, 0⟩, ⟨16, 16⟩, 0⟩, ⟨"corner", ⟨32, 0⟩, ⟨16, 16⟩, 0⟩,
          ⟨"corner", ⟨0, 32⟩, ⟨16, 16⟩, 0⟩, ⟨"corner", ⟨32, 32⟩, ⟨16, 16⟩, 0⟩]) ∧
    ∃ (g s : AutoTiler),
      (tiler_of (tileset_16x16 true) [QRect.ofXYWH 0 0 48 48]).classify = some g ∧
      g.side_pass = some s ∧
      (∀ c, s.border_at c =
        if is_corner_border (g.border_at c) = true then g.border_at c else BorderKind.NONE) ∧
      (tiler_of (tileset_16x16 true) [QRect.ofXYWH 0 0 48 48]).generated.map Prod.fst =
        (g.border_keys.filterMap (g.spec_side_tile 0)).map some ++
          (g.border_keys.filterMap (g.spec_corner_tile 0)).map some :=
  ⟨by decide!, by
    obtain ⟨g, s, h1, h2, -, h4, -, h6, -⟩ :=
      corner_emission (tiler_of (tileset_16x16 true) [QRect.ofXYWH 0 0 48 48]) _ _ ⟨0, 0⟩
        rfl (by decide) rfl (generate_border_tiles_get _ (by decide!))
    exact ⟨g, s, h1, h2, h4, h6⟩⟩

end AutoTiler

end SolarusEditor
